import Mathlib

/-! Deconvolution: a shallow embedding of `dft.cpp` and `main.cpp`

Conventions of the embedding.

* `double` is an arbitrary linearly ordered field `R` (exact arithmetic); witnesses use `ℚ`.
  A quotient with a zero denominator is an IEEE special value in the source; no theorem below
  relies on the value the model gives to such a quotient.
* `int` is `ℤ`; the C++ remainder `%` is `Int.tmod` (truncation towards zero).  Arithmetic
  overflow of `int` is outside the model.
* A heap array is a `List`; a read or write through a pointer is bounds-checked and the whole
  computation yields `none` (a fault: undefined behaviour in the source) when an index is out of
  range or a null pointer is dereferenced.
* A function returning `IMAGE *` yields `Option (Option (IMAGE R))`: the outer `none` is a
  fault, `some none` is the null pointer (the failure value) and `some (some img)` an image.
* Output printed with `printf` is not modelled.
* The entry points are embedded a second time on an explicit heap (`Heap`): the `IMAGE` records
  and the pixel maps are heap objects addressed by their index, `new` appends an object, and
  each function threads the heap.  The frame properties (which objects a call leaves as they
  were) are stated on that embedding; the values computed are stated on the first one.
-/

namespace Deconvolution

/-! ## Memory and control primitives -/

/-- Read `a[i]` through a pointer; `none` when `i` is outside the array. -/
def load {α : Type} (a : List α) (i : Int) : Option α :=
  if i < 0 then none else a[i.toNat]?

/-- Write `a[i] = v` through a pointer; `none` when `i` is outside the array. -/
def store {α : Type} (a : List α) (i : Int) (v : α) : Option (List α) :=
  if 0 ≤ i ∧ i.toNat < a.length then some (a.set i.toNat v) else none

/-- The loop `for (i = 0; i < n; i++) body`, threading the state `s` and stopping on a fault. -/
def forLoop {σ : Type} (n : Nat) (body : Nat → σ → Option σ) (s : σ) : Option σ :=
  (List.range n).foldlM (fun st i => body i st) s

/-- The value that a 32-bit `int` holds for the mathematical value `z`: `z` reduced to the range
`[-2^31, 2^31)`.  It is applied where a product can leave that range (`step *= 2` in
`fourier_transform`, `N*M` in `deconv`). -/
def wrap_int (z : Int) : Int := (z + 2147483648) % 4294967296 - 2147483648

/-! ## Complex numbers (`dft.h`) -/

/-- The type `comp` of `dft.h` (`complex<double>`), over the field `R` standing for `double`. -/
@[ext] structure comp (R : Type) where
  re : R
  im : R
deriving DecidableEq, Repr

namespace comp

variable {R : Type} [LinearOrderedField R]

instance : Zero (comp R) := ⟨⟨0, 0⟩⟩
instance : One (comp R) := ⟨⟨1, 0⟩⟩
instance : Add (comp R) := ⟨fun z w => ⟨z.re + w.re, z.im + w.im⟩⟩
instance : Neg (comp R) := ⟨fun z => ⟨-z.re, -z.im⟩⟩
instance : Sub (comp R) := ⟨fun z w => ⟨z.re - w.re, z.im - w.im⟩⟩
instance : Mul (comp R) := ⟨fun z w => ⟨z.re * w.re - z.im * w.im, z.re * w.im + z.im * w.re⟩⟩
instance : Inv (comp R) :=
  ⟨fun w => ⟨w.re / (w.re * w.re + w.im * w.im), -w.im / (w.re * w.re + w.im * w.im)⟩⟩
/-- Complex quotient `z / w`, as `operator/` of `std::complex` computes it in exact arithmetic. -/
instance : Div (comp R) :=
  ⟨fun z w => ⟨(z.re * w.re + z.im * w.im) / (w.re * w.re + w.im * w.im),
               (z.im * w.re - z.re * w.im) / (w.re * w.re + w.im * w.im)⟩⟩

/-- Source `conj`. -/
def conj (z : comp R) : comp R := ⟨z.re, -z.im⟩

/-- Quotient of a complex number by a `double`: `array[i] / (double)size`. -/
def div_scalar (z : comp R) (s : R) : comp R := ⟨z.re / s, z.im / s⟩

/-- The complex numbers over `R` are a commutative ring. -/
instance : CommRing (comp R) where
  add_assoc a b c := comp.ext (add_assoc a.re b.re c.re) (add_assoc a.im b.im c.im)
  zero_add a := comp.ext (zero_add a.re) (zero_add a.im)
  add_zero a := comp.ext (add_zero a.re) (add_zero a.im)
  add_comm a b := comp.ext (add_comm a.re b.re) (add_comm a.im b.im)
  neg_add_cancel a := comp.ext (neg_add_cancel a.re) (neg_add_cancel a.im)
  sub_eq_add_neg a b := comp.ext (sub_eq_add_neg a.re b.re) (sub_eq_add_neg a.im b.im)
  nsmul := nsmulRec
  zsmul := zsmulRec
  mul_assoc a b c := comp.ext
    (show (a.re * b.re - a.im * b.im) * c.re - (a.re * b.im + a.im * b.re) * c.im =
      a.re * (b.re * c.re - b.im * c.im) - a.im * (b.re * c.im + b.im * c.re) by ring)
    (show (a.re * b.re - a.im * b.im) * c.im + (a.re * b.im + a.im * b.re) * c.re =
      a.re * (b.re * c.im + b.im * c.re) + a.im * (b.re * c.re - b.im * c.im) by ring)
  one_mul a := comp.ext (show 1 * a.re - 0 * a.im = a.re by ring)
    (show 1 * a.im + 0 * a.re = a.im by ring)
  mul_one a := comp.ext (show a.re * 1 - a.im * 0 = a.re by ring)
    (show a.re * 0 + a.im * 1 = a.im by ring)
  left_distrib a b c := comp.ext
    (show a.re * (b.re + c.re) - a.im * (b.im + c.im) =
      a.re * b.re - a.im * b.im + (a.re * c.re - a.im * c.im) by ring)
    (show a.re * (b.im + c.im) + a.im * (b.re + c.re) =
      a.re * b.im + a.im * b.re + (a.re * c.im + a.im * c.re) by ring)
  right_distrib a b c := comp.ext
    (show (a.re + b.re) * c.re - (a.im + b.im) * c.im =
      a.re * c.re - a.im * c.im + (b.re * c.re - b.im * c.im) by ring)
    (show (a.re + b.re) * c.im + (a.im + b.im) * c.re =
      a.re * c.im + a.im * c.re + (b.re * c.im + b.im * c.re) by ring)
  zero_mul a := comp.ext (show 0 * a.re - 0 * a.im = 0 by ring)
    (show 0 * a.im + 0 * a.re = 0 by ring)
  mul_zero a := comp.ext (show a.re * 0 - a.im * 0 = 0 by ring)
    (show a.re * 0 + a.im * 0 = 0 by ring)
  mul_comm a b := comp.ext
    (show a.re * b.re - a.im * b.im = b.re * a.re - b.im * a.im by ring)
    (show a.re * b.im + a.im * b.re = b.re * a.im + b.im * a.re by ring)

/-- The complex numbers over an ordered field are a field: `re^2 + im^2` vanishes only at 0. -/
instance : Field (comp R) where
  exists_pair_ne := ⟨0, 1, fun h => zero_ne_one (congrArg comp.re h)⟩
  inv_zero := comp.ext (show (0 : R) / (0 * 0 + 0 * 0) = 0 by simp)
    (show -(0 : R) / (0 * 0 + 0 * 0) = 0 by simp)
  mul_inv_cancel a ha := by
    have hp : a.re * a.re + a.im * a.im ≠ 0 := by
      intro h
      have h1 := mul_self_nonneg a.re
      have h2 := mul_self_nonneg a.im
      have e1 : a.re * a.re = 0 := by linarith
      have e2 : a.im * a.im = 0 := by linarith
      exact ha (comp.ext (mul_self_eq_zero.mp e1) (mul_self_eq_zero.mp e2))
    refine comp.ext ?_ ?_
    · show a.re * (a.re / (a.re * a.re + a.im * a.im)) -
        a.im * (-a.im / (a.re * a.re + a.im * a.im)) = 1
      field_simp
    · show a.re * (-a.im / (a.re * a.re + a.im * a.im)) +
        a.im * (a.re / (a.re * a.re + a.im * a.im)) = 0
      field_simp
      ring
  div_eq_mul_inv a b := comp.ext
    (show (a.re * b.re + a.im * b.im) / (b.re * b.re + b.im * b.im) =
      a.re * (b.re / (b.re * b.re + b.im * b.im)) -
        a.im * (-b.im / (b.re * b.re + b.im * b.im)) by ring)
    (show (a.im * b.re - a.re * b.im) / (b.re * b.re + b.im * b.im) =
      a.re * (-b.im / (b.re * b.re + b.im * b.im)) +
        a.im * (b.re / (b.re * b.re + b.im * b.im)) by ring)
  nnqsmul := _
  nnqsmul_def := fun _ _ => rfl
  qsmul := _
  qsmul_def := fun _ _ => rfl

end comp

/-! ## Fast Fourier transform (`dft.cpp`) -/

section dft

variable {R : Type} [LinearOrderedField R]

/-- Source `butterfly`: the pair `(x, y)` becomes `(x + y*w, x - y*w)`. -/
def butterfly (x y w : comp R) : comp R × comp R :=
  let p := x
  let q := y * w
  (p + q, p - q)

/-- Source `mass_butterfly` on the block that starts at `array + off`; the loop state is the
array together with `power`. -/
def mass_butterfly (array : List (comp R)) (off : Int) (size : Int) (w : comp R) :
    Option (List (comp R)) := do
  let n := Int.tdiv size 2
  let st ← forLoop n.toNat (fun i (st : List (comp R) × comp R) => do
    let x ← load st.1 (off + i)
    let y ← load st.1 (off + i + n)
    let xy := butterfly x y st.2
    let arr ← store st.1 (off + i) xy.1
    let arr ← store arr (off + i + n) xy.2
    pure (arr, st.2 * w)) (array, 1)
  pure st.1

/-- The loop of `backwards` with `n` passes left: it stops as soon as `x` is `0`.  The values are
`unsigned int`, so the left shift is reduced modulo `2^32` and `~bit` is `2^32 - 1 - bit`. -/
def backwards_loop : Nat → Nat → Nat → Nat → Nat → Nat
  | 0, _, result, _, _ => result
  | n + 1, x, result, bit, reverse =>
    if x = 0 then result
    else if x &&& bit ≠ 0 then
      backwards_loop n (x &&& (2 ^ 32 - 1 - bit)) (result ||| reverse)
        ((bit <<< 1) % 2 ^ 32) (reverse >>> 1)
    else
      backwards_loop n x result ((bit <<< 1) % 2 ^ 32) (reverse >>> 1)

/-- Source `backwards`.  The shift count `length - 1` is negative only for `length = 0`, where
the loop body never runs and `reverse` is not used; the model then shifts by zero. -/
def backwards (x : Nat) (length : Int) : Nat :=
  backwards_loop length.toNat x 0 1 ((1 <<< (length - 1).toNat) % 2 ^ 32)

/-- The loop `while (1u << length < (unsigned int)size) length++` of `reposition`; the shift
count may not reach 32. -/
def bit_length : Nat → Nat → Nat → Option Nat
  | 0, _, _ => none
  | fuel + 1, size, length =>
    if 1 <<< length < size then bit_length fuel size (length + 1) else some length

/-- Source `reposition`. -/
def reposition (array : List (comp R)) (size : Int) : Option (List (comp R)) := do
  let length ← bit_length 32 (size % 2 ^ 32).toNat 0
  forLoop size.toNat (fun i array =>
    let j : Int := backwards i length
    if (i : Int) ≤ j then do
      let x ← load array i
      let y ← load array j
      let array ← store array i y
      store array j x
    else pure array) array

/-- The loop `for (step = size; step != 1; step /= 2) { roots.push(root); root *= root; }`.
The stack is a list with its top at the head.  The source loop does not terminate for
`size <= 0`; the model then runs out of fuel and yields `none`. -/
def prepare_roots : Nat → Int → comp R → List (comp R) → Option (List (comp R))
  | 0, _, _, _ => none
  | fuel + 1, step, root, roots =>
    if step = 1 then some roots
    else prepare_roots fuel (Int.tdiv step 2) (root * root) (root :: roots)

/-- The loop `for (step = 2; step <= size; step *= 2)` of `fourier_transform`: pop a root (a
fault on an empty stack) and transform every block `array + i`, `i = 0, step, 2*step, ...`.
The counter `step` is an `int`: the doubling is reduced to 32 bits, so for `size = 2^30` the
last doubling gives `-2^31`, the loop goes on and pops the empty stack. -/
def butterfly_stages : Nat → Int → Int → List (comp R) → List (comp R) → Option (List (comp R))
  | 0, _, _, _, _ => none
  | fuel + 1, step, size, roots, array =>
    if step ≤ size then do
      let root ← roots.head?
      let roots := roots.tail
      let array ← forLoop (Int.tdiv (size + step - 1) step).toNat
        (fun c array => mass_butterfly array (c * step) step root) array
      butterfly_stages fuel (wrap_int (step * 2)) size roots array
    else some array

/-- Source `fourier_transform`.  The argument `root` is the value of
`exp(comp(0.0, 2.0*PI/size))`, which the embedding does not compute. -/
def fourier_transform (root : comp R) (array : List (comp R)) (size : Int) :
    Option (List (comp R)) := do
  let array ← reposition array size
  let roots ← prepare_roots (size.toNat + 1) size root []
  butterfly_stages (size.toNat + 1) 2 size roots array

/-- Source `conjugate`. -/
def conjugate (array : List (comp R)) (size : Int) : Option (List (comp R)) :=
  forLoop size.toNat (fun i array => do
    let z ← load array i
    store array i (comp.conj z)) array

/-- Source `inverse_fourier_transform`. -/
def inverse_fourier_transform (root : comp R) (array : List (comp R)) (size : Int) :
    Option (List (comp R)) := do
  let array ← conjugate array size
  let array ← fourier_transform root array size
  let array ← conjugate array size
  forLoop size.toNat (fun i array => do
    let z ← load array i
    store array i (comp.div_scalar z (size : R))) array

/-- Source `multiply`, for a `result` buffer that does not alias an operand. -/
def multiply (arr1 arr2 result : List (comp R)) (size : Int) : Option (List (comp R)) :=
  forLoop size.toNat (fun i result => do
    let x ← load arr1 i
    let y ← load arr2 i
    store result i (x * y)) result

/-- Source `convolution`: the three buffers after the call, `(arr1, arr2, result)`. -/
def convolution (root : comp R) (arr1 arr2 result : List (comp R)) (size : Int) :
    Option (List (comp R) × List (comp R) × List (comp R)) := do
  let arr1 ← fourier_transform root arr1 size
  let arr2 ← fourier_transform root arr2 size
  let result ← multiply arr1 arr2 result size
  let result ← inverse_fourier_transform root result size
  pure (arr1, arr2, result)

end dft

/-! ## Images (`main.cpp`) -/

/-- The `IMAGE` record: `map` holds the channel pointers that have been assigned. -/
structure IMAGE (R : Type) where
  map : List (List R)
  channels : Int
  width : Int
  height : Int
deriving DecidableEq, Repr

variable {R : Type} [LinearOrderedField R]

/-- The data-model invariant of an image: 1 or 3 channels, positive dimensions, one pixel map
of `width * height` entries per channel. -/
def IMAGE.WF (image : IMAGE R) : Prop :=
  (image.channels = 1 ∨ image.channels = 3) ∧ 0 < image.width ∧ 0 < image.height ∧
    image.map.length = image.channels.toNat ∧
    ∀ m ∈ image.map, m.length = (image.width * image.height).toNat

/-- Source `createImage`: a black image.  Only the size check returns the null pointer; the
channel check prints and goes on.  More than three channels overrun `map[3]`. -/
def createImage (width height channels : Int) : Option (Option (IMAGE R)) :=
  if width < 0 ∨ height < 0 then some none
  else if 3 < channels then none
  else
    let size := width * height
    some (some { map := List.replicate channels.toNat (List.replicate size.toNat 0),
                 channels := channels, width := width, height := height })

/-- Source `copyImage`. -/
def copyImage (image : Option (IMAGE R)) : Option (Option (IMAGE R)) :=
  match image with
  | none => some none
  | some image => do
    let w := image.width
    let h := image.height
    let size := w * h
    let channels := image.channels
    let new_image ← createImage w h channels
    forLoop channels.toNat (fun j ni =>
      forLoop size.toNat (fun i ni => do
        let dst_image ← ni
        let src ← load image.map j
        let v ← load src i
        let dst ← load dst_image.map j
        let dst ← store dst i v
        let maps ← store dst_image.map j dst
        pure (some { dst_image with map := maps })) ni) new_image

/-- Source `getPSFDivisor`: the sum of `map[i*h + j]` over `i < w`, `j < h`. -/
def getPSFDivisor (psf : IMAGE R) : Option R := do
  let w := psf.width
  let h := psf.height
  let map ← load psf.map 0
  forLoop w.toNat (fun i div =>
    forLoop h.toNat (fun j div => do
      let v ← load map ((i : Int) * h + j)
      pure (div + v)) div) 0

/-! ## Toroidal convolution (`main.cpp`) -/

/-- One pass of the innermost loop body of `_conv`: `sum += h[(h2-j)*w2-i-1]*f[index_y*w1+index_x]`. -/
def conv_term (f h : List R) (w1 h1 w2 h2 border_x border_y : Int) (i j : Nat) (sum : R) :
    Option R := do
  let index_x := Int.tmod (border_x + i) w1
  let index_y := Int.tmod (border_y + j) h1
  let hv ← load h ((h2 - j) * w2 - i - 1)
  let fv ← load f (index_y * w1 + index_x)
  pure (sum + hv * fv)

/-- The two kernel loops of `_conv` for the output pixel `(x, y)`, starting from `sum = 0`. -/
def conv_sum (f h : List R) (w1 h1 w2 h2 a b : Int) (x y : Nat) : Option R :=
  let border_x := (x : Int) - a + w1
  let border_y := (y : Int) - b + h1
  forLoop w2.toNat (fun i sum =>
    forLoop h2.toNat (fun j sum => conv_term f h w1 h1 w2 h2 border_x border_y i j sum) sum) 0

/-- The `x`/`y` loops of `_conv` for one channel: `map[x + y*w1] = sum/div`. -/
def conv_channel (f h : List R) (w1 h1 w2 h2 a b : Int) (div : R) (map : List R) :
    Option (List R) :=
  forLoop w1.toNat (fun x map =>
    forLoop h1.toNat (fun y map => do
      let sum ← conv_sum f h w1 h1 w2 h2 a b x y
      store map ((x : Int) + y * w1) (sum / div)) map) map

/-- Source `_conv`. -/
def _conv (in_maps : List (List R)) (h : List R) (channels w1 h1 w2 h2 a b : Int) (div : R)
    (out_maps : List (List R)) : Option (List (List R)) :=
  forLoop channels.toNat (fun k out_maps => do
    let f ← load in_maps k
    let map ← load out_maps k
    let map ← conv_channel f h w1 h1 w2 h2 a b div map
    store out_maps k map) out_maps

/-- Source `conv`. -/
def conv (image psf : IMAGE R) : Option (Option (IMAGE R)) :=
  let w2 := psf.width
  let h2 := psf.height
  if 1 < psf.channels then some none
  else if Int.tmod w2 2 ≠ 1 ∨ Int.tmod h2 2 ≠ 1 then some none
  else do
    let channels := image.channels
    let w1 := image.width
    let h1 := image.height
    let a := Int.tdiv w2 2
    let b := Int.tdiv h2 2
    let h ← load psf.map 0
    let div ← getPSFDivisor psf
    if div = 0 then pure none
    else
      match ← createImage w1 h1 channels with
      | none => none
      | some result => do
        let maps ← _conv image.map h channels w1 h1 w2 h2 a b div result.map
        pure (some { result with map := maps })

/-! ## Direct solver (`main.cpp`, `deconv`) -/

/-- The kernel loops of the system construction of `deconv` for the output pixel `(x, y)`:
`A[pix1*M + pix2] = h[j*w2 + i]` and `sum += h[i + j*w2]*g[index_x + index_y*w1]`. -/
def deconv_row (g h : List R) (w1 h1 w2 h2 a b M : Int) (x y : Nat) (A : List R) :
    Option (List R × R) :=
  let border_x := (x : Int) - a + w1
  let border_y := (y : Int) - b + h1
  let pix1 := (x : Int) + y * w1
  forLoop w2.toNat (fun i st =>
    forLoop h2.toNat (fun j (st : List R × R) => do
      let index_x := Int.tmod (border_x + i) w1
      let index_y := Int.tmod (border_y + j) h1
      let pix2 := index_x + index_y * w1
      let c ← load h ((j : Int) * w2 + i)
      let A ← store st.1 (pix1 * M + pix2) c
      let hv ← load h ((i : Int) + j * w2)
      let gv ← load g (index_x + index_y * w1)
      pure (A, st.2 + hv * gv)) st) (A, 0)

/-- The system construction of `deconv` for one channel `g`: every row of `A` and its right-hand
side `A[pix1*M + N] = sum/div`. -/
def deconv_build (g h : List R) (w1 h1 w2 h2 a b N M : Int) (div : R) (A : List R) :
    Option (List R) :=
  forLoop w1.toNat (fun x A =>
    forLoop h1.toNat (fun y A => do
      let st ← deconv_row g h w1 h1 w2 h2 a b M x y A
      store st.1 (((x : Int) + y * w1) * M + N) (st.2 / div)) A) A

/-- The pivot search `for (i = j; i < N; i++) { diag_item = A[i*M + j]; if (diag_item != 0)
break; }` with `fuel` rows left: the values of `i` and `diag_item` after the loop. -/
def pivot_search (A : List R) (M j : Int) : Nat → Int → R → Option (Int × R)
  | 0, i, diag_item => some (i, diag_item)
  | fuel + 1, i, _ => do
    let diag_item ← load A (i * M + j)
    if diag_item ≠ 0 then some (i, diag_item)
    else pivot_search A M j fuel (i + 1) diag_item

/-- One pass of the forward elimination of `deconv` for column `j`.  A column without a nonzero
entry only prints a message: the pass goes on with `i = N` and `diag_item = 0`. -/
def eliminate_column (N M : Int) (j : Nat) (A : List R) : Option (List R) := do
  let found ← pivot_search A M j (N - j).toNat j 0
  let i := found.1
  let diag_item := found.2
  let A ← if i ≠ (j : Int) then
      forLoop (M - j).toNat (fun c A => do
        let t := (j : Int) + c
        let temp ← load A (i * M + t)
        let v ← load A (j * M + t)
        let A ← store A (i * M + t) v
        store A (j * M + t) temp) A
    else pure A
  let A ← store A ((j : Int) * M + j) 1
  let A ← forLoop (M - (j + 1)).toNat (fun c A => do
    let t := (j : Int) + 1 + c
    let v ← load A (j * M + t)
    store A (j * M + t) (v / diag_item)) A
  forLoop (N - (j + 1)).toNat (fun c A => do
    let i := (j : Int) + 1 + c
    let first_item ← load A (i * M + j)
    let A ← store A (i * M + j) 0
    forLoop (M - (j + 1)).toNat (fun c A => do
      let t := (j : Int) + 1 + c
      let v ← load A (i * M + t)
      let p ← load A (j * M + t)
      store A (i * M + t) (v - p * first_item)) A) A

/-- The forward elimination of `deconv`: `for (j = 0; j < N; j++)`. -/
def forward_elimination (N M : Int) (A : List R) : Option (List R) :=
  forLoop N.toNat (fun j A => eliminate_column N M j A) A

/-- The back-substitution of `deconv`: `for (j = N-1; j > 0; j--) for (i = j-1; i >= 0; i--)
A[i*M + N] -= A[j*M + N]*A[i*M + j]`. -/
def back_substitution (N M : Int) (A : List R) : Option (List R) :=
  forLoop (N - 1).toNat (fun c A =>
    let j := N - 1 - c
    forLoop j.toNat (fun d A => do
      let i := j - 1 - d
      let v ← load A (i * M + N)
      let p ← load A (j * M + N)
      let q ← load A (i * M + j)
      store A (i * M + N) (v - p * q)) A) A

/-- The body of the channel loop of `deconv`: build the system in `A` (which keeps what the
previous channel left in it), solve it, and copy the right-hand side into `latent->map[k]`. -/
def deconv_channel (image : IMAGE R) (h : List R) (w1 h1 w2 h2 a b N M : Int) (div : R)
    (k : Nat) (st : List R × Option (IMAGE R)) : Option (List R × Option (IMAGE R)) := do
  let g ← load image.map k
  let A ← deconv_build g h w1 h1 w2 h2 a b N M div st.1
  let A ← forward_elimination N M A
  let A ← back_substitution N M A
  let latent ← st.2
  let f ← load latent.map k
  let f ← forLoop N.toNat (fun i f => do
    let v ← load A ((i : Int) * M + N)
    store f i v) f
  let maps ← store latent.map k f
  pure (A, some { latent with map := maps })

/-- Source `deconv`.  The size `NxM = N*M` of the array `A` is an `int` product, reduced to 32
bits: from 46341 pixels on it wraps.  The cell indices `pix1*M + pix2` and `i*M + j` are all
below `N*M`, so they are `int` values exactly when `N*M` is; the theorems about every image
size assume `N*M ≤ 2^31 - 1`. -/
def deconv (image psf : IMAGE R) : Option (Option (IMAGE R)) :=
  let w2 := psf.width
  let h2 := psf.height
  if 1 < psf.channels then some none
  else if Int.tmod w2 2 ≠ 1 ∨ Int.tmod h2 2 ≠ 1 then some none
  else do
    let a := Int.tdiv w2 2
    let b := Int.tdiv h2 2
    let channels := image.channels
    let w1 := image.width
    let h1 := image.height
    let size1 := w1 * h1
    let latent ← copyImage (some image)
    let h ← load psf.map 0
    let div ← getPSFDivisor psf
    if div = 0 then pure none
    else
      let N := size1
      let M := size1 + 1
      let NxM := wrap_int (N * M)
      if NxM < 0 then none
      else do
        let A : List R := List.replicate NxM.toNat 0
        let st ← forLoop channels.toNat
          (fun k st => deconv_channel image h w1 h1 w2 h2 a b N M div k st) (A, latent)
        pure st.2

/-! ## Frequency-domain deconvolution (`main.cpp`, `deconvinverse`) -/

/-- The record `COMPLEX_ARRAYS`. -/
structure COMPLEX_ARRAYS (R : Type) where
  size : Int
  arrays : List (List (comp R))

/-- The loop `while (new_size < desirable_size) new_size *= 2` of `_form_complex_array`. -/
def grow_size : Nat → Int → Int → Option Int
  | 0, _, _ => none
  | fuel + 1, desirable_size, new_size =>
    if new_size < desirable_size then grow_size fuel desirable_size (new_size * 2)
    else some new_size

/-- Source `_form_complex_array`. -/
def _form_complex_array (image : IMAGE R) (desirable_size : Int) : Option (COMPLEX_ARRAYS R) := do
  let channels := image.channels
  let size := image.height * image.width
  let desirable_size := if desirable_size < size then size else desirable_size
  let new_size ← grow_size (desirable_size.toNat + 1) desirable_size 1
  if 3 < channels then none
  else do
    let arrays ← forLoop channels.toNat (fun k (arrays : List (List (comp R))) => do
      let m ← load image.map k
      let mas : List (comp R) := List.replicate new_size.toNat 0
      let mas ← forLoop size.toNat (fun i mas => do
        let v ← load m i
        store mas i ⟨v, 0⟩) mas
      let mas ← forLoop (new_size - size).toNat (fun c mas =>
        store mas (size + c) ⟨0, 0⟩) mas
      pure (arrays ++ [mas])) []
    pure { size := new_size, arrays := arrays }

/-- The first channel loop of `deconvinverse`: transform the channel and divide every bin by the
PSF bin unless that bin is exactly zero. -/
def inverse_filter (root : comp R) (complex_psf_map : List (comp R)) (complex_size1 : Int)
    (complex_image_map : List (comp R)) : Option (List (comp R)) := do
  let complex_image_map ← fourier_transform root complex_image_map complex_size1
  forLoop complex_size1.toNat (fun i m => do
    let complex_value ← load complex_psf_map i
    if complex_value.im ≠ 0 ∨ complex_value.re ≠ 0 then do
      let z ← load m i
      store m i (z / complex_value)
    else pure m) complex_image_map

/-- The copy loop of `deconvinverse`: `latent->map[k][i] = complex_image_map[i].real()`. -/
def copy_real (complex_image_map : List (comp R)) (size1 : Int) (k : Nat)
    (latent : Option (IMAGE R)) : Option (Option (IMAGE R)) :=
  forLoop size1.toNat (fun i (latent : Option (IMAGE R)) => do
    let img ← latent
    let z ← load complex_image_map i
    let m ← load img.map k
    let m ← store m i z.re
    let maps ← store img.map k m
    pure (some { img with map := maps })) latent

/-- The first channel loop of `deconvinverse`. -/
def filter_channels (root : comp R) (complex_psf_map : List (comp R))
    (channels complex_size1 : Int) (arrays : List (List (comp R))) :
    Option (List (List (comp R))) :=
  forLoop channels.toNat (fun k arrays => do
    let complex_image_map ← load arrays k
    let complex_image_map ← inverse_filter root complex_psf_map complex_size1 complex_image_map
    store arrays k complex_image_map) arrays

/-- The second channel loop of `deconvinverse`. -/
def inverse_channels (root : comp R) (channels complex_size1 size1 : Int)
    (arrays : List (List (comp R))) (latent : Option (IMAGE R)) :
    Option (List (List (comp R)) × Option (IMAGE R)) :=
  forLoop channels.toNat (fun k (st : List (List (comp R)) × Option (IMAGE R)) => do
    let complex_image_map ← load st.1 k
    let complex_image_map ← inverse_fourier_transform root complex_image_map complex_size1
    let arrays ← store st.1 k complex_image_map
    let latent ← copy_real complex_image_map size1 k st.2
    pure (arrays, latent)) (arrays, latent)

/-- Source `deconvinverse`; `root` is the value of `exp(comp(0.0, 2.0*PI/complex_size1))`. -/
def deconvinverse (root : comp R) (image psf : IMAGE R) : Option (Option (IMAGE R)) :=
  let w2 := psf.width
  let h2 := psf.height
  if 1 < psf.channels then some none
  else if Int.tmod w2 2 ≠ 1 ∨ Int.tmod h2 2 ≠ 1 then some none
  else do
    let channels := image.channels
    let w1 := image.width
    let h1 := image.height
    let size1 := w1 * h1
    let latent ← (createImage w1 h1 channels : Option (Option (IMAGE R)))
    let _h ← load psf.map 0
    let div ← getPSFDivisor psf
    if div = 0 then pure none
    else do
      let complex_image ← _form_complex_array image 0
      let complex_size1 := complex_image.size
      let complex_psf ← _form_complex_array psf complex_size1
      let complex_psf_map ← load complex_psf.arrays 0
      let complex_psf_map ← fourier_transform root complex_psf_map complex_size1
      let arrays ← filter_channels root complex_psf_map channels complex_size1
        complex_image.arrays
      let st ← inverse_channels root channels complex_size1 size1 arrays latent
      pure st.2

/-! ## Lucy-Richardson iteration (`main.cpp`, `deconvlucy`) -/

/-- The loop `for (j < channels) for (i < size1) t[i] = g[i]/t[i]` with `t = temp1->map[j]`,
`g = image->map[j]`. -/
def lucy_ratio (image_map temp1 : List (List R)) (channels size1 : Int) :
    Option (List (List R)) :=
  forLoop channels.toNat (fun j temp1 => do
    let t ← load temp1 j
    let g ← load image_map j
    let t ← forLoop size1.toNat (fun i t => do
      let gv ← load g i
      let tv ← load t i
      store t i (gv / tv)) t
    store temp1 j t) temp1

/-- The loop `for (j < channels) for (i < size1) g[i] = g[i]*t[i]` with `g = latent->map[j]`,
`t = temp2->map[j]`. -/
def lucy_update (latent temp2 : List (List R)) (channels size1 : Int) :
    Option (List (List R)) :=
  forLoop channels.toNat (fun j latent => do
    let g ← load latent j
    let t ← load temp2 j
    let g ← forLoop size1.toNat (fun i g => do
      let gv ← load g i
      let tv ← load t i
      store g i (gv * tv)) g
    store latent j g) latent

/-- One pass of the iteration loop of `deconvlucy` on the maps of `latent`, `temp1`, `temp2`. -/
def lucy_step (image_map : List (List R)) (h h_inv : List R)
    (channels w1 h1 w2 h2 a b : Int) (div : R)
    (st : List (List R) × List (List R) × List (List R)) :
    Option (List (List R) × List (List R) × List (List R)) := do
  let temp1 ← _conv st.1 h channels w1 h1 w2 h2 a b div st.2.1
  let temp1 ← lucy_ratio image_map temp1 channels (w1 * h1)
  let temp2 ← _conv temp1 h_inv channels w1 h1 w2 h2 a b div st.2.2
  let latent ← lucy_update st.1 temp2 channels (w1 * h1)
  pure (latent, temp1, temp2)

/-- The loop `for (i < size2) h_inv[i] = h[size2 - i - 1]` of `deconvlucy`. -/
def mirror_psf (h : List R) (size2 : Int) (h_inv : List R) : Option (List R) :=
  forLoop size2.toNat (fun i h_inv => do
    let v ← load h (size2 - i - 1)
    store h_inv i v) h_inv

/-- The iteration loop of `deconvlucy`; the images `latent`, `temp1`, `temp2` are dereferenced
when the loop first uses them. -/
def lucy_iterations (image_map : List (List R)) (h h_inv : List R)
    (channels w1 h1 w2 h2 a b : Int) (div : R) (iterations : Int)
    (latent temp1 temp2 : Option (IMAGE R)) : Option (Option (IMAGE R)) :=
  if iterations ≤ 0 then some latent
  else do
    let latent ← latent
    let temp1 ← temp1
    let temp2 ← temp2
    let st ← forLoop iterations.toNat
      (fun _ st => lucy_step image_map h h_inv channels w1 h1 w2 h2 a b div st)
      (latent.map, temp1.map, temp2.map)
    pure (some { latent with map := st.1 })

/-- Source `deconvlucy`. -/
def deconvlucy (image psf : IMAGE R) (iterations : Int) : Option (Option (IMAGE R)) :=
  let w2 := psf.width
  let h2 := psf.height
  if 1 < psf.channels then some none
  else if Int.tmod w2 2 ≠ 1 ∨ Int.tmod h2 2 ≠ 1 then some none
  else do
    let a := Int.tdiv w2 2
    let b := Int.tdiv h2 2
    let channels := image.channels
    let w1 := image.width
    let h1 := image.height
    let size2 := w2 * h2
    let latent ← copyImage (some image)
    let temp1 ← (createImage w1 h1 channels : Option (Option (IMAGE R)))
    let temp2 ← (createImage w1 h1 channels : Option (Option (IMAGE R)))
    let psf_inv ← (createImage w2 h2 1 : Option (Option (IMAGE R)))
    let h ← load psf.map 0
    let psf_inv_image ← psf_inv
    let h_inv ← load psf_inv_image.map 0
    let h_inv ← mirror_psf h size2 h_inv
    let div ← getPSFDivisor psf
    if div = 0 then pure none
    else
      lucy_iterations image.map h h_inv channels w1 h1 w2 h2 a b div iterations
        latent temp1 temp2

/-- The value that section 4.2 of the specification gives to the output pixel `(x, y)` of one
channel `f`, before the division by the divisor. -/
def toroidal_sum (f h : List R) (W H Wk Hk : Nat) (a b : Int) (x y : Nat) : R :=
  ∑ i in Finset.range Wk, ∑ j in Finset.range Hk,
    h.getD ((Hk - j - 1) * Wk + (Wk - i - 1)) 0 *
      f.getD ((((y : Int) - b + j) % H) * W + (((x : Int) - a + i) % W)).toNat 0

/-- The pixel map that section 4.2 of the specification describes for one channel. -/
def toroidal_map (f h : List R) (W H Wk Hk : Nat) (a b : Int) (div : R) : List R :=
  (List.range (W * H)).map
    (fun p => toroidal_sum f h W H Wk Hk a b (p % W) (p / W) / div)

/-- A valid PSF of section 3: a well-formed single-channel image of odd width and height. -/
def IMAGE.isPSF (psf : IMAGE R) : Prop :=
  psf.WF ∧ psf.channels = 1 ∧ psf.width % 2 = 1 ∧ psf.height % 2 = 1

/-- The weights of a PSF: its single pixel map. -/
def IMAGE.weights (psf : IMAGE R) : List R := psf.map.headD []

/-- The image that `conv` returns, in closed form. -/
def conv_image (image psf : IMAGE R) : IMAGE R :=
  { map := image.map.map (fun f => toroidal_map f psf.weights image.width.toNat
      image.height.toNat psf.width.toNat psf.height.toNat (psf.width / 2) (psf.height / 2)
      psf.weights.sum),
    channels := image.channels, width := image.width, height := image.height }

/-- The black image that `createImage` returns for the dimensions of `image`. -/
def black_image (image : IMAGE R) : IMAGE R :=
  { map := List.replicate image.channels.toNat
      (List.replicate (image.width * image.height).toNat 0),
    channels := image.channels, width := image.width, height := image.height }

/-- One Lucy-Richardson update of the maps `latent`, as section 4.4 describes it: the blurred
estimate, the ratio, the correction and the product. -/
def lucy_blurred (latent : List (List R)) (h : List R) (W H Wk Hk : Nat) (a b : Int) (div : R) :
    List (List R) :=
  latent.map (fun f => toroidal_map f h W H Wk Hk a b div)

/-- The ratio `observed / blurred_estimate`, pixel by pixel. -/
def lucy_ratio_maps (image_map blurred : List (List R)) : List (List R) :=
  List.zipWith (fun g t => List.zipWith (fun x y => x / y) g t) image_map blurred

/-- The correction: the ratio convolved with the mirrored PSF. -/
def lucy_correction (image_map latent : List (List R)) (h : List R) (W H Wk Hk : Nat)
    (a b : Int) (div : R) : List (List R) :=
  (lucy_ratio_maps image_map (lucy_blurred latent h W H Wk Hk a b div)).map
    (fun f => toroidal_map f h.reverse W H Wk Hk a b div)

/-- The updated latent maps `latent * correction`. -/
def lucy_next (image_map latent : List (List R)) (h : List R) (W H Wk Hk : Nat)
    (a b : Int) (div : R) : List (List R) :=
  List.zipWith (fun g t => List.zipWith (fun x y => x * y) g t) latent
    (lucy_correction image_map latent h W H Wk Hk a b div)

/-- The latent maps after `n` passes of the iteration loop of `deconvlucy`. -/
def lucy_iterate (image_map : List (List R)) (h : List R) (W H Wk Hk : Nat) (a b : Int)
    (div : R) : Nat → List (List R)
  | 0 => image_map
  | n + 1 => lucy_next image_map (lucy_iterate image_map h W H Wk Hk a b div n) h W H Wk Hk a b div

/-- The image that `deconvlucy` returns after `n` iterations, in closed form. -/
def lucy_image (image psf : IMAGE R) (n : Nat) : IMAGE R :=
  { map := lucy_iterate image.map psf.weights image.width.toNat image.height.toNat
      psf.width.toNat psf.height.toNat (psf.width / 2) (psf.height / 2) psf.weights.sum n,
    channels := image.channels, width := image.width, height := image.height }

/-- The number `i` with its `m` low bits in reversed order. -/
def bitrev : Nat → Nat → Nat
  | 0, _ => 0
  | m + 1, i => (i % 2) * 2 ^ m + bitrev m (i / 2)

/-- The stack of roots that `fourier_transform` holds when `d` butterfly stages are left: its
top is `w^(2^(d-1))` and its bottom `w`. -/
def root_stack (w : comp R) (d : Nat) : List (comp R) :=
  (List.range d).map (fun u => w ^ 2 ^ (d - 1 - u))

/-- The state of the buffer of `fourier_transform` after the stages up to block length `2^t`:
block `c` holds the transform of length `2^t` of the samples `s[bitrev (m-t) c + 2^(m-t) * n]`,
with the root `w^(2^(m-t))`. -/
def dft_blocks (w : comp R) (s : List (comp R)) (m t : Nat) (A : List (comp R)) : Prop :=
  ∀ c k, c < 2 ^ (m - t) → k < 2 ^ t → A[c * 2 ^ t + k]? =
    some (∑ n in Finset.range (2 ^ t),
      s.getD (bitrev (m - t) c + 2 ^ (m - t) * n) 0 * (w ^ 2 ^ (m - t)) ^ (n * k))

/-- The discrete Fourier transform sum of section 4.1 with the root `w`:
`X[k] = sum over n of s[n] * w^(n*k)`. -/
def dft (w : comp R) (s : List (comp R)) : List (comp R) :=
  (List.range s.length).map
    (fun k => ∑ n in Finset.range s.length, s.getD n 0 * w ^ (n * k))

/-- The circular convolution of two sequences of length `N`:
`out[n] = sum over j < N of a[j] * b[(n - j) mod N]`. -/
def circular_convolution (a b : List (comp R)) (N : Nat) : List (comp R) :=
  (List.range N).map (fun (n : Nat) => ∑ j in Finset.range N,
    a.getD j 0 * b.getD ((((n : Int) - j) % (N : Int)).toNat) 0)

/-- The least power of two that is at least `n`: the padded length of section 3. -/
def padded_size (n : Nat) : Nat := 2 ^ Nat.clog 2 n

/-- A pixel map as a complex sequence, zero-padded to the length `L`. -/
def pad_complex (m : List R) (L : Nat) : List (comp R) :=
  m.map (fun v => (⟨v, 0⟩ : comp R)) ++ List.replicate (L - m.length) 0

/-- The inverse transform that `inverse_fourier_transform` computes: conjugate, transform,
conjugate, divide by the length. -/
def idft (w : comp R) (X : List (comp R)) : List (comp R) :=
  (dft w (X.map comp.conj)).map (fun z => comp.div_scalar (comp.conj z) (X.length : R))

/-- The per-bin division of `deconvinverse`: a bin is divided by the PSF bin unless that bin is
exactly zero. -/
def divide_bins (X P : List (comp R)) : List (comp R) :=
  List.zipWith (fun x p => if p.im ≠ 0 ∨ p.re ≠ 0 then x / p else x) X P

/-- The pixel map that `deconvinverse` computes for one channel `ch`: pad, transform, divide
by the PSF spectrum `P`, transform back, keep the real parts of the first `size1` samples. -/
def inverse_filter_channel (w : comp R) (P : List (comp R)) (L size1 : Nat) (ch : List R) :
    List R :=
  ((idft w (divide_bins (dft w (pad_complex ch L)) P)).take size1).map comp.re

/-- Coefficient `n` of the product of the polynomials whose coefficient vectors are `a` and `b`:
`sum over m <= n of a[m] * b[n - m]`. -/
def product_coefficient (a b : List (comp R)) (n : Nat) : comp R :=
  ∑ m in Finset.range (n + 1), a.getD m 0 * b.getD (n - m) 0

/-- The coefficient that section 4.2 gives to pixel `q` in the output pixel `p`: the sum of the
reversed-kernel weights of the offsets `(i, j)` that lead from `p` to `q`, divided by the
divisor, and 0 when no offset leads to `q`. -/
def conv_coefficient (h : List R) (W H Wk Hk : Nat) (a b : Int) (div : R) (p q : Nat) : R :=
  (∑ i in Finset.range Wk, ∑ j in Finset.range Hk,
    if ((((p / W : Nat) : Int) - b + j) % H) * W + ((((p % W : Nat) : Int) - a + i) % W) = q
    then h.getD ((Hk - j - 1) * Wk + (Wk - i - 1)) 0 else 0) / div

/-- The augmented system that section 4.5 of the specification describes for one channel `g`,
row after row: in row `p` the coefficients `conv_coefficient p q` for `q < N`, then the
right-hand side `g[p] / div`. -/
def spec_system (g h : List R) (W H Wk Hk : Nat) (a b : Int) (div : R) : List R :=
  (List.range (W * H)).flatMap (fun p =>
    (List.range (W * H)).map (fun q => conv_coefficient h W H Wk Hk a b div p q) ++
      [g.getD p 0 / div])

/-! ## Matrices in row-major arrays (the solver of `deconv`) -/

/-- Entry `(r, c)` of a row-major array whose rows have `M` entries. -/
def entry (A : List R) (M r c : Nat) : R := A.getD (r * M + c) 0

/-- The array `A` holds the `n` rows of `M` entries that `E` gives. -/
def holds_matrix (A : List R) (n M : Nat) (E : Nat → Nat → R) : Prop :=
  A.length = n * M ∧ ∀ r c, r < n → c < M → entry A M r c = E r c

/-- The matrix after one pass of the forward elimination for column `j` with the pivot found in
row `i`: rows `i` and `j` exchanged from column `j` on, the pivot row divided by the pivot, and
the pivot row times the entry of column `j` taken from every row below. -/
def pivot_step (E : Nat → Nat → R) (i j : Nat) (r c : Nat) : R :=
  if r = j then
    (if c = j then 1 else if j < c then E i c / E i j else E j c)
  else if j < r then
    (if c = j then 0
     else if j < c then
       (if r = i then E j c else E r c) - E i c / E i j * (if r = i then E j j else E r j)
     else E r c)
  else E r c

/-- Row `p` of an augmented matrix with `n` unknowns applied to the vector `y`; `y n` is the
factor of the right-hand side column. -/
def row_dot (E : Nat → Nat → R) (n : Nat) (y : Nat → R) (p : Nat) : R :=
  ∑ c in Finset.range (n + 1), E p c * y c

/-- The matrix is zero below the diagonal in the columns before `j`. -/
def zero_below (E : Nat → Nat → R) (n j : Nat) : Prop :=
  ∀ r c, c < j → c < r → r < n → E r c = 0

/-! ## The heap: the entry points with records and pixel maps as heap objects -/

/-- The `IMAGE` record with its pixel maps as pointers, as the source declares it: `map` holds
the addresses of the pixel maps that have been assigned. -/
structure IMAGE_record where
  map : List Nat
  channels : Int
  width : Int
  height : Int
deriving DecidableEq, Repr

/-- The heap of `main.cpp`: the `IMAGE` records and the arrays of `double` allocated so far.  A
pointer is an index into one of the two lists; `new` appends.  Arrays that a function allocates
for itself and never stores in a record (the matrix `A` of `deconv`, the complex buffers of
`deconvinverse`) stay local values. -/
structure Heap (R : Type) where
  images : List IMAGE_record
  arrays : List (List R)
deriving DecidableEq, Repr

/-- The pointer `image->map[k]`. -/
def Heap.map_ptr (hp : Heap R) (image : Nat) (k : Int) : Option Nat := do
  let record ← hp.images[image]?
  load record.map k

/-- The read `p[i]` through a pixel map pointer. -/
def Heap.read (hp : Heap R) (p : Nat) (i : Int) : Option R := do
  let a ← hp.arrays[p]?
  load a i

/-- The write `p[i] = v` through a pixel map pointer. -/
def Heap.write (hp : Heap R) (p : Nat) (i : Int) (v : R) : Option (Heap R) := do
  let a ← hp.arrays[p]?
  let a ← store a i v
  pure { hp with arrays := hp.arrays.set p a }

/-- The arrays at the addresses `ptrs`. -/
def Heap.read_maps (hp : Heap R) : List Nat → Option (List (List R))
  | [] => some []
  | a :: rest => do
    let m ← hp.arrays[a]?
    let ms ← Heap.read_maps hp rest
    pure (m :: ms)

/-- The image that a record and its pixel maps hold. -/
def Heap.image_at (hp : Heap R) (image : Nat) : Option (IMAGE R) := do
  let record ← hp.images[image]?
  let maps ← Heap.read_maps hp record.map
  pure { map := maps, channels := record.channels, width := record.width,
         height := record.height }

/-- Source `createImage` on the heap: a new record and `channels` new zeroed pixel maps. -/
def Heap.createImage (hp : Heap R) (width height channels : Int) :
    Option (Heap R × Option Nat) :=
  if width < 0 ∨ height < 0 then some (hp, none)
  else if 3 < channels then none
  else
    let size := width * height
    some ({ images := hp.images ++ [{ map := (List.range channels.toNat).map
                                        (fun k => hp.arrays.length + k),
                                      channels := channels, width := width, height := height }],
            arrays := hp.arrays ++
              List.replicate channels.toNat (List.replicate size.toNat 0) },
          some hp.images.length)

/-- Source `copyImage` on the heap. -/
def Heap.copyImage (hp : Heap R) (image : Option Nat) : Option (Heap R × Option Nat) :=
  match image with
  | none => some (hp, none)
  | some image => do
    let record ← hp.images[image]?
    let w := record.width
    let h := record.height
    let size := w * h
    let channels := record.channels
    let created ← Heap.createImage hp w h channels
    let new_image := created.2
    let hp ← forLoop channels.toNat (fun j hp =>
      forLoop size.toNat (fun i hp => do
        let dst_image ← new_image
        let src ← Heap.map_ptr hp image j
        let v ← Heap.read hp src i
        let dst ← Heap.map_ptr hp dst_image j
        Heap.write hp dst i v) hp) created.1
    pure (hp, new_image)

/-- Source `getPSFDivisor` on the heap: it reads the record and its first pixel map. -/
def Heap.getPSFDivisor (hp : Heap R) (psf : Nat) : Option R := do
  let record ← hp.images[psf]?
  let w := record.width
  let h := record.height
  let map ← load record.map 0
  forLoop w.toNat (fun i div =>
    forLoop h.toNat (fun j div => do
      let v ← Heap.read hp map ((i : Int) * h + j)
      pure (div + v)) div) 0

/-- Source `_conv` on the heap; `in_maps` and `out_maps` are the records whose `map` arrays are
passed, `h` is a pixel map pointer.  The sum of one output pixel reads the arrays as they are at
that moment. -/
def Heap._conv (hp : Heap R) (in_maps : Nat) (h : Nat) (channels w1 h1 w2 h2 a b : Int)
    (div : R) (out_maps : Nat) : Option (Heap R) :=
  forLoop channels.toNat (fun k hp => do
    let f ← Heap.map_ptr hp in_maps k
    let map ← Heap.map_ptr hp out_maps k
    forLoop w1.toNat (fun x hp =>
      forLoop h1.toNat (fun y hp => do
        let fa ← hp.arrays[f]?
        let ha ← hp.arrays[h]?
        let sum ← conv_sum fa ha w1 h1 w2 h2 a b x y
        Heap.write hp map ((x : Int) + y * w1) (sum / div)) hp) hp) hp

/-- Source `conv` on the heap. -/
def Heap.conv (hp : Heap R) (image psf : Nat) : Option (Heap R × Option Nat) := do
  let p ← hp.images[psf]?
  let w2 := p.width
  let h2 := p.height
  if 1 < p.channels then pure (hp, none)
  else if Int.tmod w2 2 ≠ 1 ∨ Int.tmod h2 2 ≠ 1 then pure (hp, none)
  else do
    let im ← hp.images[image]?
    let channels := im.channels
    let w1 := im.width
    let h1 := im.height
    let a := Int.tdiv w2 2
    let b := Int.tdiv h2 2
    let h ← load p.map 0
    let div ← Heap.getPSFDivisor hp psf
    if div = 0 then pure (hp, none)
    else do
      let created ← Heap.createImage hp w1 h1 channels
      let result ← created.2
      let hp ← Heap._conv created.1 image h channels w1 h1 w2 h2 a b div result
      pure (hp, some result)

/-- The loop `f[i] = A[i*M + N]` of `deconv`, writing through the pixel map pointer `f`. -/
def Heap.copy_solution (hp : Heap R) (A : List R) (N M : Int) (f : Nat) : Option (Heap R) :=
  forLoop N.toNat (fun i hp => do
    let v ← load A ((i : Int) * M + N)
    Heap.write hp f i v) hp

/-- The body of the channel loop of `deconv` on the heap.  The matrix `A` is a local array; the
solution is written through `latent->map[k]`. -/
def Heap.deconv_channel (image h : Nat) (latent : Option Nat) (w1 h1 w2 h2 a b N M : Int)
    (div : R) (k : Nat) (st : Heap R × List R) : Option (Heap R × List R) := do
  let g ← Heap.map_ptr st.1 image k
  let ga ← st.1.arrays[g]?
  let ha ← st.1.arrays[h]?
  let A ← deconv_build ga ha w1 h1 w2 h2 a b N M div st.2
  let A ← forward_elimination N M A
  let A ← back_substitution N M A
  let latent ← latent
  let f ← Heap.map_ptr st.1 latent k
  let hp ← Heap.copy_solution st.1 A N M f
  pure (hp, A)

/-- The part of `deconv` after the divisor check: allocate `A` (its size `N*M` is an `int`
product, reduced to 32 bits) and run the channel loop. -/
def Heap.deconv_solve (hp : Heap R) (image h : Nat) (latent : Option Nat)
    (channels w1 h1 w2 h2 a b : Int) (div : R) : Option (Heap R × Option Nat) :=
  let N := w1 * h1
  let M := w1 * h1 + 1
  let NxM := wrap_int (N * M)
  if NxM < 0 then none
  else do
    let A : List R := List.replicate NxM.toNat 0
    let st ← forLoop channels.toNat
      (fun k st => Heap.deconv_channel image h latent w1 h1 w2 h2 a b N M div k st) (hp, A)
    pure (st.1, latent)

/-- Source `deconv` on the heap. -/
def Heap.deconv (hp : Heap R) (image psf : Nat) : Option (Heap R × Option Nat) := do
  let p ← hp.images[psf]?
  let w2 := p.width
  let h2 := p.height
  if 1 < p.channels then pure (hp, none)
  else if Int.tmod w2 2 ≠ 1 ∨ Int.tmod h2 2 ≠ 1 then pure (hp, none)
  else do
    let a := Int.tdiv w2 2
    let b := Int.tdiv h2 2
    let im ← hp.images[image]?
    let copied ← (Heap.copyImage hp (some image) : Option (Heap R × Option Nat))
    let h ← load p.map 0
    let div ← Heap.getPSFDivisor copied.1 psf
    if div = 0 then pure (copied.1, none)
    else
      Heap.deconv_solve copied.1 image h copied.2 im.channels im.width im.height w2 h2 a b div

/-- The copy loop of `deconvinverse` on the heap:
`latent->map[k][i] = complex_image_map[i].real()`. -/
def Heap.copy_real (hp : Heap R) (complex_image_map : List (comp R)) (size1 : Int) (k : Nat)
    (latent : Nat) : Option (Heap R) :=
  forLoop size1.toNat (fun i hp => do
    let z ← load complex_image_map i
    let m ← Heap.map_ptr hp latent k
    Heap.write hp m i z.re) hp

/-- The second channel loop of `deconvinverse` on the heap. -/
def Heap.inverse_channels (root : comp R) (channels complex_size1 size1 : Int)
    (latent : Option Nat) (arrays : List (List (comp R))) (hp : Heap R) :
    Option (List (List (comp R)) × Heap R) :=
  forLoop channels.toNat (fun k (st : List (List (comp R)) × Heap R) => do
    let complex_image_map ← load st.1 k
    let complex_image_map ← inverse_fourier_transform root complex_image_map complex_size1
    let arrays ← store st.1 k complex_image_map
    let latent ← latent
    let hp ← Heap.copy_real st.2 complex_image_map size1 k latent
    pure (arrays, hp)) (arrays, hp)

/-- The part of `deconvinverse` after the divisor check.  The complex buffers are local arrays
built from the images that the records hold. -/
def Heap.inverse_filter_all (root : comp R) (hp : Heap R) (image psf : Nat)
    (latent : Option Nat) (channels size1 : Int) : Option (Heap R × Option Nat) := do
  let image_value ← Heap.image_at hp image
  let complex_image ← _form_complex_array image_value 0
  let complex_size1 := complex_image.size
  let psf_value ← Heap.image_at hp psf
  let complex_psf ← _form_complex_array psf_value complex_size1
  let complex_psf_map ← load complex_psf.arrays 0
  let complex_psf_map ← fourier_transform root complex_psf_map complex_size1
  let arrays ← filter_channels root complex_psf_map channels complex_size1
    complex_image.arrays
  let st ← Heap.inverse_channels root channels complex_size1 size1 latent arrays hp
  pure (st.2, latent)

/-- Source `deconvinverse` on the heap. -/
def Heap.deconvinverse (root : comp R) (hp : Heap R) (image psf : Nat) :
    Option (Heap R × Option Nat) := do
  let p ← hp.images[psf]?
  let w2 := p.width
  let h2 := p.height
  if 1 < p.channels then pure (hp, none)
  else if Int.tmod w2 2 ≠ 1 ∨ Int.tmod h2 2 ≠ 1 then pure (hp, none)
  else do
    let im ← hp.images[image]?
    let created ← (Heap.createImage hp im.width im.height im.channels :
      Option (Heap R × Option Nat))
    let _h ← load p.map 0
    let div ← Heap.getPSFDivisor created.1 psf
    if div = 0 then pure (created.1, none)
    else
      Heap.inverse_filter_all root created.1 image psf created.2 im.channels
        (im.width * im.height)

/-- The loop `for (j < channels) for (i < size1) t[i] = g[i]/t[i]` of `deconvlucy` on the heap,
with `t = temp1->map[j]` and `g = image->map[j]`. -/
def Heap.lucy_ratio (hp : Heap R) (image temp1 : Nat) (channels size1 : Int) :
    Option (Heap R) :=
  forLoop channels.toNat (fun j hp => do
    let t ← Heap.map_ptr hp temp1 j
    let g ← Heap.map_ptr hp image j
    forLoop size1.toNat (fun i hp => do
      let gv ← Heap.read hp g i
      let tv ← Heap.read hp t i
      Heap.write hp t i (gv / tv)) hp) hp

/-- The loop `for (j < channels) for (i < size1) g[i] = g[i]*t[i]` of `deconvlucy` on the heap,
with `g = latent->map[j]` and `t = temp2->map[j]`. -/
def Heap.lucy_update (hp : Heap R) (latent temp2 : Nat) (channels size1 : Int) :
    Option (Heap R) :=
  forLoop channels.toNat (fun j hp => do
    let g ← Heap.map_ptr hp latent j
    let t ← Heap.map_ptr hp temp2 j
    forLoop size1.toNat (fun i hp => do
      let gv ← Heap.read hp g i
      let tv ← Heap.read hp t i
      Heap.write hp g i (gv * tv)) hp) hp

/-- One pass of the iteration loop of `deconvlucy` on the heap. -/
def Heap.lucy_step (image h h_inv : Nat) (channels w1 h1 w2 h2 a b : Int)
    (div : R) (latent temp1 temp2 : Option Nat) (hp : Heap R) : Option (Heap R) := do
  let latent ← latent
  let temp1 ← temp1
  let temp2 ← temp2
  let hp ← Heap._conv hp latent h channels w1 h1 w2 h2 a b div temp1
  let hp ← Heap.lucy_ratio hp image temp1 channels (w1 * h1)
  let hp ← Heap._conv hp temp1 h_inv channels w1 h1 w2 h2 a b div temp2
  Heap.lucy_update hp latent temp2 channels (w1 * h1)

/-- The loop `for (i < size2) h_inv[i] = h[size2 - i - 1]` of `deconvlucy` on the heap. -/
def Heap.mirror_psf (hp : Heap R) (h h_inv : Nat) (size2 : Int) : Option (Heap R) :=
  forLoop size2.toNat (fun i hp => do
    let v ← Heap.read hp h (size2 - i - 1)
    Heap.write hp h_inv i v) hp

/-- The part of `deconvlucy` after the four allocations: mirror the PSF, check the divisor and
iterate. -/
def Heap.lucy_run (hp : Heap R) (image psf h : Nat) (channels w1 h1 w2 h2 : Int)
    (iterations : Int) (latent temp1 temp2 psf_inv : Option Nat) :
    Option (Heap R × Option Nat) := do
  let psf_inv ← psf_inv
  let h_inv ← Heap.map_ptr hp psf_inv 0
  let hp ← Heap.mirror_psf hp h h_inv (w2 * h2)
  let div ← Heap.getPSFDivisor hp psf
  if div = 0 then pure (hp, none)
  else do
    let hp ← forLoop iterations.toNat (fun _ hp =>
      Heap.lucy_step image h h_inv channels w1 h1 w2 h2 (Int.tdiv w2 2) (Int.tdiv h2 2) div
        latent temp1 temp2 hp) hp
    pure (hp, latent)

/-- Source `deconvlucy` on the heap; the three `deleteImage` calls at its end free records that
the function created itself and are not modelled. -/
def Heap.deconvlucy (hp : Heap R) (image psf : Nat) (iterations : Int) :
    Option (Heap R × Option Nat) := do
  let p ← hp.images[psf]?
  let w2 := p.width
  let h2 := p.height
  if 1 < p.channels then pure (hp, none)
  else if Int.tmod w2 2 ≠ 1 ∨ Int.tmod h2 2 ≠ 1 then pure (hp, none)
  else do
    let im ← hp.images[image]?
    let c0 ← (Heap.copyImage hp (some image) : Option (Heap R × Option Nat))
    let c1 ← (Heap.createImage c0.1 im.width im.height im.channels :
      Option (Heap R × Option Nat))
    let c2 ← (Heap.createImage c1.1 im.width im.height im.channels :
      Option (Heap R × Option Nat))
    let c3 ← (Heap.createImage c2.1 w2 h2 1 : Option (Heap R × Option Nat))
    let h ← load p.map 0
    Heap.lucy_run c3.1 image psf h im.channels im.width im.height w2 h2 iterations
      c0.2 c1.2 c2.2 c3.2

/-- Every record and every array of `hp0` is in `hp` at its address with its content, and the
records added since point only to arrays added since. -/
def Heap.frame (hp0 hp : Heap R) : Prop :=
  hp0.images <+: hp.images ∧ hp0.arrays <+: hp.arrays ∧
    ∀ q record, hp0.images.length ≤ q → hp.images[q]? = some record →
      ∀ a ∈ record.map, hp0.arrays.length ≤ a

/-- What a call that takes the heap `hp` to `hp'` and returns `r` leaves of its inputs: every
record and every array of `hp` is in `hp'` at its address with its content; in particular the
images at `image` and `psf` (width, height, channel count and every pixel value) read as
before; and a returned image is a record that `hp` does not have, whose pixel maps are arrays
that `hp` does not have. -/
def Heap.inputs_kept (hp hp' : Heap R) (image psf : Nat) (r : Option Nat) : Prop :=
  hp.images <+: hp'.images ∧ hp.arrays <+: hp'.arrays ∧
    (∀ v, hp.image_at image = some v → hp'.image_at image = some v) ∧
    (∀ v, hp.image_at psf = some v → hp'.image_at psf = some v) ∧
    ∀ q, r = some q → hp.images.length ≤ q ∧
      ∀ record, hp'.images[q]? = some record → ∀ a ∈ record.map, hp.arrays.length ≤ a

/-- One butterfly stage of `fourier_transform` with the root given: the loop
`for (i = 0; i < size; i += step) mass_butterfly(array + i, step, root)`. -/
def stage_with_root (root : comp R) (step size : Int) (array : List (comp R)) :
    Option (List (comp R)) :=
  forLoop (Int.tdiv (size + step - 1) step).toNat
    (fun c array => mass_butterfly array (c * step) step root) array

/-- The butterfly stages as the specification describes them, without a stack: `k` stages from
block length `step` on, the stage of block length `step` using the base root raised to
`N / step`. -/
def stages_by_power (w : comp R) (N : Nat) : Nat → Nat → List (comp R) → Option (List (comp R))
  | 0, _, array => some array
  | k + 1, step, array =>
    (stage_with_root (w ^ (N / step)) (step : Int) (N : Int) array).bind
      (stages_by_power w N k (step * 2))

/-- The column `pix2 = index_x + index_y*w1` that the kernel offset `(i, j)` gives in the row
of the output pixel `(x, y)` of the system of `deconv`. -/
def deconv_target (W H : Nat) (a b : Int) (x y i j : Nat) : Nat :=
  (((((y : Int) - b + j) % H) * W) + (((x : Int) - a + i) % W)).toNat

/-- The `x`/`y` loops of `_conv` for one channel, with a ghost list that records the index of
every assignment `map[x + y*w1] = sum/div`, in the order of the run. -/
def conv_channel_logged (f h : List R) (w1 h1 w2 h2 a b : Int) (div : R)
    (st : List R × List Int) : Option (List R × List Int) :=
  forLoop w1.toNat (fun x st =>
    forLoop h1.toNat (fun y (st : List R × List Int) => do
      let sum ← conv_sum f h w1 h1 w2 h2 a b x y
      let map ← store st.1 ((x : Int) + y * w1) (sum / div)
      pure (map, st.2 ++ [(x : Int) + y * w1])) st) st

/-- Source `_conv` with a ghost list that records the channel and the index of every assignment
to an output map, in the order of the run. -/
def _conv_logged (in_maps : List (List R)) (h : List R) (channels w1 h1 w2 h2 a b : Int)
    (div : R) (st : List (List R) × List (Int × Int)) :
    Option (List (List R) × List (Int × Int)) :=
  forLoop channels.toNat (fun k (st : List (List R) × List (Int × Int)) => do
    let f ← load in_maps k
    let map ← load st.1 k
    let r ← conv_channel_logged f h w1 h1 w2 h2 a b div (map, [])
    let out_maps ← store st.1 k r.1
    pure (out_maps, st.2 ++ r.2.map (fun p => ((k : Int), p)))) st

/-! # Theorems -/

/-! ## Real and imaginary parts -/

namespace comp

variable {R : Type} [LinearOrderedField R]

@[simp] theorem zero_re : (0 : comp R).re = 0 := rfl
@[simp] theorem zero_im : (0 : comp R).im = 0 := rfl
@[simp] theorem one_re : (1 : comp R).re = 1 := rfl
@[simp] theorem one_im : (1 : comp R).im = 0 := rfl
@[simp] theorem add_re (z w : comp R) : (z + w).re = z.re + w.re := rfl
@[simp] theorem add_im (z w : comp R) : (z + w).im = z.im + w.im := rfl
@[simp] theorem neg_re (z : comp R) : (-z).re = -z.re := rfl
@[simp] theorem neg_im (z : comp R) : (-z).im = -z.im := rfl
@[simp] theorem sub_re (z w : comp R) : (z - w).re = z.re - w.re := rfl
@[simp] theorem sub_im (z w : comp R) : (z - w).im = z.im - w.im := rfl
@[simp] theorem mul_re (z w : comp R) : (z * w).re = z.re * w.re - z.im * w.im := rfl
@[simp] theorem mul_im (z w : comp R) : (z * w).im = z.re * w.im + z.im * w.re := rfl
theorem inv_re (w : comp R) : (w⁻¹).re = w.re / (w.re * w.re + w.im * w.im) := rfl
theorem inv_im (w : comp R) : (w⁻¹).im = -w.im / (w.re * w.re + w.im * w.im) := rfl
theorem div_re (z w : comp R) :
    (z / w).re = (z.re * w.re + z.im * w.im) / (w.re * w.re + w.im * w.im) := rfl
theorem div_im (z w : comp R) :
    (z / w).im = (z.im * w.re - z.re * w.im) / (w.re * w.re + w.im * w.im) := rfl
@[simp] theorem conj_re (z : comp R) : (conj z).re = z.re := rfl
@[simp] theorem conj_im (z : comp R) : (conj z).im = -z.im := rfl

end comp

/-! ## Loop and memory lemmas -/

theorem wrap_int_eq (z : Int) (h0 : -2147483648 ≤ z) (h1 : z ≤ 2147483647) : wrap_int z = z := by
  unfold wrap_int
  omega

theorem forLoop_zero {σ : Type} (body : Nat → σ → Option σ) (s : σ) :
    forLoop 0 body s = some s := by
  simp [forLoop]

theorem forLoop_succ {σ : Type} (n : Nat) (body : Nat → σ → Option σ) (s : σ) :
    forLoop (n + 1) body s = (forLoop n body s).bind (body n) := by
  simp [forLoop, List.range_succ, List.foldlM_append]

/-- Invariant rule for `forLoop`: the loop does not fault and establishes `P n`. -/
theorem forLoop_inv {σ : Type} (P : Nat → σ → Prop) (n : Nat) (body : Nat → σ → Option σ)
    (s : σ) (h0 : P 0 s)
    (hstep : ∀ i, i < n → ∀ st, P i st → ∃ st', body i st = some st' ∧ P (i + 1) st') :
    ∃ st', forLoop n body s = some st' ∧ P n st' := by
  induction n with
  | zero => exact ⟨s, forLoop_zero body s, h0⟩
  | succ n ih =>
    obtain ⟨st, hst, hP⟩ := ih (fun i hi => hstep i (Nat.lt_succ_of_lt hi))
    obtain ⟨st', hst', hP'⟩ := hstep n (Nat.lt_succ_self n) st hP
    exact ⟨st', by rw [forLoop_succ, hst]; exact hst', hP'⟩

/-- A loop whose body adds `t i` to the accumulator computes a finite sum. -/
theorem forLoop_sum (n : Nat) (body : Nat → R → Option R) (t : Nat → R)
    (hb : ∀ i, i < n → ∀ s, body i s = some (s + t i)) (s : R) :
    forLoop n body s = some (s + ∑ i in Finset.range n, t i) := by
  induction n with
  | zero => simp [forLoop_zero]
  | succ n ih =>
    rw [forLoop_succ, ih (fun i hi => hb i (Nat.lt_succ_of_lt hi)), Option.some_bind,
      hb n (Nat.lt_succ_self n), Finset.sum_range_succ, add_assoc]

theorem load_eq_some {α : Type} (a : List α) (i : Nat) (h : i < a.length) :
    load a (i : Int) = some a[i] := by
  simp [load, h]

theorem load_of_nonneg {α : Type} (a : List α) (i : Int) (h0 : 0 ≤ i) (h : i.toNat < a.length) :
    load a i = some a[i.toNat] := by
  simp [load, h, not_lt.mpr h0]

theorem store_eq_some {α : Type} (a : List α) (i : Nat) (v : α) (h : i < a.length) :
    store a (i : Int) v = some (a.set i v) := by
  simp [store, h]

theorem load_getD {α : Type} (a : List α) (i : Int) (d : α) (h0 : 0 ≤ i)
    (h : i.toNat < a.length) : load a i = some (a.getD i.toNat d) := by
  rw [load_of_nonneg a i h0 h, List.getD_eq_getElem a d h]

theorem load_nat_getD {α : Type} (a : List α) (i : Nat) (d : α) (h : i < a.length) :
    load a (i : Int) = some (a.getD i d) := by
  rw [load_eq_some a i h, List.getD_eq_getElem a d h]

/-- The C++ remainder of the shifted coordinate is the mathematical one when the half-extent
does not exceed the image dimension. -/
theorem tmod_border (W : Nat) (a : Int) (x i : Nat) (hW : 1 ≤ W) (ha : a ≤ W) :
    Int.tmod ((x : Int) - a + W + i) W = ((x : Int) - a + i) % W := by
  rw [Int.tmod_eq_emod (by omega) (by omega)]
  have : (x : Int) - a + W + i = ((x : Int) - a + i) + W := by ring
  rw [this, Int.add_emod_self]

theorem pixel_index_lt (W H : Nat) (u v : Int) (hW : 1 ≤ W) (hH : 1 ≤ H) :
    0 ≤ (v % H) * W + (u % W) ∧ ((v % H) * W + (u % W)).toNat < W * H := by
  have hu0 : 0 ≤ u % (W : Int) := Int.emod_nonneg _ (by omega)
  have hu1 : u % (W : Int) < W := Int.emod_lt_of_pos _ (by omega)
  have hv0 : 0 ≤ v % (H : Int) := Int.emod_nonneg _ (by omega)
  have hv1 : v % (H : Int) < H := Int.emod_lt_of_pos _ (by omega)
  have h0 : 0 ≤ (v % H) * W + (u % W) := by positivity
  refine ⟨h0, ?_⟩
  rw [Int.toNat_lt h0]
  push_cast
  nlinarith

theorem kernel_index (Wk Hk i j : Nat) (hi : i < Wk) (hj : j < Hk) :
    ((Hk : Int) - j) * Wk - i - 1 = (((Hk - j - 1) * Wk + (Wk - i - 1) : Nat) : Int) ∧
      (Hk - j - 1) * Wk + (Wk - i - 1) < Wk * Hk := by
  obtain ⟨j', rfl⟩ : ∃ j', Hk = j + j' + 1 := ⟨Hk - j - 1, by omega⟩
  obtain ⟨i', rfl⟩ : ∃ i', Wk = i + i' + 1 := ⟨Wk - i - 1, by omega⟩
  have e1 : j + j' + 1 - j - 1 = j' := by omega
  have e2 : i + i' + 1 - i - 1 = i' := by omega
  rw [e1, e2]
  constructor
  · push_cast; ring
  · nlinarith

theorem conv_term_eq (f h : List R) (W H Wk Hk : Nat) (a b : Int) (x y i j : Nat)
    (hW : 1 ≤ W) (hH : 1 ≤ H) (ha : a ≤ W) (hb : b ≤ H) (hi : i < Wk) (hj : j < Hk)
    (hf : f.length = W * H) (hh : h.length = Wk * Hk) (sum : R) :
    conv_term f h W H Wk Hk ((x : Int) - a + W) ((y : Int) - b + H) i j sum =
      some (sum + h.getD ((Hk - j - 1) * Wk + (Wk - i - 1)) 0 *
        f.getD ((((y : Int) - b + j) % H) * W + (((x : Int) - a + i) % W)).toNat 0) := by
  unfold conv_term
  dsimp only
  obtain ⟨hk1, hk2⟩ := kernel_index Wk Hk i j hi hj
  obtain ⟨hp1, hp2⟩ := pixel_index_lt W H ((x : Int) - a + i) ((y : Int) - b + j) hW hH
  rw [tmod_border W a x i hW ha, tmod_border H b y j hH hb, hk1]
  rw [load_nat_getD h _ 0 (by rw [hh]; exact hk2)]
  rw [load_getD f _ 0 hp1 (by rw [hf]; exact hp2)]
  rfl

theorem conv_sum_eq (f h : List R) (W H Wk Hk : Nat) (a b : Int) (x y : Nat)
    (hW : 1 ≤ W) (hH : 1 ≤ H) (ha : a ≤ W) (hb : b ≤ H)
    (hf : f.length = W * H) (hh : h.length = Wk * Hk) :
    conv_sum f h W H Wk Hk a b x y = some (toroidal_sum f h W H Wk Hk a b x y) := by
  unfold conv_sum toroidal_sum
  simp only [Int.toNat_ofNat]
  rw [forLoop_sum Wk _ (fun i => ∑ j in Finset.range Hk,
      h.getD ((Hk - j - 1) * Wk + (Wk - i - 1)) 0 *
        f.getD ((((y : Int) - b + j) % H) * W + (((x : Int) - a + i) % W)).toNat 0)]
  · simp
  · intro i hi s
    exact forLoop_sum Hk _ _ (fun j hj s' =>
      conv_term_eq f h W H Wk Hk a b x y i j hW hH ha hb hi hj hf hh s') s

theorem pix_lt (W H x y : Nat) (hx : x < W) (hy : y < H) : x + y * W < W * H := by
  have : (y + 1) * W ≤ H * W := Nat.mul_le_mul_right W hy
  nlinarith

theorem pix_inj (W x y x' y' : Nat) (hx : x < W) (hx' : x' < W)
    (h : x + y * W = x' + y' * W) : x = x' ∧ y = y' := by
  have h1 := congrArg (fun n => n % W) h
  simp only [Nat.add_mul_mod_self_right, Nat.mod_eq_of_lt hx, Nat.mod_eq_of_lt hx'] at h1
  subst h1
  have h2 : y * W = y' * W := by omega
  exact ⟨rfl, Nat.eq_of_mul_eq_mul_right (by omega) h2⟩

/-- A loop that stores `val i` at index `i` for `i < n`, where the body may look at the part of
the array not yet written. -/
theorem forLoop_pointwise {α : Type} (n : Nat) (a : List α) (val : Nat → α)
    (body : Nat → List α → Option (List α)) (hn : n ≤ a.length)
    (hb : ∀ i, i < n → ∀ m : List α, m.length = a.length → (∀ p, i ≤ p → m[p]? = a[p]?) →
      body i m = some (m.set i (val i))) :
    ∃ a', forLoop n body a = some a' ∧ a'.length = a.length ∧
      (∀ p, p < n → a'[p]? = some (val p)) ∧ (∀ p, n ≤ p → a'[p]? = a[p]?) := by
  have key := forLoop_inv
    (fun i (m : List α) => m.length = a.length ∧ (∀ p, p < i → m[p]? = some (val p)) ∧
      (∀ p, i ≤ p → m[p]? = a[p]?)) n body a
    ⟨rfl, fun p hp => absurd hp (Nat.not_lt_zero p), fun p _ => rfl⟩
    (by
      intro i hi m ⟨hlen, hlo, hhi⟩
      refine ⟨m.set i (val i), hb i hi m hlen hhi, by simp [hlen], ?_, ?_⟩
      · intro p hp
        rw [List.getElem?_set]
        by_cases hpi : i = p
        · subst hpi
          simp [hlen]; omega
        · simp only [hpi, if_false]
          exact hlo p (by omega)
      · intro p hp
        rw [List.getElem?_set]
        have hpi : i ≠ p := by omega
        simp only [hpi, if_false]
        exact hhi p (by omega))
  obtain ⟨a', h1, h2, h3, h4⟩ := key
  exact ⟨a', h1, h2, h3, h4⟩

theorem list_eq_of_getElem? {α : Type} (l : List α) (n : Nat) (g : Nat → α)
    (hlen : l.length = n) (h : ∀ p, p < n → l[p]? = some (g p)) :
    l = (List.range n).map g := by
  apply List.ext_getElem?
  intro p
  by_cases hp : p < n
  · rw [h p hp]
    simp [hp]
  · rw [List.getElem?_eq_none (by omega), List.getElem?_eq_none (by simp; omega)]

theorem conv_channel_eq (f h : List R) (W H Wk Hk : Nat) (a b : Int) (div : R) (map : List R)
    (hW : 1 ≤ W) (hH : 1 ≤ H) (ha : a ≤ W) (hb : b ≤ H)
    (hf : f.length = W * H) (hh : h.length = Wk * Hk) (hm : map.length = W * H) :
    conv_channel f h W H Wk Hk a b div map = some (toroidal_map f h W H Wk Hk a b div) := by
  unfold conv_channel
  simp only [Int.toNat_ofNat]
  set v : Nat → Nat → R := fun x y => toroidal_sum f h W H Wk Hk a b x y / div with hv
  have key := forLoop_inv
    (fun x (m : List R) => m.length = W * H ∧
      ∀ x', x' < x → ∀ y', y' < H → m[x' + y' * W]? = some (v x' y')) W _ map
    ⟨hm, fun x' hx' => absurd hx' (Nat.not_lt_zero x')⟩
    (by
      intro x hx m ⟨hlen, hdone⟩
      have inner := forLoop_inv
        (fun y (m : List R) => m.length = W * H ∧
          (∀ x', x' < x → ∀ y', y' < H → m[x' + y' * W]? = some (v x' y')) ∧
          ∀ y', y' < y → m[x + y' * W]? = some (v x y')) H
        (fun y (m : List R) => do
          let sum ← conv_sum f h W H Wk Hk a b x y
          store m ((x : Int) + y * W) (sum / div)) m
        ⟨hlen, hdone, fun y' hy' => absurd hy' (Nat.not_lt_zero y')⟩
        (by
          intro y hy m' ⟨hlen', hdone', hrow⟩
          have hp := pix_lt W H x y hx hy
          refine ⟨m'.set (x + y * W) (v x y), ?_, by simp [hlen'], ?_, ?_⟩
          · dsimp only
            rw [conv_sum_eq f h W H Wk Hk a b x y hW hH ha hb hf hh]
            have hc : (x : Int) + y * W = ((x + y * W : Nat) : Int) := by push_cast; ring
            simp only [Option.bind_eq_bind, Option.some_bind, hc]
            exact store_eq_some m' _ _ (by rw [hlen']; exact hp)
          · intro x' hx' y' hy'
            rw [List.getElem?_set]
            have hne : x + y * W ≠ x' + y' * W := by
              intro he
              have := (pix_inj W x y x' y' hx (by omega) he).1
              omega
            simp only [hne, if_false]
            exact hdone' x' hx' y' hy'
          · intro y' hy'
            rw [List.getElem?_set]
            by_cases he : y = y'
            · subst he
              simp [hlen', hp]
            · have hne : x + y * W ≠ x + y' * W := by
                intro he'
                exact he (pix_inj W x y x y' hx hx he').2
              simp only [hne, if_false]
              exact hrow y' (by omega))
      obtain ⟨m', h1, h2, h3, h4⟩ := inner
      refine ⟨m', h1, h2, ?_⟩
      intro x' hx' y' hy'
      by_cases he : x' = x
      · subst he
        exact h4 y' hy'
      · exact h3 x' (by omega) y' hy')
  obtain ⟨m', h1, h2, h3⟩ := key
  rw [h1]
  congr 1
  unfold toroidal_map
  apply list_eq_of_getElem? m' (W * H) _ h2
  intro p hp
  have hWpos : 0 < W := hW
  have := h3 (p % W) (Nat.mod_lt p hWpos) (p / W) (by
    rw [Nat.div_lt_iff_lt_mul hWpos]; rw [Nat.mul_comm]; exact hp)
  rw [Nat.mod_add_div' p W] at this
  exact this

theorem conv_eq (in_maps out_maps : List (List R)) (h : List R) (W H Wk Hk : Nat) (a b : Int)
    (div : R) (hW : 1 ≤ W) (hH : 1 ≤ H) (ha : a ≤ W) (hb : b ≤ H) (hh : h.length = Wk * Hk)
    (hin : ∀ m ∈ in_maps, m.length = W * H) (hout : ∀ m ∈ out_maps, m.length = W * H)
    (hlen : out_maps.length = in_maps.length) :
    _conv in_maps h (in_maps.length : Int) W H Wk Hk a b div out_maps =
      some (in_maps.map (fun f => toroidal_map f h W H Wk Hk a b div)) := by
  unfold _conv
  simp only [Int.toNat_ofNat]
  obtain ⟨res, h1, h2, h3, -⟩ := forLoop_pointwise in_maps.length out_maps
    (fun k => toroidal_map (in_maps.getD k []) h W H Wk Hk a b div)
    (fun k out_maps => do
      let f ← load in_maps k
      let map ← load out_maps k
      let map ← conv_channel f h W H Wk Hk a b div map
      store out_maps k map) (le_of_eq hlen.symm)
    (by
      intro k hk m hml hm
      dsimp only
      have hk' : k < out_maps.length := by omega
      have hmk : m[k]? = some out_maps[k] := by
        rw [hm k (le_refl k), List.getElem?_eq_getElem hk']
      have hmk' : k < m.length := by omega
      rw [load_nat_getD in_maps k [] hk]
      rw [load_eq_some m k hmk']
      have e : m[k] = out_maps[k] := by
        rw [List.getElem?_eq_getElem hmk'] at hmk
        exact Option.some.inj hmk
      simp only [Option.bind_eq_bind, Option.some_bind]
      rw [conv_channel_eq (in_maps.getD k []) h W H Wk Hk a b div m[k] hW hH ha hb
        (by rw [List.getD_eq_getElem in_maps [] hk]; exact hin _ (List.getElem_mem _))
        hh (by rw [e]; exact hout _ (List.getElem_mem _))]
      simp only [Option.some_bind]
      exact store_eq_some m k _ hmk')
  rw [h1]
  congr 1
  apply List.ext_getElem?
  intro p
  by_cases hp : p < in_maps.length
  · rw [h3 p hp]
    simp [List.getElem?_eq_getElem hp, List.getD_eq_getElem in_maps [] hp]
  · rw [List.getElem?_eq_none (by omega), List.getElem?_eq_none (by simp; omega)]

/-- When the half-extents of the kernel do not exceed the image dimensions, `_conv` does not
fault and leaves in every output pixel `(x, y)` of every channel the reversed kernel sum with
periodic wraparound of section 4.2, divided by the divisor. -/
theorem conv_writes_toroidal_sum (in_maps out_maps : List (List R)) (h : List R)
    (W H Wk Hk : Nat) (div : R) (hW : 1 ≤ W) (hH : 1 ≤ H)
    (_hWk : Wk % 2 = 1) (_hHk : Hk % 2 = 1) (ha : Wk / 2 ≤ W) (hb : Hk / 2 ≤ H)
    (_hdiv : div ≠ 0) (hh : h.length = Wk * Hk)
    (hin : ∀ m ∈ in_maps, m.length = W * H) (hout : ∀ m ∈ out_maps, m.length = W * H)
    (hlen : out_maps.length = in_maps.length) :
    ∃ res, _conv in_maps h (in_maps.length : Int) W H Wk Hk ((Wk / 2 : Nat) : Int)
        ((Hk / 2 : Nat) : Int) div out_maps = some res ∧
      res.length = in_maps.length ∧
      ∀ k x y : Nat, k < in_maps.length → x < W → y < H →
        ∃ f map, in_maps[k]? = some f ∧ res[k]? = some map ∧ map.length = W * H ∧
          map[y * W + x]? = some
            ((∑ i in Finset.range Wk, ∑ j in Finset.range Hk,
              h.getD ((Hk - j - 1) * Wk + (Wk - i - 1)) 0 *
                f.getD ((((y : Int) - (Hk / 2 : Nat) + j) % H) * W +
                  (((x : Int) - (Wk / 2 : Nat) + i) % W)).toNat 0) / div) := by
  refine ⟨_, conv_eq in_maps out_maps h W H Wk Hk _ _ div hW hH (by exact_mod_cast ha)
    (by exact_mod_cast hb) hh hin hout hlen, by simp, ?_⟩
  intro k x y hk hx hy
  have hp : y * W + x < W * H := by
    have := pix_lt W H x y hx hy
    omega
  refine ⟨in_maps[k], toroidal_map in_maps[k] h W H Wk Hk ((Wk / 2 : Nat) : Int)
    ((Hk / 2 : Nat) : Int) div,
    List.getElem?_eq_getElem hk, by rw [List.getElem?_map, List.getElem?_eq_getElem hk]; rfl,
    by simp [toroidal_map], ?_⟩
  have hmod : (y * W + x) % W = x := by
    rw [Nat.add_comm, Nat.add_mul_mod_self_right, Nat.mod_eq_of_lt hx]
  have hdv : (y * W + x) / W = y := by
    rw [Nat.add_comm, Nat.add_mul_div_right _ _ (by omega), Nat.div_eq_of_lt hx, Nat.zero_add]
  simp only [toroidal_map, List.getElem?_map, List.getElem?_range hp, Option.map_some', hmod, hdv]
  rfl

/-- Claim C1 at a failing input: for a 2x1 image and a 7x1 kernel (`a = 3`, an odd width that
`conv` accepts) the first column index is `(0 - 3 + 2 + 0) % 2 = -1` in C++, not the wrapped
coordinate `1`, and `_conv` reads outside the pixel map.  The source adds `w1` once before the
remainder, with the comment that this makes `%` work; for `a > w1` it does not. -/
theorem conv_wide_kernel_faults :
    Int.tmod ((0 : Int) - 3 + 2 + 0) 2 = -1 ∧ ((0 : Int) - 3 + 0) % 2 = 1 ∧
      _conv ([[1, 2]] : List (List ℚ)) [1, 2, 3, 4, 5, 6, 7] 1 2 1 7 1 3 0 28 [[0, 0]] = none := by
  refine ⟨by decide, by decide, ?_⟩
  have e : Int.tmod (-1) 2 = -1 := by decide
  simp [_conv, forLoop, load, conv_channel, conv_sum, conv_term, List.range, List.range.loop, e]

theorem conv_writes_toroidal_sum_witness :
    ∃ res, _conv ([[1, 2, 3, 4, 5, 6]] : List (List ℚ)) [1, 2, 3] (1 : Nat) (3 : Nat) (2 : Nat)
        (3 : Nat) (1 : Nat) ((3 / 2 : Nat) : Int) ((1 / 2 : Nat) : Int) 6 [[0, 0, 0, 0, 0, 0]] =
          some res ∧
      res.length = 1 ∧
      ∀ k x y : Nat, k < 1 → x < 3 → y < 2 →
        ∃ f map, ([[1, 2, 3, 4, 5, 6]] : List (List ℚ))[k]? = some f ∧ res[k]? = some map ∧
          map.length = 3 * 2 ∧
          map[y * 3 + x]? = some
            ((∑ i in Finset.range 3, ∑ j in Finset.range 1,
              ([1, 2, 3] : List ℚ).getD ((1 - j - 1) * 3 + (3 - i - 1)) 0 *
                f.getD ((((y : Int) - (1 / 2 : Nat) + j) % (2 : Nat)) * (3 : Nat) +
                  (((x : Int) - (3 / 2 : Nat) + i) % (3 : Nat))).toNat 0) / 6) :=
  conv_writes_toroidal_sum [[1, 2, 3, 4, 5, 6]] [[0, 0, 0, 0, 0, 0]] [1, 2, 3] 3 2 3 1 6
    (by decide) (by decide) (by decide) (by decide) (by decide) (by decide) (by norm_num)
    (by decide) (by simp) (by simp) (by decide)

theorem wf_dims {image : IMAGE R} (hi : image.WF) :
    ∃ W H C : Nat, 1 ≤ W ∧ 1 ≤ H ∧ (C = 1 ∨ C = 3) ∧ image.width = W ∧ image.height = H ∧
      image.channels = C ∧ image.map.length = C ∧ ∀ m ∈ image.map, m.length = W * H := by
  obtain ⟨hc, hw, hh, hl, hm⟩ := hi
  refine ⟨image.width.toNat, image.height.toNat, image.channels.toNat, by omega, by omega,
    by omega, by omega, by omega, by omega, hl, ?_⟩
  intro m hmem
  rw [hm m hmem]
  have h1 : image.width = (image.width.toNat : Int) := by omega
  have h2 : image.height = (image.height.toNat : Int) := by omega
  conv_lhs => rw [h1, h2]
  rw [← Int.toNat_ofNat (image.width.toNat * image.height.toNat)]
  push_cast
  rfl

theorem psf_dims {psf : IMAGE R} (hp : psf.isPSF) :
    ∃ Wk Hk : Nat, Wk % 2 = 1 ∧ Hk % 2 = 1 ∧ psf.width = Wk ∧ psf.height = Hk ∧
      psf.channels = 1 ∧ psf.map = [psf.weights] ∧ psf.weights.length = Wk * Hk := by
  obtain ⟨hwf, hc, hw, hh⟩ := hp
  obtain ⟨W, H, C, hW, hH, -, hw', hh', hc', hl, hm⟩ := wf_dims hwf
  have hC : C = 1 := by omega
  subst hC
  have hmap : psf.map = [psf.weights] := by
    unfold IMAGE.weights
    match hq : psf.map, hl with
    | [m], _ => rfl
  refine ⟨W, H, by omega, by omega, hw', hh', hc, hmap, ?_⟩
  exact hm _ (by rw [hmap]; simp)

theorem sum_range_getD (l : List R) : ∑ p in Finset.range l.length, l.getD p 0 = l.sum := by
  induction l with
  | nil => simp
  | cons a l ih =>
    rw [List.length_cons, Finset.sum_range_succ', List.sum_cons]
    simp only [List.getD_cons_succ, List.getD_cons_zero]
    rw [ih, add_comm]

theorem sum_range_mul (w h : Nat) (g : Nat → R) :
    ∑ i in Finset.range w, ∑ j in Finset.range h, g (i * h + j) =
      ∑ p in Finset.range (w * h), g p := by
  induction w with
  | zero => simp
  | succ w ih =>
    rw [Finset.sum_range_succ, ih, Nat.succ_mul, Finset.sum_range_add]

theorem sum_kernel_reversed (Wk Hk : Nat) (g : Nat → R) :
    ∑ i in Finset.range Wk, ∑ j in Finset.range Hk, g ((Hk - j - 1) * Wk + (Wk - i - 1)) =
      ∑ p in Finset.range (Wk * Hk), g p := by
  have e1 : ∀ i, ∑ j in Finset.range Hk, g ((Hk - j - 1) * Wk + (Wk - i - 1)) =
      ∑ j in Finset.range Hk, g (j * Wk + (Wk - 1 - i)) := by
    intro i
    rw [← Finset.sum_range_reflect (fun j => g (j * Wk + (Wk - 1 - i))) Hk]
    apply Finset.sum_congr rfl
    intro j _
    have : Hk - j - 1 = Hk - 1 - j := by omega
    have : Wk - i - 1 = Wk - 1 - i := by omega
    simp only [*]
  simp only [e1]
  rw [Finset.sum_comm]
  have e2 : ∀ j, ∑ i in Finset.range Wk, g (j * Wk + (Wk - 1 - i)) =
      ∑ i in Finset.range Wk, g (j * Wk + i) := by
    intro j
    exact Finset.sum_range_reflect (fun i => g (j * Wk + i)) Wk
  simp only [e2]
  rw [sum_range_mul, Nat.mul_comm]

theorem getPSFDivisor_eq (psf : IMAGE R) (hp : psf.isPSF) :
    getPSFDivisor psf = some psf.weights.sum := by
  obtain ⟨Wk, Hk, -, -, hw, hh, -, hmap, hlen⟩ := psf_dims hp
  unfold getPSFDivisor
  rw [hmap, hw, hh]
  simp only [Int.toNat_ofNat]
  have hl : load [psf.weights] (0 : Int) = some psf.weights := by simp [load]
  rw [hl]
  simp only [Option.bind_eq_bind, Option.some_bind]
  rw [forLoop_sum Wk _ (fun i => ∑ j in Finset.range Hk, psf.weights.getD (i * Hk + j) 0)]
  · rw [sum_range_mul Wk Hk (fun p => psf.weights.getD p 0), ← hlen, sum_range_getD, zero_add]
  · intro i hi s
    apply forLoop_sum Hk _ (fun j => psf.weights.getD (i * Hk + j) 0)
    intro j hj s'
    have hc : (i : Int) * Hk + j = ((i * Hk + j : Nat) : Int) := by push_cast; ring
    have hlt : i * Hk + j < psf.weights.length := by
      rw [hlen]
      have : (i + 1) * Hk ≤ Wk * Hk := Nat.mul_le_mul_right Hk hi
      nlinarith
    rw [hc, load_nat_getD _ _ 0 hlt]
    rfl

theorem createImage_eq (W H C : Nat) (hC : C ≤ 3) :
    (createImage (W : Int) H C : Option (Option (IMAGE R))) =
      some (some { map := List.replicate C (List.replicate (W * H) 0),
                   channels := C, width := W, height := H }) := by
  unfold createImage
  have h1 : ¬ ((W : Int) < 0 ∨ (H : Int) < 0) := by omega
  have h2 : ¬ (3 < (C : Int)) := by omega
  rw [if_neg h1, if_neg h2]
  have h3 : ((W : Int) * H).toNat = W * H := by
    rw [← Int.toNat_ofNat (W * H)]; push_cast; rfl
  simp only [Int.toNat_ofNat, h3]

theorem conv_image_eq (image psf : IMAGE R) (hi : image.WF) (hp : psf.isPSF)
    (ha : psf.width / 2 ≤ image.width) (hb : psf.height / 2 ≤ image.height)
    (hd : psf.weights.sum ≠ 0) :
    conv image psf = some (some (conv_image image psf)) := by
  obtain ⟨W, H, C, hW, hH, hC, hw, hh, hc, hl, hm⟩ := wf_dims hi
  obtain ⟨Wk, Hk, hWk, hHk, hwk, hhk, hck, hmap, hlen⟩ := psf_dims hp
  unfold conv conv_image
  rw [getPSFDivisor_eq psf hp]
  have c1 : ¬ (1 < psf.channels) := by omega
  have c2 : ¬ (Int.tmod psf.width 2 ≠ 1 ∨ Int.tmod psf.height 2 ≠ 1) := by
    rw [hwk, hhk, Int.tmod_eq_emod (by omega) (by omega), Int.tmod_eq_emod (by omega) (by omega)]
    omega
  have c3 : load psf.map (0 : Int) = some psf.weights := by rw [hmap]; simp [load]
  simp only [if_neg c1, if_neg c2, c3, Option.bind_eq_bind, Option.some_bind, if_neg hd]
  rw [hw, hh, hc, createImage_eq W H C (by omega)]
  simp only [Option.some_bind]
  have ea : Int.tdiv psf.width 2 = psf.width / 2 := by
    rw [hwk]; exact Int.tdiv_eq_ediv (by omega) (by omega)
  have eb : Int.tdiv psf.height 2 = psf.height / 2 := by
    rw [hhk]; exact Int.tdiv_eq_ediv (by omega) (by omega)
  rw [ea, eb, hwk, hhk]
  have key := conv_eq image.map (List.replicate C (List.replicate (W * H) (0 : R))) psf.weights
    W H Wk Hk ((Wk : Int) / 2) ((Hk : Int) / 2) psf.weights.sum hW hH
    (by rw [← hwk, ← hw]; exact ha) (by rw [← hhk, ← hh]; exact hb) hlen hm
    (by intro m hmem; rw [List.eq_of_mem_replicate hmem]; simp)
    (by simp [hl])
  rw [hl] at key
  rw [key]
  simp only [Option.some_bind, Int.toNat_ofNat]
  rfl

/-- Claim C7: `conv` maps a uniform image (every pixel of every channel equal to `c`) to an
image of the same shape whose pixels all equal `c`, for every single-channel PSF of odd
dimensions no larger than the image and with a nonzero divisor. -/
theorem conv_uniform_fixed (image psf : IMAGE R) (c : R) (hi : image.WF) (hp : psf.isPSF)
    (hw : psf.width ≤ image.width) (hh : psf.height ≤ image.height)
    (hd : psf.weights.sum ≠ 0) (hc : ∀ m ∈ image.map, ∀ v ∈ m, v = c) :
    ∃ res, conv image psf = some (some res) ∧ res.WF ∧ res.width = image.width ∧
      res.height = image.height ∧ res.channels = image.channels ∧
      ∀ m ∈ res.map, ∀ v ∈ m, v = c := by
  obtain ⟨W, H, C, hW, hH, hC, hw', hh', hc', hl, hm⟩ := wf_dims hi
  obtain ⟨Wk, Hk, hWk, hHk, hwk, hhk, hck, hmap, hlen⟩ := psf_dims hp
  have hres : conv_image image psf = image := by
    unfold conv_image
    have hmaps : image.map.map (fun f => toroidal_map f psf.weights image.width.toNat
        image.height.toNat psf.width.toNat psf.height.toNat (psf.width / 2) (psf.height / 2)
        psf.weights.sum) = image.map := by
      conv_rhs => rw [← List.map_id image.map]
      apply List.map_congr_left
      intro f hf
      rw [hw', hh', hwk, hhk]
      simp only [Int.toNat_ofNat, id]
      have hfl := hm f hf
      have hfc : f = (List.range (W * H)).map (fun _ => c) := by
        apply list_eq_of_getElem? f (W * H) _ hfl
        intro p hp'
        rw [List.getElem?_eq_getElem (by omega)]
        exact congrArg some (hc f hf _ (List.getElem_mem _))
      conv_rhs => rw [hfc]
      unfold toroidal_map
      apply List.map_congr_left
      intro p hp'
      unfold toroidal_sum
      have hterm : ∀ i j : Nat, f.getD (((((p / W : Nat) : Int) - (Hk : Int) / 2 + j) % H) * W +
          ((((p % W : Nat) : Int) - (Wk : Int) / 2 + i) % W)).toNat 0 = c := by
        intro i j
        obtain ⟨h0, h1⟩ := pixel_index_lt W H (((p % W : Nat) : Int) - (Wk : Int) / 2 + i)
          (((p / W : Nat) : Int) - (Hk : Int) / 2 + j) hW hH
        rw [List.getD_eq_getElem f 0 (by omega)]
        exact hc f hf _ (List.getElem_mem _)
      simp only [hterm]
      simp only [← Finset.sum_mul]
      rw [sum_kernel_reversed Wk Hk (fun q => psf.weights.getD q 0), ← hlen, sum_range_getD]
      field_simp
    rw [hmaps]
  have hconv := conv_image_eq image psf hi hp (by omega) (by omega) hd
  rw [hres] at hconv
  exact ⟨image, hconv, hi, rfl, rfl, rfl, hc⟩

theorem conv_uniform_fixed_witness :
    ∃ res, conv ({ map := [List.replicate 16 (1 / 2)], channels := 1, width := 4, height := 4 } :
        IMAGE ℚ) { map := [List.replicate 9 1], channels := 1, width := 3, height := 3 } =
          some (some res) ∧ res.WF ∧ res.width = 4 ∧ res.height = 4 ∧ res.channels = 1 ∧
      ∀ m ∈ res.map, ∀ v ∈ m, v = 1 / 2 :=
  conv_uniform_fixed
    ({ map := [List.replicate 16 (1 / 2)], channels := 1, width := 4, height := 4 } : IMAGE ℚ)
    ({ map := [List.replicate 9 1], channels := 1, width := 3, height := 3 } : IMAGE ℚ)
    (1 / 2 : ℚ)
    (by simp [IMAGE.WF]) (by simp [IMAGE.isPSF, IMAGE.WF]) (by decide) (by decide)
    (by simp [IMAGE.weights]; norm_num) (by simp)

theorem list_ext_of_getElem? {α : Type} (l l' : List α) (n : Nat) (hl : l.length = n)
    (hl' : l'.length = n) (h : ∀ p, p < n → l[p]? = l'[p]?) : l = l' := by
  apply List.ext_getElem?
  intro p
  by_cases hp : p < n
  · exact h p hp
  · rw [List.getElem?_eq_none (by omega), List.getElem?_eq_none (by omega)]

theorem list_set_self {α : Type} (l : List α) (j : Nat) (h : j < l.length) :
    l.set j l[j] = l := by
  apply List.ext_getElem?
  intro p
  rw [List.getElem?_set]
  by_cases hp : j = p
  · subst hp
    simp [h]
  · simp [hp]

/-- The inner loop of `copyImage` copies channel `j`. -/
theorem copy_channel_eq (image img : IMAGE R) (j n : Nat) (src : List R)
    (hj : j < img.map.length) (hsrc : image.map[j]? = some src) (hn : src.length = n)
    (hd : ∀ m ∈ img.map, m.length = n) :
    forLoop n (fun i (ni : Option (IMAGE R)) => do
        let dst_image ← ni
        let src ← load image.map j
        let v ← load src i
        let dst ← load dst_image.map j
        let dst ← store dst i v
        let maps ← store dst_image.map j dst
        pure (some { dst_image with map := maps })) (some img) =
      some (some { img with map := img.map.set j src }) := by
  have hjs : j < image.map.length := by
    by_contra hc
    rw [List.getElem?_eq_none (by omega)] at hsrc
    exact absurd hsrc (by simp)
  have key := forLoop_inv
    (fun i (st : Option (IMAGE R)) => ∃ d : List R, st = some { img with map := img.map.set j d } ∧
      d.length = n ∧ ∀ q, q < i → d[q]? = src[q]?) n
    (fun i (ni : Option (IMAGE R)) => do
        let dst_image ← ni
        let src ← load image.map j
        let v ← load src i
        let dst ← load dst_image.map j
        let dst ← store dst i v
        let maps ← store dst_image.map j dst
        pure (some { dst_image with map := maps })) (some img)
    ⟨img.map[j], by rw [list_set_self _ _ hj], hd _ (List.getElem_mem _),
      fun q hq => absurd hq (Nat.not_lt_zero q)⟩
    (by
      rintro i hi st ⟨d, rfl, hdl, hdq⟩
      refine ⟨some { img with map := img.map.set j (d.set i src[i]) }, ?_,
        d.set i src[i], rfl, by simp [hdl], ?_⟩
      · have e1 : load image.map (j : Int) = some src := by
          rw [load_eq_some image.map j hjs, ← hsrc, List.getElem?_eq_getElem hjs]
        have e2 : load src (i : Int) = some src[i] := load_eq_some src i (by omega)
        have e3 : load (img.map.set j d) (j : Int) = some d := by
          rw [load_eq_some _ j (by simp [hj])]
          simp
        have e4 : store d (i : Int) src[i] = some (d.set i src[i]) :=
          store_eq_some d i _ (by omega)
        have e5 : store (img.map.set j d) (j : Int) (d.set i src[i]) =
            some (img.map.set j (d.set i src[i])) := by
          rw [store_eq_some _ j _ (by simp [hj]), List.set_set]
        simp only [Option.bind_eq_bind, Option.some_bind, e1, e2, e3, e4, e5]
        rfl
      · intro q hq
        rw [List.getElem?_set]
        by_cases hqi : i = q
        · subst hqi
          simp [hdl, hi, List.getElem?_eq_getElem (show i < src.length by omega)]
        · simp only [hqi, if_false]
          exact hdq q (by omega))
  obtain ⟨st, h1, d, rfl, hdl, hdq⟩ := key
  rw [h1]
  have : d = src := list_ext_of_getElem? d src n hdl hn hdq
  rw [this]

theorem copyImage_eq (image : IMAGE R) (hi : image.WF) :
    copyImage (some image) = some (some image) := by
  obtain ⟨W, H, C, hW, hH, hC, hw, hh, hc, hl, hm⟩ := wf_dims hi
  unfold copyImage
  simp only []
  rw [hw, hh, hc, createImage_eq W H C (by omega)]
  simp only [Option.bind_eq_bind, Option.some_bind, Int.toNat_ofNat]
  have e : ((W : Int) * H).toNat = W * H := by
    rw [← Int.toNat_ofNat (W * H)]; push_cast; rfl
  rw [e]
  have key := forLoop_inv
    (fun j (st : Option (IMAGE R)) => ∃ maps : List (List R),
      st = some { map := maps, channels := C, width := W, height := H } ∧ maps.length = C ∧
      (∀ m ∈ maps, m.length = W * H) ∧ ∀ p, p < j → maps[p]? = image.map[p]?) C
    (fun j (ni : Option (IMAGE R)) =>
      forLoop (W * H) (fun i (ni : Option (IMAGE R)) => do
        let dst_image ← ni
        let src ← load image.map j
        let v ← load src i
        let dst ← load dst_image.map j
        let dst ← store dst i v
        let maps ← store dst_image.map j dst
        pure (some { dst_image with map := maps })) ni)
    (some { map := List.replicate C (List.replicate (W * H) 0), channels := C, width := W,
            height := H })
    ⟨_, rfl, by simp, fun m hmem => by rw [List.eq_of_mem_replicate hmem]; simp,
      fun p hp => absurd hp (Nat.not_lt_zero p)⟩
    (by
      rintro j hj st ⟨maps, rfl, hml, hmm, hmp⟩
      have hjs : j < image.map.length := by omega
      refine ⟨_, copy_channel_eq image _ j (W * H) image.map[j] (by simpa [hml] using hj)
        (List.getElem?_eq_getElem hjs) (hm _ (List.getElem_mem _)) hmm, _, rfl, by simp [hml],
        ?_, ?_⟩
      · intro m hmem
        rcases List.mem_or_eq_of_mem_set hmem with h1 | h1
        · exact hmm m h1
        · rw [h1]; exact hm _ (List.getElem_mem _)
      · intro p hp
        simp only [List.getElem?_set]
        by_cases hpj : j = p
        · subst hpj
          simp [hml, hj, List.getElem?_eq_getElem hjs]
        · simp only [hpj, if_false]
          exact hmp p (by omega))
  obtain ⟨st, h1, maps, rfl, hml, hmm, hmp⟩ := key
  simp only [Option.bind_eq_bind] at h1
  rw [h1]
  have : maps = image.map := list_ext_of_getElem? maps image.map C hml hl hmp
  rw [this]
  congr 2
  cases image
  simp_all

theorem createImage_like (image : IMAGE R) (hi : image.WF) :
    (createImage image.width image.height image.channels : Option (Option (IMAGE R))) =
      some (some (black_image image)) := by
  obtain ⟨hc, hw, hh, -, -⟩ := hi
  unfold createImage black_image
  rw [if_neg (by omega), if_neg (by omega)]

theorem psf_checks (psf : IMAGE R) (hp : psf.isPSF) :
    ¬ (1 < psf.channels) ∧ ¬ (Int.tmod psf.width 2 ≠ 1 ∨ Int.tmod psf.height 2 ≠ 1) ∧
      load psf.map (0 : Int) = some psf.weights ∧
      Int.tdiv psf.width 2 = psf.width / 2 ∧ Int.tdiv psf.height 2 = psf.height / 2 := by
  obtain ⟨Wk, Hk, hWk, hHk, hwk, hhk, hck, hmap, hlen⟩ := psf_dims hp
  refine ⟨by omega, ?_, by rw [hmap]; simp [load], ?_, ?_⟩
  · rw [hwk, hhk, Int.tmod_eq_emod (by omega) (by omega), Int.tmod_eq_emod (by omega) (by omega)]
    omega
  · rw [hwk]; exact Int.tdiv_eq_ediv (by omega) (by omega)
  · rw [hhk]; exact Int.tdiv_eq_ediv (by omega) (by omega)

theorem mirror_psf_eq (h h_inv : List R) (n : Nat) (hh : h.length = n) (hi : h_inv.length = n) :
    mirror_psf h (n : Int) h_inv = some h.reverse := by
  unfold mirror_psf
  simp only [Int.toNat_ofNat]
  obtain ⟨res, h1, h2, h3, -⟩ := forLoop_pointwise n h_inv (fun i => h.getD (n - 1 - i) 0)
    (fun i (h_inv : List R) => do
      let v ← load h ((n : Int) - i - 1)
      store h_inv i v) (le_of_eq hi.symm)
    (by
      intro i hlt m hml _
      have e : (n : Int) - i - 1 = ((n - 1 - i : Nat) : Int) := by omega
      simp only [e]
      rw [load_nat_getD h _ 0 (by omega)]
      simp only [Option.bind_eq_bind, Option.some_bind]
      exact store_eq_some m i _ (by omega))
  simp only [Option.bind_eq_bind] at h1
  simp only [Option.bind_eq_bind]
  rw [h1]
  congr 1
  apply list_ext_of_getElem? res h.reverse n (by omega) (by simp [hh])
  intro p hp
  rw [h3 p hp, List.getElem?_reverse (by omega), hh, List.getD_eq_getElem?_getD,
    List.getElem?_eq_getElem (show n - 1 - p < h.length by omega)]
  rfl

theorem createImage_psf (psf : IMAGE R) (hp : psf.isPSF) :
    ∃ z : List R, z.length = psf.weights.length ∧
      (createImage psf.width psf.height 1 : Option (Option (IMAGE R))) =
        some (some { map := [z], channels := 1, width := psf.width, height := psf.height }) := by
  obtain ⟨Wk, Hk, hWk, hHk, hwk, hhk, hck, hmap, hlen⟩ := psf_dims hp
  refine ⟨List.replicate (Wk * Hk) 0, by simp [hlen], ?_⟩
  rw [hwk, hhk]
  exact createImage_eq Wk Hk 1 (by omega)

/-- The prologue of `deconvlucy` for a well-formed image and a valid PSF. -/
theorem deconvlucy_unfold (image psf : IMAGE R) (iterations : Int) (hi : image.WF)
    (hp : psf.isPSF) :
    deconvlucy image psf iterations =
      if psf.weights.sum = 0 then some none
      else lucy_iterations image.map psf.weights psf.weights.reverse image.channels image.width
        image.height psf.width psf.height (psf.width / 2) (psf.height / 2) psf.weights.sum
        iterations (some image) (some (black_image image)) (some (black_image image)) := by
  obtain ⟨c1, c2, c3, ea, eb⟩ := psf_checks psf hp
  obtain ⟨z, hz, hcz⟩ := createImage_psf psf hp
  obtain ⟨Wk, Hk, hWk, hHk, hwk, hhk, hck, hmap, hlen⟩ := psf_dims hp
  unfold deconvlucy
  simp only [if_neg c1, if_neg c2]
  rw [copyImage_eq image hi, createImage_like image hi, hcz, c3, getPSFDivisor_eq psf hp]
  have hl : load [z] (0 : Int) = some z := by simp [load]
  have hm : mirror_psf psf.weights (psf.width * psf.height) z = some psf.weights.reverse := by
    have : psf.width * psf.height = ((Wk * Hk : Nat) : Int) := by rw [hwk, hhk]; push_cast; rfl
    rw [this]
    exact mirror_psf_eq psf.weights z (Wk * Hk) hlen (by omega)
  simp only [Option.bind_eq_bind, Option.some_bind, hl, hm, ea, eb]
  split_ifs <;> rfl

/-- Claim C6: with iteration count 0, `deconvlucy` returns an image with the width, height,
channel count and pixel values of the observed image, for every well-formed image and every
valid PSF (single channel, odd width and height, nonzero divisor). -/
theorem deconvlucy_zero_iterations (image psf : IMAGE R) (hi : image.WF) (hp : psf.isPSF)
    (hd : psf.weights.sum ≠ 0) :
    ∃ res, deconvlucy image psf 0 = some (some res) ∧ res.width = image.width ∧
      res.height = image.height ∧ res.channels = image.channels ∧ res.map = image.map := by
  refine ⟨image, ?_, rfl, rfl, rfl, rfl⟩
  rw [deconvlucy_unfold image psf 0 hi hp, if_neg hd]
  unfold lucy_iterations
  rw [if_pos (le_refl 0)]

theorem deconvlucy_zero_iterations_witness :
    ∃ res, deconvlucy ({ map := [[1, 2, 3, 4]], channels := 1, width := 2, height := 2 } : IMAGE ℚ)
        ({ map := [[1, 2, 0]], channels := 1, width := 3, height := 1 } : IMAGE ℚ) 0 =
          some (some res) ∧ res.width = 2 ∧ res.height = 2 ∧ res.channels = 1 ∧
      res.map = [[1, 2, 3, 4]] :=
  deconvlucy_zero_iterations
    ({ map := [[1, 2, 3, 4]], channels := 1, width := 2, height := 2 } : IMAGE ℚ)
    ({ map := [[1, 2, 0]], channels := 1, width := 3, height := 1 } : IMAGE ℚ)
    (by simp [IMAGE.WF]) (by simp [IMAGE.isPSF, IMAGE.WF]) (by simp [IMAGE.weights]; norm_num)

theorem conv_degenerate (image psf : IMAGE R) (hp : psf.isPSF) (hz : psf.weights.sum = 0) :
    conv image psf = some none := by
  obtain ⟨c1, c2, c3, -, -⟩ := psf_checks psf hp
  unfold conv
  simp only [if_neg c1, if_neg c2, c3, getPSFDivisor_eq psf hp, Option.bind_eq_bind,
    Option.some_bind, hz, if_true]
  rfl

theorem deconv_degenerate (image psf : IMAGE R) (hi : image.WF) (hp : psf.isPSF)
    (hz : psf.weights.sum = 0) : deconv image psf = some none := by
  obtain ⟨c1, c2, c3, -, -⟩ := psf_checks psf hp
  unfold deconv
  simp only [if_neg c1, if_neg c2, c3, getPSFDivisor_eq psf hp, copyImage_eq image hi,
    Option.bind_eq_bind, Option.some_bind, hz, if_true]
  rfl

theorem deconvinverse_degenerate (root : comp R) (image psf : IMAGE R) (hi : image.WF)
    (hp : psf.isPSF) (hz : psf.weights.sum = 0) : deconvinverse root image psf = some none := by
  obtain ⟨c1, c2, c3, -, -⟩ := psf_checks psf hp
  unfold deconvinverse
  simp only [if_neg c1, if_neg c2, c3, getPSFDivisor_eq psf hp, createImage_like image hi,
    Option.bind_eq_bind, Option.some_bind, hz, if_true]
  rfl

/-- Claim C8: for every well-formed image and every PSF image whose weights sum to exactly
zero, each of `conv`, `deconv`, `deconvinverse` and `deconvlucy` returns the null pointer (the
failure value), hence no output image. -/
theorem degenerate_filter_rejected (root : comp R) (image psf : IMAGE R) (iterations : Int)
    (hi : image.WF) (hp : psf.WF) (hz : psf.weights.sum = 0) :
    conv image psf = some none ∧ deconv image psf = some none ∧
      deconvinverse root image psf = some none ∧
      deconvlucy image psf iterations = some none := by
  by_cases hc : 1 < psf.channels
  · refine ⟨?_, ?_, ?_, ?_⟩
    · unfold conv; simp only [if_pos hc]
    · unfold deconv; simp only [if_pos hc]
    · unfold deconvinverse; simp only [if_pos hc]
    · unfold deconvlucy; simp only [if_pos hc]
  · by_cases ho : Int.tmod psf.width 2 ≠ 1 ∨ Int.tmod psf.height 2 ≠ 1
    · refine ⟨?_, ?_, ?_, ?_⟩
      · unfold conv; simp only [if_neg hc, if_pos ho]
      · unfold deconv; simp only [if_neg hc, if_pos ho]
      · unfold deconvinverse; simp only [if_neg hc, if_pos ho]
      · unfold deconvlucy; simp only [if_neg hc, if_pos ho]
    · have hpsf : psf.isPSF := by
        obtain ⟨h1, h2, h3, h4, h5⟩ := hp
        push_neg at ho
        have e1 := ho.1
        have e2 := ho.2
        rw [Int.tmod_eq_emod (by omega) (by omega)] at e1 e2
        exact ⟨⟨h1, h2, h3, h4, h5⟩, by omega, e1, e2⟩
      refine ⟨conv_degenerate image psf hpsf hz, deconv_degenerate image psf hi hpsf hz,
        deconvinverse_degenerate root image psf hi hpsf hz, ?_⟩
      rw [deconvlucy_unfold image psf iterations hi hpsf, if_pos hz]

theorem degenerate_filter_rejected_witness :
    conv ({ map := [[1, 2, 3, 4]], channels := 1, width := 2, height := 2 } : IMAGE ℚ)
        ({ map := [[0, 0, 0]], channels := 1, width := 3, height := 1 } : IMAGE ℚ) = some none ∧
      deconv ({ map := [[1, 2, 3, 4]], channels := 1, width := 2, height := 2 } : IMAGE ℚ)
        ({ map := [[0, 0, 0]], channels := 1, width := 3, height := 1 } : IMAGE ℚ) = some none ∧
      deconvinverse (⟨0, 1⟩ : comp ℚ)
        ({ map := [[1, 2, 3, 4]], channels := 1, width := 2, height := 2 } : IMAGE ℚ)
        ({ map := [[0, 0, 0]], channels := 1, width := 3, height := 1 } : IMAGE ℚ) = some none ∧
      deconvlucy ({ map := [[1, 2, 3, 4]], channels := 1, width := 2, height := 2 } : IMAGE ℚ)
        ({ map := [[0, 0, 0]], channels := 1, width := 3, height := 1 } : IMAGE ℚ) 10 =
          some none :=
  degenerate_filter_rejected (⟨0, 1⟩ : comp ℚ)
    ({ map := [[1, 2, 3, 4]], channels := 1, width := 2, height := 2 } : IMAGE ℚ)
    ({ map := [[0, 0, 0]], channels := 1, width := 3, height := 1 } : IMAGE ℚ) 10
    (by simp [IMAGE.WF]) (by simp [IMAGE.WF]) (by simp [IMAGE.weights])

/-- A loop `for (i < n) t[i] = op(g[i], t[i])` over the state `t`. -/
theorem forLoop_zip_right (op : R → R → R) (g t : List R) (n : Nat) (hg : g.length = n)
    (ht : t.length = n) :
    forLoop n (fun i (t : List R) => do
        let gv ← load g i
        let tv ← load t i
        store t i (op gv tv)) t = some (List.zipWith op g t) := by
  obtain ⟨res, h1, h2, h3, -⟩ := forLoop_pointwise n t (fun i => op (g.getD i 0) (t.getD i 0))
    (fun i (t : List R) => do
        let gv ← load g i
        let tv ← load t i
        store t i (op gv tv)) (le_of_eq ht.symm)
    (by
      intro i hi m hml hm
      have hmi : i < m.length := by omega
      have e : m[i] = t.getD i 0 := by
        have := hm i (le_refl i)
        rw [List.getElem?_eq_getElem hmi, List.getElem?_eq_getElem (by omega)] at this
        rw [List.getD_eq_getElem t 0 (by omega)]
        exact Option.some.inj this
      simp only [load_nat_getD g i 0 (show i < g.length by omega), load_eq_some m i hmi,
        Option.bind_eq_bind, Option.some_bind, e]
      exact store_eq_some m i _ hmi)
  simp only [Option.bind_eq_bind] at h1
  simp only [Option.bind_eq_bind]
  rw [h1]
  congr 1
  apply list_ext_of_getElem? res _ n (by omega) (by simp [hg, ht])
  intro p hp
  rw [h3 p hp, List.getElem?_zipWith, List.getElem?_eq_getElem (show p < g.length by omega),
    List.getElem?_eq_getElem (show p < t.length by omega), List.getD_eq_getElem g 0 (by omega),
    List.getD_eq_getElem t 0 (by omega)]

/-- A loop `for (i < n) g[i] = op(g[i], t[i])` over the state `g`. -/
theorem forLoop_zip_left (op : R → R → R) (g t : List R) (n : Nat) (hg : g.length = n)
    (ht : t.length = n) :
    forLoop n (fun i (g : List R) => do
        let gv ← load g i
        let tv ← load t i
        store g i (op gv tv)) g = some (List.zipWith op g t) := by
  obtain ⟨res, h1, h2, h3, -⟩ := forLoop_pointwise n g (fun i => op (g.getD i 0) (t.getD i 0))
    (fun i (g : List R) => do
        let gv ← load g i
        let tv ← load t i
        store g i (op gv tv)) (le_of_eq hg.symm)
    (by
      intro i hi m hml hm
      have hmi : i < m.length := by omega
      have e : m[i] = g.getD i 0 := by
        have := hm i (le_refl i)
        rw [List.getElem?_eq_getElem hmi, List.getElem?_eq_getElem (by omega)] at this
        rw [List.getD_eq_getElem g 0 (by omega)]
        exact Option.some.inj this
      simp only [load_nat_getD t i 0 (show i < t.length by omega), load_eq_some m i hmi,
        Option.bind_eq_bind, Option.some_bind, e]
      exact store_eq_some m i _ hmi)
  simp only [Option.bind_eq_bind] at h1
  simp only [Option.bind_eq_bind]
  rw [h1]
  congr 1
  apply list_ext_of_getElem? res _ n (by omega) (by simp [hg, ht])
  intro p hp
  rw [h3 p hp, List.getElem?_zipWith, List.getElem?_eq_getElem (show p < g.length by omega),
    List.getElem?_eq_getElem (show p < t.length by omega), List.getD_eq_getElem g 0 (by omega),
    List.getD_eq_getElem t 0 (by omega)]

theorem lucy_ratio_eq (image_map temp1 : List (List R)) (C n : Nat)
    (hi : image_map.length = C) (ht : temp1.length = C)
    (hil : ∀ m ∈ image_map, m.length = n) (htl : ∀ m ∈ temp1, m.length = n) :
    lucy_ratio image_map temp1 (C : Int) (n : Int) = some (lucy_ratio_maps image_map temp1) := by
  unfold lucy_ratio lucy_ratio_maps
  simp only [Int.toNat_ofNat]
  obtain ⟨res, h1, h2, h3, -⟩ := forLoop_pointwise C temp1
    (fun j => List.zipWith (fun x y => x / y) (image_map.getD j []) (temp1.getD j []))
    (fun j (temp1 : List (List R)) => do
      let t ← load temp1 j
      let g ← load image_map j
      let t ← forLoop n (fun i (t : List R) => do
        let gv ← load g i
        let tv ← load t i
        store t i (gv / tv)) t
      store temp1 j t) (le_of_eq ht.symm)
    (by
      intro j hj m hml hm
      have hmj : j < m.length := by omega
      have e : m[j] = temp1.getD j [] := by
        have := hm j (le_refl j)
        rw [List.getElem?_eq_getElem hmj, List.getElem?_eq_getElem (by omega)] at this
        rw [List.getD_eq_getElem temp1 [] (by omega)]
        exact Option.some.inj this
      have hz := forLoop_zip_right (fun x y => x / y) (image_map.getD j []) (temp1.getD j []) n
        (by rw [List.getD_eq_getElem image_map [] (by omega)]; exact hil _ (List.getElem_mem _))
        (by rw [List.getD_eq_getElem temp1 [] (by omega)]; exact htl _ (List.getElem_mem _))
      simp only [Option.bind_eq_bind] at hz
      simp only [load_nat_getD image_map j [] (show j < image_map.length by omega),
        load_eq_some m j hmj, Option.bind_eq_bind, Option.some_bind, e, hz]
      exact store_eq_some m j _ hmj)
  simp only [Option.bind_eq_bind] at h1
  simp only [Option.bind_eq_bind]
  rw [h1]
  congr 1
  apply list_ext_of_getElem? res _ C (by omega) (by simp [hi, ht])
  intro p hp
  rw [h3 p hp, List.getElem?_zipWith,
    List.getElem?_eq_getElem (show p < image_map.length by omega),
    List.getElem?_eq_getElem (show p < temp1.length by omega),
    List.getD_eq_getElem image_map [] (by omega), List.getD_eq_getElem temp1 [] (by omega)]

theorem lucy_update_eq (latent temp2 : List (List R)) (C n : Nat)
    (hi : latent.length = C) (ht : temp2.length = C)
    (hil : ∀ m ∈ latent, m.length = n) (htl : ∀ m ∈ temp2, m.length = n) :
    lucy_update latent temp2 (C : Int) (n : Int) =
      some (List.zipWith (fun g t => List.zipWith (fun x y => x * y) g t) latent temp2) := by
  unfold lucy_update
  simp only [Int.toNat_ofNat]
  obtain ⟨res, h1, h2, h3, -⟩ := forLoop_pointwise C latent
    (fun j => List.zipWith (fun x y => x * y) (latent.getD j []) (temp2.getD j []))
    (fun j (latent : List (List R)) => do
      let g ← load latent j
      let t ← load temp2 j
      let g ← forLoop n (fun i (g : List R) => do
        let gv ← load g i
        let tv ← load t i
        store g i (gv * tv)) g
      store latent j g) (le_of_eq hi.symm)
    (by
      intro j hj m hml hm
      have hmj : j < m.length := by omega
      have e : m[j] = latent.getD j [] := by
        have := hm j (le_refl j)
        rw [List.getElem?_eq_getElem hmj, List.getElem?_eq_getElem (by omega)] at this
        rw [List.getD_eq_getElem latent [] (by omega)]
        exact Option.some.inj this
      have hz := forLoop_zip_left (fun x y => x * y) (latent.getD j []) (temp2.getD j []) n
        (by rw [List.getD_eq_getElem latent [] (by omega)]; exact hil _ (List.getElem_mem _))
        (by rw [List.getD_eq_getElem temp2 [] (by omega)]; exact htl _ (List.getElem_mem _))
      simp only [Option.bind_eq_bind] at hz
      simp only [load_nat_getD temp2 j [] (show j < temp2.length by omega),
        load_eq_some m j hmj, Option.bind_eq_bind, Option.some_bind, e, hz]
      exact store_eq_some m j _ hmj)
  simp only [Option.bind_eq_bind] at h1
  simp only [Option.bind_eq_bind]
  rw [h1]
  congr 1
  apply list_ext_of_getElem? res _ C (by omega) (by simp [hi, ht])
  intro p hp
  rw [h3 p hp, List.getElem?_zipWith,
    List.getElem?_eq_getElem (show p < latent.length by omega),
    List.getElem?_eq_getElem (show p < temp2.length by omega),
    List.getD_eq_getElem latent [] (by omega), List.getD_eq_getElem temp2 [] (by omega)]

theorem toroidal_map_length (f h : List R) (W H Wk Hk : Nat) (a b : Int) (div : R) :
    (toroidal_map f h W H Wk Hk a b div).length = W * H := by
  simp [toroidal_map]

theorem zipWith_zipWith_length (op : R → R → R) (A B : List (List R)) (n : Nat)
    (hA : ∀ m ∈ A, m.length = n) (hB : ∀ m ∈ B, m.length = n) :
    ∀ m ∈ List.zipWith (fun g t => List.zipWith op g t) A B, m.length = n := by
  intro m hm
  obtain ⟨i, hi, rfl⟩ := List.getElem_of_mem hm
  simp only [List.length_zipWith] at hi
  simp only [List.getElem_zipWith, List.length_zipWith]
  rw [hA _ (List.getElem_mem _), hB _ (List.getElem_mem _), Nat.min_self]

/-- One pass of the iteration loop of `deconvlucy` in closed form. -/
theorem lucy_step_eq (image_map latent temp1 temp2 : List (List R)) (h : List R)
    (C W H Wk Hk : Nat) (a b : Int) (div : R) (hW : 1 ≤ W) (hH : 1 ≤ H) (ha : a ≤ W)
    (hb : b ≤ H) (hh : h.length = Wk * Hk)
    (hi : image_map.length = C) (hl : latent.length = C) (h1 : temp1.length = C)
    (h2 : temp2.length = C) (hil : ∀ m ∈ image_map, m.length = W * H)
    (hll : ∀ m ∈ latent, m.length = W * H) (h1l : ∀ m ∈ temp1, m.length = W * H)
    (h2l : ∀ m ∈ temp2, m.length = W * H) :
    lucy_step image_map h h.reverse (C : Int) W H Wk Hk a b div (latent, temp1, temp2) =
      some (lucy_next image_map latent h W H Wk Hk a b div,
        lucy_ratio_maps image_map (lucy_blurred latent h W H Wk Hk a b div),
        lucy_correction image_map latent h W H Wk Hk a b div) := by
  unfold lucy_step
  have e1 := conv_eq latent temp1 h W H Wk Hk a b div hW hH ha hb hh hll h1l (by omega)
  rw [hl] at e1
  have hbl : ∀ m ∈ lucy_blurred latent h W H Wk Hk a b div, m.length = W * H := by
    intro m hm
    simp only [lucy_blurred, List.mem_map] at hm
    obtain ⟨f, -, rfl⟩ := hm
    exact toroidal_map_length _ _ _ _ _ _ _ _ _
  have e2 := lucy_ratio_eq image_map (lucy_blurred latent h W H Wk Hk a b div) C (W * H) hi
    (by simp [lucy_blurred, hl]) hil hbl
  have hrl : ∀ m ∈ lucy_ratio_maps image_map (lucy_blurred latent h W H Wk Hk a b div),
      m.length = W * H := zipWith_zipWith_length _ _ _ _ hil hbl
  have hrlen : (lucy_ratio_maps image_map (lucy_blurred latent h W H Wk Hk a b div)).length = C := by
    simp [lucy_ratio_maps, lucy_blurred, hi, hl]
  have e3 := conv_eq (lucy_ratio_maps image_map (lucy_blurred latent h W H Wk Hk a b div)) temp2
    h.reverse W H Wk Hk a b div hW hH ha hb (by simp [hh]) hrl h2l (by omega)
  rw [hrlen] at e3
  have hcl : ∀ m ∈ lucy_correction image_map latent h W H Wk Hk a b div, m.length = W * H := by
    intro m hm
    simp only [lucy_correction, List.mem_map] at hm
    obtain ⟨f, -, rfl⟩ := hm
    exact toroidal_map_length _ _ _ _ _ _ _ _ _
  have e4 := lucy_update_eq latent (lucy_correction image_map latent h W H Wk Hk a b div) C (W * H)
    hl (by simp [lucy_correction, hrlen]) hll hcl
  have ec : ((W : Int) * H) = ((W * H : Nat) : Int) := by push_cast; rfl
  simp only [ec]
  simp only [Option.bind_eq_bind]
  rw [e1]
  simp only [Option.some_bind]
  rw [show List.map (fun f => toroidal_map f h W H Wk Hk a b div) latent =
    lucy_blurred latent h W H Wk Hk a b div from rfl, e2]
  simp only [Option.some_bind]
  rw [e3]
  simp only [Option.some_bind]
  rw [show List.map (fun f => toroidal_map f h.reverse W H Wk Hk a b div)
      (lucy_ratio_maps image_map (lucy_blurred latent h W H Wk Hk a b div)) =
    lucy_correction image_map latent h W H Wk Hk a b div from rfl, e4]
  rfl

theorem lucy_next_shape (image_map latent : List (List R)) (h : List R)
    (C W H Wk Hk : Nat) (a b : Int) (div : R)
    (hi : image_map.length = C) (hl : latent.length = C)
    (hil : ∀ m ∈ image_map, m.length = W * H) (hll : ∀ m ∈ latent, m.length = W * H) :
    (lucy_next image_map latent h W H Wk Hk a b div).length = C ∧
      ∀ m ∈ lucy_next image_map latent h W H Wk Hk a b div, m.length = W * H := by
  constructor
  · simp [lucy_next, lucy_correction, lucy_ratio_maps, lucy_blurred, hi, hl]
  · apply zipWith_zipWith_length _ _ _ _ hll
    intro m hm
    simp only [lucy_correction, List.mem_map] at hm
    obtain ⟨f, -, rfl⟩ := hm
    exact toroidal_map_length _ _ _ _ _ _ _ _ _

theorem lucy_iterate_shape (image_map : List (List R)) (h : List R)
    (C W H Wk Hk : Nat) (a b : Int) (div : R) (hi : image_map.length = C)
    (hil : ∀ m ∈ image_map, m.length = W * H) (n : Nat) :
    (lucy_iterate image_map h W H Wk Hk a b div n).length = C ∧
      ∀ m ∈ lucy_iterate image_map h W H Wk Hk a b div n, m.length = W * H := by
  induction n with
  | zero => exact ⟨hi, hil⟩
  | succ n ih => exact lucy_next_shape image_map _ h C W H Wk Hk a b div hi ih.1 hil ih.2

/-- The iteration loop of `deconvlucy` never faults on well-formed data and leaves the iterated
update in `latent`. -/
theorem lucy_loop_eq (image_map temp1 temp2 : List (List R)) (h : List R)
    (C W H Wk Hk : Nat) (a b : Int) (div : R) (hW : 1 ≤ W) (hH : 1 ≤ H) (ha : a ≤ W)
    (hb : b ≤ H) (hh : h.length = Wk * Hk)
    (hi : image_map.length = C) (h1 : temp1.length = C)
    (h2 : temp2.length = C) (hil : ∀ m ∈ image_map, m.length = W * H)
    (h1l : ∀ m ∈ temp1, m.length = W * H) (h2l : ∀ m ∈ temp2, m.length = W * H) (n : Nat) :
    ∃ t1 t2, forLoop n
        (fun _ st => lucy_step image_map h h.reverse (C : Int) W H Wk Hk a b div st)
        (image_map, temp1, temp2) =
      some (lucy_iterate image_map h W H Wk Hk a b div n, t1, t2) := by
  have key := forLoop_inv
    (fun k (st : List (List R) × List (List R) × List (List R)) =>
      st.1 = lucy_iterate image_map h W H Wk Hk a b div k ∧ st.2.1.length = C ∧
      st.2.2.length = C ∧ (∀ m ∈ st.2.1, m.length = W * H) ∧ ∀ m ∈ st.2.2, m.length = W * H) n
    (fun _ st => lucy_step image_map h h.reverse (C : Int) W H Wk Hk a b div st)
    (image_map, temp1, temp2) ⟨rfl, h1, h2, h1l, h2l⟩
    (by
      rintro k - ⟨lat, t1, t2⟩ ⟨hlat, ht1, ht2, ht1l, ht2l⟩
      simp only at hlat ht1 ht2 ht1l ht2l
      subst hlat
      obtain ⟨hs1, hs2⟩ := lucy_iterate_shape image_map h C W H Wk Hk a b div hi hil k
      refine ⟨_, lucy_step_eq image_map _ t1 t2 h C W H Wk Hk a b div hW hH ha hb hh hi hs1 ht1
        ht2 hil hs2 ht1l ht2l, rfl, ?_, ?_, ?_, ?_⟩
      · simp [lucy_ratio_maps, lucy_blurred, hi, hs1]
      · simp [lucy_correction, lucy_ratio_maps, lucy_blurred, hi, hs1]
      · apply zipWith_zipWith_length _ _ _ _ hil
        intro m hm
        simp only [lucy_blurred, List.mem_map] at hm
        obtain ⟨f, -, rfl⟩ := hm
        exact toroidal_map_length _ _ _ _ _ _ _ _ _
      · intro m hm
        simp only [lucy_correction, List.mem_map] at hm
        obtain ⟨f, -, rfl⟩ := hm
        exact toroidal_map_length _ _ _ _ _ _ _ _ _)
  obtain ⟨⟨lat, t1, t2⟩, hst, hlat, -⟩ := key
  simp only at hlat
  subst hlat
  exact ⟨t1, t2, hst⟩

theorem deconvlucy_eq (image psf : IMAGE R) (n : Nat) (hi : image.WF) (hp : psf.isPSF)
    (ha : psf.width / 2 ≤ image.width) (hb : psf.height / 2 ≤ image.height)
    (hd : psf.weights.sum ≠ 0) :
    deconvlucy image psf (n : Int) = some (some (lucy_image image psf n)) := by
  rw [deconvlucy_unfold image psf n hi hp, if_neg hd]
  unfold lucy_iterations
  by_cases hn : (n : Int) ≤ 0
  · rw [if_pos hn]
    have : n = 0 := by omega
    subst this
    rfl
  · rw [if_neg hn]
    obtain ⟨W, H, C, hW, hH, hC, hw, hh, hc, hl, hm⟩ := wf_dims hi
    obtain ⟨Wk, Hk, hWk, hHk, hwk, hhk, hck, hmap, hlen⟩ := psf_dims hp
    have hbm : (black_image image).map = List.replicate C (List.replicate (W * H) 0) := by
      unfold black_image
      rw [hw, hh, hc]
      have e : ((W : Int) * H).toNat = W * H := by
        rw [← Int.toNat_ofNat (W * H)]; push_cast; rfl
      simp only [Int.toNat_ofNat, e]
    have hbl : ∀ m ∈ (black_image image).map, m.length = W * H := by
      intro m hmem
      rw [hbm] at hmem
      rw [List.eq_of_mem_replicate hmem]; simp
    obtain ⟨t1, t2, hloop⟩ := lucy_loop_eq image.map (black_image image).map
      (black_image image).map psf.weights C W H Wk Hk ((Wk : Int) / 2) ((Hk : Int) / 2)
      psf.weights.sum hW hH (by rw [← hwk, ← hw]; exact ha) (by rw [← hhk, ← hh]; exact hb) hlen
      hl (by simp [hbm]) (by simp [hbm]) hm hbl hbl n
    unfold lucy_image
    simp only [Option.bind_eq_bind, Option.some_bind, Int.toNat_ofNat]
    rw [hw, hh, hc, hwk, hhk] at *
    simp only [Int.toNat_ofNat] at *
    rw [hloop]
    rfl

/-- Claim C10, amended: `deconvlucy` has no check of the blurred estimate.  For every
well-formed image, every valid PSF whose half-extents do not exceed the image and whose divisor
is not zero, and every iteration count, it reports no error and returns an image with the shape
of the observed one; this includes the runs in which a pixel of the blurred estimate is zero. -/
theorem deconvlucy_reports_no_error (image psf : IMAGE R) (n : Nat) (hi : image.WF)
    (hp : psf.isPSF) (ha : psf.width / 2 ≤ image.width) (hb : psf.height / 2 ≤ image.height)
    (hd : psf.weights.sum ≠ 0) :
    ∃ res, deconvlucy image psf (n : Int) = some (some res) ∧ res.WF ∧
      res.width = image.width ∧ res.height = image.height ∧ res.channels = image.channels := by
  refine ⟨lucy_image image psf n, deconvlucy_eq image psf n hi hp ha hb hd, ?_, rfl, rfl, rfl⟩
  obtain ⟨W, H, C, hW, hH, hC, hw, hh, hc, hl, hm⟩ := wf_dims hi
  obtain ⟨s1, s2⟩ := lucy_iterate_shape image.map psf.weights C W H psf.width.toNat
    psf.height.toNat (psf.width / 2) (psf.height / 2) psf.weights.sum hl hm n
  obtain ⟨g1, g2, g3, g4, g5⟩ := hi
  refine ⟨g1, g2, g3, ?_, ?_⟩
  · unfold lucy_image
    simp only
    rw [hw, hh]
    simp only [Int.toNat_ofNat]
    rw [s1, hc]
    rfl
  · intro m hmem
    unfold lucy_image at hmem
    simp only at hmem
    rw [hw, hh] at hmem
    simp only [Int.toNat_ofNat] at hmem
    have := s2 m hmem
    rw [this]
    unfold lucy_image
    simp only
    rw [hw, hh, ← Int.toNat_ofNat (W * H)]
    push_cast
    rfl

theorem deconvlucy_reports_no_error_witness :
    ∃ res, deconvlucy ({ map := [[0, 1, 0]], channels := 1, width := 3, height := 1 } : IMAGE ℚ)
        ({ map := [[1, 0, 1]], channels := 1, width := 3, height := 1 } : IMAGE ℚ)
        ((1 : Nat) : Int) = some (some res) ∧ res.WF ∧
      res.width = 3 ∧ res.height = 1 ∧ res.channels = 1 :=
  deconvlucy_reports_no_error
    ({ map := [[0, 1, 0]], channels := 1, width := 3, height := 1 } : IMAGE ℚ)
    ({ map := [[1, 0, 1]], channels := 1, width := 3, height := 1 } : IMAGE ℚ) 1
    (by simp [IMAGE.WF]) (by simp [IMAGE.isPSF, IMAGE.WF]) (by decide) (by decide)
    (by norm_num [IMAGE.weights])

/-- Claim C10 fails: for the 3x1 image `[0, 1, 0]` and the PSF `[1, 0, 1]` the blurred estimate
of the first iteration is `[1/2, 0, 1/2]`, so the ratio step divides the observed pixel `1` by
an exact zero, and `deconvlucy` still returns an image instead of reporting an error. -/
theorem deconvlucy_divides_by_zero_silently :
    conv ({ map := [[0, 1, 0]], channels := 1, width := 3, height := 1 } : IMAGE ℚ)
        ({ map := [[1, 0, 1]], channels := 1, width := 3, height := 1 } : IMAGE ℚ) =
      some (some { map := [[1 / 2, 0, 1 / 2]], channels := 1, width := 3, height := 1 }) ∧
    ∃ res, deconvlucy ({ map := [[0, 1, 0]], channels := 1, width := 3, height := 1 } : IMAGE ℚ)
        ({ map := [[1, 0, 1]], channels := 1, width := 3, height := 1 } : IMAGE ℚ) 1 =
      some (some res) := by
  have hi : ({ map := [[0, 1, 0]], channels := 1, width := 3, height := 1 } : IMAGE ℚ).WF := by
    simp [IMAGE.WF]
  have hp : ({ map := [[1, 0, 1]], channels := 1, width := 3, height := 1 } : IMAGE ℚ).isPSF := by
    simp [IMAGE.isPSF, IMAGE.WF]
  have hd : ({ map := [[1, 0, 1]], channels := 1, width := 3, height := 1 } :
      IMAGE ℚ).weights.sum ≠ 0 := by
    norm_num [IMAGE.weights]
  constructor
  · rw [conv_image_eq _ _ hi hp (by decide) (by decide) hd]
    simp [conv_image, toroidal_map, toroidal_sum, IMAGE.weights, Finset.sum_range_succ,
      List.range_succ]
    norm_num
  · exact ⟨_, deconvlucy_eq _ _ 1 hi hp (by decide) (by decide) hd⟩

/-- Claim C4 at a failing input: the 3x1 latent image `[1, 0, 0]` blurred by the normalised PSF
`[1/2, 1/2, 0]` is `[1/2, 0, 1/2]`, and `deconv` maps that observed image to itself (the
observed image divided by the divisor 1), not back to the latent image. -/
theorem deconv_does_not_invert_conv :
    conv ({ map := [[1, 0, 0]], channels := 1, width := 3, height := 1 } : IMAGE ℚ)
        { map := [[1 / 2, 1 / 2, 0]], channels := 1, width := 3, height := 1 } =
      some (some { map := [[1 / 2, 0, 1 / 2]], channels := 1, width := 3, height := 1 }) ∧
    deconv ({ map := [[1 / 2, 0, 1 / 2]], channels := 1, width := 3, height := 1 } : IMAGE ℚ)
        { map := [[1 / 2, 1 / 2, 0]], channels := 1, width := 3, height := 1 } =
      some (some { map := [[1 / 2, 0, 1 / 2]], channels := 1, width := 3, height := 1 }) ∧
    ([[1 / 2, 0, 1 / 2]] : List (List ℚ)) ≠ [[1, 0, 0]] := by
  refine ⟨by decide!, by decide!, by decide!⟩

/-- Claim C9 at a failing input: for the 4x1 image `[1, 2, 3, 4]` and the PSF `[1, 0, 1]`
(divisor 2) the system built by `deconv` has, after the elimination of columns 0 and 1, no
nonzero entry in column 2 at or below the diagonal.  The pivot search ends with `i = N = 4` and
`diag_item = 0`; the pass goes on to swap row 2 with row 4, which is outside the matrix, so the
call does not return the null pointer. -/
theorem deconv_singular_column_goes_on :
    deconv_build ([1, 2, 3, 4] : List ℚ) [1, 0, 1] 4 1 3 1 1 0 4 5 2 (List.replicate 20 0) =
      some [0, 1, 0, 1, 3, 1, 0, 1, 0, 2, 0, 1, 0, 1, 3, 1, 0, 1, 0, 2] ∧
    eliminate_column 4 5 0 ([0, 1, 0, 1, 3, 1, 0, 1, 0, 2, 0, 1, 0, 1, 3, 1, 0, 1, 0, 2] : List ℚ) =
      some [1, 0, 1, 0, 2, 0, 1, 0, 1, 3, 0, 1, 0, 1, 3, 0, 0, 0, 0, 0] ∧
    eliminate_column 4 5 1 ([1, 0, 1, 0, 2, 0, 1, 0, 1, 3, 0, 1, 0, 1, 3, 0, 0, 0, 0, 0] : List ℚ) =
      some [1, 0, 1, 0, 2, 0, 1, 0, 1, 3, 0, 0, 0, 0, 0, 0, 0, 0, 0, 0] ∧
    pivot_search ([1, 0, 1, 0, 2, 0, 1, 0, 1, 3, 0, 0, 0, 0, 0, 0, 0, 0, 0, 0] : List ℚ) 5 2 2 2 0 =
      some (4, 0) ∧
    eliminate_column 4 5 2 ([1, 0, 1, 0, 2, 0, 1, 0, 1, 3, 0, 0, 0, 0, 0, 0, 0, 0, 0, 0] : List ℚ) =
      none ∧
    deconv ({ map := [[1, 2, 3, 4]], channels := 1, width := 4, height := 1 } : IMAGE ℚ)
        { map := [[1, 0, 1]], channels := 1, width := 3, height := 1 } ≠ some none := by
  refine ⟨by decide!, by decide!, by decide!, by decide!, by decide!, by decide!⟩

theorem bitrev_zero (m : Nat) : bitrev m 0 = 0 := by
  induction m with
  | zero => rfl
  | succ m ih => simp [bitrev, ih]

theorem bitrev_lt (m i : Nat) : bitrev m i < 2 ^ m := by
  induction m generalizing i with
  | zero => simp [bitrev]
  | succ m ih =>
    have h1 := ih (i / 2)
    have h2 : i % 2 < 2 := Nat.mod_lt _ (by decide)
    have h3 : (i % 2) * 2 ^ m ≤ 1 * 2 ^ m := Nat.mul_le_mul_right _ (by omega)
    simp only [bitrev, pow_succ]
    omega

theorem bitrev_top (m b r : Nat) (hb : b < 2) (hr : r < 2 ^ m) :
    bitrev (m + 1) (2 ^ m * b + r) = 2 * bitrev m r + b := by
  induction m generalizing r with
  | zero =>
    have : r = 0 := by simpa using hr
    subst this
    simp [bitrev, Nat.mod_eq_of_lt hb]
  | succ m ih =>
    have e1 : (2 ^ (m + 1) * b + r) % 2 = r % 2 := by
      rw [pow_succ, Nat.mul_assoc, Nat.mul_comm (2 ^ m), Nat.mul_assoc, Nat.mul_add_mod]
    have e2 : (2 ^ (m + 1) * b + r) / 2 = 2 ^ m * b + r / 2 := by
      rw [pow_succ, Nat.mul_comm (2 ^ m) 2, Nat.mul_assoc, Nat.mul_add_div (by decide)]
    have hr2 : r / 2 < 2 ^ m := by
      rw [pow_succ] at hr
      omega
    rw [bitrev, e1, e2, ih (r / 2) hr2]
    conv_rhs => rw [bitrev]
    ring

theorem bitrev_involutive (m i : Nat) (hi : i < 2 ^ m) : bitrev m (bitrev m i) = i := by
  induction m generalizing i with
  | zero =>
    have : i = 0 := by simpa using hi
    subst this
    rfl
  | succ m ih =>
    have hi2 : i / 2 < 2 ^ m := by
      rw [pow_succ] at hi
      omega
    have e : bitrev (m + 1) i = 2 ^ m * (i % 2) + bitrev m (i / 2) := by
      rw [bitrev, Nat.mul_comm]
    rw [e, bitrev_top m (i % 2) _ (Nat.mod_lt _ (by decide)) (bitrev_lt m _), ih _ hi2]
    omega

theorem bitrev_even (d c : Nat) : bitrev (d + 1) (2 * c) = bitrev d c := by
  simp [bitrev]

theorem bitrev_odd (d c : Nat) : bitrev (d + 1) (2 * c + 1) = 2 ^ d + bitrev d c := by
  have e1 : (2 * c + 1) % 2 = 1 := by omega
  have e2 : (2 * c + 1) / 2 = c := by omega
  simp [bitrev, e1, e2]

/-- Clearing the bit `2^k` of `2^k * (2*y + 1)` with the 32-bit mask `~bit`. -/
theorem clear_bit (k y : Nat) (hx : 2 ^ k * (2 * y + 1) < 2 ^ 32) :
    (2 ^ k * (2 * y + 1)) &&& (2 ^ 32 - 1 - 2 ^ k) = 2 ^ (k + 1) * y := by
  have hk : k < 32 := by
    by_contra hc
    have : 2 ^ 32 ≤ 2 ^ k := Nat.pow_le_pow_right (by decide) (by omega)
    have : 2 ^ k * 1 ≤ 2 ^ k * (2 * y + 1) := Nat.mul_le_mul_left _ (by omega)
    omega
  have hk2 : (2 : Nat) ^ k < 2 ^ 32 := Nat.pow_lt_pow_right (by decide) hk
  have hy : y < 2 ^ (31 - k) := by
    by_contra hc
    have h1 : 2 ^ (31 - k) ≤ y := by omega
    have h2 : 2 ^ k * (2 * 2 ^ (31 - k)) ≤ 2 ^ k * (2 * y + 1) :=
      Nat.mul_le_mul_left _ (by omega)
    have h3 : 2 ^ k * (2 * 2 ^ (31 - k)) = 2 ^ 32 := by
      rw [← pow_succ', ← pow_add]
      congr 1
      omega
    omega
  apply Nat.eq_of_testBit_eq
  intro i
  have em : 2 ^ 32 - 1 - 2 ^ k = 2 ^ 32 - (2 ^ k + 1) := by omega
  rw [Nat.testBit_and, em, Nat.testBit_two_pow_sub_succ hk2, Nat.testBit_mul_pow_two,
    Nat.testBit_mul_pow_two, Nat.testBit_two_pow]
  by_cases h1 : i < k
  · have : ¬ (i ≥ k) := by omega
    have : ¬ (i ≥ k + 1) := by omega
    simp [*]
  · by_cases h2 : i = k
    · subst h2
      simp
    · have h3 : i ≥ k + 1 := by omega
      obtain ⟨j, rfl⟩ : ∃ j, i = k + 1 + j := ⟨i - (k + 1), by omega⟩
      have e1 : k + 1 + j - k = j + 1 := by omega
      have e2 : k + 1 + j - (k + 1) = j := by omega
      have e3 : (2 * y + 1) / 2 = y := by omega
      rw [e1, e2, Nat.testBit_succ, e3]
      have h5 : k ≤ k + 1 + j := by omega
      by_cases h4 : k + 1 + j < 32
      · have : ¬ (k = k + 1 + j) := by omega
        simp [*]
      · have : y.testBit j = false := by
          apply Nat.testBit_lt_two_pow
          exact lt_of_lt_of_le hy (Nat.pow_le_pow_right (by decide) (by omega))
        simp [*]

theorem backwards_loop_eq (n : Nat) : ∀ (k y c b r : Nat), k + n ≤ 32 → y < 2 ^ n →
    (1 ≤ n → b = 2 ^ k) → (1 ≤ n → r = 2 ^ (n - 1)) →
    backwards_loop n (2 ^ k * y) (2 ^ n * c) b r = 2 ^ n * c + bitrev n y := by
  induction n with
  | zero =>
    intro k y c b r _ _ _ _
    simp [backwards_loop, bitrev]
  | succ n ih =>
    intro k y c b r hk hy hb hr
    have hb' := hb (by omega)
    have hr' := hr (by omega)
    subst hb' hr'
    simp only [Nat.add_sub_cancel]
    unfold backwards_loop
    by_cases hx : 2 ^ k * y = 0
    · have hy0 : y = 0 := by
        rcases Nat.mul_eq_zero.mp hx with h | h
        · exact absurd h (by positivity)
        · exact h
      rw [if_pos hx, hy0, bitrev_zero]
      rfl
    · rw [if_neg hx]
      have hy2 : y / 2 < 2 ^ n := by
        rw [pow_succ] at hy
        omega
      have hbit : (2 ^ k <<< 1) % 2 ^ 32 = 2 ^ (k + 1) ∨ n = 0 := by
        by_cases hn : n = 0
        · exact Or.inr hn
        · left
          rw [Nat.shiftLeft_eq, ← pow_succ]
          apply Nat.mod_eq_of_lt
          apply Nat.pow_lt_pow_right (by decide)
          omega
      have hrev : 2 ^ n >>> 1 = 2 ^ (n - 1) ∨ n = 0 := by
        by_cases hn : n = 0
        · exact Or.inr hn
        · left
          obtain ⟨n', rfl⟩ : ∃ n', n = n' + 1 := ⟨n - 1, by omega⟩
          rw [Nat.shiftRight_eq_div_pow, pow_succ]
          simp
      have htest : (2 ^ k * y) &&& 2 ^ k = (y % 2) * 2 ^ k := by
        rw [Nat.and_two_pow, Nat.testBit_mul_pow_two]
        simp only [ge_iff_le, le_refl, decide_True, Nat.sub_self, Bool.true_and]
        rw [Nat.testBit_to_div_mod]
        simp only [pow_zero, Nat.div_one]
        rcases Nat.mod_two_eq_zero_or_one y with h | h <;> simp [h]
      rcases Nat.mod_two_eq_zero_or_one y with h0 | h1
      · have hc : ¬ ((2 ^ k * y) &&& 2 ^ k ≠ 0) := by
          rw [htest, h0]; simp
        rw [if_neg hc]
        have ex : 2 ^ k * y = 2 ^ (k + 1) * (y / 2) := by
          rw [pow_succ, Nat.mul_assoc]
          congr 1
          omega
        have er : 2 ^ (n + 1) * c = 2 ^ n * (2 * c) := by
          rw [pow_succ, Nat.mul_assoc]
        rw [ex, er, ih (k + 1) (y / 2) (2 * c) _ _ (by omega) hy2
          (fun hn => by rcases hbit with h | h; exact h; omega)
          (fun hn => by rcases hrev with h | h; exact h; omega)]
        simp only [bitrev, h0]
        ring
      · have hc : (2 ^ k * y) &&& 2 ^ k ≠ 0 := by
          rw [htest, h1]
          simp
        rw [if_pos hc]
        have ey : y = 2 * (y / 2) + 1 := by omega
        have hx32 : 2 ^ k * y < 2 ^ 32 := by
          calc 2 ^ k * y < 2 ^ k * 2 ^ (n + 1) :=
                (Nat.mul_lt_mul_left (by positivity)).mpr hy
            _ = 2 ^ (k + (n + 1)) := (pow_add 2 k (n + 1)).symm
            _ ≤ 2 ^ 32 := Nat.pow_le_pow_right (by decide) hk
        have ex : (2 ^ k * y) &&& (2 ^ 32 - 1 - 2 ^ k) = 2 ^ (k + 1) * (y / 2) := by
          have := clear_bit k (y / 2) (by rw [← ey]; exact hx32)
          rw [← ey] at this
          exact this
        have er : 2 ^ (n + 1) * c ||| 2 ^ n = 2 ^ n * (2 * c + 1) := by
          have h2 : (2 : Nat) ^ n < 2 ^ (n + 1) := Nat.pow_lt_pow_right (by decide) (by omega)
          rw [← Nat.mul_add_lt_is_or h2 c, pow_succ]
          ring
        rw [ex, er, ih (k + 1) (y / 2) (2 * c + 1) _ _ (by omega) hy2
          (fun hn => by rcases hbit with h | h; exact h; omega)
          (fun hn => by rcases hrev with h | h; exact h; omega)]
        simp only [bitrev, h1]
        ring

/-- Source `backwards` reverses the `m` low bits of `i`. -/
theorem backwards_eq (m i : Nat) (hm : m ≤ 32) (hi : i < 2 ^ m) :
    backwards i (m : Int) = bitrev m i := by
  unfold backwards
  have := backwards_loop_eq m 0 i 0 1 ((1 <<< ((m : Int) - 1).toNat) % 2 ^ 32) (by omega) hi
    (fun _ => by simp)
    (fun hm1 => by
      have e : ((m : Int) - 1).toNat = m - 1 := by omega
      rw [e, Nat.one_shiftLeft]
      apply Nat.mod_eq_of_lt
      apply Nat.pow_lt_pow_right (by decide)
      omega)
  simpa using this

theorem bit_length_eq (m : Nat) : ∀ (fuel l : Nat), l ≤ m → m - l < fuel →
    bit_length fuel (2 ^ m) l = some m := by
  intro fuel
  induction fuel with
  | zero => intro l _ h; omega
  | succ fuel ih =>
    intro l hl hf
    unfold bit_length
    rw [Nat.one_shiftLeft]
    by_cases h : l = m
    · subst h
      simp
    · have : (2 : Nat) ^ l < 2 ^ m := Nat.pow_lt_pow_right (by decide) (by omega)
      rw [if_pos this]
      exact ih (l + 1) (by omega) (by omega)

theorem bitrev_eq_iff (m p q : Nat) (hp : p < 2 ^ m) (hq : q < 2 ^ m) :
    bitrev m p = q ↔ p = bitrev m q := by
  constructor
  · intro h
    rw [← h, bitrev_involutive m p hp]
  · intro h
    rw [h, bitrev_involutive m q hq]

theorem getElem?_set_ne {α : Type} (l : List α) (i p : Nat) (v : α) (h : i ≠ p) :
    (l.set i v)[p]? = l[p]? := by
  rw [List.getElem?_set]
  simp [h]

theorem getElem?_set_eq {α : Type} (l : List α) (i : Nat) (v : α) (h : i < l.length) :
    (l.set i v)[i]? = some v := by
  rw [List.getElem?_set]
  simp [h]

/-- Source `reposition` moves the sample at position `bitrev m p` to position `p`, for a buffer
that holds at least `2^m` samples; the samples beyond `2^m` stay. -/
theorem reposition_eq (array : List (comp R)) (m : Nat) (hm : m ≤ 31)
    (hl : 2 ^ m ≤ array.length) :
    ∃ res, reposition array ((2 ^ m : Nat) : Int) = some res ∧ res.length = array.length ∧
      (∀ p, p < 2 ^ m → res[p]? = array[bitrev m p]?) ∧
      ∀ p, 2 ^ m ≤ p → res[p]? = array[p]? := by
  unfold reposition
  have e1 : (((2 ^ m : Nat) : Int) % 2 ^ 32).toNat = 2 ^ m := by
    have h1 : (2 : Nat) ^ m < 2 ^ 32 := Nat.pow_lt_pow_right (by decide) (by omega)
    have h2 : ((2 ^ m : Nat) : Int) % 2 ^ 32 = ((2 ^ m : Nat) : Int) := by
      apply Int.emod_eq_of_lt (by positivity)
      exact_mod_cast h1
    rw [h2, Int.toNat_ofNat]
  rw [e1, bit_length_eq m 32 0 (by omega) (by omega)]
  simp only [Option.bind_eq_bind, Option.some_bind, Int.toNat_ofNat]
  have key := forLoop_inv
    (fun k (cur : List (comp R)) => cur.length = array.length ∧
      (∀ p, p < 2 ^ m → cur[p]? = if p < k ∨ bitrev m p < k then array[bitrev m p]? else array[p]?) ∧
      ∀ p, 2 ^ m ≤ p → cur[p]? = array[p]?) (2 ^ m)
    (fun i (array : List (comp R)) =>
      let j : Int := backwards i (m : Int)
      if (i : Int) ≤ j then
        (load array i).bind fun x => (load array j).bind fun y =>
          (store array i y).bind fun array => store array j x
      else pure array) array
    ⟨rfl, fun p _ => by simp, fun p _ => rfl⟩
    (by
      intro k hk cur ⟨hlen, hin, hout⟩
      have hj := bitrev_lt m k
      have hback : backwards k (m : Int) = bitrev m k := backwards_eq m k (by omega) hk
      simp only [hback]
      by_cases hle : (k : Int) ≤ ((bitrev m k : Nat) : Int)
      · have hle' : k ≤ bitrev m k := by exact_mod_cast hle
        rw [if_pos hle]
        have hk1 : k < cur.length := by omega
        have hj1 : bitrev m k < cur.length := by omega
        have ck : cur[k]? = array[k]? := by
          rw [hin k hk, if_neg (by omega)]
        have cj : cur[bitrev m k]? = array[bitrev m k]? := by
          rw [hin _ hj, if_neg (by rw [bitrev_involutive m k hk]; omega)]
        rw [load_eq_some cur k hk1, load_eq_some cur _ hj1]
        simp only [Option.some_bind]
        rw [store_eq_some cur k _ hk1]
        simp only [Option.some_bind]
        rw [store_eq_some _ (bitrev m k) _ (by simp [hj1])]
        refine ⟨_, rfl, by simp [hlen], ?_, ?_⟩
        · intro p hp
          by_cases hpj : p = bitrev m k
          · subst hpj
            rw [getElem?_set_eq _ _ _ (by simp [hj1]), bitrev_involutive m k hk,
              if_pos (Or.inr (by omega)), ← ck, List.getElem?_eq_getElem hk1]
          · rw [getElem?_set_ne _ _ _ _ (Ne.symm hpj)]
            by_cases hpk : p = k
            · subst hpk
              rw [getElem?_set_eq _ _ _ hk1, if_pos (Or.inl (by omega)), ← cj,
                List.getElem?_eq_getElem hj1]
            · rw [getElem?_set_ne _ _ _ _ (Ne.symm hpk), hin p hp]
              have hne : bitrev m p ≠ k := by
                intro h
                exact hpj ((bitrev_eq_iff m p k hp hk).mp h)
              have hc : (p < k + 1 ∨ bitrev m p < k + 1) ↔ (p < k ∨ bitrev m p < k) := by
                omega
              simp only [hc]
        · intro p hp
          rw [getElem?_set_ne _ _ _ _ (by omega), getElem?_set_ne _ _ _ _ (by omega)]
          exact hout p hp
      · rw [if_neg hle]
        have hlt : bitrev m k < k := by
          by_contra hc
          exact hle (by exact_mod_cast (not_lt.mp hc))
        refine ⟨cur, rfl, hlen, ?_, hout⟩
        intro p hp
        rw [hin p hp]
        by_cases hpk : p = k
        · subst hpk
          rw [if_pos (Or.inr hlt), if_pos (Or.inl (by omega))]
        · by_cases hpj : bitrev m p = k
          · have : p = bitrev m k := (bitrev_eq_iff m p k hp hk).mp hpj
            rw [if_pos (Or.inl (by omega)), if_pos (Or.inr (by omega))]
          · have hc : (p < k + 1 ∨ bitrev m p < k + 1) ↔ (p < k ∨ bitrev m p < k) := by
              omega
            simp only [hc])
  obtain ⟨res, h1, h2, h3, h4⟩ := key
  refine ⟨res, h1, h2, ?_, h4⟩
  intro p hp
  rw [h3 p hp, if_pos (Or.inl hp)]

theorem root_stack_succ (w : comp R) (d : Nat) :
    root_stack w (d + 1) = w ^ 2 ^ d :: root_stack w d := by
  unfold root_stack
  rw [List.range_succ_eq_map, List.map_cons, List.map_map]
  congr 1
  apply List.map_congr_left
  intro u _
  simp only [Function.comp, Nat.succ_eq_add_one]
  congr 2
  omega

theorem prepare_roots_eq (w : comp R) (k : Nat) : ∀ (fuel j : Nat), k < fuel →
    prepare_roots fuel ((2 ^ k : Nat) : Int) (w ^ 2 ^ j)
      ((List.range j).map (fun u => w ^ 2 ^ (j - 1 - u))) =
      some ((List.range (j + k)).map (fun u => w ^ 2 ^ (j + k - 1 - u))) := by
  induction k with
  | zero =>
    intro fuel j hf
    obtain ⟨fuel', rfl⟩ : ∃ f, fuel = f + 1 := ⟨fuel - 1, by omega⟩
    simp [prepare_roots]
  | succ k ih =>
    intro fuel j hf
    obtain ⟨fuel', rfl⟩ : ∃ f, fuel = f + 1 := ⟨fuel - 1, by omega⟩
    unfold prepare_roots
    have h1 : ((2 ^ (k + 1) : Nat) : Int) ≠ 1 := by
      have : 2 ≤ 2 ^ (k + 1) := by
        calc 2 = 2 ^ 1 := rfl
          _ ≤ 2 ^ (k + 1) := Nat.pow_le_pow_right (by decide) (by omega)
      omega
    have h2 : Int.tdiv ((2 ^ (k + 1) : Nat) : Int) 2 = ((2 ^ k : Nat) : Int) := by
      rw [Int.tdiv_eq_ediv (by positivity) (by decide)]
      push_cast
      rw [pow_succ]
      simp
    have h3 : w ^ 2 ^ j * w ^ 2 ^ j = w ^ 2 ^ (j + 1) := by
      rw [← pow_add, pow_succ]
      congr 1
      omega
    have h4 : w ^ 2 ^ j :: (List.range j).map (fun u => w ^ 2 ^ (j - 1 - u)) =
        (List.range (j + 1)).map (fun u => w ^ 2 ^ (j + 1 - 1 - u)) := by
      have := root_stack_succ w j
      unfold root_stack at this
      exact this.symm
    rw [if_neg h1, h2, h3, h4, ih fuel' (j + 1) (by omega)]
    have : j + 1 + k = j + (k + 1) := by omega
    rw [this]

theorem prepare_roots_stack (w : comp R) (m fuel : Nat) (hf : m < fuel) :
    prepare_roots fuel ((2 ^ m : Nat) : Int) w [] = some (root_stack w m) := by
  have := prepare_roots_eq w m fuel 0 hf
  simpa [root_stack] using this

theorem getElem_eq_getD {α : Type} (arr array : List α) (p : Nat) (d : α) (hp : p < arr.length)
    (h : arr[p]? = array[p]?) : arr[p] = array.getD p d := by
  rw [List.getD_eq_getElem?_getD, ← h, List.getElem?_eq_getElem hp]
  rfl

/-- Source `mass_butterfly` on the block of `2*n` samples that starts at `off`. -/
theorem mass_butterfly_eq (array : List (comp R)) (off n : Nat) (w : comp R)
    (hl : off + 2 * n ≤ array.length) :
    ∃ res, mass_butterfly array (off : Int) ((2 * n : Nat) : Int) w = some res ∧
      res.length = array.length ∧
      (∀ i, i < n → res[off + i]? =
        some (array.getD (off + i) 0 + array.getD (off + i + n) 0 * w ^ i)) ∧
      (∀ i, i < n → res[off + i + n]? =
        some (array.getD (off + i) 0 - array.getD (off + i + n) 0 * w ^ i)) ∧
      ∀ p, (p < off ∨ off + 2 * n ≤ p) → res[p]? = array[p]? := by
  unfold mass_butterfly
  have en : Int.tdiv ((2 * n : Nat) : Int) 2 = (n : Int) := by
    rw [Int.tdiv_eq_ediv (by positivity) (by decide)]
    push_cast
    simp
  rw [en]
  simp only [Int.toNat_ofNat]
  have key := forLoop_inv
    (fun i (st : List (comp R) × comp R) => st.2 = w ^ i ∧ st.1.length = array.length ∧
      (∀ i', i' < i → st.1[off + i']? =
        some (array.getD (off + i') 0 + array.getD (off + i' + n) 0 * w ^ i')) ∧
      (∀ i', i' < i → st.1[off + i' + n]? =
        some (array.getD (off + i') 0 - array.getD (off + i' + n) 0 * w ^ i')) ∧
      ∀ p, ¬ (off ≤ p ∧ p < off + i) → ¬ (off + n ≤ p ∧ p < off + n + i) →
        st.1[p]? = array[p]?) n
    (fun i (st : List (comp R) × comp R) =>
      (load st.1 ((off : Int) + i)).bind fun x =>
      (load st.1 ((off : Int) + i + n)).bind fun y =>
      (store st.1 ((off : Int) + i) (butterfly x y st.2).1).bind fun arr =>
      (store arr ((off : Int) + i + n) (butterfly x y st.2).2).bind fun arr =>
      pure (arr, st.2 * w)) (array, 1)
    ⟨by simp, rfl, fun i' h => absurd h (Nat.not_lt_zero _),
      fun i' h => absurd h (Nat.not_lt_zero _), fun p _ _ => rfl⟩
    (by
      rintro i hi ⟨arr, power⟩ ⟨hp, hlen, h1, h2, h3⟩
      simp only at hp hlen h1 h2 h3
      subst hp
      have c1 : ((off : Int) + i) = ((off + i : Nat) : Int) := by push_cast; rfl
      have c2 : (((off + i : Nat) : Int) + n) = ((off + i + n : Nat) : Int) := by push_cast; rfl
      have b1 : off + i < arr.length := by omega
      have b2 : off + i + n < arr.length := by omega
      have g1 : arr[off + i]? = array[off + i]? := h3 _ (by omega) (by omega)
      have g2 : arr[off + i + n]? = array[off + i + n]? := h3 _ (by omega) (by omega)
      have v1 : arr[off + i] = array.getD (off + i) 0 := getElem_eq_getD arr array _ 0 b1 g1
      have v2 : arr[off + i + n] = array.getD (off + i + n) 0 :=
        getElem_eq_getD arr array _ 0 b2 g2
      simp only [c1, c2]
      rw [load_eq_some arr _ b1, load_eq_some arr _ b2]
      simp only [Option.some_bind]
      rw [store_eq_some arr _ _ b1]
      simp only [Option.some_bind]
      rw [store_eq_some _ _ _ (by simp [b2])]
      simp only [Option.some_bind]
      refine ⟨_, rfl, by simp [pow_succ], by simp [hlen], ?_, ?_, ?_⟩
      · intro i' hi'
        simp only
        rw [getElem?_set_ne _ _ _ _ (by omega)]
        by_cases he : i' = i
        · subst he
          rw [getElem?_set_eq _ _ _ b1, v1, v2]
          rfl
        · rw [getElem?_set_ne _ _ _ _ (by omega)]
          exact h1 i' (by omega)
      · intro i' hi'
        simp only
        by_cases he : i' = i
        · subst he
          rw [getElem?_set_eq _ _ _ (by simp [b2]), v1, v2]
          rfl
        · rw [getElem?_set_ne _ _ _ _ (by omega), getElem?_set_ne _ _ _ _ (by omega)]
          exact h2 i' (by omega)
      · intro p hp1 hp2
        simp only
        rw [getElem?_set_ne _ _ _ _ (by omega), getElem?_set_ne _ _ _ _ (by omega)]
        exact h3 p (by omega) (by omega))
  obtain ⟨⟨arr, power⟩, hst, -, hlen, h1, h2, h3⟩ := key
  simp only at hlen h1 h2 h3
  refine ⟨arr, ?_, hlen, h1, h2, ?_⟩
  · simp only [Option.bind_eq_bind]
    rw [hst]
    rfl
  · intro p hp
    exact h3 p (by omega) (by omega)

theorem getD_congr {α : Type} (arr array : List α) (p : Nat) (d : α) (h : arr[p]? = array[p]?) :
    arr.getD p d = array.getD p d := by
  rw [List.getD_eq_getElem?_getD, List.getD_eq_getElem?_getD, h]

/-- One butterfly stage: the loop over the `B` blocks of `2 * n` samples. -/
theorem butterfly_stage_eq (array : List (comp R)) (n B : Nat) (W : comp R)
    (hl : B * (2 * n) ≤ array.length) :
    ∃ res, forLoop B (fun c arr =>
        mass_butterfly arr ((c : Int) * ((2 * n : Nat) : Int)) ((2 * n : Nat) : Int) W) array =
          some res ∧
      res.length = array.length ∧
      (∀ c i, c < B → i < n → res[c * (2 * n) + i]? =
        some (array.getD (c * (2 * n) + i) 0 + array.getD (c * (2 * n) + i + n) 0 * W ^ i)) ∧
      (∀ c i, c < B → i < n → res[c * (2 * n) + i + n]? =
        some (array.getD (c * (2 * n) + i) 0 - array.getD (c * (2 * n) + i + n) 0 * W ^ i)) ∧
      ∀ p, B * (2 * n) ≤ p → res[p]? = array[p]? := by
  have key := forLoop_inv
    (fun c (arr : List (comp R)) => arr.length = array.length ∧
      (∀ c' i, c' < c → i < n → arr[c' * (2 * n) + i]? =
        some (array.getD (c' * (2 * n) + i) 0 + array.getD (c' * (2 * n) + i + n) 0 * W ^ i)) ∧
      (∀ c' i, c' < c → i < n → arr[c' * (2 * n) + i + n]? =
        some (array.getD (c' * (2 * n) + i) 0 - array.getD (c' * (2 * n) + i + n) 0 * W ^ i)) ∧
      ∀ p, c * (2 * n) ≤ p → arr[p]? = array[p]?) B
    (fun c arr =>
        mass_butterfly arr ((c : Int) * ((2 * n : Nat) : Int)) ((2 * n : Nat) : Int) W) array
    ⟨rfl, fun c' i h => absurd h (Nat.not_lt_zero _), fun c' i h => absurd h (Nat.not_lt_zero _),
      fun p _ => rfl⟩
    (by
      intro c hc arr ⟨hlen, h1, h2, h3⟩
      have hoff : (c : Int) * ((2 * n : Nat) : Int) = ((c * (2 * n) : Nat) : Int) := by
        push_cast; rfl
      have hb : c * (2 * n) + 2 * n ≤ arr.length := by
        have : (c + 1) * (2 * n) ≤ B * (2 * n) := Nat.mul_le_mul_right _ hc
        rw [hlen]
        calc c * (2 * n) + 2 * n = (c + 1) * (2 * n) := by ring
          _ ≤ B * (2 * n) := this
          _ ≤ array.length := hl
      obtain ⟨res, r1, r2, r3, r4, r5⟩ := mass_butterfly_eq arr (c * (2 * n)) n W hb
      simp only [hoff]
      refine ⟨res, r1, by omega, ?_, ?_, ?_⟩
      · intro c' i hc' hi
        by_cases he : c' = c
        · subst he
          rw [r3 i hi, getD_congr arr array _ 0 (h3 _ (by omega)),
            getD_congr arr array _ 0 (h3 _ (by omega))]
        · have hlt : c' < c := by omega
          have : (c' + 1) * (2 * n) ≤ c * (2 * n) := Nat.mul_le_mul_right _ hlt
          rw [r5 _ (Or.inl (by nlinarith))]
          exact h1 c' i hlt hi
      · intro c' i hc' hi
        by_cases he : c' = c
        · subst he
          rw [r4 i hi, getD_congr arr array _ 0 (h3 _ (by omega)),
            getD_congr arr array _ 0 (h3 _ (by omega))]
        · have hlt : c' < c := by omega
          have : (c' + 1) * (2 * n) ≤ c * (2 * n) := Nat.mul_le_mul_right _ hlt
          rw [r5 _ (Or.inl (by nlinarith))]
          exact h2 c' i hlt hi
      · intro p hp
        have : (c + 1) * (2 * n) = c * (2 * n) + 2 * n := by ring
        rw [r5 _ (Or.inr (by omega))]
        exact h3 p (by omega))
  obtain ⟨res, h1, h2, h3, h4, h5⟩ := key
  exact ⟨res, h1, h2, fun c i hc hi => h3 c i hc hi, fun c i hc hi => h4 c i hc hi, h5⟩

theorem sum_range_even_odd {K : Type} [AddCommMonoid K] (g : Nat → K) (M : Nat) :
    ∑ n in Finset.range (2 * M), g n =
      ∑ n in Finset.range M, g (2 * n) + ∑ n in Finset.range M, g (2 * n + 1) := by
  induction M with
  | zero => simp
  | succ M ih =>
    have : 2 * (M + 1) = 2 * M + 1 + 1 := by ring
    rw [this, Finset.sum_range_succ, Finset.sum_range_succ, ih, Finset.sum_range_succ,
      Finset.sum_range_succ]
    abel

/-- The decimation-in-time identity for the outputs `k < M` of a transform of length `2 * M`. -/
theorem dft_split_low {K : Type} [CommRing K] (f : Nat → K) (W : K) (M k : Nat) :
    ∑ n in Finset.range (2 * M), f n * W ^ (n * k) =
      ∑ n in Finset.range M, f (2 * n) * (W ^ 2) ^ (n * k) +
        (∑ n in Finset.range M, f (2 * n + 1) * (W ^ 2) ^ (n * k)) * W ^ k := by
  rw [sum_range_even_odd, Finset.sum_mul]
  congr 1
  · apply Finset.sum_congr rfl
    intro n _
    rw [← pow_mul, Nat.mul_assoc]
  · apply Finset.sum_congr rfl
    intro n _
    rw [← pow_mul, mul_assoc, ← pow_add]
    congr 2
    ring

/-- The decimation-in-time identity for the outputs `k + M`, where `W^M = -1`. -/
theorem dft_split_high {K : Type} [CommRing K] (f : Nat → K) (W : K) (M k : Nat)
    (hW : W ^ M = -1) :
    ∑ n in Finset.range (2 * M), f n * W ^ (n * (k + M)) =
      ∑ n in Finset.range M, f (2 * n) * (W ^ 2) ^ (n * k) -
        (∑ n in Finset.range M, f (2 * n + 1) * (W ^ 2) ^ (n * k)) * W ^ k := by
  rw [sum_range_even_odd, Finset.sum_mul, sub_eq_add_neg, ← Finset.sum_neg_distrib]
  have h2 : ∀ n : Nat, W ^ (2 * n * M) = 1 := by
    intro n
    rw [Nat.mul_comm, ← Nat.mul_assoc, pow_mul, pow_mul, hW]
    simp
  congr 1
  · apply Finset.sum_congr rfl
    intro n _
    have : 2 * n * (k + M) = 2 * (n * k) + 2 * n * M := by ring
    rw [this, pow_add, h2, mul_one, ← pow_mul]
  · apply Finset.sum_congr rfl
    intro n _
    have : (2 * n + 1) * (k + M) = 2 * (n * k) + 2 * n * M + k + M := by ring
    rw [this, pow_add, pow_add, pow_add, h2, hW, ← pow_mul]
    ring

theorem getD_of_getElem? {α : Type} (l : List α) (p : Nat) (d v : α) (h : l[p]? = some v) :
    l.getD p d = v := by
  rw [List.getD_eq_getElem?_getD, h]
  rfl

/-- A butterfly stage turns the blocks of length `2^t` into the blocks of length `2^(t+1)`. -/
theorem dft_blocks_step (w : comp R) (s A A' : List (comp R)) (m t d : Nat) (hd : t + d + 1 = m)
    (hw : w ^ 2 ^ (m - 1) = -1) (hA : dft_blocks w s m t A)
    (h1 : ∀ c i, c < 2 ^ d → i < 2 ^ t → A'[c * (2 * 2 ^ t) + i]? =
      some (A.getD (c * (2 * 2 ^ t) + i) 0 + A.getD (c * (2 * 2 ^ t) + i + 2 ^ t) 0 * (w ^ 2 ^ d) ^ i))
    (h2 : ∀ c i, c < 2 ^ d → i < 2 ^ t → A'[c * (2 * 2 ^ t) + i + 2 ^ t]? =
      some (A.getD (c * (2 * 2 ^ t) + i) 0 - A.getD (c * (2 * 2 ^ t) + i + 2 ^ t) 0 * (w ^ 2 ^ d) ^ i)) :
    dft_blocks w s m (t + 1) A' := by
  have emt : m - t = d + 1 := by omega
  have emt1 : m - (t + 1) = d := by omega
  have hWM : (w ^ 2 ^ d) ^ 2 ^ t = -1 := by
    rw [← pow_mul, ← pow_add, ← hw]
    congr 2
    omega
  have hW2 : (w ^ 2 ^ d) ^ 2 = w ^ 2 ^ (d + 1) := by
    rw [← pow_mul, ← pow_succ]
  -- the two half blocks
  have hE : ∀ c k, c < 2 ^ d → k < 2 ^ t → A.getD (c * (2 * 2 ^ t) + k) 0 =
      ∑ n in Finset.range (2 ^ t),
        s.getD (bitrev d c + 2 ^ d * (2 * n)) 0 * ((w ^ 2 ^ d) ^ 2) ^ (n * k) := by
    intro c k hc hk
    have h := hA (2 * c) k (by rw [emt, pow_succ]; omega) hk
    have e : 2 * c * 2 ^ t + k = c * (2 * 2 ^ t) + k := by ring
    rw [e] at h
    rw [getD_of_getElem? A _ 0 _ h, emt, bitrev_even, hW2]
    apply Finset.sum_congr rfl
    intro n _
    congr 2
    rw [pow_succ]
    ring
  have hO : ∀ c k, c < 2 ^ d → k < 2 ^ t → A.getD (c * (2 * 2 ^ t) + k + 2 ^ t) 0 =
      ∑ n in Finset.range (2 ^ t),
        s.getD (bitrev d c + 2 ^ d * (2 * n + 1)) 0 * ((w ^ 2 ^ d) ^ 2) ^ (n * k) := by
    intro c k hc hk
    have h := hA (2 * c + 1) k (by rw [emt, pow_succ]; omega) hk
    have e : (2 * c + 1) * 2 ^ t + k = c * (2 * 2 ^ t) + k + 2 ^ t := by ring
    rw [e] at h
    rw [getD_of_getElem? A _ 0 _ h, emt, bitrev_odd, hW2]
    apply Finset.sum_congr rfl
    intro n _
    congr 2
    rw [pow_succ]
    ring
  intro c k hc hk
  rw [emt1] at hc ⊢
  have e2t : 2 ^ (t + 1) = 2 * 2 ^ t := by rw [pow_succ]; ring
  rw [e2t] at hk ⊢
  by_cases hlow : k < 2 ^ t
  · rw [h1 c k hc hlow, hE c k hc hlow, hO c k hc hlow]
    congr 1
    exact (dft_split_low (fun n => s.getD (bitrev d c + 2 ^ d * n) 0) (w ^ 2 ^ d) (2 ^ t) k).symm
  · obtain ⟨k', rfl⟩ : ∃ k', k = k' + 2 ^ t := ⟨k - 2 ^ t, by omega⟩
    have hk' : k' < 2 ^ t := by omega
    have e : c * (2 * 2 ^ t) + (k' + 2 ^ t) = c * (2 * 2 ^ t) + k' + 2 ^ t := by ring
    rw [e, h2 c k' hc hk', hE c k' hc hk', hO c k' hc hk']
    congr 1
    exact (dft_split_high (fun n => s.getD (bitrev d c + 2 ^ d * n) 0) (w ^ 2 ^ d) (2 ^ t) k'
      hWM).symm

theorem butterfly_stages_eq (w : comp R) (s : List (comp R)) (m : Nat)
    (hw : 1 ≤ m → w ^ 2 ^ (m - 1) = -1) (hm : m ≤ 29) :
    ∀ (d t fuel : Nat) (A : List (comp R)), t + d = m → d < fuel → 2 ^ m ≤ A.length →
      dft_blocks w s m t A →
      ∃ res, butterfly_stages fuel ((2 * 2 ^ t : Nat) : Int) ((2 ^ m : Nat) : Int)
          (root_stack w d) A = some res ∧
        res.length = A.length ∧ dft_blocks w s m m res ∧
        ∀ p, 2 ^ m ≤ p → res[p]? = A[p]? := by
  intro d
  induction d with
  | zero =>
    intro t fuel A ht hf hl hA
    obtain ⟨fuel', rfl⟩ : ∃ f, fuel = f + 1 := ⟨fuel - 1, by omega⟩
    have htm : t = m := by omega
    subst htm
    unfold butterfly_stages
    have hc : ¬ (((2 * 2 ^ t : Nat) : Int) ≤ ((2 ^ t : Nat) : Int)) := by
      have : 0 < 2 ^ t := by positivity
      omega
    rw [if_neg hc]
    exact ⟨A, rfl, rfl, hA, fun p _ => rfl⟩
  | succ d ih =>
    intro t fuel A ht hf hl hA
    obtain ⟨fuel', rfl⟩ : ∃ f, fuel = f + 1 := ⟨fuel - 1, by omega⟩
    have hm1 : 1 ≤ m := by omega
    have e2m : 2 ^ m = 2 ^ d * (2 * 2 ^ t) := by
      rw [← ht, ← pow_succ', ← pow_add]
      congr 1
      omega
    unfold butterfly_stages
    have hc : ((2 * 2 ^ t : Nat) : Int) ≤ ((2 ^ m : Nat) : Int) := by
      have : 0 < 2 ^ d := by positivity
      have : 2 * 2 ^ t ≤ 2 ^ d * (2 * 2 ^ t) := Nat.le_mul_of_pos_left _ this
      rw [e2m]
      exact_mod_cast this
    have hcount : (Int.tdiv (((2 ^ m : Nat) : Int) + ((2 * 2 ^ t : Nat) : Int) - 1)
        ((2 * 2 ^ t : Nat) : Int)).toNat = 2 ^ d := by
      have hpos : 0 < 2 * 2 ^ t := by positivity
      have e : ((2 ^ m : Nat) : Int) + ((2 * 2 ^ t : Nat) : Int) - 1 =
          ((2 ^ d * (2 * 2 ^ t) + (2 * 2 ^ t - 1) : Nat) : Int) := by
        rw [e2m]
        omega
      rw [e, Int.tdiv_eq_ediv (by positivity) (by positivity), ← Int.ofNat_ediv,
        Int.toNat_ofNat, Nat.mul_comm (2 ^ d), Nat.mul_add_div hpos,
        Nat.div_eq_of_lt (by omega), Nat.add_zero]
    rw [if_pos hc, root_stack_succ, hcount]
    simp only [List.head?_cons, List.tail_cons, Option.bind_eq_bind, Option.some_bind]
    obtain ⟨res1, r1, r2, r3, r4, r5⟩ := butterfly_stage_eq A (2 ^ t) (2 ^ d) (w ^ 2 ^ d)
      (by rw [← e2m]; exact hl)
    rw [r1]
    simp only [Option.some_bind]
    have hstep := dft_blocks_step w s A res1 m t d (by omega) (hw hm1) hA r3 r4
    have enext : wrap_int (((2 * 2 ^ t : Nat) : Int) * 2) = ((2 * 2 ^ (t + 1) : Nat) : Int) := by
      have hle : 2 * 2 ^ (t + 1) ≤ 2 ^ 30 := by
        rw [← pow_succ']
        exact Nat.pow_le_pow_right (by decide) (by omega)
      have e : ((2 * 2 ^ t : Nat) : Int) * 2 = ((2 * 2 ^ (t + 1) : Nat) : Int) := by
        push_cast
        rw [pow_succ]
        ring
      rw [e]
      apply wrap_int_eq <;> omega
    rw [enext]
    obtain ⟨res, q1, q2, q3, q4⟩ := ih (t + 1) fuel' res1 (by omega) (by omega) (by omega) hstep
    refine ⟨res, q1, by omega, q3, ?_⟩
    intro p hp
    rw [q4 p hp, r5 p (by rw [← e2m]; exact hp)]

/-- Source `fourier_transform` computes the discrete Fourier transform with the root `w`: for a
buffer of at least `2^m` samples (`2^m` an `int`) and `w^(2^(m-1)) = -1`, sample `k < 2^m` of the
result is `sum over n < 2^m of s[n] * w^(n*k)` and the samples beyond `2^m` stay. -/
theorem fourier_transform_eq (w : comp R) (s : List (comp R)) (m : Nat) (hm : m ≤ 29)
    (hw : 1 ≤ m → w ^ 2 ^ (m - 1) = -1) (hl : 2 ^ m ≤ s.length) :
    ∃ res, fourier_transform w s ((2 ^ m : Nat) : Int) = some res ∧ res.length = s.length ∧
      (∀ k, k < 2 ^ m → res[k]? =
        some (∑ n in Finset.range (2 ^ m), s.getD n 0 * w ^ (n * k))) ∧
      ∀ p, 2 ^ m ≤ p → res[p]? = s[p]? := by
  unfold fourier_transform
  obtain ⟨A0, a1, a2, a3, a4⟩ := reposition_eq s m (by omega) hl
  rw [a1]
  simp only [Option.bind_eq_bind, Option.some_bind, Int.toNat_ofNat]
  rw [prepare_roots_stack w m (2 ^ m + 1) (by
    have := Nat.lt_two_pow m
    omega)]
  simp only [Option.some_bind]
  have h0 : dft_blocks w s m 0 A0 := by
    intro c k hc hk
    simp only [pow_zero, Nat.lt_one_iff] at hk
    subst hk
    simp only [Nat.sub_zero] at hc
    simp only [pow_zero, mul_one, add_zero, Finset.range_one, Finset.sum_singleton, mul_zero,
      Nat.sub_zero]
    rw [a3 c hc]
    have := bitrev_lt m c
    rw [List.getElem?_eq_getElem (by omega), List.getD_eq_getElem s 0 (by omega)]
  obtain ⟨res, q1, q2, q3, q4⟩ := butterfly_stages_eq w s m hw hm m 0 (2 ^ m + 1) A0 (by omega)
    (by have := Nat.lt_two_pow m; omega) (by omega) h0
  have e2 : ((2 * 2 ^ 0 : Nat) : Int) = 2 := by norm_num
  rw [e2] at q1
  refine ⟨res, q1, by omega, ?_, ?_⟩
  · intro k hk
    have := q3 0 k (by simp) hk
    simp only [Nat.sub_self, pow_zero, zero_mul, zero_add, one_mul, pow_one, bitrev] at this
    exact this
  · intro p hp
    rw [q4 p hp, a4 p hp]

/-- Orthogonality of the powers of a primitive `N`-th root of unity. -/
theorem root_orthogonal {K : Type} [Field K] (w : K) (N : Nat) (hw : IsPrimitiveRoot w N)
    (j k : Nat) (hj : j < N) (hk : k < N) :
    ∑ n in Finset.range N, w ^ (n * j) * (w⁻¹) ^ (n * k) = if j = k then (N : K) else 0 := by
  have hw0 : w ≠ 0 := hw.ne_zero (by omega)
  have e : ∀ n, w ^ (n * j) * (w⁻¹) ^ (n * k) = (w ^ j * (w⁻¹) ^ k) ^ n := by
    intro n
    rw [mul_pow, ← pow_mul, ← pow_mul, Nat.mul_comm j n, Nat.mul_comm k n]
  simp only [e]
  by_cases hjk : j = k
  · subst hjk
    rw [if_pos rfl]
    have : w ^ j * (w⁻¹) ^ j = 1 := by
      rw [← mul_pow, mul_inv_cancel₀ hw0, one_pow]
    simp only [this, one_pow, Finset.sum_const, Finset.card_range, nsmul_eq_mul, mul_one]
  · rw [if_neg hjk]
    have hne : w ^ j * (w⁻¹) ^ k ≠ 1 := by
      intro h
      apply hjk
      apply hw.pow_inj hj hk
      have h2 : w ^ j * (w⁻¹) ^ k * w ^ k = w ^ k := by rw [h, one_mul]
      rw [mul_assoc, ← mul_pow, inv_mul_cancel₀ hw0, one_pow, mul_one] at h2
      exact h2
    have hN : (w ^ j * (w⁻¹) ^ k) ^ N = 1 := by
      rw [mul_pow, ← pow_mul, ← pow_mul, Nat.mul_comm j, Nat.mul_comm k, pow_mul, pow_mul,
        inv_pow, hw.pow_eq_one]
      simp
    have hg := mul_geom_sum (w ^ j * (w⁻¹) ^ k) N
    rw [hN, sub_self] at hg
    rcases mul_eq_zero.mp hg with h | h
    · exact absurd (sub_eq_zero.mp h) hne
    · exact h

/-- The inverse transform sum undoes the transform sum, up to the factor `N`. -/
theorem dft_inversion {K : Type} [Field K] (w : K) (N : Nat) (hw : IsPrimitiveRoot w N)
    (s : Nat → K) (k : Nat) (hk : k < N) :
    ∑ n in Finset.range N, (∑ j in Finset.range N, s j * w ^ (j * n)) * (w⁻¹) ^ (n * k) =
      (N : K) * s k := by
  simp only [Finset.sum_mul]
  rw [Finset.sum_comm]
  have e : ∀ j ∈ Finset.range N, ∑ n in Finset.range N, s j * w ^ (j * n) * (w⁻¹) ^ (n * k) =
      s j * (if j = k then (N : K) else 0) := by
    intro j hj
    rw [← root_orthogonal w N hw j k (Finset.mem_range.mp hj) hk, Finset.mul_sum]
    apply Finset.sum_congr rfl
    intro n _
    rw [mul_assoc, Nat.mul_comm j n]
  rw [Finset.sum_congr rfl e, Finset.sum_eq_single k]
  · rw [if_pos rfl, mul_comm]
  · intro j _ hjk
    rw [if_neg hjk, mul_zero]
  · intro h
    exact absurd (Finset.mem_range.mpr hk) h

/-- The convolution theorem: the inverse transform sum of the product of two transforms is `N`
times the circular convolution. -/
theorem dft_convolution {K : Type} [Field K] (w : K) (N : Nat) (hw : IsPrimitiveRoot w N)
    (a b : Nat → K) (n : Nat) (hn : n < N) :
    ∑ k in Finset.range N, ((∑ j in Finset.range N, a j * w ^ (j * k)) *
        (∑ l in Finset.range N, b l * w ^ (l * k))) * (w⁻¹) ^ (k * n) =
      (N : K) * ∑ j in Finset.range N, a j * b ((((n : Int) - j) % (N : Int)).toNat) := by
  have hN : 0 < N := by omega
  have hw0 : w ≠ 0 := hw.ne_zero (by omega)
  have hmod : ∀ x k : Nat, w ^ (x * k) = w ^ (k * (x % N)) := by
    intro x k
    conv_lhs => rw [← Nat.div_add_mod x N]
    rw [Nat.add_mul, pow_add, Nat.mul_assoc, pow_mul, hw.pow_eq_one, one_pow, one_mul,
      Nat.mul_comm]
  -- expand the product of the two sums
  have e1 : ∀ k, ((∑ j in Finset.range N, a j * w ^ (j * k)) *
        (∑ l in Finset.range N, b l * w ^ (l * k))) * (w⁻¹) ^ (k * n) =
      ∑ j in Finset.range N, ∑ l in Finset.range N,
        a j * b l * (w ^ (k * ((j + l) % N)) * (w⁻¹) ^ (k * n)) := by
    intro k
    rw [Finset.sum_mul_sum, Finset.sum_mul]
    apply Finset.sum_congr rfl
    intro j _
    rw [Finset.sum_mul]
    apply Finset.sum_congr rfl
    intro l _
    rw [← hmod (j + l) k, Nat.add_mul, pow_add]
    ring
  simp only [e1]
  rw [Finset.sum_comm, Finset.mul_sum]
  apply Finset.sum_congr rfl
  intro j hj
  have hj' := Finset.mem_range.mp hj
  rw [Finset.sum_comm]
  have e2 : ∀ l ∈ Finset.range N, ∑ k in Finset.range N,
      a j * b l * (w ^ (k * ((j + l) % N)) * (w⁻¹) ^ (k * n)) =
      a j * b l * (if (j + l) % N = n then (N : K) else 0) := by
    intro l _
    rw [← Finset.mul_sum, root_orthogonal w N hw _ n (Nat.mod_lt _ hN) hn]
  rw [Finset.sum_congr rfl e2]
  have hl0 : 0 ≤ ((n : Int) - j) % (N : Int) := Int.emod_nonneg _ (by omega)
  have hl1 : ((n : Int) - j) % (N : Int) < N := Int.emod_lt_of_pos _ (by omega)
  set l0 := (((n : Int) - j) % (N : Int)).toNat with hl0def
  have hl0N : l0 < N := by omega
  have hl0c : ((l0 : Nat) : Int) = ((n : Int) - j) % (N : Int) := Int.toNat_of_nonneg hl0
  have hkey : ∀ l, l < N → ((j + l) % N = n ↔ l = l0) := by
    intro l hl
    constructor
    · intro h
      have h1 : (((j + l) % N : Nat) : Int) = n := by exact_mod_cast h
      have h2 : ((l : Int)) % N = ((n : Int) - j) % N := by
        rw [← h1]
        push_cast
        rw [Int.sub_emod, Int.emod_emod_of_dvd _ (dvd_refl _), ← Int.sub_emod]
        congr 1
        ring
      rw [Int.emod_eq_of_lt (by omega) (by omega)] at h2
      omega
    · intro h
      subst h
      have h2 : (((j + l0) % N : Nat) : Int) = n := by
        push_cast
        rw [hl0c, Int.add_emod, Int.emod_emod_of_dvd _ (dvd_refl _), ← Int.add_emod]
        have : (j : Int) + ((n : Int) - j) = n := by ring
        rw [this]
        exact Int.emod_eq_of_lt (by omega) (by omega)
      exact_mod_cast h2
  rw [Finset.sum_eq_single l0]
  · rw [if_pos ((hkey l0 hl0N).mpr rfl)]
    ring
  · intro l hl hne
    rw [if_neg (fun h => hne ((hkey l (Finset.mem_range.mp hl)).mp h)), mul_zero]
  · intro h
    exact absurd (Finset.mem_range.mpr hl0N) h

theorem conj_zero : comp.conj (0 : comp R) = 0 := by ext <;> simp

theorem conj_one : comp.conj (1 : comp R) = 1 := by ext <;> simp

theorem conj_add (z w : comp R) : comp.conj (z + w) = comp.conj z + comp.conj w := by
  ext <;> simp
  ring

theorem conj_mul (z w : comp R) : comp.conj (z * w) = comp.conj z * comp.conj w := by
  ext <;> simp
  ring

theorem conj_conj (z : comp R) : comp.conj (comp.conj z) = z := by ext <;> simp

theorem conj_pow (z : comp R) (n : Nat) : comp.conj (z ^ n) = comp.conj z ^ n := by
  induction n with
  | zero => simp [conj_one]
  | succ n ih => rw [pow_succ, pow_succ, conj_mul, ih]

theorem conj_sum (N : Nat) (f : Nat → comp R) :
    comp.conj (∑ n in Finset.range N, f n) = ∑ n in Finset.range N, comp.conj (f n) := by
  induction N with
  | zero => simp [conj_zero]
  | succ N ih => rw [Finset.sum_range_succ, Finset.sum_range_succ, conj_add, ih]

theorem natCast_re_im (n : Nat) : ((n : comp R)).re = (n : R) ∧ ((n : comp R)).im = 0 := by
  induction n with
  | zero => simp
  | succ n ih =>
    rw [Nat.cast_succ, Nat.cast_succ]
    simp [ih.1, ih.2]

theorem div_scalar_natCast_mul (N : Nat) (hN : 0 < N) (z : comp R) :
    comp.div_scalar ((N : comp R) * z) (N : R) = z := by
  have hN' : (N : R) ≠ 0 := by positivity
  obtain ⟨h1, h2⟩ := natCast_re_im (R := R) N
  ext
  · simp only [comp.div_scalar, comp.mul_re, h1, h2]
    field_simp
  · simp only [comp.div_scalar, comp.mul_im, h1, h2]
    field_simp

theorem normSq_mul (z w : comp R) :
    (z * w).re * (z * w).re + (z * w).im * (z * w).im =
      (z.re * z.re + z.im * z.im) * (w.re * w.re + w.im * w.im) := by
  simp only [comp.mul_re, comp.mul_im]
  ring

theorem normSq_pow (z : comp R) (n : Nat) :
    (z ^ n).re * (z ^ n).re + (z ^ n).im * (z ^ n).im = (z.re * z.re + z.im * z.im) ^ n := by
  induction n with
  | zero => simp
  | succ n ih => rw [pow_succ, normSq_mul, ih, pow_succ]

/-- A root of unity lies on the unit circle: its conjugate is its inverse. -/
theorem conj_eq_inv_of_pow_eq_one (w : comp R) (N : Nat) (hN : 0 < N) (hw : w ^ N = 1) :
    comp.conj w = w⁻¹ := by
  have h1 : (w.re * w.re + w.im * w.im) ^ N = 1 := by
    rw [← normSq_pow, hw]
    simp
  have h0 : 0 ≤ w.re * w.re + w.im * w.im :=
    add_nonneg (mul_self_nonneg _) (mul_self_nonneg _)
  have h2 : w.re * w.re + w.im * w.im = 1 :=
    (pow_eq_one_iff_of_nonneg h0 (by omega)).mp h1
  apply eq_inv_of_mul_eq_one_left
  ext
  · simp only [comp.mul_re, comp.conj_re, comp.conj_im, comp.one_re]
    linarith
  · simp only [comp.mul_im, comp.conj_re, comp.conj_im, comp.one_im]
    ring

/-- For a primitive `2^m`-th root of unity `w` with `m >= 1`, `w^(2^(m-1)) = -1`. -/
theorem primitive_root_half (w : comp R) (m : Nat) (hw : IsPrimitiveRoot w (2 ^ m))
    (hm : 1 ≤ m) : w ^ 2 ^ (m - 1) = -1 := by
  have e : 2 ^ m = 2 ^ (m - 1) * 2 := by
    rw [← pow_succ]
    congr 1
    omega
  have h1 : (w ^ 2 ^ (m - 1)) ^ 2 = 1 := by
    rw [← pow_mul, ← e, hw.pow_eq_one]
  have h2 : w ^ 2 ^ (m - 1) ≠ 1 := by
    intro h
    have hd := hw.dvd_of_pow_eq_one _ h
    have hle := Nat.le_of_dvd (by positivity) hd
    have : 0 < 2 ^ (m - 1) := by positivity
    omega
  have h3 : (w ^ 2 ^ (m - 1) - 1) * (w ^ 2 ^ (m - 1) + 1) = 0 := by
    have : (w ^ 2 ^ (m - 1) - 1) * (w ^ 2 ^ (m - 1) + 1) = (w ^ 2 ^ (m - 1)) ^ 2 - 1 := by ring
    rw [this, h1, sub_self]
  rcases mul_eq_zero.mp h3 with h | h
  · exact absurd (sub_eq_zero.mp h) h2
  · exact eq_neg_of_add_eq_zero_left h

/-- A loop `for (i < n) array[i] = g(array[i])` over the whole array. -/
theorem forLoop_map {α : Type} (g : α → α) (a : List α) (d : α) :
    forLoop a.length (fun i (arr : List α) =>
      (load arr (i : Int)).bind fun z => store arr (i : Int) (g z)) a = some (a.map g) := by
  obtain ⟨res, h1, h2, h3, -⟩ := forLoop_pointwise a.length a (fun i => g (a.getD i d))
    (fun i (arr : List α) =>
      (load arr (i : Int)).bind fun z => store arr (i : Int) (g z)) (le_refl _)
    (by
      intro i hi m hml hm
      have hmi : i < m.length := by omega
      have e := getElem_eq_getD m a i d hmi (hm i (le_refl i))
      dsimp only
      rw [load_eq_some m i hmi, Option.some_bind, store_eq_some m i _ hmi, e])
  rw [h1]
  congr 1
  apply list_ext_of_getElem? res _ a.length h2 (by simp)
  intro p hp
  rw [h3 p hp, List.getElem?_map, List.getElem?_eq_getElem hp, List.getD_eq_getElem a d hp]
  rfl

theorem conjugate_eq (a : List (comp R)) :
    conjugate a (a.length : Int) = some (a.map comp.conj) := by
  unfold conjugate
  simp only [Int.toNat_ofNat, Option.bind_eq_bind]
  exact forLoop_map comp.conj a 0

theorem multiply_eq (arr1 arr2 result : List (comp R)) (N : Nat) (h1 : arr1.length = N)
    (h2 : arr2.length = N) (h3 : result.length = N) :
    multiply arr1 arr2 result (N : Int) = some (List.zipWith (fun x y => x * y) arr1 arr2) := by
  unfold multiply
  simp only [Int.toNat_ofNat, Option.bind_eq_bind]
  obtain ⟨res, r1, r2, r3, -⟩ := forLoop_pointwise N result
    (fun i => arr1.getD i 0 * arr2.getD i 0)
    (fun i (result : List (comp R)) =>
      (load arr1 (i : Int)).bind fun x => (load arr2 (i : Int)).bind fun y =>
        store result (i : Int) (x * y)) (le_of_eq h3.symm)
    (by
      intro i hi m hml _
      dsimp only
      rw [load_nat_getD arr1 i 0 (by omega), Option.some_bind,
        load_nat_getD arr2 i 0 (by omega), Option.some_bind,
        store_eq_some m i _ (by omega)])
  rw [r1]
  congr 1
  apply list_ext_of_getElem? res _ N (by omega) (by simp [h1, h2])
  intro p hp
  rw [r3 p hp, List.getElem?_zipWith, List.getElem?_eq_getElem (show p < arr1.length by omega),
    List.getElem?_eq_getElem (show p < arr2.length by omega),
    List.getD_eq_getElem arr1 0 (by omega), List.getD_eq_getElem arr2 0 (by omega)]

/-- Source `fourier_transform` on a buffer of exactly `2^m` samples is the transform sum. -/
theorem fourier_transform_dft (w : comp R) (s : List (comp R)) (m : Nat) (hm : m ≤ 29)
    (hw : 1 ≤ m → w ^ 2 ^ (m - 1) = -1) (hl : s.length = 2 ^ m) :
    fourier_transform w s ((2 ^ m : Nat) : Int) = some (dft w s) := by
  obtain ⟨res, h1, h2, h3, -⟩ := fourier_transform_eq w s m hm hw (le_of_eq hl.symm)
  rw [h1]
  congr 1
  unfold dft
  rw [hl]
  exact list_eq_of_getElem? res (2 ^ m) _ (by omega) h3

theorem dft_length (w : comp R) (s : List (comp R)) : (dft w s).length = s.length := by
  simp [dft]

theorem dft_getD (w : comp R) (s : List (comp R)) (k : Nat) (hk : k < s.length) :
    (dft w s).getD k 0 = ∑ n in Finset.range s.length, s.getD n 0 * w ^ (n * k) := by
  rw [List.getD_eq_getElem _ 0 (by rw [dft_length]; exact hk)]
  simp [dft]

/-- Source `inverse_fourier_transform` in closed form. -/
theorem inverse_fourier_transform_eq (w : comp R) (X : List (comp R)) (m : Nat) (hm : m ≤ 29)
    (hw : 1 ≤ m → w ^ 2 ^ (m - 1) = -1) (hl : X.length = 2 ^ m) :
    inverse_fourier_transform w X ((2 ^ m : Nat) : Int) =
      some ((dft w (X.map comp.conj)).map
        (fun z => comp.div_scalar (comp.conj z) ((2 ^ m : Nat) : R))) := by
  unfold inverse_fourier_transform
  have c1 := conjugate_eq X
  rw [hl] at c1
  have c2 := fourier_transform_dft w (X.map comp.conj) m hm hw (by simp [hl])
  have c3 := conjugate_eq (dft w (X.map comp.conj))
  rw [dft_length, List.length_map, hl] at c3
  have c4 := forLoop_map (fun z => comp.div_scalar z ((2 ^ m : Nat) : R))
    ((dft w (X.map comp.conj)).map comp.conj) 0
  rw [List.length_map, dft_length, List.length_map, hl] at c4
  simp only [Option.bind_eq_bind, Int.toNat_ofNat]
  rw [c1, Option.some_bind, c2, Option.some_bind, c3, Option.some_bind]
  have ecast : ((((2 ^ m : Nat) : Int)) : R) = ((2 ^ m : Nat) : R) := by push_cast; rfl
  rw [ecast, c4, List.map_map]
  rfl

theorem getElem?_eq_some_getD {α : Type} (l : List α) (k : Nat) (d : α) (h : k < l.length) :
    l[k]? = some (l.getD k d) := by
  rw [List.getElem?_eq_getElem h, List.getD_eq_getElem l d h]

theorem getD_map_conj (X : List (comp R)) (n : Nat) :
    (X.map comp.conj).getD n 0 = comp.conj (X.getD n 0) := by
  by_cases h : n < X.length
  · rw [List.getD_eq_getElem _ 0 (by simp [h]), List.getD_eq_getElem _ 0 h]
    simp
  · rw [List.getD_eq_default _ 0 (by simp; omega), List.getD_eq_default _ 0 (by omega), conj_zero]

/-- Sample `k` of the inverse transform of `X`: the conjugations turn the root into its inverse
and the loop divides by `N`. -/
theorem inverse_sample (w : comp R) (X : List (comp R)) (N : Nat) (hN : 0 < N)
    (hw : w ^ N = 1) (hl : X.length = N) (k : Nat) :
    comp.div_scalar (comp.conj (∑ n in Finset.range N, (X.map comp.conj).getD n 0 * w ^ (n * k)))
        (N : R) =
      comp.div_scalar (∑ n in Finset.range N, X.getD n 0 * (w⁻¹) ^ (n * k)) (N : R) := by
  congr 1
  rw [conj_sum]
  apply Finset.sum_congr rfl
  intro n _
  rw [conj_mul, getD_map_conj, conj_conj, conj_pow, conj_eq_inv_of_pow_eq_one w N hN hw]

/-- Claim C2: for every power-of-two length `N = 2^m` with `m ≤ 29` (so that the last
`step *= 2` of the stage loop stays an `int`), every complex sequence `s` of
length `N` and every exact primitive `N`-th root of unity `w` taken as the base root,
`inverse_fourier_transform` applied to the result of `fourier_transform` on `s` gives back `s`. -/
theorem fourier_round_trip (w : comp R) (s : List (comp R)) (m : Nat) (hm : m ≤ 29)
    (hw : IsPrimitiveRoot w (2 ^ m)) (hl : s.length = 2 ^ m) :
    (fourier_transform w s ((2 ^ m : Nat) : Int)).bind
      (fun X => inverse_fourier_transform w X ((2 ^ m : Nat) : Int)) = some s := by
  have hhalf : 1 ≤ m → w ^ 2 ^ (m - 1) = -1 := primitive_root_half w m hw
  have hN : 0 < 2 ^ m := by positivity
  rw [fourier_transform_dft w s m hm hhalf hl, Option.some_bind,
    inverse_fourier_transform_eq w (dft w s) m hm hhalf (by rw [dft_length, hl])]
  congr 1
  apply list_ext_of_getElem? _ s (2 ^ m) (by simp [dft_length, hl]) hl
  intro k hk
  rw [List.getElem?_map, getElem?_eq_some_getD _ k 0 (by simp [dft_length, hl, hk]),
    getElem?_eq_some_getD s k 0 (by omega), Option.map_some',
    dft_getD w _ k (by simp [dft_length, hl, hk])]
  congr 1
  simp only [List.length_map, dft_length, hl]
  rw [inverse_sample w (dft w s) (2 ^ m) hN hw.pow_eq_one (by rw [dft_length, hl]) k]
  have e2 : ∑ n in Finset.range (2 ^ m), (dft w s).getD n 0 * (w⁻¹) ^ (n * k) =
      ((2 ^ m : Nat) : comp R) * s.getD k 0 := by
    have := dft_inversion w (2 ^ m) hw (fun j => s.getD j 0) k hk
    simp only at this
    rw [← this]
    apply Finset.sum_congr rfl
    intro n hn
    rw [dft_getD w s n (by rw [hl]; exact Finset.mem_range.mp hn), hl]
  rw [e2, div_scalar_natCast_mul (2 ^ m) hN]

/-- The imaginary unit is a primitive 4th root of unity in the complex rationals. -/
theorem primitive_root_i : IsPrimitiveRoot (⟨0, 1⟩ : comp ℚ) (2 ^ 2) := by
  refine IsPrimitiveRoot.mk_of_lt _ (by decide) (by decide!) ?_
  intro l h0 h4
  have h4' : l < 4 := h4
  interval_cases l <;> decide!

theorem fourier_round_trip_witness :
    (fourier_transform (⟨0, 1⟩ : comp ℚ) [⟨1, 0⟩, ⟨2, 0⟩, ⟨3, 0⟩, ⟨4, 0⟩] ((2 ^ 2 : Nat) : Int)).bind
      (fun X => inverse_fourier_transform ⟨0, 1⟩ X ((2 ^ 2 : Nat) : Int)) =
        some [⟨1, 0⟩, ⟨2, 0⟩, ⟨3, 0⟩, ⟨4, 0⟩] :=
  fourier_round_trip (⟨0, 1⟩ : comp ℚ) [⟨1, 0⟩, ⟨2, 0⟩, ⟨3, 0⟩, ⟨4, 0⟩] 2 (by decide)
    primitive_root_i (by decide)

/-- Claim C3: for every power-of-two `N = 2^m` with `m ≤ 29` (so that the last `step *= 2` of
the stage loop stays an `int`), every exact primitive `N`-th root of
unity `w` taken as the base root and all complex sequences `a`, `b` of length `N`,
`convolution(a, b, out, N)` leaves in `out` the circular convolution
`out[n] = sum over j < N of a[j] * b[(n - j) mod N]` of the original `a` and `b`. -/
theorem convolution_is_circular (w : comp R) (a b out : List (comp R)) (m : Nat) (hm : m ≤ 29)
    (hw : IsPrimitiveRoot w (2 ^ m)) (ha : a.length = 2 ^ m) (hb : b.length = 2 ^ m)
    (ho : out.length = 2 ^ m) :
    ∃ a' b' res, convolution w a b out ((2 ^ m : Nat) : Int) = some (a', b', res) ∧
      res.length = 2 ^ m ∧
      ∀ n : Nat, n < 2 ^ m → res[n]? = some (∑ j in Finset.range (2 ^ m),
        a.getD j 0 * b.getD ((((n : Int) - j) % ((2 ^ m : Nat) : Int)).toNat) 0) := by
  have hhalf : 1 ≤ m → w ^ 2 ^ (m - 1) = -1 := primitive_root_half w m hw
  have hN : 0 < 2 ^ m := by positivity
  have hP : (List.zipWith (fun x y => x * y) (dft w a) (dft w b)).length = 2 ^ m := by
    simp [dft_length, ha, hb]
  unfold convolution
  simp only [Option.bind_eq_bind]
  rw [fourier_transform_dft w a m hm hhalf ha, Option.some_bind,
    fourier_transform_dft w b m hm hhalf hb, Option.some_bind,
    multiply_eq (dft w a) (dft w b) out (2 ^ m) (by rw [dft_length, ha]) (by rw [dft_length, hb])
      ho, Option.some_bind, inverse_fourier_transform_eq w _ m hm hhalf hP, Option.some_bind]
  refine ⟨_, _, _, rfl, by simp [dft_length, ha, hb], ?_⟩
  intro n hn
  rw [List.getElem?_map, getElem?_eq_some_getD _ n 0 (by simp [dft_length, ha, hb, hn]),
    Option.map_some', dft_getD w _ n (by simp [dft_length, ha, hb, hn])]
  congr 1
  simp only [List.length_map, hP]
  rw [inverse_sample w _ (2 ^ m) hN hw.pow_eq_one hP n]
  have e2 : ∑ k in Finset.range (2 ^ m),
      (List.zipWith (fun x y => x * y) (dft w a) (dft w b)).getD k 0 * (w⁻¹) ^ (k * n) =
      ((2 ^ m : Nat) : comp R) * ∑ j in Finset.range (2 ^ m),
        a.getD j 0 * b.getD ((((n : Int) - j) % ((2 ^ m : Nat) : Int)).toNat) 0 := by
    have := dft_convolution w (2 ^ m) hw (fun j => a.getD j 0) (fun l => b.getD l 0) n hn
    simp only at this
    rw [← this]
    apply Finset.sum_congr rfl
    intro k hk
    have hk' := Finset.mem_range.mp hk
    congr 1
    rw [List.getD_eq_getElem _ 0 (by rw [hP]; exact hk'), List.getElem_zipWith,
      ← List.getD_eq_getElem (dft w a) 0 (by rw [dft_length, ha]; exact hk'),
      ← List.getD_eq_getElem (dft w b) 0 (by rw [dft_length, hb]; exact hk'),
      dft_getD w a k (by omega), dft_getD w b k (by omega), ha, hb]
  rw [e2, div_scalar_natCast_mul (2 ^ m) hN]

theorem convolution_is_circular_witness :
    ∃ a' b' res, convolution (⟨0, 1⟩ : comp ℚ) [⟨1, 0⟩, ⟨2, 0⟩, ⟨3, 0⟩, ⟨4, 0⟩]
        [⟨1, 0⟩, ⟨1, 0⟩, ⟨0, 0⟩, ⟨0, 0⟩] [0, 0, 0, 0] ((2 ^ 2 : Nat) : Int) = some (a', b', res) ∧
      res.length = 2 ^ 2 ∧
      ∀ n : Nat, n < 2 ^ 2 → res[n]? = some (∑ j in Finset.range (2 ^ 2),
        ([⟨1, 0⟩, ⟨2, 0⟩, ⟨3, 0⟩, ⟨4, 0⟩] : List (comp ℚ)).getD j 0 *
          ([⟨1, 0⟩, ⟨1, 0⟩, ⟨0, 0⟩, ⟨0, 0⟩] : List (comp ℚ)).getD
            ((((n : Int) - j) % ((2 ^ 2 : Nat) : Int)).toNat) 0) :=
  convolution_is_circular (⟨0, 1⟩ : comp ℚ) [⟨1, 0⟩, ⟨2, 0⟩, ⟨3, 0⟩, ⟨4, 0⟩]
    [⟨1, 0⟩, ⟨1, 0⟩, ⟨0, 0⟩, ⟨0, 0⟩] [0, 0, 0, 0] 2 (by decide) primitive_root_i (by decide)
    (by decide) (by decide)

theorem le_padded_size (n : Nat) : n ≤ padded_size n := Nat.le_pow_clog (by decide) n

theorem grow_size_eq (d : Nat) : ∀ (j k fuel : Nat), k + j = Nat.clog 2 d → j < fuel →
    grow_size fuel (d : Int) ((2 ^ k : Nat) : Int) = some ((padded_size d : Nat) : Int) := by
  intro j
  induction j with
  | zero =>
    intro k fuel hk hf
    obtain ⟨fuel', rfl⟩ : ∃ f, fuel = f + 1 := ⟨fuel - 1, by omega⟩
    unfold grow_size
    have hle : d ≤ 2 ^ k := by
      have := Nat.le_pow_clog (by decide : 1 < 2) d
      rw [← hk] at this
      simpa using this
    have hc : ¬ (((2 ^ k : Nat) : Int) < (d : Int)) := by omega
    rw [if_neg hc]
    unfold padded_size
    rw [← hk]
    rfl
  | succ j ih =>
    intro k fuel hk hf
    obtain ⟨fuel', rfl⟩ : ∃ f, fuel = f + 1 := ⟨fuel - 1, by omega⟩
    unfold grow_size
    have hlt : 2 ^ k < d := (Nat.pow_lt_iff_lt_clog (by decide : 1 < 2)).mpr (by omega)
    have hc : ((2 ^ k : Nat) : Int) < (d : Int) := by exact_mod_cast hlt
    have e : ((2 ^ k : Nat) : Int) * 2 = ((2 ^ (k + 1) : Nat) : Int) := by
      push_cast
      rw [pow_succ]
    rw [if_pos hc, e]
    exact ih (k + 1) fuel' (by omega) (by omega)

theorem grow_size_from_one (d : Nat) :
    grow_size (d + 1) (d : Int) 1 = some ((padded_size d : Nat) : Int) := by
  have h := grow_size_eq d (Nat.clog 2 d) 0 (d + 1) (by omega) (by
    have h1 : Nat.clog 2 d < 2 ^ Nat.clog 2 d := Nat.lt_two_pow _
    by_cases hd : 1 < d
    · have h2 := Nat.pow_pred_clog_lt_self (by decide : 1 < 2) hd
      have h3 : (Nat.clog 2 d).pred < 2 ^ (Nat.clog 2 d).pred := Nat.lt_two_pow _
      have h4 : (Nat.clog 2 d).pred = Nat.clog 2 d - 1 := rfl
      omega
    · have : d = 0 ∨ d = 1 := by omega
      rcases this with h | h <;> subst h <;> simp)
  simpa using h

/-- A loop that appends one item per pass collects the items in order. -/
theorem forLoop_collect {α : Type} (n : Nat) (g : Nat → α)
    (body : Nat → List α → Option (List α))
    (hb : ∀ k, k < n → ∀ acc, body k acc = some (acc ++ [g k])) :
    forLoop n body [] = some ((List.range n).map g) := by
  induction n with
  | zero => simp [forLoop_zero]
  | succ n ih =>
    rw [forLoop_succ, ih (fun k hk => hb k (Nat.lt_succ_of_lt hk)), Option.some_bind,
      hb n (Nat.lt_succ_self n), List.range_succ, List.map_append]
    rfl

theorem pad_complex_length (m : List R) (L : Nat) (h : m.length ≤ L) :
    (pad_complex m L).length = L := by
  simp [pad_complex]
  omega

theorem pad_complex_getElem? (m : List R) (L p : Nat) (h : m.length ≤ L) (hp : p < L) :
    (pad_complex m L)[p]? = some (if p < m.length then (⟨m.getD p 0, 0⟩ : comp R) else 0) := by
  unfold pad_complex
  by_cases hpm : p < m.length
  · rw [List.getElem?_append_left (by simp [hpm]), if_pos hpm, List.getElem?_map,
      List.getElem?_eq_getElem hpm, List.getD_eq_getElem m 0 hpm]
    rfl
  · rw [List.getElem?_append_right (by simp; omega), if_neg hpm, List.getElem?_replicate,
      if_pos (by simp; omega)]

/-- The two fill loops of `_form_complex_array` for one channel. -/
theorem fill_channel_eq (m : List R) (L : Nat) (h : m.length ≤ L) :
    (forLoop m.length (fun i (mas : List (comp R)) =>
        (load m (i : Int)).bind fun v => store mas (i : Int) ⟨v, 0⟩)
      (List.replicate L 0)).bind (fun mas =>
        forLoop (L - m.length) (fun c (mas : List (comp R)) =>
          store mas ((m.length : Int) + c) ⟨0, 0⟩) mas) = some (pad_complex m L) := by
  obtain ⟨res, h1, h2, h3, h4⟩ := forLoop_pointwise m.length (List.replicate L (0 : comp R))
    (fun i => (⟨m.getD i 0, 0⟩ : comp R))
    (fun i (mas : List (comp R)) =>
        (load m (i : Int)).bind fun v => store mas (i : Int) ⟨v, 0⟩) (by simpa using h)
    (by
      intro i hi mas hml _
      dsimp only
      rw [load_nat_getD m i 0 hi, Option.some_bind, store_eq_some mas i _ (by
        rw [hml]; simp; omega)])
  rw [h1, Option.some_bind]
  have hlen : res.length = L := by simpa using h2
  have hres : res = pad_complex m L := by
    apply list_ext_of_getElem? res _ L hlen (pad_complex_length m L h)
    intro p hp
    rw [pad_complex_getElem? m L p h hp]
    by_cases hpm : p < m.length
    · rw [h3 p hpm, if_pos hpm]
    · rw [h4 p (by omega), if_neg hpm, List.getElem?_replicate, if_pos hp]
  rw [hres]
  obtain ⟨res2, q1, q2⟩ := forLoop_inv (fun _ (mas : List (comp R)) => mas = pad_complex m L)
    (L - m.length) (fun c (mas : List (comp R)) =>
          store mas ((m.length : Int) + c) ⟨0, 0⟩) (pad_complex m L) rfl
    (by
      rintro c hc mas rfl
      have e : (m.length : Int) + c = ((m.length + c : Nat) : Int) := by push_cast; rfl
      have hp : m.length + c < (pad_complex m L).length := by
        rw [pad_complex_length m L h]; omega
      refine ⟨pad_complex m L, ?_, rfl⟩
      dsimp only
      rw [e, store_eq_some _ _ _ hp]
      congr 1
      have hz : (pad_complex m L)[m.length + c]? = some (⟨0, 0⟩ : comp R) := by
        rw [pad_complex_getElem? m L _ h (by omega), if_neg (by omega)]
        rfl
      rw [List.getElem?_eq_getElem hp] at hz
      have hz' := Option.some.inj hz
      conv_lhs => rw [← hz']
      exact list_set_self _ _ hp)
  rw [q1, q2]

/-- Source `_form_complex_array` in closed form, for a well-formed image. -/
theorem form_complex_array_eq (image : IMAGE R) (D : Nat) (hi : image.WF) :
    _form_complex_array image (D : Int) =
      some { size := ((padded_size (max D (image.width * image.height).toNat) : Nat) : Int),
             arrays := image.map.map (fun m =>
               pad_complex m (padded_size (max D (image.width * image.height).toNat))) } := by
  obtain ⟨W, H, C, hW, hH, hC, hw, hh, hc, hl, hm⟩ := wf_dims hi
  have hsz : image.height * image.width = ((W * H : Nat) : Int) := by
    rw [hw, hh]; push_cast; ring
  have hsz' : (image.width * image.height).toNat = W * H := by
    rw [hw, hh, ← Int.toNat_ofNat (W * H)]; push_cast; rfl
  rw [hsz']
  set L := padded_size (max D (W * H)) with hL
  have hLge : W * H ≤ L := le_trans (le_max_right D (W * H)) (le_padded_size _)
  unfold _form_complex_array
  simp only [hsz, hc]
  have hd : (if (D : Int) < ((W * H : Nat) : Int) then ((W * H : Nat) : Int) else (D : Int)) =
      ((max D (W * H) : Nat) : Int) := by
    split_ifs with h
    · have : D < W * H := by exact_mod_cast h
      rw [max_eq_right (by omega)]
    · have : ¬ (D < W * H) := by
        intro h'
        exact h (by exact_mod_cast h')
      rw [max_eq_left (by omega)]
  rw [hd]
  simp only [Int.toNat_ofNat, Option.bind_eq_bind]
  rw [grow_size_from_one (max D (W * H)), Option.some_bind, if_neg (by omega)]
  simp only [Int.toNat_ofNat]
  have hsub : (((L : Nat) : Int) - ((W * H : Nat) : Int)).toNat = L - W * H := by omega
  rw [← hL, hsub]
  have hcol := forLoop_collect C (fun k => pad_complex (image.map.getD k []) L)
    (fun k (arrays : List (List (comp R))) =>
      (load image.map (k : Int)).bind fun m =>
        (forLoop (W * H) (fun i (mas : List (comp R)) =>
          (load m (i : Int)).bind fun v => store mas (i : Int) ⟨v, 0⟩)
          (List.replicate L 0)).bind fun mas =>
        (forLoop (L - W * H) (fun c (mas : List (comp R)) =>
          store mas (((W * H : Nat) : Int) + c) ⟨0, 0⟩) mas).bind fun mas =>
        pure (arrays ++ [mas]))
    (by
      intro k hk acc
      dsimp only
      have hk' : k < image.map.length := by omega
      rw [load_nat_getD image.map k [] hk', Option.some_bind]
      have hml : (image.map.getD k []).length = W * H := by
        rw [List.getD_eq_getElem image.map [] hk']
        exact hm _ (List.getElem_mem _)
      have hfill := fill_channel_eq (image.map.getD k []) L (by omega)
      rw [hml] at hfill
      rw [← Option.bind_assoc, hfill, Option.some_bind]
      rfl)
  rw [hcol, Option.some_bind]
  congr 2
  apply List.ext_getElem?
  intro p
  by_cases hp : p < C
  · rw [List.getElem?_map, List.getElem?_map, List.getElem?_range hp,
      List.getElem?_eq_getElem (show p < image.map.length by omega), Option.map_some',
      Option.map_some', List.getD_eq_getElem image.map [] (by omega)]
  · rw [List.getElem?_eq_none (by simp; omega), List.getElem?_eq_none (by simp; omega)]

/-- The transform of a circular convolution is the product of the transforms. -/
theorem dft_of_convolution {K : Type} [Field K] (w : K) (N : Nat) (hw : IsPrimitiveRoot w N)
    (hN : (N : K) ≠ 0) (a b : Nat → K) (k : Nat) (hk : k < N) :
    ∑ n in Finset.range N,
        (∑ j in Finset.range N, a j * b ((((n : Int) - j) % (N : Int)).toNat)) * w ^ (n * k) =
      (∑ j in Finset.range N, a j * w ^ (j * k)) * (∑ l in Finset.range N, b l * w ^ (l * k)) := by
  have hinv := dft_inversion w⁻¹ N hw.inv
    (fun k' => (∑ j in Finset.range N, a j * w ^ (j * k')) *
      (∑ l in Finset.range N, b l * w ^ (l * k'))) k hk
  simp only [inv_inv] at hinv
  have e : ∀ n ∈ Finset.range N,
      (∑ j in Finset.range N, ((∑ j' in Finset.range N, a j' * w ^ (j' * j)) *
        (∑ l in Finset.range N, b l * w ^ (l * j))) * (w⁻¹) ^ (j * n)) * w ^ (n * k) =
      (N : K) * ((∑ j in Finset.range N, a j * b ((((n : Int) - j) % (N : Int)).toNat)) *
        w ^ (n * k)) := by
    intro n hn
    rw [dft_convolution w N hw a b n (Finset.mem_range.mp hn), mul_assoc]
  rw [Finset.sum_congr rfl e, ← Finset.mul_sum] at hinv
  exact mul_left_cancel₀ hN hinv

theorem natCast_ne_zero (N : Nat) (hN : 0 < N) : ((N : Nat) : comp R) ≠ 0 := by
  intro h
  have h1 := (natCast_re_im (R := R) N).1
  rw [h] at h1
  have : (N : R) ≠ 0 := by positivity
  exact this (by simpa using h1.symm)

theorem idft_length (w : comp R) (X : List (comp R)) : (idft w X).length = X.length := by
  simp [idft, dft_length]

theorem inverse_fourier_transform_idft (w : comp R) (X : List (comp R)) (m : Nat) (hm : m ≤ 29)
    (hw : 1 ≤ m → w ^ 2 ^ (m - 1) = -1) (hl : X.length = 2 ^ m) :
    inverse_fourier_transform w X ((2 ^ m : Nat) : Int) = some (idft w X) := by
  rw [inverse_fourier_transform_eq w X m hm hw hl]
  unfold idft
  rw [hl]

/-- The inverse transform undoes the transform, as lists. -/
theorem idft_dft (w : comp R) (s : List (comp R)) (N : Nat) (hN : 0 < N)
    (hw : IsPrimitiveRoot w N) (hl : s.length = N) : idft w (dft w s) = s := by
  apply list_ext_of_getElem? _ s N (by simp [idft_length, dft_length, hl]) hl
  intro k hk
  unfold idft
  rw [List.getElem?_map, getElem?_eq_some_getD _ k 0 (by simp [dft_length, hl, hk]),
    getElem?_eq_some_getD s k 0 (by omega), Option.map_some',
    dft_getD w _ k (by simp [dft_length, hl, hk])]
  congr 1
  simp only [List.length_map, dft_length, hl]
  rw [inverse_sample w (dft w s) N hN hw.pow_eq_one (by rw [dft_length, hl]) k]
  have e2 : ∑ n in Finset.range N, (dft w s).getD n 0 * (w⁻¹) ^ (n * k) =
      ((N : Nat) : comp R) * s.getD k 0 := by
    have := dft_inversion w N hw (fun j => s.getD j 0) k hk
    simp only at this
    rw [← this]
    apply Finset.sum_congr rfl
    intro n hn
    rw [dft_getD w s n (by rw [hl]; exact Finset.mem_range.mp hn), hl]
  rw [e2, div_scalar_natCast_mul N hN]

/-- The transform of the circular convolution of two lists, bin by bin. -/
theorem dft_circular_convolution (w : comp R) (a b : List (comp R)) (N : Nat) (hN : 0 < N)
    (hw : IsPrimitiveRoot w N) (ha : a.length = N) (hb : b.length = N) :
    dft w (circular_convolution a b N) = List.zipWith (fun x y => x * y) (dft w a) (dft w b) := by
  have hc : (circular_convolution a b N).length = N := by simp [circular_convolution]
  apply list_ext_of_getElem? _ _ N (by rw [dft_length, hc]) (by simp [dft_length, ha, hb])
  intro k hk
  rw [getElem?_eq_some_getD _ k 0 (by rw [dft_length, hc]; exact hk),
    dft_getD w _ k (by rw [hc]; exact hk), hc, List.getElem?_zipWith,
    getElem?_eq_some_getD (dft w a) k 0 (by rw [dft_length, ha]; exact hk),
    getElem?_eq_some_getD (dft w b) k 0 (by rw [dft_length, hb]; exact hk),
    dft_getD w a k (by omega), dft_getD w b k (by omega), ha, hb]
  simp only [Option.map_some', Option.bind_some]
  congr 1
  rw [← dft_of_convolution w N hw (natCast_ne_zero N hN) (fun j => a.getD j 0)
    (fun l => b.getD l 0) k hk]
  apply Finset.sum_congr rfl
  intro n hn
  congr 1
  rw [List.getD_eq_getElem _ 0 (by rw [hc]; exact Finset.mem_range.mp hn)]
  simp [circular_convolution]

theorem divide_loop_eq (X P : List (comp R)) (N : Nat) (hX : X.length = N) (hP : P.length = N) :
    forLoop N (fun i (m : List (comp R)) =>
      (load P (i : Int)).bind fun complex_value =>
        if complex_value.im ≠ 0 ∨ complex_value.re ≠ 0 then
          (load m (i : Int)).bind fun z => store m (i : Int) (z / complex_value)
        else pure m) X = some (divide_bins X P) := by
  obtain ⟨res, h1, h2, h3, -⟩ := forLoop_pointwise N X
    (fun i => if (P.getD i 0).im ≠ 0 ∨ (P.getD i 0).re ≠ 0 then X.getD i 0 / P.getD i 0
      else X.getD i 0)
    (fun i (m : List (comp R)) =>
      (load P (i : Int)).bind fun complex_value =>
        if complex_value.im ≠ 0 ∨ complex_value.re ≠ 0 then
          (load m (i : Int)).bind fun z => store m (i : Int) (z / complex_value)
        else pure m) (le_of_eq hX.symm)
    (by
      intro i hi m hml hm
      have hmi : i < m.length := by omega
      have e := getElem_eq_getD m X i 0 hmi (hm i (le_refl i))
      dsimp only
      rw [load_nat_getD P i 0 (by omega), Option.some_bind]
      by_cases hc : (P.getD i 0).im ≠ 0 ∨ (P.getD i 0).re ≠ 0
      · rw [if_pos hc, if_pos hc, load_eq_some m i hmi, Option.some_bind,
          store_eq_some m i _ hmi, e]
      · rw [if_neg hc, if_neg hc, ← e, list_set_self m i hmi]
        rfl)
  rw [h1]
  congr 1
  apply list_ext_of_getElem? res _ N (by omega) (by simp [divide_bins, hX, hP])
  intro p hp
  rw [h3 p hp]
  unfold divide_bins
  rw [List.getElem?_zipWith, getElem?_eq_some_getD X p 0 (by omega),
    getElem?_eq_some_getD P p 0 (by omega)]

theorem inverse_filter_eq (w : comp R) (P X : List (comp R)) (m : Nat) (hm : m ≤ 29)
    (hw : 1 ≤ m → w ^ 2 ^ (m - 1) = -1) (hX : X.length = 2 ^ m) (hP : P.length = 2 ^ m) :
    inverse_filter w P ((2 ^ m : Nat) : Int) X = some (divide_bins (dft w X) P) := by
  unfold inverse_filter
  simp only [Option.bind_eq_bind, Int.toNat_ofNat]
  rw [fourier_transform_dft w X m hm hw hX, Option.some_bind]
  exact divide_loop_eq (dft w X) P (2 ^ m) (by rw [dft_length, hX]) hP

theorem divide_bins_length (X P : List (comp R)) (N : Nat) (hX : X.length = N)
    (hP : P.length = N) : (divide_bins X P).length = N := by
  simp [divide_bins, hX, hP]

/-- A loop over the channels that replaces channel `k` by `g` of it. -/
theorem forLoop_channels {α : Type} (g : α → α) (a : List α) (d : α)
    (body : Nat → List α → Option (List α))
    (hb : ∀ k, k < a.length → ∀ m : List α, m.length = a.length → m[k]? = a[k]? →
      body k m = some (m.set k (g (a.getD k d)))) :
    forLoop a.length body a = some (a.map g) := by
  obtain ⟨res, h1, h2, h3, -⟩ := forLoop_pointwise a.length a (fun k => g (a.getD k d)) body
    (le_refl _) (fun k hk m hml hm => hb k hk m hml (hm k (le_refl k)))
  rw [h1]
  congr 1
  apply list_ext_of_getElem? res _ a.length h2 (by simp)
  intro p hp
  rw [h3 p hp, List.getElem?_map, List.getElem?_eq_getElem hp, List.getD_eq_getElem a d hp]
  rfl

theorem filter_channels_eq (w : comp R) (P : List (comp R)) (arrays : List (List (comp R)))
    (m : Nat) (hm : m ≤ 29) (hw : 1 ≤ m → w ^ 2 ^ (m - 1) = -1) (hP : P.length = 2 ^ m)
    (ha : ∀ X ∈ arrays, X.length = 2 ^ m) :
    filter_channels w P (arrays.length : Int) ((2 ^ m : Nat) : Int) arrays =
      some (arrays.map (fun X => divide_bins (dft w X) P)) := by
  unfold filter_channels
  simp only [Int.toNat_ofNat, Option.bind_eq_bind]
  apply forLoop_channels (fun X => divide_bins (dft w X) P) arrays []
  intro k hk marr hml hmk
  have hmk' : k < marr.length := by omega
  have e := getElem_eq_getD marr arrays k [] hmk' hmk
  rw [load_eq_some marr k hmk', Option.some_bind, e,
    inverse_filter_eq w P _ m hm hw (by
      rw [List.getD_eq_getElem arrays [] hk]; exact ha _ (List.getElem_mem _)) hP,
    Option.some_bind, store_eq_some marr k _ hmk']

/-- The copy loop of `deconvinverse` writes the real parts of the first `n` samples. -/
theorem copy_real_eq (cm : List (comp R)) (img : IMAGE R) (k n : Nat)
    (hk : k < img.map.length) (hn : n ≤ cm.length) (hd : ∀ m ∈ img.map, m.length = n) :
    copy_real cm (n : Int) k (some img) =
      some (some (IMAGE.mk (img.map.set k ((cm.take n).map comp.re)) img.channels img.width
        img.height)) := by
  unfold copy_real
  simp only [Int.toNat_ofNat, Option.bind_eq_bind]
  have key := forLoop_inv
    (fun i (st : Option (IMAGE R)) => ∃ d : List R,
      st = some (IMAGE.mk (img.map.set k d) img.channels img.width img.height) ∧
      d.length = n ∧ ∀ q, q < i → d[q]? = some (cm.getD q 0).re) n
    (fun i (latent : Option (IMAGE R)) =>
      latent.bind fun img =>
      (load cm (i : Int)).bind fun z =>
      (load img.map (k : Int)).bind fun m =>
      (store m (i : Int) z.re).bind fun m =>
      (store img.map (k : Int) m).bind fun maps =>
      pure (some { img with map := maps })) (some img)
    ⟨img.map[k], by rw [list_set_self _ _ hk], hd _ (List.getElem_mem _),
      fun q hq => absurd hq (Nat.not_lt_zero q)⟩
    (by
      rintro i hi st ⟨d, rfl, hdl, hdq⟩
      refine ⟨some (IMAGE.mk (img.map.set k (d.set i (cm.getD i 0).re)) img.channels img.width
        img.height), ?_, d.set i (cm.getD i 0).re, rfl,
        by simp [hdl], ?_⟩
      · have e3 : load (img.map.set k d) (k : Int) = some d := by
          rw [load_eq_some _ k (by simp [hk])]
          simp
        have e5 : store (img.map.set k d) (k : Int) (d.set i (cm.getD i 0).re) =
            some (img.map.set k (d.set i (cm.getD i 0).re)) := by
          rw [store_eq_some _ k _ (by simp [hk]), List.set_set]
        simp only [Option.some_bind, load_nat_getD cm i 0 (show i < cm.length by omega), e3,
          store_eq_some d i _ (show i < d.length by omega), e5]
        rfl
      · intro q hq
        by_cases hqi : i = q
        · subst hqi
          rw [getElem?_set_eq _ _ _ (by omega)]
        · rw [getElem?_set_ne _ _ _ _ hqi]
          exact hdq q (by omega))
  obtain ⟨st, h1, d, rfl, hdl, hdq⟩ := key
  rw [h1]
  have : d = (cm.take n).map comp.re := by
    apply list_ext_of_getElem? d _ n hdl (by simp; omega)
    intro q hq
    rw [hdq q hq, List.getElem?_map, List.getElem?_take, if_pos hq,
      getElem?_eq_some_getD cm q 0 (by omega)]
    rfl
  rw [this]

/-- The second channel loop of `deconvinverse` in closed form. -/
theorem inverse_channels_eq (w : comp R) (arrays : List (List (comp R))) (img : IMAGE R)
    (m n : Nat) (hm : m ≤ 29) (hw : 1 ≤ m → w ^ 2 ^ (m - 1) = -1)
    (ha : ∀ X ∈ arrays, X.length = 2 ^ m) (hn : n ≤ 2 ^ m)
    (hl : img.map.length = arrays.length) (hd : ∀ ch ∈ img.map, ch.length = n) :
    ∃ arrays', inverse_channels w (arrays.length : Int) ((2 ^ m : Nat) : Int) (n : Int) arrays
        (some img) =
      some (arrays', some (IMAGE.mk (arrays.map (fun X => ((idft w X).take n).map comp.re))
        img.channels img.width img.height)) := by
  unfold inverse_channels
  simp only [Int.toNat_ofNat, Option.bind_eq_bind]
  have key := forLoop_inv
    (fun k (st : List (List (comp R)) × Option (IMAGE R)) =>
      st.1.length = arrays.length ∧ (∀ p, k ≤ p → st.1[p]? = arrays[p]?) ∧
      ∃ maps : List (List R), st.2 = some (IMAGE.mk maps img.channels img.width img.height) ∧
        maps.length = arrays.length ∧ (∀ ch ∈ maps, ch.length = n) ∧
        ∀ p, p < k → maps[p]? = some (((idft w (arrays.getD p [])).take n).map comp.re))
    arrays.length
    (fun k (st : List (List (comp R)) × Option (IMAGE R)) =>
      (load st.1 (k : Int)).bind fun complex_image_map =>
      (inverse_fourier_transform w complex_image_map ((2 ^ m : Nat) : Int)).bind
        fun complex_image_map =>
      (store st.1 (k : Int) complex_image_map).bind fun arrays =>
      (copy_real complex_image_map (n : Int) k st.2).bind fun latent =>
      pure (arrays, latent)) (arrays, some img)
    ⟨rfl, fun p _ => rfl, img.map, rfl, hl, hd, fun p hp => absurd hp (Nat.not_lt_zero p)⟩
    (by
      rintro k hk ⟨cur, lat⟩ ⟨hcl, hcp, maps, hlat, hml, hmn, hmp⟩
      simp only at hcl hcp hlat hml hmn hmp
      subst hlat
      have hkc : k < cur.length := by omega
      have e := getElem_eq_getD cur arrays k [] hkc (hcp k (le_refl k))
      have hXl : (arrays.getD k []).length = 2 ^ m := by
        rw [List.getD_eq_getElem arrays [] hk]; exact ha _ (List.getElem_mem _)
      have hc := copy_real_eq (idft w (arrays.getD k []))
        (IMAGE.mk maps img.channels img.width img.height) k n
        (by simp only; omega) (by rw [idft_length, hXl]; exact hn) hmn
      simp only [load_eq_some cur k hkc, Option.some_bind, e,
        inverse_fourier_transform_idft w _ m hm hw hXl, store_eq_some cur k _ hkc, hc]
      refine ⟨_, rfl, by simp [hcl], ?_, _, rfl, by simp [hml], ?_, ?_⟩
      · intro p hp
        simp only
        rw [getElem?_set_ne _ _ _ _ (by omega)]
        exact hcp p (by omega)
      · intro ch hch
        rcases List.mem_or_eq_of_mem_set hch with h1 | h1
        · exact hmn ch h1
        · rw [h1, List.length_map, List.length_take, idft_length, hXl]
          omega
      · intro p hp
        by_cases hpk : k = p
        · subst hpk
          rw [getElem?_set_eq _ _ _ (by omega)]
        · rw [getElem?_set_ne _ _ _ _ hpk]
          exact hmp p (by omega))
  obtain ⟨⟨cur, lat⟩, hst, -, -, maps, hlat, hml, -, hmp⟩ := key
  simp only at hlat hml hmp
  subst hlat
  refine ⟨cur, ?_⟩
  rw [hst]
  have : maps = arrays.map (fun X => ((idft w X).take n).map comp.re) := by
    apply list_ext_of_getElem? maps _ arrays.length hml (by simp)
    intro p hp
    rw [hmp p hp, List.getElem?_map, List.getElem?_eq_getElem hp,
      List.getD_eq_getElem arrays [] hp]
    rfl
  rw [this]

theorem padded_size_two_pow (m : Nat) : padded_size (2 ^ m) = 2 ^ m := by
  unfold padded_size
  rw [Nat.clog_pow 2 m (by decide)]

/-- Source `deconvinverse` in closed form, for a well-formed image whose padded length is
`2^m` and a valid PSF of at most `2^m` weights. -/
theorem deconvinverse_eq (w : comp R) (image psf : IMAGE R) (m : Nat) (hi : image.WF)
    (hp : psf.isPSF) (hd : psf.weights.sum ≠ 0)
    (hL : padded_size (image.width * image.height).toNat = 2 ^ m) (hm : m ≤ 29)
    (hk : psf.weights.length ≤ 2 ^ m) (hw : 1 ≤ m → w ^ 2 ^ (m - 1) = -1) :
    deconvinverse w image psf =
      some (some (IMAGE.mk
        (image.map.map (inverse_filter_channel w (dft w (pad_complex psf.weights (2 ^ m)))
          (2 ^ m) (image.width * image.height).toNat))
        image.channels image.width image.height)) := by
  obtain ⟨c1, c2, c3, -, -⟩ := psf_checks psf hp
  obtain ⟨W, H, C, hW, hH, hC, hw', hh', hc', hl, hmm⟩ := wf_dims hi
  obtain ⟨Wk, Hk, hWk, hHk, hwk, hhk, hck, hmap, hlen⟩ := psf_dims hp
  have hn : (image.width * image.height).toNat = W * H := by
    rw [hw', hh', ← Int.toNat_ofNat (W * H)]; push_cast; rfl
  have hnp : (psf.width * psf.height).toNat = Wk * Hk := by
    rw [hwk, hhk, ← Int.toNat_ofNat (Wk * Hk)]; push_cast; rfl
  have hsz : image.width * image.height = ((W * H : Nat) : Int) := by
    rw [hw', hh']; push_cast; rfl
  rw [hn] at hL ⊢
  have hnL : W * H ≤ 2 ^ m := by rw [← hL]; exact le_padded_size _
  -- the padded arrays
  have f1 := form_complex_array_eq image 0 hi
  rw [hn, Nat.zero_max, hL] at f1
  have f2 := form_complex_array_eq psf (2 ^ m) hp.1
  rw [hnp, max_eq_left (by rw [← hlen]; exact hk), padded_size_two_pow, hmap] at f2
  simp only [Nat.cast_zero, List.map_cons, List.map_nil] at f1 f2
  have hPl : (pad_complex psf.weights (2 ^ m)).length = 2 ^ m := pad_complex_length _ _ hk
  have f3 := fourier_transform_dft w (pad_complex psf.weights (2 ^ m)) m hm hw hPl
  have hal : (image.map.map (fun ch => pad_complex ch (2 ^ m))).length = C := by simp [hl]
  have f4 := filter_channels_eq w (dft w (pad_complex psf.weights (2 ^ m)))
    (image.map.map (fun ch => pad_complex ch (2 ^ m))) m hm hw (by rw [dft_length, hPl])
    (by
      intro X hX
      obtain ⟨ch, hch, rfl⟩ := List.mem_map.mp hX
      exact pad_complex_length _ _ (by rw [hmm ch hch]; exact hnL))
  rw [hal] at f4
  have hbl : (black_image image).map.length = C := by
    simp [black_image, hc']
  have hbn : ∀ ch ∈ (black_image image).map, ch.length = W * H := by
    intro ch hch
    simp only [black_image] at hch
    rw [List.eq_of_mem_replicate hch, List.length_replicate, hn]
  obtain ⟨arrays', f5⟩ := inverse_channels_eq w
    ((image.map.map (fun ch => pad_complex ch (2 ^ m))).map
      (fun X => divide_bins (dft w X) (dft w (pad_complex psf.weights (2 ^ m)))))
    (black_image image) m (W * H) hm hw
    (by
      intro X hX
      obtain ⟨Y, hY, rfl⟩ := List.mem_map.mp hX
      obtain ⟨ch, hch, rfl⟩ := List.mem_map.mp hY
      exact divide_bins_length _ _ _ (by
        rw [dft_length]
        exact pad_complex_length _ _ (by rw [hmm ch hch]; exact hnL)) (by rw [dft_length, hPl]))
    hnL (by simp [hbl, hl]) hbn
  simp only [List.length_map, hl] at f5
  unfold deconvinverse
  simp only [if_neg c1, if_neg c2, createImage_like image hi, c3, getPSFDivisor_eq psf hp,
    Option.bind_eq_bind, Option.some_bind, if_neg hd, f1, f2]
  have hl0 : load [pad_complex psf.weights (2 ^ m)] (0 : Int) =
      some (pad_complex psf.weights (2 ^ m)) := by simp [load]
  rw [hl0, Option.some_bind, f3, Option.some_bind, hc', f4, Option.some_bind, hsz, f5,
    Option.some_bind]
  simp only [List.map_map, black_image, hc', hw', hh']
  rfl

theorem divide_bins_mul (F P : List (comp R)) (N : Nat) (hF : F.length = N) (hP : P.length = N)
    (hne : ∀ p ∈ P, p ≠ 0) :
    divide_bins (List.zipWith (fun x y => x * y) F P) P = F := by
  apply list_ext_of_getElem? _ F N (by simp [divide_bins, hF, hP]) hF
  intro k hk
  unfold divide_bins
  rw [List.getElem?_zipWith, List.getElem?_zipWith, getElem?_eq_some_getD F k 0 (by omega),
    getElem?_eq_some_getD P k 0 (by omega)]
  simp only [Option.map_some', Option.bind_some]
  have hp : P.getD k 0 ≠ 0 := by
    rw [List.getD_eq_getElem P 0 (by omega)]
    exact hne _ (List.getElem_mem _)
  have hc : (P.getD k 0).im ≠ 0 ∨ (P.getD k 0).re ≠ 0 := by
    by_contra hcon
    push_neg at hcon
    exact hp (comp.ext hcon.2 hcon.1)
  rw [if_pos hc, mul_div_assoc, div_self hp, mul_one]

theorem take_pad_complex_re (ch : List R) (L : Nat) :
    ((pad_complex ch L).take ch.length).map comp.re = ch := by
  unfold pad_complex
  rw [List.take_append_of_le_length (by simp), List.take_of_length_le (by simp), List.map_map]
  conv_rhs => rw [← List.map_id ch]
  apply List.map_congr_left
  intro v _
  rfl

/-- What `deconvinverse` does invert is the one-dimensional circular convolution of length `L`
of the flattened, zero-padded data, which is not the blur of `conv`.  For a well-formed observed
image `g`, a latent image `f` of the same shape, a valid PSF of at most `L` weights (nonzero
divisor) whose padded spectrum has no zero bin, `L = 2^m` the padded length (`m ≤ 29`) and `w`
an exact primitive `L`-th root of unity: if in every channel the padded sequence of `g` is the circular convolution of the padded
sequence of `f` with the padded PSF weights, `deconvinverse(g, psf)` returns the pixel values of
`f`. -/
theorem deconvinverse_inverts_circular_blur (w : comp R) (f g psf : IMAGE R) (m : Nat)
    (hg : g.WF) (hf : f.WF) (hfw : f.width = g.width) (hfh : f.height = g.height)
    (hfc : f.channels = g.channels) (hp : psf.isPSF) (hd : psf.weights.sum ≠ 0)
    (hL : padded_size (g.width * g.height).toNat = 2 ^ m) (hm : m ≤ 29)
    (hk : psf.weights.length ≤ 2 ^ m) (hw : IsPrimitiveRoot w (2 ^ m))
    (hbins : ∀ p ∈ dft w (pad_complex psf.weights (2 ^ m)), p ≠ 0)
    (hblur : ∀ k, k < g.map.length → pad_complex (g.map.getD k []) (2 ^ m) =
      circular_convolution (pad_complex (f.map.getD k []) (2 ^ m))
        (pad_complex psf.weights (2 ^ m)) (2 ^ m)) :
    deconvinverse w g psf = some (some f) := by
  have hhalf : 1 ≤ m → w ^ 2 ^ (m - 1) = -1 := primitive_root_half w m hw
  have hN : 0 < 2 ^ m := by positivity
  rw [deconvinverse_eq w g psf m hg hp hd hL hm hk hhalf]
  obtain ⟨W, H, C, hW, hH, hC, hw', hh', hc', hl, hmm⟩ := wf_dims hg
  obtain ⟨W', H', C', -, -, -, fw', fh', fc', fl, fmm⟩ := wf_dims hf
  have eW : W' = W := by rw [hfw, hw'] at fw'; exact_mod_cast fw'.symm
  have eH : H' = H := by rw [hfh, hh'] at fh'; exact_mod_cast fh'.symm
  have eC : C' = C := by rw [hfc, hc'] at fc'; exact_mod_cast fc'.symm
  subst eW eH eC
  have hn : (g.width * g.height).toNat = W' * H' := by
    rw [hw', hh', ← Int.toNat_ofNat (W' * H')]; push_cast; rfl
  rw [hn] at hL ⊢
  have hnL : W' * H' ≤ 2 ^ m := by rw [← hL]; exact le_padded_size _
  have hPl : (pad_complex psf.weights (2 ^ m)).length = 2 ^ m := pad_complex_length _ _ hk
  have hmaps : g.map.map (inverse_filter_channel w (dft w (pad_complex psf.weights (2 ^ m)))
      (2 ^ m) (W' * H')) = f.map := by
    apply list_ext_of_getElem? _ f.map C' (by simp [hl]) fl
    intro k hkC
    have hkg : k < g.map.length := by omega
    have hkf : k < f.map.length := by omega
    rw [List.getElem?_map, getElem?_eq_some_getD g.map k [] hkg,
      getElem?_eq_some_getD f.map k [] hkf, Option.map_some']
    congr 1
    have hfl : (f.map.getD k []).length = W' * H' := by
      rw [List.getD_eq_getElem f.map [] hkf]; exact fmm _ (List.getElem_mem _)
    have hFl : (pad_complex (f.map.getD k []) (2 ^ m)).length = 2 ^ m :=
      pad_complex_length _ _ (by rw [hfl]; exact hnL)
    unfold inverse_filter_channel
    rw [hblur k hkg, dft_circular_convolution w _ _ (2 ^ m) hN hw hFl hPl,
      divide_bins_mul _ _ (2 ^ m) (by rw [dft_length, hFl]) (by rw [dft_length, hPl]) hbins,
      idft_dft w _ (2 ^ m) hN hw hFl, ← hfl, take_pad_complex_re]
  rw [hmaps, ← hfw, ← hfh, ← hfc]

theorem deconvinverse_inverts_circular_blur_witness :
    deconvinverse (⟨0, 1⟩ : comp ℚ)
        ({ map := [[3 / 4, 1 / 4, 0, 0]], channels := 1, width := 4, height := 1 } : IMAGE ℚ)
        ({ map := [[3 / 4, 1 / 4, 0]], channels := 1, width := 3, height := 1 } : IMAGE ℚ) =
      some (some { map := [[1, 0, 0, 0]], channels := 1, width := 4, height := 1 }) :=
  deconvinverse_inverts_circular_blur (⟨0, 1⟩ : comp ℚ)
    ({ map := [[1, 0, 0, 0]], channels := 1, width := 4, height := 1 } : IMAGE ℚ)
    ({ map := [[3 / 4, 1 / 4, 0, 0]], channels := 1, width := 4, height := 1 } : IMAGE ℚ)
    ({ map := [[3 / 4, 1 / 4, 0]], channels := 1, width := 3, height := 1 } : IMAGE ℚ) 2
    (by simp [IMAGE.WF]) (by simp [IMAGE.WF]) rfl rfl rfl (by simp [IMAGE.isPSF, IMAGE.WF])
    (by norm_num [IMAGE.weights]) (by decide!) (by decide) (by decide) primitive_root_i
    (by decide!) (by decide!)

/-- Claim C5 at a failing input: the 4x1 latent image `[1, 0, 0, 0]` blurred by `conv` with the
normalised PSF `[3/4, 1/4, 0]` is `[1/4, 0, 0, 3/4]`; the padded PSF spectrum `[1, 3/4 + i/4,
1/2, 3/4 - i/4]` has no zero bin, and `deconvinverse` returns `[0, 0, 0, 1]`, not the latent
image: the filter takes the kernel as it lies in memory, origin at its first weight, while
`conv` reverses it and centres it on the pixel. -/
theorem deconvinverse_does_not_invert_conv :
    conv ({ map := [[1, 0, 0, 0]], channels := 1, width := 4, height := 1 } : IMAGE ℚ)
        { map := [[3 / 4, 1 / 4, 0]], channels := 1, width := 3, height := 1 } =
      some (some { map := [[1 / 4, 0, 0, 3 / 4]], channels := 1, width := 4, height := 1 }) ∧
    fourier_transform (⟨0, 1⟩ : comp ℚ) [⟨3 / 4, 0⟩, ⟨1 / 4, 0⟩, 0, 0] 4 =
      some [⟨1, 0⟩, ⟨3 / 4, 1 / 4⟩, ⟨1 / 2, 0⟩, ⟨3 / 4, -1 / 4⟩] ∧
    deconvinverse (⟨0, 1⟩ : comp ℚ)
        ({ map := [[1 / 4, 0, 0, 3 / 4]], channels := 1, width := 4, height := 1 } : IMAGE ℚ)
        { map := [[3 / 4, 1 / 4, 0]], channels := 1, width := 3, height := 1 } =
      some (some { map := [[0, 0, 0, 1]], channels := 1, width := 4, height := 1 }) ∧
    ([[0, 0, 0, 1]] : List (List ℚ)) ≠ [[1, 0, 0, 0]] := by
  refine ⟨by decide!, by decide!, by decide!, by decide!⟩

theorem tmod_two_of_even (w : Int) (h : w % 2 = 0) : Int.tmod w 2 ≠ 1 := by
  have h2 : (2 : Int) ∣ w := Int.dvd_of_emod_eq_zero h
  obtain ⟨c, rfl⟩ := h2
  simp [Int.mul_tmod_right]

/-- Claim C11: a PSF with more than one channel, or with an even width or height, makes each of
`conv`, `deconv`, `deconvinverse` and `deconvlucy` return the null pointer whatever the image is
(even an ill-formed one, on which any later step would fault): the check comes first. -/
theorem invalid_psf_rejected (root : comp R) (image psf : IMAGE R) (iterations : Int)
    (h : 1 < psf.channels ∨ psf.width % 2 = 0 ∨ psf.height % 2 = 0) :
    conv image psf = some none ∧ deconv image psf = some none ∧
      deconvinverse root image psf = some none ∧
      deconvlucy image psf iterations = some none := by
  by_cases hc : 1 < psf.channels
  · simp [conv, deconv, deconvinverse, deconvlucy, hc]
  · have hodd : Int.tmod psf.width 2 ≠ 1 ∨ Int.tmod psf.height 2 ≠ 1 := by
      rcases h with h | h | h
      · exact absurd h hc
      · exact Or.inl (tmod_two_of_even _ h)
      · exact Or.inr (tmod_two_of_even _ h)
    simp only [conv, deconv, deconvinverse, deconvlucy, if_neg hc, if_pos hodd, and_self]

theorem invalid_psf_rejected_witness :
    conv ({ map := [], channels := 7, width := -1, height := 0 } : IMAGE ℚ)
        ({ map := [[1, 1]], channels := 1, width := 2, height := 1 } : IMAGE ℚ) = some none ∧
      deconv ({ map := [], channels := 7, width := -1, height := 0 } : IMAGE ℚ)
        ({ map := [[1, 1]], channels := 1, width := 2, height := 1 } : IMAGE ℚ) = some none ∧
      deconvinverse (⟨0, 1⟩ : comp ℚ)
        ({ map := [], channels := 7, width := -1, height := 0 } : IMAGE ℚ)
        ({ map := [[1, 1]], channels := 1, width := 2, height := 1 } : IMAGE ℚ) = some none ∧
      deconvlucy ({ map := [], channels := 7, width := -1, height := 0 } : IMAGE ℚ)
        ({ map := [[1, 1]], channels := 1, width := 2, height := 1 } : IMAGE ℚ) 10 = some none :=
  invalid_psf_rejected (⟨0, 1⟩ : comp ℚ)
    ({ map := [], channels := 7, width := -1, height := 0 } : IMAGE ℚ)
    ({ map := [[1, 1]], channels := 1, width := 2, height := 1 } : IMAGE ℚ) 10
    (Or.inr (Or.inl (by decide)))

/-- Claim C13: for `N = 2^m` with `m ≤ 29` (so that the last `step *= 2` of the stage loop
stays an `int`), an exact primitive `N`-th root of unity
`w` and every sequence `s` of length `N`, `fourier_transform` returns and leaves in the array
the discrete Fourier transform sum `array[k] = sum over n < N of s[n] * w^(n*k)`. -/
theorem fourier_transform_is_dft_sum (w : comp R) (s : List (comp R)) (m : Nat) (hm : m ≤ 29)
    (hw : IsPrimitiveRoot w (2 ^ m)) (hl : s.length = 2 ^ m) :
    ∃ array, fourier_transform w s ((2 ^ m : Nat) : Int) = some array ∧
      array.length = 2 ^ m ∧
      ∀ k : Nat, k < 2 ^ m →
        array[k]? = some (∑ n in Finset.range (2 ^ m), s.getD n 0 * w ^ (n * k)) := by
  obtain ⟨res, h1, h2, h3, _⟩ :=
    fourier_transform_eq w s m hm (primitive_root_half w m hw) (le_of_eq hl.symm)
  exact ⟨res, h1, h2.trans hl, h3⟩

theorem fourier_transform_is_dft_sum_witness :
    ∃ array, fourier_transform (⟨0, 1⟩ : comp ℚ) [⟨1, 0⟩, ⟨2, 0⟩, ⟨3, 0⟩, ⟨4, 0⟩]
        ((2 ^ 2 : Nat) : Int) = some array ∧
      array.length = 2 ^ 2 ∧
      ∀ k : Nat, k < 2 ^ 2 →
        array[k]? = some (∑ n in Finset.range (2 ^ 2),
          ([⟨1, 0⟩, ⟨2, 0⟩, ⟨3, 0⟩, ⟨4, 0⟩] : List (comp ℚ)).getD n 0 *
            (⟨0, 1⟩ : comp ℚ) ^ (n * k)) :=
  fourier_transform_is_dft_sum (⟨0, 1⟩ : comp ℚ) [⟨1, 0⟩, ⟨2, 0⟩, ⟨3, 0⟩, ⟨4, 0⟩] 2 (by decide)
    primitive_root_i rfl

theorem circular_convolution_length (a b : List (comp R)) (N : Nat) :
    (circular_convolution a b N).length = N := by
  simp [circular_convolution]

/-- The buffers that `convolution` leaves: the two transforms and the circular convolution. -/
theorem convolution_eq (w : comp R) (a b out : List (comp R)) (m : Nat) (hm : m ≤ 29)
    (hw : IsPrimitiveRoot w (2 ^ m)) (ha : a.length = 2 ^ m) (hb : b.length = 2 ^ m)
    (ho : out.length = 2 ^ m) :
    convolution w a b out ((2 ^ m : Nat) : Int) =
      some (dft w a, dft w b, circular_convolution a b (2 ^ m)) := by
  have hhalf : 1 ≤ m → w ^ 2 ^ (m - 1) = -1 := primitive_root_half w m hw
  have hN : 0 < 2 ^ m := by positivity
  have hP : (List.zipWith (fun x y => x * y) (dft w a) (dft w b)).length = 2 ^ m := by
    simp [dft_length, ha, hb]
  unfold convolution
  simp only [Option.bind_eq_bind]
  rw [fourier_transform_dft w a m hm hhalf ha, Option.some_bind,
    fourier_transform_dft w b m hm hhalf hb, Option.some_bind,
    multiply_eq (dft w a) (dft w b) out (2 ^ m) (by rw [dft_length, ha]) (by rw [dft_length, hb])
      ho, Option.some_bind, inverse_fourier_transform_idft w _ m hm hhalf hP, Option.some_bind,
    ← dft_circular_convolution w a b (2 ^ m) hN hw ha hb,
    idft_dft w _ (2 ^ m) hN hw (circular_convolution_length a b _)]
  rfl

/-- A circular sum without wrap-around: when the product coefficient of index `N + n` vanishes,
the circular convolution sample `n` is the product coefficient `n`. -/
theorem circular_sum_eq_product (a b : List (comp R)) (N n : Nat) (hn : n < N)
    (ha : a.length = N) (hb : b.length = N) (h0 : product_coefficient a b (N + n) = 0) :
    ∑ j in Finset.range N, a.getD j 0 * b.getD ((((n : Int) - j) % (N : Int)).toNat) 0 =
      product_coefficient a b n := by
  have e1 : N = (n + 1) + (N - n - 1) := by omega
  have e2 : N + n + 1 = (n + 1) + (N - n - 1) + (n + 1) := by omega
  unfold product_coefficient at h0 ⊢
  rw [e2, Finset.sum_range_add, Finset.sum_range_add] at h0
  have z1 : ∑ x in Finset.range (n + 1), a.getD x 0 * b.getD (N + n - x) 0 = 0 := by
    apply Finset.sum_eq_zero
    intro x hx
    have hx' := Finset.mem_range.mp hx
    rw [List.getD_eq_default b 0 (by omega), mul_zero]
  have z3 : ∑ x in Finset.range (n + 1),
      a.getD (n + 1 + (N - n - 1) + x) 0 * b.getD (N + n - (n + 1 + (N - n - 1) + x)) 0 = 0 := by
    apply Finset.sum_eq_zero
    intro x _
    rw [List.getD_eq_default a 0 (by omega), zero_mul]
  rw [z1, z3, zero_add, add_zero] at h0
  nth_rewrite 1 [e1]
  rw [Finset.sum_range_add]
  have s1 : ∑ x in Finset.range (n + 1),
      a.getD x 0 * b.getD ((((n : Int) - x) % (N : Int)).toNat) 0 =
      ∑ m in Finset.range (n + 1), a.getD m 0 * b.getD (n - m) 0 := by
    apply Finset.sum_congr rfl
    intro x hx
    have hx' := Finset.mem_range.mp hx
    have : (((n : Int) - x) % (N : Int)).toNat = n - x := by
      rw [Int.emod_eq_of_lt (by omega) (by omega)]
      omega
    rw [this]
  have s2 : ∑ x in Finset.range (N - n - 1),
      a.getD (n + 1 + x) 0 * b.getD ((((n : Int) - ((n + 1 + x : Nat) : Int)) % (N : Int)).toNat) 0 =
      ∑ x in Finset.range (N - n - 1),
        a.getD (n + 1 + x) 0 * b.getD (N + n - (n + 1 + x)) 0 := by
    apply Finset.sum_congr rfl
    intro x hx
    have hx' := Finset.mem_range.mp hx
    have : (((n : Int) - ((n + 1 + x : Nat) : Int)) % (N : Int)).toNat = N + n - (n + 1 + x) := by
      have e : (n : Int) - ((n + 1 + x : Nat) : Int) = ((N - 1 - x : Nat) : Int) + (N : Int) * (-1) := by
        push_cast [Nat.sub_sub]
        omega
      rw [e, Int.add_mul_emod_self_left, Int.emod_eq_of_lt (by omega) (by omega)]
      omega
    rw [this]
  rw [s1, s2, h0, add_zero]

/-- Claim C14: for a power-of-two size `N = 2^m` with `m ≤ 29` (so that the last `step *= 2`
of the stage loop stays an `int`), an exact primitive `N`-th root `w` and coefficient vectors `a`, `b` of length `N` whose product polynomial has degree less than `N`
(every product coefficient of index `>= N` vanishes), `convolution(a, b, result, N)` returns and
leaves in `result` the product coefficients `result[n] = sum over m <= n of a[m] * b[n - m]`. -/
theorem convolution_is_polynomial_product (w : comp R) (a b result : List (comp R)) (m : Nat)
    (hm : m ≤ 29) (hw : IsPrimitiveRoot w (2 ^ m)) (ha : a.length = 2 ^ m)
    (hb : b.length = 2 ^ m) (hr : result.length = 2 ^ m)
    (hdeg : ∀ n : Nat, 2 ^ m ≤ n → product_coefficient a b n = 0) :
    ∃ a' b' res, convolution w a b result ((2 ^ m : Nat) : Int) = some (a', b', res) ∧
      res.length = 2 ^ m ∧
      ∀ n : Nat, n < 2 ^ m →
        res[n]? = some (∑ j in Finset.range (n + 1), a.getD j 0 * b.getD (n - j) 0) := by
  refine ⟨_, _, _, convolution_eq w a b result m hm hw ha hb hr,
    circular_convolution_length a b _, ?_⟩
  intro n hn
  have := circular_sum_eq_product a b (2 ^ m) n hn ha hb (hdeg _ (by omega))
  unfold product_coefficient at this
  rw [← this]
  simp [circular_convolution, hn]

theorem convolution_is_polynomial_product_witness :
    ∃ a' b' res, convolution (⟨0, 1⟩ : comp ℚ) [⟨1, 0⟩, ⟨2, 0⟩, ⟨0, 0⟩, ⟨0, 0⟩]
        [⟨3, 0⟩, ⟨4, 0⟩, ⟨5, 0⟩, ⟨0, 0⟩] [0, 0, 0, 0] ((2 ^ 2 : Nat) : Int) = some (a', b', res) ∧
      res.length = 2 ^ 2 ∧
      ∀ n : Nat, n < 2 ^ 2 →
        res[n]? = some (∑ j in Finset.range (n + 1),
          ([⟨1, 0⟩, ⟨2, 0⟩, ⟨0, 0⟩, ⟨0, 0⟩] : List (comp ℚ)).getD j 0 *
            ([⟨3, 0⟩, ⟨4, 0⟩, ⟨5, 0⟩, ⟨0, 0⟩] : List (comp ℚ)).getD (n - j) 0) :=
  convolution_is_polynomial_product (⟨0, 1⟩ : comp ℚ) [⟨1, 0⟩, ⟨2, 0⟩, ⟨0, 0⟩, ⟨0, 0⟩]
    [⟨3, 0⟩, ⟨4, 0⟩, ⟨5, 0⟩, ⟨0, 0⟩] [0, 0, 0, 0] 2 (by decide) primitive_root_i (by decide)
    (by decide) (by decide)
    (by
      intro n hn
      apply Finset.sum_eq_zero
      intro j _
      have hn4 : 4 ≤ n := hn
      rcases j with _ | _ | _ | _ | j
      · exact mul_eq_zero_of_right _ (List.getD_eq_default _ _ (by simp; omega))
      · obtain ⟨k, rfl⟩ : ∃ k, n = k + 4 := ⟨n - 4, by omega⟩
        have : k + 4 - (0 + 1) = k + 3 := by omega
        rw [this]
        rcases k with _ | k
        · decide!
        · exact mul_eq_zero_of_right _ (List.getD_eq_default _ _ (by simp))
      · exact mul_eq_zero_of_left (by decide!) _
      · exact mul_eq_zero_of_left (by decide!) _
      · exact mul_eq_zero_of_left (List.getD_eq_default _ _ (by simp)) _)

/-- Claim C18 at a failing input: for the 2x1 image `[1, 2]` and the 7x1 PSF of ones, which
`deconvlucy` accepts, 0 iterations return the image, while with 1 iteration the first `_conv`
reads the pixel map at index -1 (`w1` is added only once before the remainder), so no update
step of section 4.4 is computed. -/
theorem deconvlucy_wide_kernel_faults :
    deconvlucy ({ map := [[1, 2]], channels := 1, width := 2, height := 1 } : IMAGE ℚ)
        { map := [[1, 1, 1, 1, 1, 1, 1]], channels := 1, width := 7, height := 1 } 0 =
      some (some { map := [[1, 2]], channels := 1, width := 2, height := 1 }) ∧
    deconvlucy ({ map := [[1, 2]], channels := 1, width := 2, height := 1 } : IMAGE ℚ)
        { map := [[1, 1, 1, 1, 1, 1, 1]], channels := 1, width := 7, height := 1 } 1 = none := by
  have hi : ({ map := [[1, 2]], channels := 1, width := 2, height := 1 } : IMAGE ℚ).WF := by
    simp [IMAGE.WF]
  have hp : ({ map := [[1, 1, 1, 1, 1, 1, 1]], channels := 1, width := 7, height := 1 } :
      IMAGE ℚ).isPSF := by
    simp [IMAGE.isPSF, IMAGE.WF]
  have hd : ({ map := [[1, 1, 1, 1, 1, 1, 1]], channels := 1, width := 7, height := 1 } :
      IMAGE ℚ).weights.sum ≠ 0 := by
    norm_num [IMAGE.weights]
  have e : Int.tmod (-1) 2 = -1 := by decide
  constructor
  · rw [deconvlucy_unfold _ _ _ hi hp, if_neg hd]
    simp [lucy_iterations]
  · rw [deconvlucy_unfold _ _ _ hi hp, if_neg hd]
    simp [lucy_iterations, lucy_step, black_image, IMAGE.weights, _conv, forLoop, load,
      conv_channel, conv_sum, conv_term, List.range, List.range.loop, e]

/-- For a well-formed image, a valid PSF whose half-extents do not exceed the image and
whose divisor is not zero, and every `n`, `deconvlucy` returns for `n` and for
`n + 1` iterations, and the second image is one update step of the first: per channel and pixel
the latent value times the correction, the correction being the toroidal convolution of
`observed / (toroidal convolution of the latent image with the PSF)` with the reversed PSF. -/
theorem deconvlucy_succ_is_update_step (image psf : IMAGE R) (n : Nat) (hi : image.WF)
    (hp : psf.isPSF) (ha : psf.width / 2 ≤ image.width) (hb : psf.height / 2 ≤ image.height)
    (hd : psf.weights.sum ≠ 0) :
    ∃ latent : IMAGE R, deconvlucy image psf (n : Int) = some (some latent) ∧
      deconvlucy image psf ((n : Int) + 1) = some (some
        { map := List.zipWith (fun g t => List.zipWith (fun x y => x * y) g t) latent.map
            ((lucy_ratio_maps image.map
                (latent.map.map (fun f => toroidal_map f psf.weights image.width.toNat
                  image.height.toNat psf.width.toNat psf.height.toNat (psf.width / 2)
                  (psf.height / 2) psf.weights.sum))).map
              (fun f => toroidal_map f psf.weights.reverse image.width.toNat
                image.height.toNat psf.width.toNat psf.height.toNat (psf.width / 2)
                (psf.height / 2) psf.weights.sum)),
          channels := latent.channels, width := latent.width, height := latent.height }) := by
  refine ⟨_, deconvlucy_eq image psf n hi hp ha hb hd, ?_⟩
  have := deconvlucy_eq image psf (n + 1) hi hp ha hb hd
  push_cast at this
  rw [this]
  rfl

theorem deconvlucy_succ_is_update_step_witness :
    ∃ latent : IMAGE ℚ,
      deconvlucy ({ map := [[1, 2, 3]], channels := 1, width := 3, height := 1 } : IMAGE ℚ)
        ({ map := [[1, 2, 1]], channels := 1, width := 3, height := 1 } : IMAGE ℚ)
        ((2 : Nat) : Int) = some (some latent) ∧
      deconvlucy ({ map := [[1, 2, 3]], channels := 1, width := 3, height := 1 } : IMAGE ℚ)
        ({ map := [[1, 2, 1]], channels := 1, width := 3, height := 1 } : IMAGE ℚ)
        (((2 : Nat) : Int) + 1) = some (some
        { map := List.zipWith (fun g t => List.zipWith (fun x y => x * y) g t) latent.map
            ((lucy_ratio_maps ({ map := [[1, 2, 3]], channels := 1, width := 3, height := 1 } :
                  IMAGE ℚ).map
                (latent.map.map (fun f => toroidal_map f
                  ({ map := [[1, 2, 1]], channels := 1, width := 3, height := 1 } :
                    IMAGE ℚ).weights (3 : Int).toNat (1 : Int).toNat (3 : Int).toNat
                  (1 : Int).toNat ((3 : Int) / 2) ((1 : Int) / 2)
                  ({ map := [[1, 2, 1]], channels := 1, width := 3, height := 1 } :
                    IMAGE ℚ).weights.sum))).map
              (fun f => toroidal_map f
                ({ map := [[1, 2, 1]], channels := 1, width := 3, height := 1 } :
                  IMAGE ℚ).weights.reverse (3 : Int).toNat (1 : Int).toNat (3 : Int).toNat
                (1 : Int).toNat ((3 : Int) / 2) ((1 : Int) / 2)
                ({ map := [[1, 2, 1]], channels := 1, width := 3, height := 1 } :
                  IMAGE ℚ).weights.sum)),
          channels := latent.channels, width := latent.width, height := latent.height }) :=
  deconvlucy_succ_is_update_step
    ({ map := [[1, 2, 3]], channels := 1, width := 3, height := 1 } : IMAGE ℚ)
    ({ map := [[1, 2, 1]], channels := 1, width := 3, height := 1 } : IMAGE ℚ) 2
    (by simp [IMAGE.WF]) (by simp [IMAGE.isPSF, IMAGE.WF]) (by decide) (by decide)
    (by norm_num [IMAGE.weights])

/-- The division loop of `deconvinverse` for a PSF buffer that may be longer than the
transform length. -/
theorem divide_loop_long (X P : List (comp R)) (N : Nat) (hX : X.length = N)
    (hP : N ≤ P.length) :
    forLoop N (fun i (m : List (comp R)) =>
      (load P (i : Int)).bind fun complex_value =>
        if complex_value.im ≠ 0 ∨ complex_value.re ≠ 0 then
          (load m (i : Int)).bind fun z => store m (i : Int) (z / complex_value)
        else pure m) X = some (divide_bins X P) := by
  obtain ⟨res, h1, h2, h3, -⟩ := forLoop_pointwise N X
    (fun i => if (P.getD i 0).im ≠ 0 ∨ (P.getD i 0).re ≠ 0 then X.getD i 0 / P.getD i 0
      else X.getD i 0)
    (fun i (m : List (comp R)) =>
      (load P (i : Int)).bind fun complex_value =>
        if complex_value.im ≠ 0 ∨ complex_value.re ≠ 0 then
          (load m (i : Int)).bind fun z => store m (i : Int) (z / complex_value)
        else pure m) (le_of_eq hX.symm)
    (by
      intro i hi m hml hm
      have hmi : i < m.length := by omega
      have e := getElem_eq_getD m X i 0 hmi (hm i (le_refl i))
      dsimp only
      rw [load_nat_getD P i 0 (by omega), Option.some_bind]
      by_cases hc : (P.getD i 0).im ≠ 0 ∨ (P.getD i 0).re ≠ 0
      · rw [if_pos hc, if_pos hc, load_eq_some m i hmi, Option.some_bind,
          store_eq_some m i _ hmi, e]
      · rw [if_neg hc, if_neg hc, ← e, list_set_self m i hmi]
        rfl)
  rw [h1]
  congr 1
  apply list_ext_of_getElem? res _ N (by omega) (by simp [divide_bins, hX, hP])
  intro p hp
  rw [h3 p hp]
  unfold divide_bins
  rw [List.getElem?_zipWith, getElem?_eq_some_getD X p 0 (by omega),
    getElem?_eq_some_getD P p 0 (by omega)]

theorem inverse_filter_long (w : comp R) (P X : List (comp R)) (m : Nat) (hm : m ≤ 29)
    (hw : 1 ≤ m → w ^ 2 ^ (m - 1) = -1) (hX : X.length = 2 ^ m) (hP : 2 ^ m ≤ P.length) :
    inverse_filter w P ((2 ^ m : Nat) : Int) X = some (divide_bins (dft w X) P) := by
  unfold inverse_filter
  simp only [Option.bind_eq_bind, Int.toNat_ofNat]
  rw [fourier_transform_dft w X m hm hw hX, Option.some_bind]
  exact divide_loop_long (dft w X) P (2 ^ m) (by rw [dft_length, hX]) hP

theorem divide_bins_length_long (X P : List (comp R)) (N : Nat) (hX : X.length = N)
    (hP : N ≤ P.length) : (divide_bins X P).length = N := by
  simp [divide_bins, hX, hP]

theorem filter_channels_long (w : comp R) (P : List (comp R)) (arrays : List (List (comp R)))
    (m : Nat) (hm : m ≤ 29) (hw : 1 ≤ m → w ^ 2 ^ (m - 1) = -1) (hP : 2 ^ m ≤ P.length)
    (ha : ∀ X ∈ arrays, X.length = 2 ^ m) :
    filter_channels w P (arrays.length : Int) ((2 ^ m : Nat) : Int) arrays =
      some (arrays.map (fun X => divide_bins (dft w X) P)) := by
  unfold filter_channels
  simp only [Int.toNat_ofNat, Option.bind_eq_bind]
  apply forLoop_channels (fun X => divide_bins (dft w X) P) arrays []
  intro k hk marr hml hmk
  have hmk' : k < marr.length := by omega
  have e := getElem_eq_getD marr arrays k [] hmk' hmk
  rw [load_eq_some marr k hmk', Option.some_bind, e,
    inverse_filter_long w P _ m hm hw (by
      rw [List.getD_eq_getElem arrays [] hk]; exact ha _ (List.getElem_mem _)) hP,
    Option.some_bind, store_eq_some marr k _ hmk']

/-- Source `deconvinverse` in closed form for a PSF of any size: the PSF buffer has the padded
length of `max (2^m) (Wk*Hk)` and is transformed at the length `2^m` of the image buffers. -/
theorem deconvinverse_long (w : comp R) (image psf : IMAGE R) (m : Nat) (hi : image.WF)
    (hp : psf.isPSF) (hd : psf.weights.sum ≠ 0)
    (hL : padded_size (image.width * image.height).toNat = 2 ^ m) (hm : m ≤ 29)
    (hw : 1 ≤ m → w ^ 2 ^ (m - 1) = -1) :
    ∃ P, fourier_transform w
        (pad_complex psf.weights (padded_size (max (2 ^ m) psf.weights.length)))
        ((2 ^ m : Nat) : Int) = some P ∧ 2 ^ m ≤ P.length ∧
      deconvinverse w image psf =
        some (some (IMAGE.mk
          (image.map.map (inverse_filter_channel w P (2 ^ m) (image.width * image.height).toNat))
          image.channels image.width image.height)) := by
  obtain ⟨c1, c2, c3, -, -⟩ := psf_checks psf hp
  obtain ⟨W, H, C, hW, hH, hC, hw', hh', hc', hl, hmm⟩ := wf_dims hi
  obtain ⟨Wk, Hk, hWk, hHk, hwk, hhk, hck, hmap, hlen⟩ := psf_dims hp
  have hn : (image.width * image.height).toNat = W * H := by
    rw [hw', hh', ← Int.toNat_ofNat (W * H)]; push_cast; rfl
  have hnp : (psf.width * psf.height).toNat = Wk * Hk := by
    rw [hwk, hhk, ← Int.toNat_ofNat (Wk * Hk)]; push_cast; rfl
  have hsz : image.width * image.height = ((W * H : Nat) : Int) := by
    rw [hw', hh']; push_cast; rfl
  rw [hn] at hL ⊢
  have hnL : W * H ≤ 2 ^ m := by rw [← hL]; exact le_padded_size _
  have f1 := form_complex_array_eq image 0 hi
  rw [hn, Nat.zero_max, hL] at f1
  have f2 := form_complex_array_eq psf (2 ^ m) hp.1
  rw [hnp, ← hlen, hmap] at f2
  simp only [Nat.cast_zero, List.map_cons, List.map_nil] at f1 f2
  set L2 := padded_size (max (2 ^ m) psf.weights.length) with hL2
  have hL2a : 2 ^ m ≤ L2 := le_trans (le_max_left _ _) (le_padded_size _)
  have hL2b : psf.weights.length ≤ L2 := le_trans (le_max_right _ _) (le_padded_size _)
  have hPl : (pad_complex psf.weights L2).length = L2 := pad_complex_length _ _ hL2b
  obtain ⟨P, f3, hPlen, -, -⟩ := fourier_transform_eq w (pad_complex psf.weights L2) m hm hw
    (by rw [hPl]; exact hL2a)
  have hPL : 2 ^ m ≤ P.length := by rw [hPlen, hPl]; exact hL2a
  refine ⟨P, f3, hPL, ?_⟩
  have hal : (image.map.map (fun ch => pad_complex ch (2 ^ m))).length = C := by simp [hl]
  have f4 := filter_channels_long w P
    (image.map.map (fun ch => pad_complex ch (2 ^ m))) m hm hw hPL
    (by
      intro X hX
      obtain ⟨ch, hch, rfl⟩ := List.mem_map.mp hX
      exact pad_complex_length _ _ (by rw [hmm ch hch]; exact hnL))
  rw [hal] at f4
  have hbl : (black_image image).map.length = C := by
    simp [black_image, hc']
  have hbn : ∀ ch ∈ (black_image image).map, ch.length = W * H := by
    intro ch hch
    simp only [black_image] at hch
    rw [List.eq_of_mem_replicate hch, List.length_replicate, hn]
  obtain ⟨arrays', f5⟩ := inverse_channels_eq w
    ((image.map.map (fun ch => pad_complex ch (2 ^ m))).map
      (fun X => divide_bins (dft w X) P))
    (black_image image) m (W * H) hm hw
    (by
      intro X hX
      obtain ⟨Y, hY, rfl⟩ := List.mem_map.mp hX
      obtain ⟨ch, hch, rfl⟩ := List.mem_map.mp hY
      exact divide_bins_length_long _ _ _ (by
        rw [dft_length]
        exact pad_complex_length _ _ (by rw [hmm ch hch]; exact hnL)) hPL)
    hnL (by simp [hbl, hl]) hbn
  simp only [List.length_map, hl] at f5
  unfold deconvinverse
  simp only [if_neg c1, if_neg c2, createImage_like image hi, c3, getPSFDivisor_eq psf hp,
    Option.bind_eq_bind, Option.some_bind, if_neg hd, f1, f2]
  have hl0 : load [pad_complex psf.weights L2] (0 : Int) =
      some (pad_complex psf.weights L2) := by simp [load]
  rw [hl0, Option.some_bind, f3, Option.some_bind, hc', f4, Option.some_bind, hsz, f5,
    Option.some_bind]
  simp only [List.map_map, black_image, hc', hw', hh']
  rfl

/-- Claim C19: in `deconvinverse`, with `P` the PSF buffer after its forward transform at the
length `L = 2^m` of the image buffers (`m ≤ 29`, so that the last `step *= 2` of the stage
loop stays an `int`), every channel `k` has a spectrum `Y` that holds in bin
`bin < L` the transformed channel bin `X[bin]` itself when `P[bin]` is exactly zero and the
complex quotient `X[bin] / P[bin]` otherwise, and the returned pixel `i < W*H` of channel `k`
is the real part of sample `i` of `inverse_fourier_transform` of `Y`. -/
theorem deconvinverse_divides_bins (w : comp R) (image psf : IMAGE R) (m : Nat) (hi : image.WF)
    (hp : psf.isPSF) (hd : psf.weights.sum ≠ 0)
    (hL : padded_size (image.width * image.height).toNat = 2 ^ m) (hm : m ≤ 29)
    (hw : IsPrimitiveRoot w (2 ^ m)) :
    ∃ (P : List (comp R)) (latent : IMAGE R),
      fourier_transform w
        (pad_complex psf.weights (padded_size (max (2 ^ m) psf.weights.length)))
        ((2 ^ m : Nat) : Int) = some P ∧
      deconvinverse w image psf = some (some latent) ∧
      latent.width = image.width ∧ latent.height = image.height ∧
      latent.channels = image.channels ∧ latent.map.length = image.map.length ∧
      ∀ k : Nat, k < image.map.length →
        ∃ X Y y : List (comp R),
          fourier_transform w (pad_complex (image.map.getD k []) (2 ^ m))
            ((2 ^ m : Nat) : Int) = some X ∧
          Y.length = 2 ^ m ∧
          (∀ bin : Nat, bin < 2 ^ m → Y[bin]? = some
            (if (P.getD bin 0).re = 0 ∧ (P.getD bin 0).im = 0 then X.getD bin 0
              else X.getD bin 0 / P.getD bin 0)) ∧
          inverse_fourier_transform w Y ((2 ^ m : Nat) : Int) = some y ∧
          (latent.map.getD k []).length = (image.width * image.height).toNat ∧
          ∀ i : Nat, i < (image.width * image.height).toNat →
            (latent.map.getD k [])[i]? = some (y.getD i 0).re := by
  have hhalf : 1 ≤ m → w ^ 2 ^ (m - 1) = -1 := primitive_root_half w m hw
  obtain ⟨P, hP, hPL, hdec⟩ := deconvinverse_long w image psf m hi hp hd hL hm hhalf
  obtain ⟨W, H, C, hW, hH, hC, hw', hh', hc', hl, hmm⟩ := wf_dims hi
  have hn : (image.width * image.height).toNat = W * H := by
    rw [hw', hh', ← Int.toNat_ofNat (W * H)]; push_cast; rfl
  have hnL : W * H ≤ 2 ^ m := by rw [← hn, ← hL]; exact le_padded_size _
  refine ⟨P, _, hP, hdec, rfl, rfl, rfl, by simp, ?_⟩
  intro k hk
  have hch : (image.map.getD k []).length = W * H := by
    rw [List.getD_eq_getElem _ _ hk]
    exact hmm _ (List.getElem_mem _)
  have hpl : (pad_complex (image.map.getD k []) (2 ^ m)).length = 2 ^ m :=
    pad_complex_length _ _ (by rw [hch]; exact hnL)
  have hXl : (dft w (pad_complex (image.map.getD k []) (2 ^ m))).length = 2 ^ m := by
    rw [dft_length, hpl]
  have hYl : (divide_bins (dft w (pad_complex (image.map.getD k []) (2 ^ m))) P).length =
      2 ^ m := divide_bins_length_long _ _ _ hXl hPL
  have hyl : (idft w (divide_bins (dft w (pad_complex (image.map.getD k []) (2 ^ m)))
      P)).length = 2 ^ m := by rw [idft_length, hYl]
  have hres : (List.map (inverse_filter_channel w P (2 ^ m)
      (image.width * image.height).toNat) image.map).getD k [] =
      inverse_filter_channel w P (2 ^ m) (image.width * image.height).toNat
        (image.map.getD k []) := by
    rw [List.getD_eq_getElem _ _ (by simpa using hk), List.getElem_map,
      List.getD_eq_getElem _ _ hk]
  refine ⟨dft w (pad_complex (image.map.getD k []) (2 ^ m)),
    divide_bins (dft w (pad_complex (image.map.getD k []) (2 ^ m))) P,
    idft w (divide_bins (dft w (pad_complex (image.map.getD k []) (2 ^ m))) P),
    fourier_transform_dft w _ m hm hhalf hpl, hYl, ?_,
    inverse_fourier_transform_idft w _ m hm hhalf hYl, ?_, ?_⟩
  · intro bin hbin
    unfold divide_bins
    rw [List.getElem?_zipWith, getElem?_eq_some_getD _ bin 0 (by rw [hXl]; exact hbin),
      getElem?_eq_some_getD P bin 0 (by omega)]
    simp only [Option.map_some', Option.bind_some, Option.some.injEq]
    by_cases hz : (P.getD bin 0).re = 0 ∧ (P.getD bin 0).im = 0
    · rw [if_pos hz, if_neg (by rw [hz.1, hz.2]; simp)]
    · rw [if_neg hz, if_pos (by
        by_contra hc
        push_neg at hc
        exact hz ⟨hc.2, hc.1⟩)]
  · show ((List.map (inverse_filter_channel w P (2 ^ m)
      (image.width * image.height).toNat) image.map).getD k []).length = _
    rw [hres]
    unfold inverse_filter_channel
    rw [List.length_map, List.length_take, hyl, hn]
    omega
  · intro i hi'
    show ((List.map (inverse_filter_channel w P (2 ^ m)
      (image.width * image.height).toNat) image.map).getD k [])[i]? = _
    rw [hres]
    unfold inverse_filter_channel
    rw [List.getElem?_map, List.getElem?_take_of_lt hi',
      getElem?_eq_some_getD _ i 0 (by rw [hyl]; omega)]
    rfl

theorem deconvinverse_divides_bins_witness :
    ∃ (P : List (comp ℚ)) (latent : IMAGE ℚ),
      fourier_transform (⟨0, 1⟩ : comp ℚ)
        (pad_complex ({ map := [[1, 0, 1]], channels := 1, width := 3, height := 1 } : IMAGE ℚ).weights
          (padded_size (max (2 ^ 2) ({ map := [[1, 0, 1]], channels := 1, width := 3, height := 1 } : IMAGE ℚ).weights.length)))
        ((2 ^ 2 : Nat) : Int) = some P ∧
      deconvinverse (⟨0, 1⟩ : comp ℚ) ({ map := [[1, 2, 3, 4]], channels := 1, width := 4, height := 1 } : IMAGE ℚ)
        ({ map := [[1, 0, 1]], channels := 1, width := 3, height := 1 } : IMAGE ℚ) = some (some latent) ∧
      latent.width = ({ map := [[1, 2, 3, 4]], channels := 1, width := 4, height := 1 } : IMAGE ℚ).width ∧
      latent.height = ({ map := [[1, 2, 3, 4]], channels := 1, width := 4, height := 1 } : IMAGE ℚ).height ∧
      latent.channels = ({ map := [[1, 2, 3, 4]], channels := 1, width := 4, height := 1 } : IMAGE ℚ).channels ∧
      latent.map.length = ({ map := [[1, 2, 3, 4]], channels := 1, width := 4, height := 1 } : IMAGE ℚ).map.length ∧
      ∀ k : Nat, k < ({ map := [[1, 2, 3, 4]], channels := 1, width := 4, height := 1 } : IMAGE ℚ).map.length →
        ∃ X Y y : List (comp ℚ),
          fourier_transform (⟨0, 1⟩ : comp ℚ) (pad_complex (({ map := [[1, 2, 3, 4]], channels := 1, width := 4, height := 1 } : IMAGE ℚ).map.getD k []) (2 ^ 2))
            ((2 ^ 2 : Nat) : Int) = some X ∧
          Y.length = 2 ^ 2 ∧
          (∀ bin : Nat, bin < 2 ^ 2 → Y[bin]? = some
            (if (P.getD bin 0).re = 0 ∧ (P.getD bin 0).im = 0 then X.getD bin 0
              else X.getD bin 0 / P.getD bin 0)) ∧
          inverse_fourier_transform (⟨0, 1⟩ : comp ℚ) Y ((2 ^ 2 : Nat) : Int) = some y ∧
          (latent.map.getD k []).length =
            (({ map := [[1, 2, 3, 4]], channels := 1, width := 4, height := 1 } : IMAGE ℚ).width * ({ map := [[1, 2, 3, 4]], channels := 1, width := 4, height := 1 } : IMAGE ℚ).height).toNat ∧
          ∀ i : Nat, i < (({ map := [[1, 2, 3, 4]], channels := 1, width := 4, height := 1 } : IMAGE ℚ).width * ({ map := [[1, 2, 3, 4]], channels := 1, width := 4, height := 1 } : IMAGE ℚ).height).toNat →
            (latent.map.getD k [])[i]? = some (y.getD i 0).re :=
  deconvinverse_divides_bins (⟨0, 1⟩ : comp ℚ) ({ map := [[1, 2, 3, 4]], channels := 1, width := 4, height := 1 } : IMAGE ℚ)
    ({ map := [[1, 0, 1]], channels := 1, width := 3, height := 1 } : IMAGE ℚ) 2 (by simp [IMAGE.WF]) (by simp [IMAGE.isPSF, IMAGE.WF])
    (by norm_num [IMAGE.weights]) (by decide!) (by decide) primitive_root_i

/-- Claim C20 at a failing input: for the 2x1 image `[1, 2]` and the 3x1 PSF `[1, 2, 4]` the
least power of two that is at least `max (2, 3)` is 4, but `_form_complex_array` pads the image
channel to length 2 and the PSF to length 4, and `deconvinverse` transforms both at length 2:
the PSF spectrum is that of `[1, 2]`, and the result is `[1, 0]`. -/
theorem deconvinverse_lengths_differ :
    padded_size (max (2 * 1) (3 * 1)) = 4 ∧
    (_form_complex_array ({ map := [[1, 2]], channels := 1, width := 2, height := 1 } : IMAGE ℚ)
        0).map (fun c => (c.size, c.arrays)) = some (2, [[⟨1, 0⟩, ⟨2, 0⟩]]) ∧
    (_form_complex_array ({ map := [[1, 2, 4]], channels := 1, width := 3, height := 1 } :
        IMAGE ℚ) 2).map (fun c => (c.size, c.arrays)) =
      some (4, [[⟨1, 0⟩, ⟨2, 0⟩, ⟨4, 0⟩, ⟨0, 0⟩]]) ∧
    fourier_transform (⟨-1, 0⟩ : comp ℚ) [⟨1, 0⟩, ⟨2, 0⟩, ⟨4, 0⟩, ⟨0, 0⟩] 2 =
      some [⟨3, 0⟩, ⟨-1, 0⟩, ⟨4, 0⟩, ⟨0, 0⟩] ∧
    deconvinverse (⟨-1, 0⟩ : comp ℚ)
        ({ map := [[1, 2]], channels := 1, width := 2, height := 1 } : IMAGE ℚ)
        { map := [[1, 2, 4]], channels := 1, width := 3, height := 1 } =
      some (some { map := [[1, 0]], channels := 1, width := 2, height := 1 }) := by
  refine ⟨by decide!, by decide!, by decide!, by decide!, by decide!⟩

/-- Claim C16 at a failing input: for the 3x1 channel `[1, 2, 3]` and the PSF `[1, 2, 4]`
(divisor 7) the system that `deconv` builds has the kernel weights unreversed and undivided as
coefficients and the kernel-weighted sums of the observed pixels over the divisor as right-hand
side, while the system of section 4.5 has the coefficients of `_conv` and `g[p] / 7`. -/
theorem deconv_system_is_not_conv_system :
    deconv_build ([1, 2, 3] : List ℚ) [1, 2, 4] 3 1 3 1 1 0 3 4 7 (List.replicate 12 0) =
      some [2, 4, 1, 13 / 7, 1, 2, 4, 17 / 7, 4, 1, 2, 12 / 7] ∧
    spec_system ([1, 2, 3] : List ℚ) [1, 2, 4] 3 1 3 1 1 0 7 =
      [2 / 7, 1 / 7, 4 / 7, 1 / 7, 4 / 7, 2 / 7, 1 / 7, 2 / 7, 1 / 7, 4 / 7, 2 / 7, 3 / 7] := by
  refine ⟨by decide!, by decide!⟩

theorem holds_matrix_congr (A : List R) (n M : Nat) (E E' : Nat → Nat → R)
    (h : holds_matrix A n M E) (he : ∀ r c, r < n → c < M → E r c = E' r c) :
    holds_matrix A n M E' :=
  ⟨h.1, fun r c hr hc => (h.2 r c hr hc).trans (he r c hr hc)⟩

theorem holds_matrix_self (A : List R) (n M : Nat) (h : A.length = n * M) :
    holds_matrix A n M (entry A M) := ⟨h, fun _ _ _ _ => rfl⟩

theorem cell_lt (n M r c : Nat) (hr : r < n) (hc : c < M) : r * M + c < n * M := by
  have := pix_lt M n c r hc hr
  rw [Nat.mul_comm M n] at this
  omega

theorem mat_load (A : List R) (n M : Nat) (E : Nat → Nat → R) (h : holds_matrix A n M E)
    (r c : Nat) (hr : r < n) (hc : c < M) (z : Int) (hz : z = (r : Int) * M + c) :
    load A z = some (E r c) := by
  have hlt := cell_lt n M r c hr hc
  have hz' : z = ((r * M + c : Nat) : Int) := by rw [hz]; push_cast; rfl
  rw [hz', load_nat_getD A _ 0 (by rw [h.1]; exact hlt), ← h.2 r c hr hc]
  rfl

theorem mat_store (A : List R) (n M : Nat) (E : Nat → Nat → R) (h : holds_matrix A n M E)
    (r c : Nat) (hr : r < n) (hc : c < M) (z : Int) (hz : z = (r : Int) * M + c) (v : R) :
    ∃ A', store A z v = some A' ∧
      holds_matrix A' n M (fun r' c' => if r' = r ∧ c' = c then v else E r' c') := by
  have hlt := cell_lt n M r c hr hc
  have hz' : z = ((r * M + c : Nat) : Int) := by rw [hz]; push_cast; rfl
  refine ⟨A.set (r * M + c) v, by rw [hz', store_eq_some A _ v (by rw [h.1]; exact hlt)],
    by rw [List.length_set]; exact h.1, ?_⟩
  intro r' c' hr' hc'
  unfold entry
  dsimp only
  by_cases he : r' = r ∧ c' = c
  · rw [if_pos he, he.1, he.2, List.getD_eq_getElem?_getD,
      getElem?_set_eq A _ v (by rw [h.1]; exact hlt)]
    rfl
  · rw [if_neg he, List.getD_eq_getElem?_getD, getElem?_set_ne A _ _ v (by
      intro hq
      have := pix_inj M c r c' r' hc hc' (by omega)
      exact he ⟨this.2.symm, this.1.symm⟩), ← List.getD_eq_getElem?_getD]
    exact h.2 r' c' hr' hc'

/-- The pivot search of `deconv` stops at the first row `i ≥ i0` whose entry in column `j` is
not zero. -/
theorem pivot_search_eq (A : List R) (n M : Nat) (E : Nat → Nat → R)
    (h : holds_matrix A n M E) (j : Nat) (hj : j < M) (i : Nat) (hi : i < n)
    (hne : E i j ≠ 0) : ∀ (k i0 : Nat) (d : R), i0 + k = i →
      (∀ r, i0 ≤ r → r < i → E r j = 0) → ∀ fuel, k < fuel →
      pivot_search A (M : Int) (j : Int) fuel (i0 : Int) d = some ((i : Int), E i j) := by
  intro k
  induction k with
  | zero =>
    intro i0 d h0 _ fuel hf
    obtain ⟨f, rfl⟩ : ∃ f, fuel = f + 1 := ⟨fuel - 1, by omega⟩
    have : i0 = i := by omega
    subst this
    unfold pivot_search
    simp only [Option.bind_eq_bind]
    rw [mat_load A n M E h i0 j hi hj _ rfl, Option.some_bind, if_pos hne]
  | succ k ih =>
    intro i0 d h0 hz fuel hf
    obtain ⟨f, rfl⟩ : ∃ f, fuel = f + 1 := ⟨fuel - 1, by omega⟩
    unfold pivot_search
    simp only [Option.bind_eq_bind]
    rw [mat_load A n M E h i0 j (by omega) hj _ rfl, Option.some_bind,
      if_neg (by rw [hz i0 (le_refl _) (by omega)]; simp)]
    have := ih (i0 + 1) (E i0 j) (by omega) (fun r hr1 hr2 => hz r (by omega) hr2) f (by omega)
    push_cast at this
    exact this

/-- The row exchange of `deconv`: rows `i` and `j` are exchanged in the columns `t ≥ j`. -/
theorem swap_rows_eq (A : List R) (n M : Nat) (E : Nat → Nat → R) (h : holds_matrix A n M E)
    (i j : Nat) (hi : i < n) (hj : j < n) (hij : i ≠ j) :
    ∃ A', forLoop (M - j) (fun c (A : List R) =>
        (load A ((i : Int) * M + ((j : Int) + c))).bind fun temp =>
        (load A ((j : Int) * M + ((j : Int) + c))).bind fun v =>
        (store A ((i : Int) * M + ((j : Int) + c)) v).bind fun A =>
        store A ((j : Int) * M + ((j : Int) + c)) temp) A = some A' ∧
      holds_matrix A' n M (fun r c =>
        if j ≤ c then (if r = i then E j c else if r = j then E i c else E r c) else E r c) := by
  obtain ⟨A', h1, h2⟩ := forLoop_inv
    (fun k (st : List R) => holds_matrix st n M (fun r c =>
      if j ≤ c ∧ c < j + k then (if r = i then E j c else if r = j then E i c else E r c)
      else E r c))
    (M - j) (fun c (A : List R) =>
        (load A ((i : Int) * M + ((j : Int) + c))).bind fun temp =>
        (load A ((j : Int) * M + ((j : Int) + c))).bind fun v =>
        (store A ((i : Int) * M + ((j : Int) + c)) v).bind fun A =>
        store A ((j : Int) * M + ((j : Int) + c)) temp) A (holds_matrix_congr A n M E _ h (by
      intro r c _ _
      rw [if_neg (by omega)]))
    (by
      intro k hk st hst
      have ht : j + k < M := by omega
      dsimp only
      rw [mat_load st n M _ hst i (j + k) hi ht _ (by push_cast; rfl), Option.some_bind,
        mat_load st n M _ hst j (j + k) hj ht _ (by push_cast; rfl), Option.some_bind]
      obtain ⟨A1, hs1, hm1⟩ := mat_store st n M _ hst i (j + k) hi ht
        ((i : Int) * M + ((j : Int) + k)) (by push_cast; rfl)
        (if j ≤ j + k ∧ j + k < j + k then
          (if j = i then E j (j + k) else if j = j then E i (j + k) else E j (j + k))
          else E j (j + k))
      rw [hs1, Option.some_bind]
      obtain ⟨A2, hs2, hm2⟩ := mat_store A1 n M _ hm1 j (j + k) hj ht
        ((j : Int) * M + ((j : Int) + k)) (by push_cast; rfl)
        (if j ≤ j + k ∧ j + k < j + k then
          (if i = i then E j (j + k) else if i = j then E i (j + k) else E i (j + k))
          else E i (j + k))
      rw [hs2]
      refine ⟨A2, rfl, holds_matrix_congr A2 n M _ _ hm2 ?_⟩
      intro r c hr hc
      dsimp only
      rw [if_neg (show ¬ (j ≤ j + k ∧ j + k < j + k) by omega),
        if_neg (show ¬ (j ≤ j + k ∧ j + k < j + k) by omega)]
      by_cases hct : c = j + k
      · subst hct
        by_cases hrj : r = j
        · subst hrj
          rw [if_pos ⟨rfl, rfl⟩, if_pos (by omega), if_neg (Ne.symm hij), if_pos rfl]
        · rw [if_neg (by tauto)]
          by_cases hri : r = i
          · subst hri
            rw [if_pos ⟨rfl, rfl⟩, if_pos (by omega), if_pos rfl]
          · rw [if_neg (by tauto), if_neg (by omega), if_pos (by omega), if_neg hri,
              if_neg hrj]
      · rw [if_neg (by tauto), if_neg (by tauto)]
        by_cases hc1 : j ≤ c ∧ c < j + k
        · rw [if_pos hc1, if_pos (show j ≤ c ∧ c < j + (k + 1) by omega)]
        · rw [if_neg hc1, if_neg (show ¬ (j ≤ c ∧ c < j + (k + 1)) by omega)])
  refine ⟨A', h1, holds_matrix_congr A' n M _ _ h2 ?_⟩
  intro r c _ hc
  by_cases hjc : j ≤ c
  · rw [if_pos (by omega), if_pos hjc]
  · rw [if_neg (by omega), if_neg hjc]

/-- The loop that divides the pivot row `j`, right of the diagonal, by `d`. -/
theorem scale_row_eq (A : List R) (n M : Nat) (E : Nat → Nat → R) (h : holds_matrix A n M E)
    (j : Nat) (hj : j < n) (d : R) :
    ∃ A', forLoop (M - (j + 1)) (fun c (A : List R) =>
        (load A ((j : Int) * M + ((j : Int) + 1 + c))).bind fun v =>
        store A ((j : Int) * M + ((j : Int) + 1 + c)) (v / d)) A = some A' ∧
      holds_matrix A' n M (fun r c => if r = j ∧ j < c then E r c / d else E r c) := by
  obtain ⟨A', h1, h2⟩ := forLoop_inv
    (fun k (st : List R) => holds_matrix st n M (fun r c =>
      if r = j ∧ j < c ∧ c < j + 1 + k then E r c / d else E r c))
    (M - (j + 1)) (fun c (A : List R) =>
        (load A ((j : Int) * M + ((j : Int) + 1 + c))).bind fun v =>
        store A ((j : Int) * M + ((j : Int) + 1 + c)) (v / d)) A (holds_matrix_congr A n M E _ h (by
      intro r c _ _
      rw [if_neg (by omega)]))
    (by
      intro k hk st hst
      have ht : j + 1 + k < M := by omega
      dsimp only
      rw [mat_load st n M _ hst j (j + 1 + k) hj ht _ (by push_cast; rfl), Option.some_bind]
      obtain ⟨A1, hs1, hm1⟩ := mat_store st n M _ hst j (j + 1 + k) hj ht
        ((j : Int) * M + ((j : Int) + 1 + k)) (by push_cast; rfl)
        ((if j = j ∧ j < j + 1 + k ∧ j + 1 + k < j + 1 + k then E j (j + 1 + k) / d
          else E j (j + 1 + k)) / d)
      rw [hs1]
      refine ⟨A1, rfl, holds_matrix_congr A1 n M _ _ hm1 ?_⟩
      intro r c hr hc
      dsimp only
      rw [if_neg (show ¬ (j = j ∧ j < j + 1 + k ∧ j + 1 + k < j + 1 + k) by omega)]
      by_cases hct : r = j ∧ c = j + 1 + k
      · rw [if_pos hct, hct.1, hct.2, if_pos (by omega)]
      · rw [if_neg hct]
        by_cases hc1 : r = j ∧ j < c ∧ c < j + 1 + k
        · rw [if_pos hc1, if_pos (by omega)]
        · rw [if_neg hc1, if_neg (by omega)])
  refine ⟨A', h1, holds_matrix_congr A' n M _ _ h2 ?_⟩
  intro r c _ hc
  by_cases hjc : r = j ∧ j < c
  · rw [if_pos (by omega), if_pos hjc]
  · rw [if_neg (by omega), if_neg hjc]

/-- The inner elimination loop: row `i` minus `first` times the pivot row `j`, right of the
diagonal. -/
theorem eliminate_row_eq (A : List R) (n M : Nat) (E : Nat → Nat → R)
    (h : holds_matrix A n M E) (i j : Nat) (hi : i < n) (hj : j < n) (first : R) :
    ∃ A', forLoop (M - (j + 1)) (fun c (A : List R) =>
        (load A ((i : Int) * M + ((j : Int) + 1 + c))).bind fun v =>
        (load A ((j : Int) * M + ((j : Int) + 1 + c))).bind fun p =>
        store A ((i : Int) * M + ((j : Int) + 1 + c)) (v - p * first)) A = some A' ∧
      holds_matrix A' n M (fun r c =>
        if r = i ∧ j < c then E r c - E j c * first else E r c) := by
  obtain ⟨A', h1, h2⟩ := forLoop_inv
    (fun k (st : List R) => holds_matrix st n M (fun r c =>
      if r = i ∧ j < c ∧ c < j + 1 + k then E r c - E j c * first else E r c))
    (M - (j + 1)) (fun c (A : List R) =>
        (load A ((i : Int) * M + ((j : Int) + 1 + c))).bind fun v =>
        (load A ((j : Int) * M + ((j : Int) + 1 + c))).bind fun p =>
        store A ((i : Int) * M + ((j : Int) + 1 + c)) (v - p * first)) A (holds_matrix_congr A n M E _ h (by
      intro r c _ _
      rw [if_neg (by omega)]))
    (by
      intro k hk st hst
      have ht : j + 1 + k < M := by omega
      dsimp only
      rw [mat_load st n M _ hst i (j + 1 + k) hi ht _ (by push_cast; rfl), Option.some_bind,
        mat_load st n M _ hst j (j + 1 + k) hj ht _ (by push_cast; rfl), Option.some_bind]
      obtain ⟨A1, hs1, hm1⟩ := mat_store st n M _ hst i (j + 1 + k) hi ht
        ((i : Int) * M + ((j : Int) + 1 + k)) (by push_cast; rfl)
        ((if i = i ∧ j < j + 1 + k ∧ j + 1 + k < j + 1 + k then
            E i (j + 1 + k) - E j (j + 1 + k) * first else E i (j + 1 + k)) -
          (if j = i ∧ j < j + 1 + k ∧ j + 1 + k < j + 1 + k then
            E j (j + 1 + k) - E j (j + 1 + k) * first else E j (j + 1 + k)) * first)
      rw [hs1]
      refine ⟨A1, rfl, holds_matrix_congr A1 n M _ _ hm1 ?_⟩
      intro r c hr hc
      dsimp only
      rw [if_neg (show ¬ (i = i ∧ j < j + 1 + k ∧ j + 1 + k < j + 1 + k) by omega),
        if_neg (show ¬ (j = i ∧ j < j + 1 + k ∧ j + 1 + k < j + 1 + k) by omega)]
      by_cases hct : r = i ∧ c = j + 1 + k
      · rw [if_pos hct, hct.1, hct.2, if_pos (by omega)]
      · rw [if_neg hct]
        by_cases hc1 : r = i ∧ j < c ∧ c < j + 1 + k
        · rw [if_pos hc1, if_pos (by omega)]
        · rw [if_neg hc1, if_neg (by omega)])
  refine ⟨A', h1, holds_matrix_congr A' n M _ _ h2 ?_⟩
  intro r c _ hc
  by_cases hjc : r = i ∧ j < c
  · rw [if_pos (by omega), if_pos hjc]
  · rw [if_neg (by omega), if_neg hjc]

/-- The elimination loop below the pivot row `j`. -/
theorem eliminate_below_eq (A : List R) (n M : Nat) (E : Nat → Nat → R)
    (h : holds_matrix A n M E) (j : Nat) (hj : j < n) (hjM : j < M) :
    ∃ A', forLoop (n - (j + 1)) (fun c (A : List R) =>
        (load A (((j : Int) + 1 + c) * M + j)).bind fun first_item =>
        (store A (((j : Int) + 1 + c) * M + j) 0).bind fun A =>
        forLoop (M - (j + 1)) (fun c2 (A : List R) =>
          (load A (((j : Int) + 1 + c) * M + ((j : Int) + 1 + c2))).bind fun v =>
          (load A ((j : Int) * M + ((j : Int) + 1 + c2))).bind fun p =>
          store A (((j : Int) + 1 + c) * M + ((j : Int) + 1 + c2)) (v - p * first_item)) A) A =
          some A' ∧
      holds_matrix A' n M (fun r c =>
        if j < r then (if c = j then 0 else if j < c then E r c - E j c * E r j else E r c)
        else E r c) := by
  obtain ⟨A', h1, h2⟩ := forLoop_inv
    (fun k (st : List R) => holds_matrix st n M (fun r c =>
      if j < r ∧ r < j + 1 + k then
        (if c = j then 0 else if j < c then E r c - E j c * E r j else E r c)
      else E r c))
    (n - (j + 1)) (fun c (A : List R) =>
        (load A (((j : Int) + 1 + c) * M + j)).bind fun first_item =>
        (store A (((j : Int) + 1 + c) * M + j) 0).bind fun A =>
        forLoop (M - (j + 1)) (fun c2 (A : List R) =>
          (load A (((j : Int) + 1 + c) * M + ((j : Int) + 1 + c2))).bind fun v =>
          (load A ((j : Int) * M + ((j : Int) + 1 + c2))).bind fun p =>
          store A (((j : Int) + 1 + c) * M + ((j : Int) + 1 + c2)) (v - p * first_item)) A)
    A (holds_matrix_congr A n M E _ h (by
      intro r c _ _
      rw [if_neg (by omega)]))
    (by
      intro k hk st hst
      have hi : j + 1 + k < n := by omega
      have e : ((j : Int) + 1 + (k : Int)) = ((j + 1 + k : Nat) : Int) := by push_cast; rfl
      dsimp only
      rw [e, mat_load st n M _ hst (j + 1 + k) j hi hjM _ rfl, Option.some_bind]
      obtain ⟨A1, hs1, hm1⟩ := mat_store st n M _ hst (j + 1 + k) j hi hjM
        (((j + 1 + k : Nat) : Int) * M + j) rfl 0
      rw [hs1, Option.some_bind]
      obtain ⟨A2, hs2, hm2⟩ := eliminate_row_eq A1 n M _ hm1 (j + 1 + k) j hi hj
        (if j < j + 1 + k ∧ j + 1 + k < j + 1 + k then
          (if j = j then 0 else if j < j then E (j + 1 + k) j - E j j * E (j + 1 + k) j
            else E (j + 1 + k) j)
          else E (j + 1 + k) j)
      rw [hs2]
      refine ⟨A2, rfl, holds_matrix_congr A2 n M _ _ hm2 ?_⟩
      intro r c hr hc
      dsimp only
      rw [if_neg (show ¬ (j < j + 1 + k ∧ j + 1 + k < j + 1 + k) by omega)]
      by_cases hri : r = j + 1 + k
      · subst hri
        rw [if_pos (show j < j + 1 + k ∧ j + 1 + k < j + 1 + (k + 1) by omega)]
        by_cases hcj : c = j
        · subst hcj
          rw [if_neg (by omega), if_pos ⟨rfl, rfl⟩, if_pos rfl]
        · rw [if_neg hcj]
          by_cases hjc : j < c
          · rw [if_pos ⟨rfl, hjc⟩, if_neg (by tauto), if_pos hjc,
              if_neg (show ¬ (j < j + 1 + k ∧ j + 1 + k < j + 1 + k) by omega),
              if_neg (show ¬ (j = j + 1 + k ∧ c = j) by omega),
              if_neg (show ¬ (j < j ∧ j < j + 1 + k) by omega)]
          · rw [if_neg (by tauto), if_neg (by tauto), if_neg hjc,
              if_neg (show ¬ (j < j + 1 + k ∧ j + 1 + k < j + 1 + k) by omega)]
      · rw [if_neg (by tauto), if_neg (by tauto)]
        by_cases hc1 : j < r ∧ r < j + 1 + k
        · rw [if_pos hc1, if_pos (show j < r ∧ r < j + 1 + (k + 1) by omega)]
        · rw [if_neg hc1, if_neg (show ¬ (j < r ∧ r < j + 1 + (k + 1)) by omega)])
  refine ⟨A', h1, holds_matrix_congr A' n M _ _ h2 ?_⟩
  intro r c hr _
  by_cases hjr : j < r
  · rw [if_pos (by omega), if_pos hjr]
  · rw [if_neg (by omega), if_neg hjr]

/-- One pass of the forward elimination: when row `i ≥ j` is the first with a nonzero entry in
column `j`, `eliminate_column` returns the matrix `pivot_step E i j`. -/
theorem eliminate_column_eq (A : List R) (n : Nat) (E : Nat → Nat → R)
    (h : holds_matrix A n (n + 1) E) (i j : Nat) (hji : j ≤ i) (hi : i < n)
    (hne : E i j ≠ 0) (hz : ∀ r, j ≤ r → r < i → E r j = 0) :
    ∃ A', eliminate_column (n : Int) ((n + 1 : Nat) : Int) j A = some A' ∧
      holds_matrix A' n (n + 1) (pivot_step E i j) := by
  have hj : j < n := by omega
  have hjM : j < n + 1 := by omega
  have e1 : ((n : Int) - (j : Int)).toNat = n - j := by omega
  have e2 : (((n + 1 : Nat) : Int) - (j : Int)).toNat = n + 1 - j := by omega
  have e3 : (((n + 1 : Nat) : Int) - ((j : Int) + 1)).toNat = n + 1 - (j + 1) := by omega
  have e4 : ((n : Int) - ((j : Int) + 1)).toNat = n - (j + 1) := by omega
  have hp := pivot_search_eq A n (n + 1) E h j hjM i hi hne (i - j) j 0 (by omega) hz (n - j)
    (by omega)
  -- the exchange of rows
  obtain ⟨A1, hs1, hm1⟩ : ∃ A1, (if (i : Int) ≠ (j : Int) then
      forLoop (n + 1 - j) (fun c (A : List R) =>
        (load A ((i : Int) * ((n + 1 : Nat) : Int) + ((j : Int) + c))).bind fun temp =>
        (load A ((j : Int) * ((n + 1 : Nat) : Int) + ((j : Int) + c))).bind fun v =>
        (store A ((i : Int) * ((n + 1 : Nat) : Int) + ((j : Int) + c)) v).bind fun A =>
        store A ((j : Int) * ((n + 1 : Nat) : Int) + ((j : Int) + c)) temp) A
      else some A) = some A1 ∧
      holds_matrix A1 n (n + 1) (fun r c =>
        if j ≤ c then (if r = i then E j c else if r = j then E i c else E r c) else E r c) := by
    by_cases hij : i = j
    · subst hij
      refine ⟨A, by simp, holds_matrix_congr A n (n + 1) E _ h ?_⟩
      intro r c _ _
      by_cases hc : i ≤ c
      · rw [if_pos hc]
        by_cases hr : r = i
        · rw [if_pos hr, hr]
        · rw [if_neg hr, if_neg hr]
      · rw [if_neg hc]
    · rw [if_pos (by exact_mod_cast hij)]
      exact swap_rows_eq A n (n + 1) E h i j hi hj hij
  obtain ⟨A2, hs2, hm2⟩ := mat_store A1 n (n + 1) _ hm1 j j hj hjM
    ((j : Int) * ((n + 1 : Nat) : Int) + j) rfl 1
  obtain ⟨A3, hs3, hm3⟩ := scale_row_eq A2 n (n + 1) _ hm2 j hj (E i j)
  obtain ⟨A4, hs4, hm4⟩ := eliminate_below_eq A3 n (n + 1) _ hm3 j hj hjM
  refine ⟨A4, ?_, holds_matrix_congr A4 n (n + 1) _ _ hm4 ?_⟩
  · unfold eliminate_column
    simp only [Option.bind_eq_bind, e1, e2, e3, e4]
    rw [hp, Option.some_bind]
    simp only [Option.pure_def]
    by_cases hij : (i : Int) ≠ (j : Int)
    · rw [if_pos hij] at hs1 ⊢
      rw [hs1, Option.some_bind, hs2, Option.some_bind, hs3, Option.some_bind]
      exact hs4
    · rw [if_neg hij] at hs1 ⊢
      rw [hs1, Option.some_bind, hs2, Option.some_bind, hs3, Option.some_bind]
      exact hs4
  · intro r c hr hc
    unfold pivot_step
    by_cases hrj : r = j
    · subst hrj
      by_cases hcj : c = r
      · subst hcj
        simp
      · by_cases hlt : r < c
        · have hle : r ≤ c := by omega
          by_cases hri : r = i
          · subst hri
            simp [hcj, hlt, hle]
          · simp [hcj, hlt, hle, hri]
        · have hle : ¬ r ≤ c := by omega
          simp [hcj, hlt, hle]
    · by_cases hjr : j < r
      · by_cases hcj : c = j
        · subst hcj
          simp [hrj, hjr]
        · by_cases hlt : j < c
          · have hle : j ≤ c := by omega
            have hji' : j ≤ i := hji
            by_cases hri : r = i
            · subst hri
              have hjr' : ¬ j = r := fun h => hrj h.symm
              simp [hrj, hjr, hcj, hlt, hle, hjr']
            · by_cases hij : j = i
              · subst hij
                simp [hrj, hjr, hcj, hlt, hle, hri]
              · simp [hrj, hjr, hcj, hlt, hle, hri, hij]
          · have hle : ¬ j ≤ c := by omega
            simp [hrj, hjr, hcj, hlt, hle]
      · have hri : ¬ r = i := by omega
        by_cases hle : j ≤ c
        · simp [hrj, hjr, hri, hle]
        · simp [hrj, hjr, hri, hle]

/-- The pivot row of an elimination pass is the old row `i` divided by the pivot. -/
theorem pivot_step_dot_pivot (E : Nat → Nat → R) (n i j : Nat) (hji : j ≤ i) (hi : i < n)
    (h0 : zero_below E n j) (hne : E i j ≠ 0) (y : Nat → R) :
    row_dot (pivot_step E i j) n y j = row_dot E n y i / E i j := by
  unfold row_dot
  rw [Finset.sum_div]
  apply Finset.sum_congr rfl
  intro c hc
  unfold pivot_step
  rw [if_pos rfl]
  by_cases hcj : c = j
  · subst hcj
    rw [if_pos rfl]
    field_simp
  · rw [if_neg hcj]
    by_cases hlt : j < c
    · rw [if_pos hlt]
      ring
    · rw [if_neg hlt, h0 j c (by omega) (by omega) (by omega),
        h0 i c (by omega) (by omega) hi]
      ring

/-- A row below the pivot row is the exchanged old row minus a multiple of the old row `i`. -/
theorem pivot_step_dot_below (E : Nat → Nat → R) (n i j r : Nat) (hji : j ≤ i) (hi : i < n)
    (h0 : zero_below E n j) (hne : E i j ≠ 0) (hjr : j < r) (hr : r < n) (y : Nat → R) :
    row_dot (pivot_step E i j) n y r =
      row_dot E n y (if r = i then j else r) -
        (if r = i then E j j else E r j) * (row_dot E n y i / E i j) := by
  unfold row_dot
  rw [Finset.sum_div, Finset.mul_sum, ← Finset.sum_sub_distrib]
  apply Finset.sum_congr rfl
  intro c hc
  unfold pivot_step
  rw [if_neg (by omega), if_pos hjr]
  by_cases hcj : c = j
  · subst hcj
    rw [if_pos rfl]
    by_cases hri : r = i
    · subst hri
      rw [if_pos rfl, if_pos rfl]
      field_simp
    · rw [if_neg hri, if_neg hri]
      field_simp
  · rw [if_neg hcj]
    by_cases hlt : j < c
    · rw [if_pos hlt]
      by_cases hri : r = i
      · subst hri
        rw [if_pos rfl, if_pos rfl, if_pos rfl]
        ring
      · rw [if_neg hri, if_neg hri, if_neg hri]
        ring
    · rw [if_neg hlt, h0 r c (by omega) (by omega) hr, h0 i c (by omega) (by omega) hi]
      by_cases hri : r = i
      · rw [if_pos hri, h0 j c (by omega) (by omega) (by omega)]
        ring
      · rw [if_neg hri, h0 r c (by omega) (by omega) hr]
        ring

theorem pivot_step_dot_above (E : Nat → Nat → R) (n i j r : Nat) (hrj : r < j) (y : Nat → R) :
    row_dot (pivot_step E i j) n y r = row_dot E n y r := by
  unfold row_dot
  apply Finset.sum_congr rfl
  intro c _
  unfold pivot_step
  rw [if_neg (by omega), if_neg (by omega)]

/-- A vector annihilated by every row after an elimination pass is annihilated by every row
before it. -/
theorem pivot_step_null (E : Nat → Nat → R) (n i j : Nat) (hji : j ≤ i) (hi : i < n)
    (h0 : zero_below E n j) (hne : E i j ≠ 0) (y : Nat → R)
    (hy : ∀ p, p < n → row_dot (pivot_step E i j) n y p = 0) :
    ∀ p, p < n → row_dot E n y p = 0 := by
  have hrow : row_dot E n y i = 0 := by
    have h1 := hy j (by omega)
    rw [pivot_step_dot_pivot E n i j hji hi h0 hne y] at h1
    rcases div_eq_zero_iff.mp h1 with h | h
    · exact h
    · exact absurd h hne
  intro p hp
  by_cases hpj : p < j
  · rw [← pivot_step_dot_above E n i j p hpj y]
    exact hy p hp
  · by_cases hpi : p = i
    · rw [hpi]; exact hrow
    · by_cases hpj' : p = j
      · subst hpj'
        have h1 := hy i hi
        rw [pivot_step_dot_below E n i p i hji hi h0 hne (by omega) hi y, if_pos rfl, hrow] at h1
        simpa using h1
      · have h1 := hy p hp
        rw [pivot_step_dot_below E n i j p hji hi h0 hne (by omega) hp y, if_neg hpi, hrow] at h1
        simpa using h1

theorem pivot_step_zero_below (E : Nat → Nat → R) (n i j : Nat) (h0 : zero_below E n j) :
    zero_below (pivot_step E i j) n (j + 1) := by
  intro r c hc hcr hr
  unfold pivot_step
  by_cases hrj : r = j
  · subst hrj
    rw [if_pos rfl, if_neg (by omega), if_neg (by omega)]
    exact h0 r c hcr hcr hr
  · rw [if_neg hrj]
    by_cases hjr : j < r
    · rw [if_pos hjr]
      by_cases hcj : c = j
      · rw [if_pos hcj]
      · rw [if_neg hcj, if_neg (by omega)]
        exact h0 r c (by omega) hcr hr
    · rw [if_neg hjr]
      exact h0 r c (by omega) hcr hr

theorem pivot_step_unit_diag (E : Nat → Nat → R) (i j : Nat)
    (h1 : ∀ r, r < j → E r r = 1) : ∀ r, r < j + 1 → pivot_step E i j r r = 1 := by
  intro r hr
  unfold pivot_step
  by_cases hrj : r = j
  · rw [if_pos hrj, if_pos hrj]
  · rw [if_neg hrj, if_neg (by omega)]
    exact h1 r (by omega)

theorem row_dot_add_single (E : Nat → Nat → R) (n : Nat) (y : Nat → R) (r0 : Nat)
    (hr0 : r0 < n + 1) (δ : R) (r : Nat) :
    row_dot E n (fun c => y c + if c = r0 then δ else 0) r = row_dot E n y r + E r r0 * δ := by
  unfold row_dot
  simp only [mul_add, Finset.sum_add_distrib, mul_ite, mul_zero]
  rw [Finset.sum_ite_eq' (Finset.range (n + 1)) r0 (fun c => E r c * δ),
    if_pos (Finset.mem_range.mpr hr0)]

/-- Above a unit upper triangular block of `j` rows there is a vector with `y j = 1` and
`y c = 0` for `c > j` that the first `j` rows annihilate. -/
theorem triangular_kernel_vector (E : Nat → Nat → R) (n j : Nat) (hj : j < n)
    (h0 : zero_below E n j) (h1 : ∀ r, r < j → E r r = 1) :
    ∀ k, k ≤ j → ∃ y : Nat → R, y j = 1 ∧ (∀ c, j < c → y c = 0) ∧
      ∀ r, j - k ≤ r → r < j → row_dot E n y r = 0 := by
  intro k
  induction k with
  | zero =>
    intro _
    refine ⟨fun c => if c = j then 1 else 0, by simp, ?_, ?_⟩
    · intro c hc
      simp only
      rw [if_neg (by omega)]
    · intro r hr1 hr2
      omega
  | succ k ih =>
    intro hk
    obtain ⟨y, hyj, hyc, hyr⟩ := ih (by omega)
    refine ⟨fun c => y c + if c = j - (k + 1) then -row_dot E n y (j - (k + 1)) else 0,
      ?_, ?_, ?_⟩
    · simp only
      rw [if_neg (by omega), add_zero, hyj]
    · intro c hc
      simp only
      rw [if_neg (by omega), add_zero, hyc c hc]
    · intro r hr1 hr2
      rw [row_dot_add_single E n y (j - (k + 1)) (by omega)]
      by_cases hr : r = j - (k + 1)
      · rw [hr, h1 _ (by omega)]
        ring
      · rw [hyr r (by omega) hr2, h0 r (j - (k + 1)) (by omega) (by omega) (by omega)]
        ring

/-- In a nonsingular system every column has a pivot: a first row at or below the diagonal
with a nonzero entry. -/
theorem pivot_exists (E0 E : Nat → Nat → R) (n j : Nat) (hj : j < n)
    (h0 : zero_below E n j) (h1 : ∀ r, r < j → E r r = 1)
    (hnull : ∀ y : Nat → R, (∀ p, p < n → row_dot E n y p = 0) →
      ∀ p, p < n → row_dot E0 n y p = 0)
    (hker : ∀ y : Nat → R, (∀ p, p < n → ∑ q in Finset.range n, E0 p q * y q = 0) →
      ∀ q, q < n → y q = 0) :
    ∃ i, j ≤ i ∧ i < n ∧ E i j ≠ 0 ∧ ∀ r, j ≤ r → r < i → E r j = 0 := by
  have hex : ∃ i, j ≤ i ∧ i < n ∧ E i j ≠ 0 := by
    by_contra hall
    push_neg at hall
    obtain ⟨y, hyj, hyc, hyr⟩ := triangular_kernel_vector E n j hj h0 h1 j (le_refl j)
    have hE : ∀ p, p < n → row_dot E n y p = 0 := by
      intro p hp
      by_cases hpj : p < j
      · exact hyr p (by omega) hpj
      · unfold row_dot
        apply Finset.sum_eq_zero
        intro c _
        by_cases hcj : c < j
        · rw [h0 p c hcj (by omega) hp, zero_mul]
        · by_cases hcj' : c = j
          · rw [hcj', hall p (by omega) hp, zero_mul]
          · rw [hyc c (by omega), mul_zero]
    have hE0 := hnull y hE
    have hy0 := hker y (by
      intro p hp
      have := hE0 p hp
      unfold row_dot at this
      rw [Finset.sum_range_succ, hyc n hj, mul_zero, add_zero] at this
      exact this) j hj
    rw [hyj] at hy0
    exact one_ne_zero hy0
  classical
  refine ⟨Nat.find hex, (Nat.find_spec hex).1, (Nat.find_spec hex).2.1,
    (Nat.find_spec hex).2.2, ?_⟩
  intro r hr1 hr2
  by_contra hne
  exact Nat.find_min hex hr2 ⟨hr1, lt_trans hr2 (Nat.find_spec hex).2.1, hne⟩

/-- The forward elimination of `deconv` on a nonsingular system returns a unit upper
triangular system whose solutions solve the system it started from. -/
theorem forward_elimination_eq (A0 : List R) (n : Nat) (E0 : Nat → Nat → R)
    (h : holds_matrix A0 n (n + 1) E0)
    (hker : ∀ y : Nat → R, (∀ p, p < n → ∑ q in Finset.range n, E0 p q * y q = 0) →
      ∀ q, q < n → y q = 0) :
    ∃ A E, forward_elimination (n : Int) ((n + 1 : Nat) : Int) A0 = some A ∧
      holds_matrix A n (n + 1) E ∧ zero_below E n n ∧ (∀ r, r < n → E r r = 1) ∧
      ∀ y : Nat → R, (∀ p, p < n → row_dot E n y p = 0) →
        ∀ p, p < n → row_dot E0 n y p = 0 := by
  obtain ⟨A, hA, E, hE, hz, hu, hn⟩ := forLoop_inv
    (fun j (st : List R) => ∃ E, holds_matrix st n (n + 1) E ∧ zero_below E n j ∧
      (∀ r, r < j → E r r = 1) ∧
      ∀ y : Nat → R, (∀ p, p < n → row_dot E n y p = 0) →
        ∀ p, p < n → row_dot E0 n y p = 0)
    n (fun j A => eliminate_column (n : Int) ((n + 1 : Nat) : Int) j A) A0
    ⟨E0, h, fun r c hc _ _ => absurd hc (Nat.not_lt_zero c),
      fun r hr => absurd hr (Nat.not_lt_zero r), fun y hy => hy⟩
    (by
      intro j hj st hst
      obtain ⟨E, hE, hz, hu, hn⟩ := hst
      obtain ⟨i, hji, hi, hne, hfirst⟩ := pivot_exists E0 E n j hj hz hu hn hker
      obtain ⟨A', hA', hm'⟩ := eliminate_column_eq st n E hE i j hji hi hne hfirst
      exact ⟨A', hA', pivot_step E i j, hm', pivot_step_zero_below E n i j hz,
        pivot_step_unit_diag E i j hu,
        fun y hy => hn y (pivot_step_null E n i j hji hi hz hne y hy)⟩)
  refine ⟨A, E, ?_, hE, hz, hu, hn⟩
  unfold forward_elimination
  rw [Int.toNat_ofNat]
  exact hA

/-- The inner loop of the back-substitution for column `j`: every row above row `j` loses
`A[j][N] * A[i][j]` in its right-hand side. -/
theorem back_column_eq (A : List R) (n : Nat) (E : Nat → Nat → R)
    (h : holds_matrix A n (n + 1) E) (j : Nat) (hj : j < n) :
    ∃ A', forLoop j (fun d (A : List R) =>
        (load A (((j : Int) - 1 - d) * ((n + 1 : Nat) : Int) + n)).bind fun v =>
        (load A ((j : Int) * ((n + 1 : Nat) : Int) + n)).bind fun p =>
        (load A (((j : Int) - 1 - d) * ((n + 1 : Nat) : Int) + j)).bind fun q =>
        store A (((j : Int) - 1 - d) * ((n + 1 : Nat) : Int) + n) (v - p * q)) A = some A' ∧
      holds_matrix A' n (n + 1) (fun r c =>
        if r < j ∧ c = n then E r n - E j n * E r j else E r c) := by
  obtain ⟨A', h1, h2⟩ := forLoop_inv
    (fun k (st : List R) => holds_matrix st n (n + 1) (fun r c =>
      if j - k ≤ r ∧ r < j ∧ c = n then E r n - E j n * E r j else E r c))
    j (fun d (A : List R) =>
        (load A (((j : Int) - 1 - d) * ((n + 1 : Nat) : Int) + n)).bind fun v =>
        (load A ((j : Int) * ((n + 1 : Nat) : Int) + n)).bind fun p =>
        (load A (((j : Int) - 1 - d) * ((n + 1 : Nat) : Int) + j)).bind fun q =>
        store A (((j : Int) - 1 - d) * ((n + 1 : Nat) : Int) + n) (v - p * q))
    A (holds_matrix_congr A n (n + 1) E _ h (by
      intro r c _ _
      rw [if_neg (by omega)]))
    (by
      intro k hk st hst
      have e : ((j : Int) - 1 - (k : Int)) = ((j - 1 - k : Nat) : Int) := by omega
      have hi : j - 1 - k < n := by omega
      dsimp only
      rw [e, mat_load st n (n + 1) _ hst (j - 1 - k) n hi (by omega) _ rfl, Option.some_bind,
        mat_load st n (n + 1) _ hst j n hj (by omega) _ rfl, Option.some_bind,
        mat_load st n (n + 1) _ hst (j - 1 - k) j hi (by omega) _ rfl, Option.some_bind]
      obtain ⟨A1, hs1, hm1⟩ := mat_store st n (n + 1) _ hst (j - 1 - k) n hi (by omega)
        (((j - 1 - k : Nat) : Int) * ((n + 1 : Nat) : Int) + n) rfl
        ((if j - k ≤ j - 1 - k ∧ j - 1 - k < j ∧ n = n then
            E (j - 1 - k) n - E j n * E (j - 1 - k) j else E (j - 1 - k) n) -
          (if j - k ≤ j ∧ j < j ∧ n = n then E j n - E j n * E j j else E j n) *
          (if j - k ≤ j - 1 - k ∧ j - 1 - k < j ∧ j = n then
            E (j - 1 - k) n - E j n * E (j - 1 - k) j else E (j - 1 - k) j))
      rw [hs1]
      refine ⟨A1, rfl, holds_matrix_congr A1 n (n + 1) _ _ hm1 ?_⟩
      intro r c hr hc
      dsimp only
      rw [if_neg (show ¬ (j - k ≤ j - 1 - k ∧ j - 1 - k < j ∧ n = n) by omega),
        if_neg (show ¬ (j - k ≤ j ∧ j < j ∧ n = n) by omega),
        if_neg (show ¬ (j - k ≤ j - 1 - k ∧ j - 1 - k < j ∧ j = n) by omega)]
      by_cases hct : r = j - 1 - k ∧ c = n
      · rw [if_pos hct, hct.1, hct.2,
          if_pos (show j - (k + 1) ≤ j - 1 - k ∧ j - 1 - k < j ∧ n = n by omega)]
      · rw [if_neg hct]
        by_cases hc1 : j - k ≤ r ∧ r < j ∧ c = n
        · rw [if_pos hc1, if_pos (show j - (k + 1) ≤ r ∧ r < j ∧ c = n by omega)]
        · rw [if_neg hc1, if_neg (show ¬ (j - (k + 1) ≤ r ∧ r < j ∧ c = n) by omega)])
  refine ⟨A', h1, holds_matrix_congr A' n (n + 1) _ _ h2 ?_⟩
  intro r c _ hc
  by_cases hjc : r < j ∧ c = n
  · rw [if_pos (by omega), if_pos hjc]
  · rw [if_neg (by omega), if_neg hjc]

theorem sum_split_at (n j r : Nat) (hrj : r < j) (hj : j < n) (f : Nat → R) :
    ∑ c in Finset.range n, (if r < c ∧ j ≤ c then f c else 0) =
      ∑ c in Finset.range n, (if r < c ∧ j + 1 ≤ c then f c else 0) + f j := by
  have e : ∀ c, (if r < c ∧ j ≤ c then f c else 0) =
      (if r < c ∧ j + 1 ≤ c then f c else 0) + (if c = j then f j else 0) := by
    intro c
    by_cases hc : c = j
    · subst hc
      rw [if_pos ⟨hrj, le_refl c⟩, if_neg (by omega), if_pos rfl, zero_add]
    · rw [if_neg hc, add_zero]
      by_cases h1 : r < c ∧ j ≤ c
      · rw [if_pos h1, if_pos (by omega)]
      · rw [if_neg h1, if_neg (by omega)]
  simp only [e, Finset.sum_add_distrib]
  rw [Finset.sum_ite_eq' (Finset.range n) j (fun _ => f j), if_pos (Finset.mem_range.mpr hj)]

/-- The back-substitution of `deconv` leaves the coefficients as they are and, in the
right-hand side of row `r`, the value `x r = b r - sum over c > r of U r c * x c`. -/
theorem back_substitution_eq (A : List R) (n : Nat) (U : Nat → Nat → R)
    (h : holds_matrix A n (n + 1) U) :
    ∃ A' X, back_substitution (n : Int) ((n + 1 : Nat) : Int) A = some A' ∧
      holds_matrix A' n (n + 1) X ∧ (∀ r c, c < n → X r c = U r c) ∧
      ∀ r, r < n → X r n =
        U r n - ∑ c in Finset.range n, (if r < c then U r c * X c n else 0) := by
  obtain ⟨A', hA', X, hX, hco, hx⟩ := forLoop_inv
    (fun k (st : List R) => ∃ X, holds_matrix st n (n + 1) X ∧
      (∀ r c, c < n → X r c = U r c) ∧
      ∀ r, r < n → X r n =
        U r n - ∑ c in Finset.range n, (if r < c ∧ n - k ≤ c then U r c * X c n else 0))
    (n - 1) (fun c (A : List R) =>
      forLoop ((n : Int) - 1 - c).toNat (fun d (A : List R) =>
        (load A (((n : Int) - 1 - c - 1 - d) * ((n + 1 : Nat) : Int) + n)).bind fun v =>
        (load A (((n : Int) - 1 - c) * ((n + 1 : Nat) : Int) + n)).bind fun p =>
        (load A (((n : Int) - 1 - c - 1 - d) * ((n + 1 : Nat) : Int) +
          ((n : Int) - 1 - c))).bind fun q =>
        store A (((n : Int) - 1 - c - 1 - d) * ((n + 1 : Nat) : Int) + n) (v - p * q)) A)
    A ⟨U, h, fun _ _ _ => rfl, by
      intro r hr
      rw [Finset.sum_eq_zero, sub_zero]
      intro c hc
      have := Finset.mem_range.mp hc
      rw [if_neg (by omega)]⟩
    (by
      intro k hk st hst
      obtain ⟨X, hX, hco, hx⟩ := hst
      have e : ((n : Int) - 1 - (k : Int)) = ((n - 1 - k : Nat) : Int) := by omega
      have hj : n - 1 - k < n := by omega
      dsimp only
      rw [e, Int.toNat_ofNat]
      obtain ⟨A1, hs1, hm1⟩ := back_column_eq st n X hX (n - 1 - k) hj
      refine ⟨A1, hs1, _, hm1, ?_, ?_⟩
      · intro r c hc
        rw [if_neg (by omega)]
        exact hco r c hc
      · intro r hr
        have hnk : n - (k + 1) = n - 1 - k := by omega
        have hnk' : n - k = n - 1 - k + 1 := by omega
        rw [hnk]
        by_cases hrj : r < n - 1 - k
        · rw [if_pos ⟨hrj, rfl⟩, hx r hr, hnk', hco r (n - 1 - k) hj]
          have hs : ∑ c in Finset.range n, (if r < c ∧ n - 1 - k ≤ c then
              U r c * (if c < n - 1 - k ∧ n = n then X c n - X (n - 1 - k) n * X c (n - 1 - k)
                else X c n) else 0) =
              ∑ c in Finset.range n, (if r < c ∧ n - 1 - k ≤ c then U r c * X c n else 0) := by
            apply Finset.sum_congr rfl
            intro c _
            by_cases hc : r < c ∧ n - 1 - k ≤ c
            · rw [if_pos hc, if_pos hc, if_neg (by omega)]
            · rw [if_neg hc, if_neg hc]
          rw [hs, sum_split_at n (n - 1 - k) r hrj hj (fun c => U r c * X c n)]
          ring
        · rw [if_neg (by omega), hx r hr, hnk']
          congr 1
          apply Finset.sum_congr rfl
          intro c _
          by_cases hc : r < c ∧ n - 1 - k + 1 ≤ c
          · rw [if_pos hc, if_pos (by omega), if_neg (by omega)]
          · rw [if_neg hc, if_neg (by omega)])
  refine ⟨A', X, ?_, hX, hco, ?_⟩
  · unfold back_substitution
    rw [show ((n : Int) - 1).toNat = n - 1 by omega]
    exact hA'
  · intro r hr
    rw [hx r hr]
    congr 1
    apply Finset.sum_congr rfl
    intro c hc
    have := Finset.mem_range.mp hc
    by_cases hrc : r < c
    · rw [if_pos hrc, if_pos (by omega)]
    · rw [if_neg hrc, if_neg (by omega)]

/-- A property that every pass of a loop keeps holds after the loop, when the loop returns. -/
theorem forLoop_keeps {σ : Type} (P : σ → Prop) (n : Nat) (body : Nat → σ → Option σ)
    (hstep : ∀ i s s', i < n → P s → body i s = some s' → P s') (s s' : σ) (h0 : P s)
    (h : forLoop n body s = some s') : P s' := by
  induction n generalizing s' with
  | zero =>
    rw [forLoop_zero] at h
    cases h
    exact h0
  | succ n ih =>
    rw [forLoop_succ] at h
    obtain ⟨st, hst, hb⟩ := Option.bind_eq_some.mp h
    exact hstep n st s' (Nat.lt_succ_self n)
      (ih (fun i s s' hi => hstep i s s' (Nat.lt_succ_of_lt hi)) st hst) hb

theorem store_length {α : Type} (a a' : List α) (i : Int) (v : α) (h : store a i v = some a') :
    a'.length = a.length := by
  unfold store at h
  split_ifs at h
  cases h
  exact List.length_set _ _ _

/-- The system construction of `deconv` keeps the length of the array `A`. -/
theorem deconv_build_length (g h : List R) (w1 h1 w2 h2 a b N M : Int) (div : R)
    (A A' : List R) (hA : deconv_build g h w1 h1 w2 h2 a b N M div A = some A') :
    A'.length = A.length := by
  unfold deconv_build at hA
  refine forLoop_keeps (fun st : List R => st.length = A.length) _ _ ?_ A A' rfl hA
  intro x s s' _ hs hx
  refine forLoop_keeps (fun st : List R => st.length = A.length) _ _ ?_ s s' hs hx
  intro y t t' _ ht hy
  simp only [Option.bind_eq_bind, Option.bind_eq_some] at hy
  obtain ⟨st, hrow, hstore⟩ := hy
  rw [store_length _ _ _ _ hstore]
  unfold deconv_row at hrow
  refine forLoop_keeps (fun st : List R × R => st.1.length = A.length) _ _ ?_ (t, 0) st ht hrow
  intro i u u' _ hu hi
  refine forLoop_keeps (fun st : List R × R => st.1.length = A.length) _ _ ?_ u u' hu hi
  intro j v v' _ hv hj
  simp only [Option.bind_eq_bind, Option.bind_eq_some, Option.pure_def, Option.some.injEq] at hj
  obtain ⟨c, -, B, hB, hv', -, gv, -, rfl⟩ := hj
  rw [store_length _ _ _ _ hB]
  exact hv

/-- A matrix with a nonzero determinant has a trivial kernel. -/
theorem kernel_trivial_of_det (A : List R) (n : Nat)
    (hdet : (Matrix.of fun (p q : Fin n) => A.getD (p.val * (n + 1) + q.val) 0).det ≠ 0) :
    ∀ y : Nat → R, (∀ p, p < n → ∑ q in Finset.range n, entry A (n + 1) p q * y q = 0) →
      ∀ q, q < n → y q = 0 := by
  intro y hy q hq
  have hv : (Matrix.of fun (p q : Fin n) => A.getD (p.val * (n + 1) + q.val) 0).mulVec
      (fun q : Fin n => y q.val) = 0 := by
    funext p
    simp only [Matrix.mulVec, Matrix.dotProduct, Matrix.of_apply, Pi.zero_apply]
    rw [Fin.sum_univ_eq_sum_range (fun q => A.getD (p.val * (n + 1) + q) 0 * y q) n]
    exact hy p.val p.isLt
  have := Matrix.eq_zero_of_mulVec_eq_zero hdet hv
  exact congrFun this ⟨q, hq⟩

/-- The solver of `deconv` on a nonsingular augmented system: forward elimination and
back-substitution return, and the right-hand side column then solves the system as it stood
before the elimination. -/
theorem gauss_solves (A : List R) (n : Nat) (hlen : A.length = n * (n + 1))
    (hker : ∀ y : Nat → R, (∀ p, p < n → ∑ q in Finset.range n, entry A (n + 1) p q * y q = 0) →
      ∀ q, q < n → y q = 0) :
    ∃ A1 A2, forward_elimination (n : Int) ((n + 1 : Nat) : Int) A = some A1 ∧
      back_substitution (n : Int) ((n + 1 : Nat) : Int) A1 = some A2 ∧
      A2.length = n * (n + 1) ∧
      ∀ p, p < n → ∑ q in Finset.range n, entry A (n + 1) p q * entry A2 (n + 1) q n =
        entry A (n + 1) p n := by
  obtain ⟨A1, U, hf, hU, hz, hu, hnull⟩ := forward_elimination_eq A n (entry A (n + 1))
    (holds_matrix_self A n (n + 1) hlen) hker
  obtain ⟨A2, X, hb, hX, hco, hx⟩ := back_substitution_eq A1 n U hU
  refine ⟨A1, A2, hf, hb, hX.1, ?_⟩
  have hrow : ∀ p, p < n →
      row_dot U n (fun c => if c < n then X c n else -1) p = 0 := by
    intro p hp
    unfold row_dot
    rw [Finset.sum_range_succ]
    dsimp only
    rw [if_neg (lt_irrefl n)]
    have e : ∀ c ∈ Finset.range n, U p c * (if c < n then X c n else -1) =
        (if p < c then U p c * X c n else 0) + (if c = p then X p n else 0) := by
      intro c hc
      have hc' := Finset.mem_range.mp hc
      rw [if_pos hc']
      by_cases h1 : p < c
      · rw [if_pos h1, if_neg (by omega), add_zero]
      · rw [if_neg h1]
        by_cases h2 : c = p
        · rw [if_pos h2, h2, hu p hp]
          ring
        · rw [if_neg h2, hz p c hc' (by omega) hp]
          ring
    rw [Finset.sum_congr rfl e, Finset.sum_add_distrib,
      Finset.sum_ite_eq' (Finset.range n) p (fun _ => X p n),
      if_pos (Finset.mem_range.mpr hp), hx p hp]
    ring
  intro p hp
  have := hnull _ hrow p hp
  unfold row_dot at this
  rw [Finset.sum_range_succ] at this
  dsimp only at this
  rw [if_neg (lt_irrefl n)] at this
  have e2 : ∑ q in Finset.range n, entry A (n + 1) p q * entry A2 (n + 1) q n =
      ∑ x in Finset.range n, entry A (n + 1) p x * (if x < n then X x n else -1) := by
    apply Finset.sum_congr rfl
    intro q hq
    have hq' := Finset.mem_range.mp hq
    rw [if_pos hq', hX.2 q n hq' (by omega)]
  rw [e2]
  linear_combination this

/-- The loop `f[i] = A[i*M + N]` of `deconv` copies the right-hand side column. -/
theorem copy_solution_eq (A f : List R) (n : Nat) (hA : A.length = n * (n + 1))
    (hf : f.length = n) :
    ∃ x, forLoop n (fun i (f : List R) =>
        (load A ((i : Int) * ((n : Int) + 1) + (n : Int))).bind fun v => store f i v) f =
          some x ∧ x.length = n ∧ ∀ q, q < n → x.getD q 0 = entry A (n + 1) q n := by
  obtain ⟨x, h1, h2, h3, -⟩ := forLoop_pointwise n f (fun i => entry A (n + 1) i n)
    (fun i (f : List R) =>
      (load A ((i : Int) * ((n : Int) + 1) + (n : Int))).bind fun v => store f i v)
    (le_of_eq hf.symm)
    (by
      intro i hi m hml _
      dsimp only
      rw [mat_load A n (n + 1) _ (holds_matrix_self A n (n + 1) hA) i n hi (by omega) _
        (by push_cast; rfl), Option.some_bind, store_eq_some m i _ (by omega)])
  refine ⟨x, h1, by omega, ?_⟩
  intro q hq
  exact getD_of_getElem? x q 0 _ (h3 q hq)



theorem frame_refl (hp : Heap R) : hp.frame hp := by
  refine ⟨List.prefix_refl _, List.prefix_refl _, ?_⟩
  intro q record hq hr
  rw [List.getElem?_eq_none hq] at hr
  cases hr

theorem load_mem {α : Type} (a : List α) (i : Int) (v : α) (h : load a i = some v) : v ∈ a := by
  unfold load at h
  split_ifs at h
  exact List.getElem?_mem h

/-- A pointer read from a record added since `hp0` is the address of an array added since. -/
theorem frame_ptr (hp0 hp : Heap R) (hf : hp0.frame hp) (r : Nat) (k : Int) (m : Nat)
    (hr : hp0.images.length ≤ r) (h : hp.map_ptr r k = some m) : hp0.arrays.length ≤ m := by
  unfold Heap.map_ptr at h
  simp only [Option.bind_eq_bind, Option.bind_eq_some] at h
  obtain ⟨record, h1, h2⟩ := h
  exact hf.2.2 r record hr h1 m (load_mem _ _ _ h2)

/-- A write to an array added since `hp0` keeps the frame. -/
theorem frame_write (hp0 hp hp' : Heap R) (hf : hp0.frame hp) (p : Nat) (i : Int) (v : R)
    (hp_new : hp0.arrays.length ≤ p) (h : hp.write p i v = some hp') : hp0.frame hp' := by
  unfold Heap.write at h
  simp only [Option.bind_eq_bind, Option.bind_eq_some, Option.pure_def, Option.some.injEq] at h
  obtain ⟨a, _, a', _, rfl⟩ := h
  refine ⟨hf.1, ?_, hf.2.2⟩
  obtain ⟨t, ht⟩ := hf.2.1
  refine ⟨t.set (p - hp0.arrays.length) a', ?_⟩
  show hp0.arrays ++ t.set (p - hp0.arrays.length) a' = hp.arrays.set p a'
  rw [← ht, List.set_append_right _ _ hp_new]

/-- Source `createImage` keeps the frame, and the record it returns is new. -/
theorem frame_createImage (hp0 hp hp' : Heap R) (hf : hp0.frame hp) (width height channels : Int)
    (r : Option Nat) (h : hp.createImage width height channels = some (hp', r)) :
    hp0.frame hp' ∧ ∀ q, r = some q → hp0.images.length ≤ q := by
  unfold Heap.createImage at h
  split_ifs at h with h1 h2
  · simp only [Option.some.injEq, Prod.mk.injEq] at h
    obtain ⟨rfl, rfl⟩ := h
    exact ⟨hf, fun q hq => by cases hq⟩
  · simp only [Option.some.injEq, Prod.mk.injEq] at h
    obtain ⟨rfl, rfl⟩ := h
    refine ⟨⟨?_, ?_, ?_⟩, ?_⟩
    · exact List.IsPrefix.trans hf.1 (List.prefix_append _ _)
    · exact List.IsPrefix.trans hf.2.1 (List.prefix_append _ _)
    · intro q record hq hrec a ha
      dsimp only at hrec
      by_cases hlt : q < hp.images.length
      · rw [List.getElem?_append_left hlt] at hrec
        exact hf.2.2 q record hq hrec a ha
      · rw [List.getElem?_append_right (by omega)] at hrec
        have hq0 : q - hp.images.length = 0 := by
          by_contra hne
          rw [List.getElem?_eq_none (by simp; omega)] at hrec
          cases hrec
        rw [hq0] at hrec
        simp only [List.getElem?_cons_zero, Option.some.injEq] at hrec
        subst hrec
        simp only [List.mem_map, List.mem_range] at ha
        obtain ⟨k, _, rfl⟩ := ha
        have := hf.2.1.length_le
        omega
    · intro q hq
      simp only [Option.some.injEq] at hq
      have := hf.1.length_le
      omega

/-- Source `copyImage` keeps the frame, and the record it returns is new. -/
theorem frame_copyImage (hp0 hp hp' : Heap R) (hf : hp0.frame hp) (image : Nat)
    (r : Option Nat) (h : hp.copyImage (some image) = some (hp', r)) :
    hp0.frame hp' ∧ ∀ q, r = some q → hp0.images.length ≤ q := by
  unfold Heap.copyImage at h
  simp only [Option.bind_eq_bind, Option.bind_eq_some, Option.pure_def, Option.some.injEq,
    Prod.mk.injEq] at h
  obtain ⟨record, _, created, hc, hp1, hloop, rfl, rfl⟩ := h
  obtain ⟨hfc, hnew⟩ := frame_createImage hp0 hp created.1 hf _ _ _ created.2 hc
  refine ⟨?_, hnew⟩
  refine forLoop_keeps (fun st : Heap R => hp0.frame st) _ _ ?_ created.1 hp1 hfc hloop
  intro j s s' _ hs hj
  refine forLoop_keeps (fun st : Heap R => hp0.frame st) _ _ ?_ s s' hs hj
  intro i t t' _ ht hi
  simp only [Option.bind_eq_bind, Option.bind_eq_some] at hi
  obtain ⟨dst_image, hd, src, _, v, _, dst, hdst, hw⟩ := hi
  exact frame_write hp0 t t' ht dst _ _
    (frame_ptr hp0 t ht dst_image _ dst (hnew dst_image hd) hdst) hw

/-- Source `_conv` writes through the output record only: it keeps the frame when that record
is new. -/
theorem frame_conv_loops (hp0 hp hp' : Heap R) (hf : hp0.frame hp) (in_maps h : Nat)
    (channels w1 h1 w2 h2 a b : Int) (div : R) (out_maps : Nat)
    (hout : hp0.images.length ≤ out_maps)
    (hc : hp._conv in_maps h channels w1 h1 w2 h2 a b div out_maps = some hp') :
    hp0.frame hp' := by
  unfold Heap._conv at hc
  refine forLoop_keeps (fun st : Heap R => hp0.frame st) _ _ ?_ hp hp' hf hc
  intro k s s' _ hs hk
  simp only [Option.bind_eq_bind, Option.bind_eq_some] at hk
  obtain ⟨f, _, map, hmap, hloop⟩ := hk
  have hm := frame_ptr hp0 s hs out_maps _ map hout hmap
  refine forLoop_keeps (fun st : Heap R => hp0.frame st) _ _ ?_ s s' hs hloop
  intro x t t' _ ht hx
  refine forLoop_keeps (fun st : Heap R => hp0.frame st) _ _ ?_ t t' ht hx
  intro y u u' _ hu hy
  simp only [Option.bind_eq_bind, Option.bind_eq_some] at hy
  obtain ⟨fa, _, ha, _, sum, _, hw⟩ := hy
  exact frame_write hp0 u u' hu map _ _ hm hw

/-- Source `conv` on the heap keeps every record and array that existed before the call, and
an image it returns is new. -/
theorem frame_conv (hp hp' : Heap R) (image psf : Nat) (r : Option Nat)
    (h : hp.conv image psf = some (hp', r)) :
    hp.frame hp' ∧ ∀ q, r = some q → hp.images.length ≤ q := by
  unfold Heap.conv at h
  simp only [Option.bind_eq_bind, Option.bind_eq_some] at h
  obtain ⟨p, _, h⟩ := h
  split_ifs at h with h1 h2
  · simp only [Option.pure_def, Option.some.injEq, Prod.mk.injEq] at h
    obtain ⟨rfl, rfl⟩ := h
    exact ⟨frame_refl hp, fun q hq => by cases hq⟩
  · simp only [Option.pure_def, Option.some.injEq, Prod.mk.injEq] at h
    obtain ⟨rfl, rfl⟩ := h
    exact ⟨frame_refl hp, fun q hq => by cases hq⟩
  · simp only [Option.bind_eq_bind, Option.bind_eq_some] at h
    obtain ⟨im, _, hh, _, div, _, h⟩ := h
    split_ifs at h with h3
    · simp only [Option.pure_def, Option.some.injEq, Prod.mk.injEq] at h
      obtain ⟨rfl, rfl⟩ := h
      exact ⟨frame_refl hp, fun q hq => by cases hq⟩
    · simp only [Option.bind_eq_bind, Option.bind_eq_some, Option.pure_def, Option.some.injEq,
        Prod.mk.injEq] at h
      obtain ⟨created, hc, result, hres, hp1, hconv, rfl, rfl⟩ := h
      obtain ⟨hfc, hnew⟩ := frame_createImage hp hp created.1 (frame_refl hp) _ _ _ created.2 hc
      have hq := hnew result hres
      refine ⟨frame_conv_loops hp created.1 hp1 hfc _ _ _ _ _ _ _ _ _ _ _ hq hconv, ?_⟩
      intro q hq'
      simp only [Option.some.injEq] at hq'
      omega

theorem frame_copy_solution (hp0 hp hp' : Heap R) (hf : hp0.frame hp) (A : List R)
    (N M : Int) (f : Nat) (hnew : hp0.arrays.length ≤ f)
    (h : hp.copy_solution A N M f = some hp') : hp0.frame hp' := by
  unfold Heap.copy_solution at h
  refine forLoop_keeps (fun st : Heap R => hp0.frame st) _ _ ?_ hp hp' hf h
  intro i s s' _ hs hi
  simp only [Option.bind_eq_bind, Option.bind_eq_some] at hi
  obtain ⟨v, _, hw⟩ := hi
  exact frame_write hp0 s s' hs f _ _ hnew hw

theorem frame_deconv_solve (hp0 hp hp' : Heap R) (hf : hp0.frame hp) (image h : Nat)
    (latent r : Option Nat) (channels w1 h1 w2 h2 a b : Int) (div : R)
    (hnew : ∀ q, latent = some q → hp0.images.length ≤ q)
    (hs : hp.deconv_solve image h latent channels w1 h1 w2 h2 a b div = some (hp', r)) :
    hp0.frame hp' ∧ r = latent := by
  unfold Heap.deconv_solve at hs
  dsimp only at hs
  split_ifs at hs
  simp only [Option.bind_eq_bind, Option.bind_eq_some, Option.pure_def, Option.some.injEq,
    Prod.mk.injEq] at hs
  obtain ⟨st, hloop, rfl, rfl⟩ := hs
  refine ⟨?_, rfl⟩
  refine forLoop_keeps (fun st : Heap R × List R => hp0.frame st.1) _ _ ?_ _ st hf hloop
  intro k s s' _ hs' hk
  unfold Heap.deconv_channel at hk
  simp only [Option.bind_eq_bind, Option.bind_eq_some, Option.pure_def, Option.some.injEq] at hk
  obtain ⟨g, _, ga, _, ha, _, A1, _, A2, _, A3, _, lat, hlat, f, hfp, hp2, hcopy, rfl⟩ := hk
  exact frame_copy_solution hp0 s.1 hp2 hs' A3 _ _ f
    (frame_ptr hp0 s.1 hs' lat _ f (hnew lat hlat) hfp) hcopy

/-- Source `deconv` on the heap keeps every record and array that existed before the call, and
an image it returns is new. -/
theorem frame_deconv (hp hp' : Heap R) (image psf : Nat) (r : Option Nat)
    (h : hp.deconv image psf = some (hp', r)) :
    hp.frame hp' ∧ ∀ q, r = some q → hp.images.length ≤ q := by
  unfold Heap.deconv at h
  simp only [Option.bind_eq_bind, Option.bind_eq_some] at h
  obtain ⟨p, _, h⟩ := h
  split_ifs at h with h1 h2
  · simp only [Option.pure_def, Option.some.injEq, Prod.mk.injEq] at h
    obtain ⟨rfl, rfl⟩ := h
    exact ⟨frame_refl hp, fun q hq => by cases hq⟩
  · simp only [Option.pure_def, Option.some.injEq, Prod.mk.injEq] at h
    obtain ⟨rfl, rfl⟩ := h
    exact ⟨frame_refl hp, fun q hq => by cases hq⟩
  · simp only [Option.bind_eq_bind, Option.bind_eq_some] at h
    obtain ⟨im, _, copied, hc, hh, _, div, _, h⟩ := h
    obtain ⟨hfc, hnew⟩ := frame_copyImage hp hp copied.1 (frame_refl hp) image copied.2 hc
    split_ifs at h with h3
    · simp only [Option.pure_def, Option.some.injEq, Prod.mk.injEq] at h
      obtain ⟨rfl, rfl⟩ := h
      exact ⟨hfc, fun q hq => by cases hq⟩
    · obtain ⟨hfr, rfl⟩ := frame_deconv_solve hp copied.1 hp' hfc image hh copied.2 r _ _ _ _ _
        _ _ div hnew h
      exact ⟨hfr, hnew⟩

theorem frame_copy_real (hp0 hp hp' : Heap R) (hf : hp0.frame hp) (cm : List (comp R))
    (size1 : Int) (k latent : Nat) (hnew : hp0.images.length ≤ latent)
    (h : hp.copy_real cm size1 k latent = some hp') : hp0.frame hp' := by
  unfold Heap.copy_real at h
  refine forLoop_keeps (fun st : Heap R => hp0.frame st) _ _ ?_ hp hp' hf h
  intro i s s' _ hs hi
  simp only [Option.bind_eq_bind, Option.bind_eq_some] at hi
  obtain ⟨z, _, m, hm, hw⟩ := hi
  exact frame_write hp0 s s' hs m _ _ (frame_ptr hp0 s hs latent _ m hnew hm) hw

theorem frame_inverse_filter_all (root : comp R) (hp0 hp hp' : Heap R) (hf : hp0.frame hp)
    (image psf : Nat) (latent r : Option Nat) (channels size1 : Int)
    (hnew : ∀ q, latent = some q → hp0.images.length ≤ q)
    (h : Heap.inverse_filter_all root hp image psf latent channels size1 = some (hp', r)) :
    hp0.frame hp' ∧ r = latent := by
  unfold Heap.inverse_filter_all at h
  simp only [Option.bind_eq_bind, Option.bind_eq_some, Option.pure_def, Option.some.injEq,
    Prod.mk.injEq] at h
  obtain ⟨iv, _, ci, _, pv, _, cp, _, pm, _, pm', _, arrays, _, st, hloop, rfl, rfl⟩ := h
  refine ⟨?_, rfl⟩
  unfold Heap.inverse_channels at hloop
  refine forLoop_keeps (fun st : List (List (comp R)) × Heap R => hp0.frame st.2) _ _ ?_ _ st
    hf hloop
  intro k s s' _ hs hk
  simp only [Option.bind_eq_bind, Option.bind_eq_some, Option.pure_def, Option.some.injEq] at hk
  obtain ⟨cm, _, cm', _, arr, _, lat, hlat, hp2, hcopy, rfl⟩ := hk
  exact frame_copy_real hp0 s.2 hp2 hs cm' _ k lat (hnew lat hlat) hcopy

/-- Source `deconvinverse` on the heap keeps every record and array that existed before the
call, and an image it returns is new. -/
theorem frame_deconvinverse (root : comp R) (hp hp' : Heap R) (image psf : Nat)
    (r : Option Nat) (h : Heap.deconvinverse root hp image psf = some (hp', r)) :
    hp.frame hp' ∧ ∀ q, r = some q → hp.images.length ≤ q := by
  unfold Heap.deconvinverse at h
  simp only [Option.bind_eq_bind, Option.bind_eq_some] at h
  obtain ⟨p, _, h⟩ := h
  split_ifs at h with h1 h2
  · simp only [Option.pure_def, Option.some.injEq, Prod.mk.injEq] at h
    obtain ⟨rfl, rfl⟩ := h
    exact ⟨frame_refl hp, fun q hq => by cases hq⟩
  · simp only [Option.pure_def, Option.some.injEq, Prod.mk.injEq] at h
    obtain ⟨rfl, rfl⟩ := h
    exact ⟨frame_refl hp, fun q hq => by cases hq⟩
  · simp only [Option.bind_eq_bind, Option.bind_eq_some] at h
    obtain ⟨im, _, created, hc, hh, _, div, _, h⟩ := h
    obtain ⟨hfc, hnew⟩ := frame_createImage hp hp created.1 (frame_refl hp) _ _ _ created.2 hc
    split_ifs at h with h3
    · simp only [Option.pure_def, Option.some.injEq, Prod.mk.injEq] at h
      obtain ⟨rfl, rfl⟩ := h
      exact ⟨hfc, fun q hq => by cases hq⟩
    · obtain ⟨hfr, rfl⟩ := frame_inverse_filter_all root hp created.1 hp' hfc image psf
        created.2 r _ _ hnew h
      exact ⟨hfr, hnew⟩

theorem frame_lucy_ratio (hp0 hp hp' : Heap R) (hf : hp0.frame hp) (image temp1 : Nat)
    (channels size1 : Int) (hnew : hp0.images.length ≤ temp1)
    (h : hp.lucy_ratio image temp1 channels size1 = some hp') : hp0.frame hp' := by
  unfold Heap.lucy_ratio at h
  refine forLoop_keeps (fun st : Heap R => hp0.frame st) _ _ ?_ hp hp' hf h
  intro j s s' _ hs hj
  simp only [Option.bind_eq_bind, Option.bind_eq_some] at hj
  obtain ⟨t, ht, g, _, hloop⟩ := hj
  have hm := frame_ptr hp0 s hs temp1 _ t hnew ht
  refine forLoop_keeps (fun st : Heap R => hp0.frame st) _ _ ?_ s s' hs hloop
  intro i u u' _ hu hi
  simp only [Option.bind_eq_bind, Option.bind_eq_some] at hi
  obtain ⟨gv, _, tv, _, hw⟩ := hi
  exact frame_write hp0 u u' hu t _ _ hm hw

theorem frame_lucy_update (hp0 hp hp' : Heap R) (hf : hp0.frame hp) (latent temp2 : Nat)
    (channels size1 : Int) (hnew : hp0.images.length ≤ latent)
    (h : hp.lucy_update latent temp2 channels size1 = some hp') : hp0.frame hp' := by
  unfold Heap.lucy_update at h
  refine forLoop_keeps (fun st : Heap R => hp0.frame st) _ _ ?_ hp hp' hf h
  intro j s s' _ hs hj
  simp only [Option.bind_eq_bind, Option.bind_eq_some] at hj
  obtain ⟨g, hg, t, _, hloop⟩ := hj
  have hm := frame_ptr hp0 s hs latent _ g hnew hg
  refine forLoop_keeps (fun st : Heap R => hp0.frame st) _ _ ?_ s s' hs hloop
  intro i u u' _ hu hi
  simp only [Option.bind_eq_bind, Option.bind_eq_some] at hi
  obtain ⟨gv, _, tv, _, hw⟩ := hi
  exact frame_write hp0 u u' hu g _ _ hm hw

theorem frame_lucy_step (hp0 hp hp' : Heap R) (hf : hp0.frame hp) (image h h_inv : Nat)
    (channels w1 h1 w2 h2 a b : Int) (div : R) (latent temp1 temp2 : Option Nat)
    (hl : ∀ q, latent = some q → hp0.images.length ≤ q)
    (h1' : ∀ q, temp1 = some q → hp0.images.length ≤ q)
    (h2' : ∀ q, temp2 = some q → hp0.images.length ≤ q)
    (hs : Heap.lucy_step image h h_inv channels w1 h1 w2 h2 a b div latent temp1 temp2 hp =
      some hp') : hp0.frame hp' := by
  unfold Heap.lucy_step at hs
  simp only [Option.bind_eq_bind, Option.bind_eq_some] at hs
  obtain ⟨lat, hlat, t1, ht1, t2, ht2, hpa, hca, hpb, hrb, hpc, hcc, hu⟩ := hs
  have fa := frame_conv_loops hp0 hp hpa hf _ _ _ _ _ _ _ _ _ _ t1 (h1' t1 ht1) hca
  have fb := frame_lucy_ratio hp0 hpa hpb fa image t1 _ _ (h1' t1 ht1) hrb
  have fc := frame_conv_loops hp0 hpb hpc fb _ _ _ _ _ _ _ _ _ _ t2 (h2' t2 ht2) hcc
  exact frame_lucy_update hp0 hpc hp' fc lat t2 _ _ (hl lat hlat) hu

theorem frame_mirror_psf (hp0 hp hp' : Heap R) (hf : hp0.frame hp) (h h_inv : Nat)
    (size2 : Int) (hnew : hp0.arrays.length ≤ h_inv)
    (hm : hp.mirror_psf h h_inv size2 = some hp') : hp0.frame hp' := by
  unfold Heap.mirror_psf at hm
  refine forLoop_keeps (fun st : Heap R => hp0.frame st) _ _ ?_ hp hp' hf hm
  intro i s s' _ hs hi
  simp only [Option.bind_eq_bind, Option.bind_eq_some] at hi
  obtain ⟨v, _, hw⟩ := hi
  exact frame_write hp0 s s' hs h_inv _ _ hnew hw

theorem frame_lucy_run (hp0 hp hp' : Heap R) (hf : hp0.frame hp) (image psf h : Nat)
    (channels w1 h1 w2 h2 iterations : Int) (latent temp1 temp2 psf_inv r : Option Nat)
    (hl : ∀ q, latent = some q → hp0.images.length ≤ q)
    (h1' : ∀ q, temp1 = some q → hp0.images.length ≤ q)
    (h2' : ∀ q, temp2 = some q → hp0.images.length ≤ q)
    (h3' : ∀ q, psf_inv = some q → hp0.images.length ≤ q)
    (hs : hp.lucy_run image psf h channels w1 h1 w2 h2 iterations latent temp1 temp2 psf_inv =
      some (hp', r)) :
    hp0.frame hp' ∧ ∀ q, r = some q → hp0.images.length ≤ q := by
  unfold Heap.lucy_run at hs
  simp only [Option.bind_eq_bind, Option.bind_eq_some] at hs
  obtain ⟨pinv, hpinv, h_inv, hptr, hpa, hmir, div, _, hs⟩ := hs
  have hm := frame_ptr hp0 hp hf pinv _ h_inv (h3' pinv hpinv) hptr
  have fa := frame_mirror_psf hp0 hp hpa hf h h_inv _ hm hmir
  split_ifs at hs with hd
  · simp only [Option.pure_def, Option.some.injEq, Prod.mk.injEq] at hs
    obtain ⟨rfl, rfl⟩ := hs
    exact ⟨fa, fun q hq => by cases hq⟩
  · simp only [Option.bind_eq_bind, Option.bind_eq_some, Option.pure_def, Option.some.injEq,
      Prod.mk.injEq] at hs
    obtain ⟨hpb, hloop, rfl, rfl⟩ := hs
    refine ⟨?_, hl⟩
    refine forLoop_keeps (fun st : Heap R => hp0.frame st) _ _ ?_ hpa hpb fa hloop
    intro k s s' _ hs' hk
    exact frame_lucy_step hp0 s s' hs' _ _ _ _ _ _ _ _ _ _ _ _ _ _ hl h1' h2' hk

/-- Source `deconvlucy` on the heap keeps every record and array that existed before the call,
and an image it returns is new. -/
theorem frame_deconvlucy (hp hp' : Heap R) (image psf : Nat) (iterations : Int)
    (r : Option Nat) (h : hp.deconvlucy image psf iterations = some (hp', r)) :
    hp.frame hp' ∧ ∀ q, r = some q → hp.images.length ≤ q := by
  unfold Heap.deconvlucy at h
  simp only [Option.bind_eq_bind, Option.bind_eq_some] at h
  obtain ⟨p, _, h⟩ := h
  split_ifs at h with h1 h2
  · simp only [Option.pure_def, Option.some.injEq, Prod.mk.injEq] at h
    obtain ⟨rfl, rfl⟩ := h
    exact ⟨frame_refl hp, fun q hq => by cases hq⟩
  · simp only [Option.pure_def, Option.some.injEq, Prod.mk.injEq] at h
    obtain ⟨rfl, rfl⟩ := h
    exact ⟨frame_refl hp, fun q hq => by cases hq⟩
  · simp only [Option.bind_eq_bind, Option.bind_eq_some] at h
    obtain ⟨im, _, c0, hc0, c1, hc1, c2, hc2, c3, hc3, hh, _, hrun⟩ := h
    obtain ⟨f0, n0⟩ := frame_copyImage hp hp c0.1 (frame_refl hp) image c0.2 hc0
    obtain ⟨f1, n1⟩ := frame_createImage hp c0.1 c1.1 f0 _ _ _ c1.2 hc1
    obtain ⟨f2, n2⟩ := frame_createImage hp c1.1 c2.1 f1 _ _ _ c2.2 hc2
    obtain ⟨f3, n3⟩ := frame_createImage hp c2.1 c3.1 f2 _ _ _ c3.2 hc3
    exact frame_lucy_run hp c3.1 hp' f3 image psf hh _ _ _ _ _ iterations c0.2 c1.2 c2.2 c3.2 r
      n0 n1 n2 n3 hrun

theorem prefix_getElem? {α : Type} (l l' : List α) (h : l <+: l') (i : Nat) (x : α)
    (hx : l[i]? = some x) : l'[i]? = some x := by
  obtain ⟨t, rfl⟩ := h
  have hi : i < l.length := by
    by_contra hn
    rw [List.getElem?_eq_none (by omega)] at hx
    cases hx
  rw [List.getElem?_append_left hi]
  exact hx

theorem frame_read_maps (hp hp' : Heap R) (h : hp.arrays <+: hp'.arrays) (ptrs : List Nat) :
    ∀ maps, hp.read_maps ptrs = some maps → hp'.read_maps ptrs = some maps := by
  induction ptrs with
  | nil => intro maps hm; exact hm
  | cons a rest ih =>
    intro maps hm
    unfold Heap.read_maps at hm ⊢
    simp only [Option.bind_eq_bind, Option.bind_eq_some, Option.pure_def,
      Option.some.injEq] at hm ⊢
    obtain ⟨m, h1, ms, h2, rfl⟩ := hm
    exact ⟨m, prefix_getElem? _ _ h a m h1, ms, ih ms h2, rfl⟩

theorem frame_image_at (hp hp' : Heap R) (hf : hp.frame hp') (p : Nat) (v : IMAGE R)
    (h : hp.image_at p = some v) : hp'.image_at p = some v := by
  unfold Heap.image_at at h ⊢
  simp only [Option.bind_eq_bind, Option.bind_eq_some, Option.pure_def, Option.some.injEq] at h ⊢
  obtain ⟨record, h1, maps, h2, rfl⟩ := h
  exact ⟨record, prefix_getElem? _ _ hf.1 p record h1, maps,
    frame_read_maps hp hp' hf.2.1 _ maps h2, rfl⟩

theorem inputs_kept_of_frame (hp hp' : Heap R) (image psf : Nat) (r : Option Nat)
    (h : hp.frame hp' ∧ ∀ q, r = some q → hp.images.length ≤ q) :
    hp.inputs_kept hp' image psf r :=
  ⟨h.1.1, h.1.2.1, frame_image_at hp hp' h.1 image, frame_image_at hp hp' h.1 psf,
    fun q hq => ⟨h.2 q hq, fun record hrec => h.1.2.2 q record (h.2 q hq) hrec⟩⟩

/-- Claim C12: whenever `conv`, `deconv`, `deconvinverse` or `deconvlucy` returns, with an
image or with the null pointer, every record and array that was on the heap before the call is
unchanged, so the input image and the input PSF keep their width, height, channel count and
pixel values; and a returned image is a newly allocated record with newly allocated pixel
maps. -/
theorem entry_points_keep_inputs (root : comp R) (hp : Heap R) (image psf : Nat)
    (iterations : Int) :
    (∀ hp' r, hp.conv image psf = some (hp', r) → hp.inputs_kept hp' image psf r) ∧
    (∀ hp' r, hp.deconv image psf = some (hp', r) → hp.inputs_kept hp' image psf r) ∧
    (∀ hp' r, Heap.deconvinverse root hp image psf = some (hp', r) →
      hp.inputs_kept hp' image psf r) ∧
    (∀ hp' r, hp.deconvlucy image psf iterations = some (hp', r) →
      hp.inputs_kept hp' image psf r) :=
  ⟨fun hp' r h => inputs_kept_of_frame hp hp' image psf r (frame_conv hp hp' image psf r h),
    fun hp' r h => inputs_kept_of_frame hp hp' image psf r (frame_deconv hp hp' image psf r h),
    fun hp' r h => inputs_kept_of_frame hp hp' image psf r
      (frame_deconvinverse root hp hp' image psf r h),
    fun hp' r h => inputs_kept_of_frame hp hp' image psf r
      (frame_deconvlucy hp hp' image psf iterations r h)⟩

theorem entry_points_keep_inputs_witness :
    Heap.inputs_kept (Heap.mk [⟨[0], 1, 4, 1⟩, ⟨[1], 1, 3, 1⟩]
        [[1, 2, 3, 4], [1, 2, 4]] : Heap ℚ)
      (Heap.mk [⟨[0], 1, 4, 1⟩, ⟨[1], 1, 3, 1⟩, ⟨[2], 1, 4, 1⟩]
        [[1, 2, 3, 4], [1, 2, 4], [20 / 7, 11 / 7, 18 / 7, 3]] : Heap ℚ) 0 1 (some 2) ∧
    Heap.inputs_kept (Heap.mk [⟨[0], 1, 4, 1⟩, ⟨[1], 1, 3, 1⟩]
        [[1, 2, 3, 4], [1, 2, 4]] : Heap ℚ)
      (Heap.mk [⟨[0], 1, 4, 1⟩, ⟨[1], 1, 3, 1⟩, ⟨[2], 1, 4, 1⟩]
        [[1, 2, 3, 4], [1, 2, 4], [1 / 7, 2 / 7, 3 / 7, 4 / 7]] : Heap ℚ) 0 1 (some 2) ∧
    Heap.inputs_kept (Heap.mk [⟨[0], 1, 4, 1⟩, ⟨[1], 1, 3, 1⟩]
        [[1, 2, 3, 4], [1, 2, 4]] : Heap ℚ)
      (Heap.mk [⟨[0], 1, 4, 1⟩, ⟨[1], 1, 3, 1⟩, ⟨[2], 1, 4, 1⟩]
        [[1, 2, 3, 4], [1, 2, 4], [73 / 273, 248 / 273, 31 / 273, 38 / 273]] : Heap ℚ) 0 1 (some 2) ∧
    Heap.inputs_kept (Heap.mk [⟨[0], 1, 4, 1⟩, ⟨[1], 1, 3, 1⟩]
        [[1, 2, 3, 4], [1, 2, 4]] : Heap ℚ)
      (Heap.mk [⟨[0], 1, 4, 1⟩, ⟨[1], 1, 3, 1⟩, ⟨[2], 1, 4, 1⟩, ⟨[3], 1, 4, 1⟩,
          ⟨[4], 1, 4, 1⟩, ⟨[5], 1, 3, 1⟩]
        [[1, 2, 3, 4], [1, 2, 4], [2351 / 2310, 713 / 330, 295 / 77, 314 / 105],
          [7 / 20, 14 / 11, 7 / 6, 4 / 3], [2351 / 2310, 713 / 660, 295 / 231, 157 / 210],
          [4, 2, 1]] : Heap ℚ) 0 1 (some 2) :=
  ⟨(entry_points_keep_inputs (⟨0, 1⟩ : comp ℚ)
      (Heap.mk [⟨[0], 1, 4, 1⟩, ⟨[1], 1, 3, 1⟩]
        [[1, 2, 3, 4], [1, 2, 4]] : Heap ℚ) 0 1 1).1
      _ _ (by decide!),
    (entry_points_keep_inputs (⟨0, 1⟩ : comp ℚ)
      (Heap.mk [⟨[0], 1, 4, 1⟩, ⟨[1], 1, 3, 1⟩]
        [[1, 2, 3, 4], [1, 2, 4]] : Heap ℚ) 0 1 1).2.1
      _ _ (by decide!),
    (entry_points_keep_inputs (⟨0, 1⟩ : comp ℚ)
      (Heap.mk [⟨[0], 1, 4, 1⟩, ⟨[1], 1, 3, 1⟩]
        [[1, 2, 3, 4], [1, 2, 4]] : Heap ℚ) 0 1 1).2.2.1
      _ _ (by decide!),
    (entry_points_keep_inputs (⟨0, 1⟩ : comp ℚ)
      (Heap.mk [⟨[0], 1, 4, 1⟩, ⟨[1], 1, 3, 1⟩]
        [[1, 2, 3, 4], [1, 2, 4]] : Heap ℚ) 0 1 1).2.2.2
      _ _ (by decide!)⟩

/-- On an example heap the four entry points of the heap embedding return a record that holds
the image which the value embedding computes for the images read from the heap. -/
theorem heap_entry_points_agree_example :
    (Heap.conv (Heap.mk [⟨[0], 1, 4, 1⟩, ⟨[1], 1, 3, 1⟩] [[1, 2, 3, 4], [1, 2, 4]] : Heap ℚ)
        0 1).bind (fun x => x.2.map x.1.image_at) =
      conv ({ map := [[1, 2, 3, 4]], channels := 1, width := 4, height := 1 } : IMAGE ℚ)
        { map := [[1, 2, 4]], channels := 1, width := 3, height := 1 } ∧
    (Heap.deconv (Heap.mk [⟨[0], 1, 4, 1⟩, ⟨[1], 1, 3, 1⟩] [[1, 2, 3, 4], [1, 2, 4]] : Heap ℚ)
        0 1).bind (fun x => x.2.map x.1.image_at) =
      deconv ({ map := [[1, 2, 3, 4]], channels := 1, width := 4, height := 1 } : IMAGE ℚ)
        { map := [[1, 2, 4]], channels := 1, width := 3, height := 1 } ∧
    (Heap.deconvinverse (⟨0, 1⟩ : comp ℚ)
        (Heap.mk [⟨[0], 1, 4, 1⟩, ⟨[1], 1, 3, 1⟩] [[1, 2, 3, 4], [1, 2, 4]] : Heap ℚ)
        0 1).bind (fun x => x.2.map x.1.image_at) =
      deconvinverse (⟨0, 1⟩ : comp ℚ)
        ({ map := [[1, 2, 3, 4]], channels := 1, width := 4, height := 1 } : IMAGE ℚ)
        { map := [[1, 2, 4]], channels := 1, width := 3, height := 1 } ∧
    (Heap.deconvlucy (Heap.mk [⟨[0], 1, 4, 1⟩, ⟨[1], 1, 3, 1⟩] [[1, 2, 3, 4], [1, 2, 4]] :
        Heap ℚ) 0 1 1).bind (fun x => x.2.map x.1.image_at) =
      deconvlucy ({ map := [[1, 2, 3, 4]], channels := 1, width := 4, height := 1 } : IMAGE ℚ)
        { map := [[1, 2, 4]], channels := 1, width := 3, height := 1 } 1 := by
  refine ⟨by decide!, by decide!, by decide!, by decide!⟩

/-- Claim C21 at a failing input: for the 4x1 image with three equal channels `[1, 2, 3, 4]`
and the PSF `[1, 2, 4]` (divisor 7), `deconv` returns `[1/7, 2/7, 3/7, 4/7]` in channel 0 and
other values in channels 1 and 2, while `deconv` of the one-channel image `[1, 2, 3, 4]`
returns `[1/7, 2/7, 3/7, 4/7]`.  The system construction of the second channel starts from the
array that the elimination of the first channel left: it overwrites the kernel positions only,
so the entry `A[1][3]` is 4 instead of 0. -/
theorem deconv_channels_interfere :
    deconv ({ map := [[1, 2, 3, 4], [1, 2, 3, 4], [1, 2, 3, 4]], channels := 3, width := 4,
               height := 1 } : IMAGE ℚ)
        { map := [[1, 2, 4]], channels := 1, width := 3, height := 1 } =
      some (some { map := [[1 / 7, 2 / 7, 3 / 7, 4 / 7],
                           [121 / 959, 146 / 959, -613 / 959, 156 / 137],
                           [121 / 959, 146 / 959, -613 / 959, 156 / 137]],
                   channels := 3, width := 4, height := 1 }) ∧
    deconv ({ map := [[1, 2, 3, 4]], channels := 1, width := 4, height := 1 } : IMAGE ℚ)
        { map := [[1, 2, 4]], channels := 1, width := 3, height := 1 } =
      some (some { map := [[1 / 7, 2 / 7, 3 / 7, 4 / 7]], channels := 1, width := 4,
                   height := 1 }) ∧
    deconv_build ([1, 2, 3, 4] : List ℚ) [1, 2, 4] 4 1 3 1 1 0 4 5 7 (List.replicate 20 0) =
      some [2, 4, 0, 1, 2, 1, 2, 4, 0, 17 / 7, 0, 1, 2, 4, 24 / 7, 4, 0, 1, 2, 15 / 7] ∧
    deconv_build ([1, 2, 3, 4] : List ℚ) [1, 2, 4] 4 1 3 1 1 0 4 5 7
        [1, 2, 0, 1 / 2, 1 / 7, 0, 1, 2, 4, 2 / 7, 0, 0, 1, -1 / 8, 3 / 7, 0, 0, 0, 1, 4 / 7] =
      some [2, 4, 0, 1, 2, 1, 2, 4, 4, 17 / 7, 0, 1, 2, 4, 24 / 7, 4, 0, 1, 2, 15 / 7] := by
  refine ⟨by decide!, by decide!, by decide!, by decide!⟩

/-- Claim C22: for a PSF of width `w ≥ 0` and height `h ≥ 0` whose first pixel map `m` has
`w * h` weights, `getPSFDivisor` returns the sum of the weights of `m`, and the index
`i * h + j` with `i < w`, `j < h` takes every position `p < w * h` of the map exactly once. -/
theorem getPSFDivisor_sums_every_weight_once (psf : IMAGE R) (w h : Nat) (m : List R)
    (hw : psf.width = w) (hh : psf.height = h) (hm : psf.map.head? = some m)
    (hl : m.length = w * h) :
    getPSFDivisor psf = some m.sum ∧
      ∀ p, p < w * h → ∃! ij : Nat × Nat, ij.1 < w ∧ ij.2 < h ∧ ij.1 * h + ij.2 = p := by
  constructor
  · obtain ⟨rest, hmap⟩ : ∃ rest, psf.map = m :: rest := by
      match hq : psf.map, hm with
      | a :: rest, hm' =>
        simp only [List.head?_cons, Option.some.injEq] at hm'
        exact ⟨rest, by rw [hm']⟩
    unfold getPSFDivisor
    rw [hmap, hw, hh]
    simp only [Int.toNat_ofNat]
    have hl0 : load (m :: rest) (0 : Int) = some m := by simp [load]
    rw [hl0]
    simp only [Option.bind_eq_bind, Option.some_bind]
    rw [forLoop_sum w _ (fun i => ∑ j in Finset.range h, m.getD (i * h + j) 0)]
    · rw [sum_range_mul w h (fun p => m.getD p 0), ← hl, sum_range_getD, zero_add]
    · intro i hi s
      apply forLoop_sum h _ (fun j => m.getD (i * h + j) 0)
      intro j hj s'
      have hc : (i : Int) * h + j = ((i * h + j : Nat) : Int) := by push_cast; ring
      have hlt : i * h + j < m.length := by
        rw [hl]
        have : (i + 1) * h ≤ w * h := Nat.mul_le_mul_right h hi
        nlinarith
      rw [hc, load_nat_getD _ _ 0 hlt]
      rfl
  · intro p hp
    have hpos : 0 < h := by
      rcases Nat.eq_zero_or_pos h with h0 | h0
      · rw [h0, Nat.mul_zero] at hp
        omega
      · exact h0
    refine ⟨(p / h, p % h), ⟨?_, Nat.mod_lt p hpos, ?_⟩, ?_⟩
    · exact Nat.div_lt_of_lt_mul (by rw [Nat.mul_comm]; exact hp)
    · exact Nat.div_add_mod' p h
    · rintro ⟨i, j⟩ ⟨_, hj, hij⟩
      dsimp only at hj hij ⊢
      subst hij
      rw [Nat.mul_comm i h, Nat.mul_add_div hpos, Nat.div_eq_of_lt hj, Nat.add_zero,
        Nat.mul_add_mod, Nat.mod_eq_of_lt hj]

theorem getPSFDivisor_sums_every_weight_once_witness :
    getPSFDivisor ({ map := [[1, 2, 3, 4, 5, 6]], channels := 1, width := 3, height := 2 } :
        IMAGE ℚ) = some ([1, 2, 3, 4, 5, 6] : List ℚ).sum ∧
      ∀ p, p < 3 * 2 → ∃! ij : Nat × Nat, ij.1 < 3 ∧ ij.2 < 2 ∧ ij.1 * 2 + ij.2 = p :=
  getPSFDivisor_sums_every_weight_once
    ({ map := [[1, 2, 3, 4, 5, 6]], channels := 1, width := 3, height := 2 } : IMAGE ℚ) 3 2
    [1, 2, 3, 4, 5, 6] rfl rfl rfl rfl

/-- A list read through a permutation of its positions is a permutation of the list. -/
theorem perm_of_index_involution {α : Type} (l l' : List α) (N : Nat) (f : Nat → Nat)
    (hl : l.length = N) (hl' : l'.length = N) (hf : ∀ i, i < N → f i < N)
    (hinv : ∀ i, i < N → f (f i) = i) (h : ∀ i, i < N → l'[i]? = l[f i]?) : l'.Perm l := by
  subst hl
  let σ : Equiv.Perm (Fin l.length) :=
    { toFun := fun k => ⟨f k.val, hf k.val k.isLt⟩
      invFun := fun k => ⟨f k.val, hf k.val k.isLt⟩
      left_inv := fun k => Fin.ext (hinv k.val k.isLt)
      right_inv := fun k => Fin.ext (hinv k.val k.isLt) }
  have e1 : List.ofFn (fun k : Fin l.length => l.get k) = l := List.ofFn_get l
  have e2 : l' = List.ofFn ((fun k : Fin l.length => l.get k) ∘ σ) := by
    apply List.ext_getElem?
    intro i
    by_cases hi : i < l.length
    · rw [h i hi, List.getElem?_eq_getElem (hf i hi),
        List.getElem?_eq_getElem (by simp [hi]), List.getElem_ofFn]
      rfl
    · rw [List.getElem?_eq_none (by omega), List.getElem?_eq_none (by simp; omega)]
  rw [e2]
  exact (Equiv.Perm.ofFn_comp_perm σ _).trans (List.Perm.of_eq e1)

/-- Claim C23: for `N = 2^m` (an `int`) and an array of length `N`, `reposition` returns and
moves the sample at every position `i < N` to the position `backwards(i, m)`, which is `i` with
its `m` low bits in reversed order; `backwards(., m)` is an involution on `[0, N)`, and the
result is a permutation of the input. -/
theorem reposition_is_bit_reversal (array : List (comp R)) (m : Nat) (hm : m ≤ 30)
    (hl : array.length = 2 ^ m) :
    ∃ res, reposition array ((2 ^ m : Nat) : Int) = some res ∧ res.length = 2 ^ m ∧
      (∀ i, i < 2 ^ m → backwards i (m : Int) = bitrev m i ∧ backwards i (m : Int) < 2 ^ m ∧
        backwards (backwards i (m : Int)) (m : Int) = i ∧
        res[backwards i (m : Int)]? = array[i]?) ∧
      res.Perm array := by
  obtain ⟨res, h1, h2, h3, -⟩ := reposition_eq array m (by omega) (le_of_eq hl.symm)
  refine ⟨res, h1, h2.trans hl, ?_, ?_⟩
  · intro i hi
    have hb := backwards_eq m i (by omega) hi
    have hlt := bitrev_lt m i
    refine ⟨hb, by rw [hb]; exact hlt, ?_, ?_⟩
    · rw [hb, backwards_eq m _ (by omega) hlt, bitrev_involutive m i hi]
    · rw [hb, h3 _ hlt, bitrev_involutive m i hi]
  · exact perm_of_index_involution array res (2 ^ m) (bitrev m) hl (h2.trans hl)
      (fun i _ => bitrev_lt m i) (fun i hi => bitrev_involutive m i hi) h3

theorem reposition_is_bit_reversal_witness :
    ∃ res, reposition ([⟨1, 0⟩, ⟨2, 0⟩, ⟨3, 0⟩, ⟨4, 0⟩] : List (comp ℚ)) ((2 ^ 2 : Nat) : Int) =
        some res ∧ res.length = 2 ^ 2 ∧
      (∀ i, i < 2 ^ 2 → backwards i ((2 : Nat) : Int) = bitrev 2 i ∧
        backwards i ((2 : Nat) : Int) < 2 ^ 2 ∧
        backwards (backwards i ((2 : Nat) : Int)) ((2 : Nat) : Int) = i ∧
        res[backwards i ((2 : Nat) : Int)]? =
          ([⟨1, 0⟩, ⟨2, 0⟩, ⟨3, 0⟩, ⟨4, 0⟩] : List (comp ℚ))[i]?) ∧
      res.Perm ([⟨1, 0⟩, ⟨2, 0⟩, ⟨3, 0⟩, ⟨4, 0⟩] : List (comp ℚ)) :=
  reposition_is_bit_reversal [⟨1, 0⟩, ⟨2, 0⟩, ⟨3, 0⟩, ⟨4, 0⟩] 2 (by decide) rfl



theorem toroidal_map_uniform (h : List R) (W H Wk Hk : Nat) (a b : Int) (div c : R)
    (hW : 1 ≤ W) (hH : 1 ≤ H) (hlen : h.length = Wk * Hk) :
    toroidal_map (List.replicate (W * H) c) h W H Wk Hk a b div =
      List.replicate (W * H) (h.sum * c / div) := by
  have hr : List.replicate (W * H) (h.sum * c / div) =
      (List.range (W * H)).map (fun _ => h.sum * c / div) := by
    apply List.ext_getElem
    · simp
    · intro p h1 h2
      simp
  rw [hr]
  unfold toroidal_map
  apply List.map_congr_left
  intro p _
  unfold toroidal_sum
  have hterm : ∀ i j : Nat, (List.replicate (W * H) c).getD (((((p / W : Nat) : Int) - b + j) % H)
      * W + ((((p % W : Nat) : Int) - a + i) % W)).toNat 0 = c := by
    intro i j
    obtain ⟨_, h1⟩ := pixel_index_lt W H (((p % W : Nat) : Int) - a + i)
      (((p / W : Nat) : Int) - b + j) hW hH
    rw [List.getD_eq_getElem _ 0 (by simpa using h1)]
    simp
  simp only [hterm]
  simp only [← Finset.sum_mul]
  rw [sum_kernel_reversed Wk Hk (fun q => h.getD q 0), ← hlen, sum_range_getD]

theorem lucy_next_uniform (h : List R) (W H Wk Hk : Nat) (a b : Int) (hW : 1 ≤ W) (hH : 1 ≤ H)
    (hlen : h.length = Wk * Hk) (hd : h.sum ≠ 0) (L : List (List R))
    (hu : ∀ m ∈ L, ∃ c : R, c ≠ 0 ∧ m = List.replicate (W * H) c) :
    lucy_next L L h W H Wk Hk a b h.sum = L := by
  unfold lucy_next lucy_correction lucy_ratio_maps lucy_blurred
  induction L with
  | nil => simp
  | cons m L ih =>
    obtain ⟨c, hc, rfl⟩ := hu _ (List.mem_cons_self _ _)
    have ih' := ih (fun m hm => hu m (List.mem_cons_of_mem _ hm))
    simp only [List.map_cons, List.zipWith_cons_cons]
    rw [ih']
    congr 1
    rw [toroidal_map_uniform h W H Wk Hk a b h.sum c hW hH hlen]
    rw [List.zipWith_replicate']
    have e1 : c / (h.sum * c / h.sum) = 1 := by field_simp
    rw [e1, toroidal_map_uniform h.reverse W H Wk Hk a b h.sum 1 hW hH
      (by rw [List.length_reverse, hlen]), List.sum_reverse, List.zipWith_replicate']
    have e2 : c * (h.sum * 1 / h.sum) = c := by field_simp
    rw [e2]

theorem lucy_iterate_uniform (h : List R) (W H Wk Hk : Nat) (a b : Int) (hW : 1 ≤ W)
    (hH : 1 ≤ H) (hlen : h.length = Wk * Hk) (hd : h.sum ≠ 0) (L : List (List R))
    (hu : ∀ m ∈ L, ∃ c : R, c ≠ 0 ∧ m = List.replicate (W * H) c) (n : Nat) :
    lucy_iterate L h W H Wk Hk a b h.sum n = L := by
  induction n with
  | zero => rfl
  | succ n ih =>
    show lucy_next L (lucy_iterate L h W H Wk Hk a b h.sum n) h W H Wk Hk a b h.sum = L
    rw [ih]
    exact lucy_next_uniform h W H Wk Hk a b hW hH hlen hd L hu

/-- Claim C26: an image whose every channel is uniform with a nonzero value is a fixed point
of `deconvlucy` for every iteration count `n ≥ 0`, for a valid PSF of odd dimensions no larger
than the image and a nonzero divisor: the call returns an image equal to the input. -/
theorem deconvlucy_uniform_fixed (image psf : IMAGE R) (n : Nat) (hi : image.WF)
    (hp : psf.isPSF) (hw : psf.width ≤ image.width) (hh : psf.height ≤ image.height)
    (hd : psf.weights.sum ≠ 0)
    (hu : ∀ m ∈ image.map, ∃ c : R, c ≠ 0 ∧ ∀ v ∈ m, v = c) :
    deconvlucy image psf (n : Int) = some (some image) := by
  obtain ⟨W, H, C, hW, hH, hC, hw', hh', hc', hl, hm⟩ := wf_dims hi
  obtain ⟨Wk, Hk, hWk, hHk, hwk, hhk, hck, hmap, hlen⟩ := psf_dims hp
  rw [deconvlucy_eq image psf n hi hp (by omega) (by omega) hd]
  have hu' : ∀ m ∈ image.map, ∃ c : R, c ≠ 0 ∧ m = List.replicate (W * H) c := by
    intro m hmem
    obtain ⟨c, hc, hv⟩ := hu m hmem
    exact ⟨c, hc, List.eq_replicate_iff.mpr ⟨hm m hmem, hv⟩⟩
  have key := lucy_iterate_uniform psf.weights W H Wk Hk (psf.width / 2) (psf.height / 2) hW hH
    hlen hd image.map hu' n
  unfold lucy_image
  rw [hw', hh', hwk, hhk]
  simp only [Int.toNat_ofNat]
  rw [hwk, hhk] at key
  rw [key, ← hw', ← hh']

theorem deconvlucy_uniform_fixed_witness :
    deconvlucy ({ map := [List.replicate 16 (1 / 2)], channels := 1, width := 4, height := 4 } :
        IMAGE ℚ) { map := [List.replicate 9 1], channels := 1, width := 3, height := 3 }
        ((5 : Nat) : Int) =
      some (some { map := [List.replicate 16 (1 / 2)], channels := 1, width := 4, height := 4 }) :=
  deconvlucy_uniform_fixed
    ({ map := [List.replicate 16 (1 / 2)], channels := 1, width := 4, height := 4 } : IMAGE ℚ)
    ({ map := [List.replicate 9 1], channels := 1, width := 3, height := 3 } : IMAGE ℚ) 5
    (by simp [IMAGE.WF]) (by simp [IMAGE.isPSF, IMAGE.WF]) (by decide) (by decide)
    (by simp [IMAGE.weights]; norm_num) (by simp)

theorem butterfly_stages_trace (w : comp R) (m : Nat) (hm : m ≤ 29) :
    ∀ (d t fuel : Nat) (A : List (comp R)), t + d = m → d < fuel → 2 ^ m ≤ A.length →
      ∃ res, butterfly_stages fuel ((2 * 2 ^ t : Nat) : Int) ((2 ^ m : Nat) : Int)
          (root_stack w d) A = some res ∧
        stages_by_power w (2 ^ m) d (2 * 2 ^ t) A = some res ∧
        res.length = A.length ∧ ∀ p, 2 ^ m ≤ p → res[p]? = A[p]? := by
  intro d
  induction d with
  | zero =>
    intro t fuel A ht hf hl
    obtain ⟨fuel', rfl⟩ : ∃ f, fuel = f + 1 := ⟨fuel - 1, by omega⟩
    have htm : t = m := by omega
    subst htm
    unfold butterfly_stages
    have hc : ¬ (((2 * 2 ^ t : Nat) : Int) ≤ ((2 ^ t : Nat) : Int)) := by
      have : 0 < 2 ^ t := by positivity
      omega
    rw [if_neg hc]
    exact ⟨A, rfl, rfl, rfl, fun p _ => rfl⟩
  | succ d ih =>
    intro t fuel A ht hf hl
    obtain ⟨fuel', rfl⟩ : ∃ f, fuel = f + 1 := ⟨fuel - 1, by omega⟩
    have e2m : 2 ^ m = 2 ^ d * (2 * 2 ^ t) := by
      rw [← ht, ← pow_succ', ← pow_add]
      congr 1
      omega
    have hpos : 0 < 2 * 2 ^ t := by positivity
    have hc : ((2 * 2 ^ t : Nat) : Int) ≤ ((2 ^ m : Nat) : Int) := by
      have : 0 < 2 ^ d := by positivity
      have : 2 * 2 ^ t ≤ 2 ^ d * (2 * 2 ^ t) := Nat.le_mul_of_pos_left _ this
      rw [e2m]
      exact_mod_cast this
    have hcount : (Int.tdiv (((2 ^ m : Nat) : Int) + ((2 * 2 ^ t : Nat) : Int) - 1)
        ((2 * 2 ^ t : Nat) : Int)).toNat = 2 ^ d := by
      have e : ((2 ^ m : Nat) : Int) + ((2 * 2 ^ t : Nat) : Int) - 1 =
          ((2 ^ d * (2 * 2 ^ t) + (2 * 2 ^ t - 1) : Nat) : Int) := by
        rw [e2m]
        omega
      rw [e, Int.tdiv_eq_ediv (by positivity) (by positivity), ← Int.ofNat_ediv,
        Int.toNat_ofNat, Nat.mul_comm (2 ^ d), Nat.mul_add_div hpos,
        Nat.div_eq_of_lt (by omega), Nat.add_zero]
    have hdiv : 2 ^ m / (2 * 2 ^ t) = 2 ^ d := by
      rw [e2m, Nat.mul_div_cancel _ hpos]
    obtain ⟨res1, r1, r2, -, -, r5⟩ := butterfly_stage_eq A (2 ^ t) (2 ^ d) (w ^ 2 ^ d)
      (by rw [← e2m]; exact hl)
    have enext : wrap_int (((2 * 2 ^ t : Nat) : Int) * 2) = ((2 * 2 ^ (t + 1) : Nat) : Int) := by
      have hle : 2 * 2 ^ (t + 1) ≤ 2 ^ 30 := by
        rw [← pow_succ']
        exact Nat.pow_le_pow_right (by decide) (by omega)
      have e : ((2 * 2 ^ t : Nat) : Int) * 2 = ((2 * 2 ^ (t + 1) : Nat) : Int) := by
        push_cast
        rw [pow_succ]
        ring
      rw [e]
      apply wrap_int_eq <;> omega
    have enext' : 2 * 2 ^ t * 2 = 2 * 2 ^ (t + 1) := by
      rw [pow_succ]
      ring
    obtain ⟨res, q1, q2, q3, q4⟩ := ih (t + 1) fuel' res1 (by omega) (by omega) (by omega)
    refine ⟨res, ?_, ?_, by omega, ?_⟩
    · unfold butterfly_stages
      rw [if_pos hc, root_stack_succ, hcount]
      simp only [List.head?_cons, List.tail_cons, Option.bind_eq_bind, Option.some_bind]
      rw [r1]
      simp only [Option.some_bind]
      rw [enext]
      exact q1
    · unfold stages_by_power stage_with_root
      rw [hcount, hdiv, r1, Option.some_bind, enext']
      exact q2
    · intro p hp
      rw [q4 p hp, r5 p (by rw [← e2m]; exact hp)]

theorem root_stack_getElem? (w : comp R) (m t : Nat) (ht : t < m) :
    (root_stack w m)[t]? = some (w ^ (2 ^ m / 2 ^ (t + 1))) := by
  unfold root_stack
  rw [List.getElem?_map, List.getElem?_range ht, Option.map_some']
  have : 2 ^ m / 2 ^ (t + 1) = 2 ^ (m - 1 - t) := by
    rw [Nat.pow_div (by omega) (by decide)]
    congr 1
    omega
  rw [this]

theorem block_index_lt (m t c i : Nat) (ht : 1 ≤ t) (_htm : t ≤ m) (hc : c < 2 ^ m / 2 ^ t)
    (hi : i < 2 ^ t / 2) : c * 2 ^ t + i + 2 ^ t / 2 < 2 ^ m := by
  obtain ⟨u, rfl⟩ : ∃ u, t = u + 1 := ⟨t - 1, by omega⟩
  have h2 : 2 ^ (u + 1) / 2 = 2 ^ u := by
    rw [pow_succ, Nat.mul_div_cancel _ (by decide)]
  rw [h2] at hi ⊢
  have h3 : (c + 1) * 2 ^ (u + 1) ≤ 2 ^ m :=
    le_trans (Nat.mul_le_mul_right _ hc) (Nat.div_mul_le_self _ _)
  have h4 : (2 : Nat) ^ (u + 1) = 2 ^ u + 2 ^ u := by
    rw [pow_succ]
    omega
  rw [Nat.add_mul, Nat.one_mul] at h3
  omega

/-- Claim C27: for `N = 2^m` with `m ≤ 29` (so that the last `step *= 2` of the stage loop
stays an `int`), any base root `w` and an array of exactly
`N` samples, `fourier_transform` runs without touching an index outside `[0, N)`: `reposition`
returns (it swaps `i < N` with `backwards i m < N`), every butterfly block `c * step + i`,
`c * step + i + step/2` lies below `N`, and the call returns an array of `N` samples.  The
root stack holds `m` roots, one per stage; the root at depth `t` is the base root raised to
`N / 2^(t+1)`; and the stages that pop it are the stages that use `w^(N/step)` at block length
`step`, so the stack is never read or popped when empty. -/
theorem fourier_transform_stays_in_bounds (w : comp R) (s : List (comp R)) (m : Nat)
    (hm : m ≤ 29) (hl : s.length = 2 ^ m) :
    ∃ A0 roots res, reposition s ((2 ^ m : Nat) : Int) = some A0 ∧ A0.length = 2 ^ m ∧
      (∀ i, i < 2 ^ m → backwards i (m : Int) < 2 ^ m) ∧
      prepare_roots (2 ^ m + 1) ((2 ^ m : Nat) : Int) w [] = some roots ∧ roots.length = m ∧
      (∀ t, t < m → roots[t]? = some (w ^ (2 ^ m / 2 ^ (t + 1)))) ∧
      (∀ t c i, 1 ≤ t → t ≤ m → c < 2 ^ m / 2 ^ t → i < 2 ^ t / 2 →
        c * 2 ^ t + i + 2 ^ t / 2 < 2 ^ m) ∧
      butterfly_stages (2 ^ m + 1) 2 ((2 ^ m : Nat) : Int) roots A0 = some res ∧
      stages_by_power w (2 ^ m) m 2 A0 = some res ∧
      fourier_transform w s ((2 ^ m : Nat) : Int) = some res ∧ res.length = 2 ^ m := by
  obtain ⟨A0, a1, a2, -, -⟩ := reposition_eq s m (by omega) (le_of_eq hl.symm)
  have hfuel : m < 2 ^ m + 1 := by
    have := Nat.lt_two_pow m
    omega
  have hroots := prepare_roots_stack w m (2 ^ m + 1) hfuel
  obtain ⟨res, q1, q2, q3, -⟩ := butterfly_stages_trace w m hm m 0 (2 ^ m + 1) A0 (by omega) hfuel
    (by omega)
  have e2 : ((2 * 2 ^ 0 : Nat) : Int) = 2 := by norm_num
  have e2' : 2 * 2 ^ 0 = 2 := by norm_num
  rw [e2] at q1
  rw [e2'] at q2
  refine ⟨A0, root_stack w m, res, a1, by omega, ?_, hroots, by simp [root_stack],
    fun t ht => root_stack_getElem? w m t ht,
    fun t c i h1 h2 h3 h4 => block_index_lt m t c i h1 h2 h3 h4, q1, q2, ?_, by omega⟩
  · intro i hi
    rw [backwards_eq m i (by omega) hi]
    exact bitrev_lt m i
  · unfold fourier_transform
    rw [a1]
    simp only [Option.bind_eq_bind, Option.some_bind, Int.toNat_ofNat]
    rw [hroots]
    simp only [Option.some_bind]
    exact q1

theorem fourier_transform_stays_in_bounds_witness :
    ∃ A0 roots res, reposition ([⟨1, 0⟩, ⟨2, 0⟩, ⟨3, 0⟩, ⟨4, 0⟩] : List (comp ℚ))
        ((2 ^ 2 : Nat) : Int) = some A0 ∧ A0.length = 2 ^ 2 ∧
      (∀ i, i < 2 ^ 2 → backwards i ((2 : Nat) : Int) < 2 ^ 2) ∧
      prepare_roots (2 ^ 2 + 1) ((2 ^ 2 : Nat) : Int) (⟨0, 1⟩ : comp ℚ) [] = some roots ∧
      roots.length = 2 ∧
      (∀ t, t < 2 → roots[t]? = some ((⟨0, 1⟩ : comp ℚ) ^ (2 ^ 2 / 2 ^ (t + 1)))) ∧
      (∀ t c i, 1 ≤ t → t ≤ 2 → c < 2 ^ 2 / 2 ^ t → i < 2 ^ t / 2 →
        c * 2 ^ t + i + 2 ^ t / 2 < 2 ^ 2) ∧
      butterfly_stages (2 ^ 2 + 1) 2 ((2 ^ 2 : Nat) : Int) roots A0 = some res ∧
      stages_by_power (⟨0, 1⟩ : comp ℚ) (2 ^ 2) 2 2 A0 = some res ∧
      fourier_transform (⟨0, 1⟩ : comp ℚ) [⟨1, 0⟩, ⟨2, 0⟩, ⟨3, 0⟩, ⟨4, 0⟩]
        ((2 ^ 2 : Nat) : Int) = some res ∧ res.length = 2 ^ 2 :=
  fourier_transform_stays_in_bounds (⟨0, 1⟩ : comp ℚ) [⟨1, 0⟩, ⟨2, 0⟩, ⟨3, 0⟩, ⟨4, 0⟩] 2
    (by decide) rfl

/-- Invariant rule for two nested loops, with the passes counted in one index. -/
theorem forLoop_inv2 {σ : Type} (Q : Nat → σ → Prop) (a b : Nat)
    (body : Nat → Nat → σ → Option σ) (s : σ) (h0 : Q 0 s)
    (hstep : ∀ i j, i < a → j < b → ∀ st, Q (i * b + j) st →
      ∃ st', body i j st = some st' ∧ Q (i * b + j + 1) st') :
    ∃ st', forLoop a (fun i st => forLoop b (fun j st => body i j st) st) s = some st' ∧
      Q (a * b) st' := by
  refine forLoop_inv (fun i st => Q (i * b) st) a
    (fun i st => forLoop b (fun j st => body i j st) st) s (by simpa using h0) ?_
  intro i hi st hst
  obtain ⟨st', h1, h2⟩ := forLoop_inv (fun j st => Q (i * b + j) st) b
    (fun j st => body i j st) st (by simpa using hst)
    (fun j hj st' hst' => hstep i j hi hj st' hst')
  refine ⟨st', h1, ?_⟩
  have : (i + 1) * b = i * b + b := by ring
  simp only [this]
  exact h2

theorem emod_shift_inj (W : Nat) (u : Int) (i i' : Nat) (hi : i < W) (hi' : i' < W)
    (h : (u + i) % (W : Int) = (u + i') % (W : Int)) : i = i' := by
  have h2 : ((u + i) - (u + i')) % (W : Int) = 0 :=
    Int.emod_eq_emod_iff_emod_sub_eq_zero.mp h
  have h3 : (W : Int) ∣ (i : Int) - i' := by
    have : (u + i) - (u + i') = (i : Int) - i' := by ring
    rw [this] at h2
    exact Int.dvd_of_emod_eq_zero h2
  have h4 : (i : Int) - i' = 0 := by
    apply Int.eq_zero_of_abs_lt_dvd h3
    rw [abs_lt]
    constructor <;> omega
  omega

theorem div_mod_pair (b i j : Nat) (hj : j < b) : (i * b + j) / b = i ∧ (i * b + j) % b = j := by
  have hb : 0 < b := by omega
  constructor
  · rw [Nat.add_comm, Nat.add_mul_div_right _ _ hb, Nat.div_eq_of_lt hj, Nat.zero_add]
  · rw [Nat.add_comm, Nat.add_mul_mod_self_right, Nat.mod_eq_of_lt hj]

theorem deconv_target_lt (W H : Nat) (a b : Int) (x y i j : Nat) (hW : 1 ≤ W) (hH : 1 ≤ H) :
    deconv_target W H a b x y i j < W * H :=
  (pixel_index_lt W H ((x : Int) - a + i) ((y : Int) - b + j) hW hH).2

theorem deconv_target_cast (W H : Nat) (a b : Int) (x y i j : Nat) (hW : 1 ≤ W) (hH : 1 ≤ H)
    (ha : a ≤ W) (hb : b ≤ H) :
    Int.tmod ((x : Int) - a + W + i) W + Int.tmod ((y : Int) - b + H + j) H * W =
      ((deconv_target W H a b x y i j : Nat) : Int) := by
  obtain ⟨h0, _⟩ := pixel_index_lt W H ((x : Int) - a + i) ((y : Int) - b + j) hW hH
  rw [tmod_border W a x i hW ha, tmod_border H b y j hH hb]
  unfold deconv_target
  rw [Int.toNat_of_nonneg h0]
  ring

theorem deconv_target_inj (W H Wk Hk : Nat) (a b : Int) (x y k k' : Nat) (hW : 1 ≤ W)
    (hH : 1 ≤ H) (hWk : Wk ≤ W) (hHk : Hk ≤ H) (hk : k < Wk * Hk) (hk' : k' < Wk * Hk)
    (h : deconv_target W H a b x y (k / Hk) (k % Hk) =
      deconv_target W H a b x y (k' / Hk) (k' % Hk)) : k = k' := by
  have hHk0 : 0 < Hk := by
    rcases Nat.eq_zero_or_pos Hk with h0 | h0
    · subst h0
      simp at hk
    · exact h0
  have hi : k / Hk < Wk := Nat.div_lt_of_lt_mul (by rw [Nat.mul_comm]; exact hk)
  have hi' : k' / Hk < Wk := Nat.div_lt_of_lt_mul (by rw [Nat.mul_comm]; exact hk')
  have hj : k % Hk < Hk := Nat.mod_lt _ hHk0
  have hj' : k' % Hk < Hk := Nat.mod_lt _ hHk0
  unfold deconv_target at h
  have hWp : (0 : Int) < W := by omega
  have hHp : (0 : Int) < H := by omega
  have u0 := Int.emod_nonneg ((x : Int) - a + (k / Hk : Nat)) (ne_of_gt hWp)
  have u1 := Int.emod_lt_of_pos ((x : Int) - a + (k / Hk : Nat)) hWp
  have u0' := Int.emod_nonneg ((x : Int) - a + (k' / Hk : Nat)) (ne_of_gt hWp)
  have u1' := Int.emod_lt_of_pos ((x : Int) - a + (k' / Hk : Nat)) hWp
  have v0 := Int.emod_nonneg ((y : Int) - b + (k % Hk : Nat)) (ne_of_gt hHp)
  have v0' := Int.emod_nonneg ((y : Int) - b + (k' % Hk : Nat)) (ne_of_gt hHp)
  obtain ⟨ux, hux⟩ := Int.eq_ofNat_of_zero_le u0
  obtain ⟨ux', hux'⟩ := Int.eq_ofNat_of_zero_le u0'
  obtain ⟨vy, hvy⟩ := Int.eq_ofNat_of_zero_le v0
  obtain ⟨vy', hvy'⟩ := Int.eq_ofNat_of_zero_le v0'
  rw [hux, hux', hvy, hvy'] at h
  have h' : ux + vy * W = ux' + vy' * W := by
    have e1 : ((vy : Int) * W + ux).toNat = vy * W + ux := by
      rw [← Int.toNat_ofNat (vy * W + ux)]
      push_cast
      rfl
    have e2 : ((vy' : Int) * W + ux').toNat = vy' * W + ux' := by
      rw [← Int.toNat_ofNat (vy' * W + ux')]
      push_cast
      rfl
    rw [e1, e2] at h
    omega
  obtain ⟨hxx, hyy⟩ := pix_inj W ux vy ux' vy' (by omega) (by omega) h'
  have ei : k / Hk = k' / Hk :=
    emod_shift_inj W ((x : Int) - a) _ _ (by omega) (by omega) (by rw [hux, hux', hxx])
  have ej : k % Hk = k' % Hk :=
    emod_shift_inj H ((y : Int) - b) _ _ (by omega) (by omega) (by rw [hvy, hvy', hyy])
  rw [← Nat.div_add_mod k Hk, ← Nat.div_add_mod k' Hk, ei, ej]

/-- A sum of weights placed at distinct columns, taken against a vector. -/
theorem sum_placed (n K : Nat) (t : Nat → Nat) (v : Nat → R) (z : Nat → R)
    (ht : ∀ k, k < K → t k < n) :
    ∑ c in Finset.range n, (∑ k in Finset.range K, if t k = c then v k else 0) * z c =
      ∑ k in Finset.range K, v k * z (t k) := by
  simp only [Finset.sum_mul]
  rw [Finset.sum_comm]
  apply Finset.sum_congr rfl
  intro k hk
  rw [Finset.sum_eq_single (t k)]
  · rw [if_pos rfl]
  · intro c _ hc
    rw [if_neg (fun h => hc h.symm), zero_mul]
  · intro hn
    exact absurd (Finset.mem_range.mpr (ht k (Finset.mem_range.mp hk))) hn

/-- The kernel loops of `deconv` for the output pixel `(x, y)`, for a kernel no larger than the
image and a row that holds zeros: they return, place each weight in its own column and leave
the kernel-weighted sum of `g`. -/
theorem deconv_row_eq (g h : List R) (W H Wk Hk : Nat) (a b : Int) (x y : Nat) (A : List R)
    (E : Nat → Nat → R) (hW : 1 ≤ W) (hH : 1 ≤ H) (ha : a ≤ W) (hb : b ≤ H)
    (hWk : Wk ≤ W) (hHk : Hk ≤ H) (hx : x < W) (hy : y < H)
    (hh : h.length = Wk * Hk) (hg : g.length = W * H)
    (hA : holds_matrix A (W * H) (W * H + 1) E)
    (hz : ∀ c, c < W * H → E (x + y * W) c = 0) :
    ∃ A' : List R, deconv_row g h W H Wk Hk a b ((W * H + 1 : Nat) : Int) x y A =
        some (A', ∑ k in Finset.range (Wk * Hk), h.getD (k / Hk + (k % Hk) * Wk) 0 *
          g.getD (deconv_target W H a b x y (k / Hk) (k % Hk)) 0) ∧
      holds_matrix A' (W * H) (W * H + 1) (fun r c => if r = x + y * W ∧ c < W * H then
          ∑ k in Finset.range (Wk * Hk),
            (if deconv_target W H a b x y (k / Hk) (k % Hk) = c then
              h.getD ((k % Hk) * Wk + k / Hk) 0 else 0)
        else E r c) := by
  have hp : x + y * W < W * H := pix_lt W H x y hx hy
  have key := forLoop_inv2
    (fun k (st : List R × R) =>
      holds_matrix st.1 (W * H) (W * H + 1) (fun r c => if r = x + y * W ∧ c < W * H then
          ∑ k' in Finset.range k,
            (if deconv_target W H a b x y (k' / Hk) (k' % Hk) = c then
              h.getD ((k' % Hk) * Wk + k' / Hk) 0 else 0)
        else E r c) ∧
      st.2 = ∑ k' in Finset.range k, h.getD (k' / Hk + (k' % Hk) * Wk) 0 *
          g.getD (deconv_target W H a b x y (k' / Hk) (k' % Hk)) 0)
    Wk Hk
    (fun i j (st : List R × R) =>
      (load h ((j : Int) * (Wk : Int) + i)).bind fun c =>
      (store st.1 (((x : Int) + y * (W : Int)) * ((W * H + 1 : Nat) : Int) +
        (Int.tmod ((x : Int) - a + W + i) W + Int.tmod ((y : Int) - b + H + j) H * W)) c).bind
        fun A =>
      (load h ((i : Int) + j * (Wk : Int))).bind fun hv =>
      (load g (Int.tmod ((x : Int) - a + W + i) W + Int.tmod ((y : Int) - b + H + j) H * W)).bind
        fun gv => some (A, st.2 + hv * gv))
    (A, 0)
    (by
      refine ⟨holds_matrix_congr A _ _ E _ hA ?_, by simp⟩
      intro r c _ _
      by_cases hrc : r = x + y * W ∧ c < W * H
      · rw [if_pos hrc, hrc.1, hz c hrc.2]
        simp
      · rw [if_neg hrc])
    (by
      intro i j hi hj st hst
      obtain ⟨hst1, hst2⟩ := hst
      obtain ⟨hk1, hk2⟩ := div_mod_pair Hk i j hj
      have hklt : i * Hk + j < Wk * Hk := by
        have := pix_lt Hk Wk j i hj hi
        rw [Nat.mul_comm Wk Hk]
        omega
      have htlt := deconv_target_lt W H a b x y i j hW hH
      dsimp only
      rw [deconv_target_cast W H a b x y i j hW hH ha hb]
      have hidx : j * Wk + i < h.length := by
        have := pix_lt Wk Hk i j hi hj
        omega
      have hl1 : load h ((j : Int) * (Wk : Int) + i) = some (h.getD (j * Wk + i) 0) := by
        have : (j : Int) * (Wk : Int) + i = ((j * Wk + i : Nat) : Int) := by push_cast; rfl
        rw [this, load_nat_getD h _ 0 hidx]
      have hl2 : load h ((i : Int) + j * (Wk : Int)) = some (h.getD (i + j * Wk) 0) := by
        have : (i : Int) + j * (Wk : Int) = ((i + j * Wk : Nat) : Int) := by push_cast; rfl
        rw [this, load_nat_getD h _ 0 (by omega)]
      have hl3 : load g ((deconv_target W H a b x y i j : Nat) : Int) =
          some (g.getD (deconv_target W H a b x y i j) 0) :=
        load_nat_getD g _ 0 (by omega)
      obtain ⟨A', hs, hA'⟩ := mat_store st.1 (W * H) (W * H + 1) _ hst1 (x + y * W)
        (deconv_target W H a b x y i j) hp (by omega)
        (((x : Int) + y * (W : Int)) * ((W * H + 1 : Nat) : Int) +
          ((deconv_target W H a b x y i j : Nat) : Int)) (by push_cast; rfl)
        (h.getD (j * Wk + i) 0)
      rw [hl1, Option.some_bind, hs, Option.some_bind, hl2, Option.some_bind, hl3,
        Option.some_bind]
      refine ⟨_, rfl, ?_, ?_⟩
      · refine holds_matrix_congr A' _ _ _ _ hA' ?_
        intro r c hr hc
        by_cases hrc : r = x + y * W ∧ c < W * H
        · simp only [if_pos hrc]
          rw [Finset.sum_range_succ, hk1, hk2]
          by_cases hct : c = deconv_target W H a b x y i j
          · rw [if_pos ⟨hrc.1, hct⟩, if_pos hct.symm]
            have hzero : ∑ k' in Finset.range (i * Hk + j),
                (if deconv_target W H a b x y (k' / Hk) (k' % Hk) = c then
                  h.getD ((k' % Hk) * Wk + k' / Hk) 0 else 0) = 0 := by
              apply Finset.sum_eq_zero
              intro k' hk'
              have hk'lt : k' < i * Hk + j := Finset.mem_range.mp hk'
              rw [if_neg]
              intro heq
              have := deconv_target_inj W H Wk Hk a b x y k' (i * Hk + j) hW hH hWk hHk
                (by omega) hklt (by rw [heq, hk1, hk2, hct])
              omega
            rw [hzero, zero_add]
          · rw [if_neg (fun hh' => hct hh'.2), if_neg (fun hh' => hct hh'.symm), add_zero]
        · have hne : ¬ (r = x + y * W ∧ c = deconv_target W H a b x y i j) := by
            intro hh'
            apply hrc
            exact ⟨hh'.1, by rw [hh'.2]; exact htlt⟩
          simp only [if_neg hne, if_neg hrc]
      · show st.2 + _ = _
        rw [Finset.sum_range_succ, hk1, hk2, hst2])
  obtain ⟨st', h1, h2, h3⟩ := key
  refine ⟨st'.1, ?_, h2⟩
  unfold deconv_row
  simp only [Int.toNat_ofNat]
  rw [← h3]
  exact h1

theorem row_index_lt (W H k : Nat) (hk : k < W * H) : k / H + (k % H) * W < W * H := by
  have hH0 : 0 < H := by
    rcases Nat.eq_zero_or_pos H with h0 | h0
    · subst h0
      simp at hk
    · exact h0
  exact pix_lt W H (k / H) (k % H) (Nat.div_lt_of_lt_mul (by rw [Nat.mul_comm]; exact hk))
    (Nat.mod_lt _ hH0)

theorem row_index_inj (W H k k' : Nat) (hk : k < W * H) (hk' : k' < W * H)
    (h : k / H + (k % H) * W = k' / H + (k' % H) * W) : k = k' := by
  have h1 : k / H < W := Nat.div_lt_of_lt_mul (by rw [Nat.mul_comm]; exact hk)
  have h2 : k' / H < W := Nat.div_lt_of_lt_mul (by rw [Nat.mul_comm]; exact hk')
  obtain ⟨e1, e2⟩ := pix_inj W _ _ _ _ h1 h2 h
  rw [← Nat.div_add_mod k H, ← Nat.div_add_mod k' H, e1, e2]

theorem row_index_surj (W H r : Nat) (hW : 1 ≤ W) (hr : r < W * H) :
    ∃ k, k < W * H ∧ k / H + (k % H) * W = r := by
  have h1 : r % W < W := Nat.mod_lt _ (by omega)
  have h2 : r / W < H := Nat.div_lt_of_lt_mul hr
  obtain ⟨e1, e2⟩ := div_mod_pair H (r % W) (r / W) h2
  refine ⟨r % W * H + r / W, ?_, ?_⟩
  · have := pix_lt H W (r / W) (r % W) h2 h1
    rw [Nat.mul_comm W H]
    omega
  · rw [e1, e2]
    have := Nat.mod_add_div r W
    rw [Nat.mul_comm] at this
    exact this

/-- The system construction of `deconv` for one channel, for a kernel no larger than the image
and an array whose coefficient part holds zeros: it returns, and in every row the coefficients
taken against `g` give `div` times the right-hand side. -/
theorem deconv_build_eq (g h : List R) (W H Wk Hk : Nat) (a b : Int) (div : R) (A : List R)
    (hW : 1 ≤ W) (hH : 1 ≤ H) (ha : a ≤ W) (hb : b ≤ H) (hWk : Wk ≤ W) (hHk : Hk ≤ H)
    (hh : h.length = Wk * Hk) (hg : g.length = W * H) (hd : div ≠ 0)
    (hA : A.length = W * H * (W * H + 1))
    (hz : ∀ r c, r < W * H → c < W * H → entry A (W * H + 1) r c = 0) :
    ∃ A', deconv_build g h W H Wk Hk a b ((W * H : Nat) : Int) ((W * H + 1 : Nat) : Int) div A =
        some A' ∧ A'.length = W * H * (W * H + 1) ∧
      ∀ r, r < W * H → ∑ c in Finset.range (W * H), entry A' (W * H + 1) r c * g.getD c 0 =
        div * entry A' (W * H + 1) r (W * H) := by
  have key := forLoop_inv2
    (fun k (B : List R) => B.length = W * H * (W * H + 1) ∧
      (∀ k', k' < k → ∑ c in Finset.range (W * H),
          entry B (W * H + 1) (k' / H + (k' % H) * W) c * g.getD c 0 =
        div * entry B (W * H + 1) (k' / H + (k' % H) * W) (W * H)) ∧
      ∀ k', k ≤ k' → k' < W * H → ∀ c, c < W * H →
        entry B (W * H + 1) (k' / H + (k' % H) * W) c = 0)
    W H
    (fun x y (B : List R) =>
      (deconv_row g h W H Wk Hk a b ((W * H + 1 : Nat) : Int) x y B).bind fun st =>
        store st.1 (((x : Int) + y * (W : Int)) * ((W * H + 1 : Nat) : Int) +
          ((W * H : Nat) : Int)) (st.2 / div))
    A
    ⟨hA, fun k' hk' => absurd hk' (Nat.not_lt_zero _),
      fun k' _ hk' c hc => hz _ c (row_index_lt W H k' hk') hc⟩
    (by
      intro x y hx hy B hB
      obtain ⟨hB1, hB2, hB3⟩ := hB
      obtain ⟨hk1, hk2⟩ := div_mod_pair H x y hy
      have hklt : x * H + y < W * H := by
        have := pix_lt H W y x hy hx
        rw [Nat.mul_comm W H]
        omega
      have hp : x + y * W < W * H := pix_lt W H x y hx hy
      obtain ⟨B1, hrow, hB1m⟩ := deconv_row_eq g h W H Wk Hk a b x y B (entry B (W * H + 1))
        hW hH ha hb hWk hHk hx hy hh hg (holds_matrix_self B _ _ hB1)
        (by
          intro c hc
          have := hB3 (x * H + y) (le_refl _) hklt c hc
          rw [hk1, hk2] at this
          exact this)
      obtain ⟨B2, hs, hB2m⟩ := mat_store B1 (W * H) (W * H + 1) _ hB1m (x + y * W) (W * H) hp
        (by omega)
        (((x : Int) + y * (W : Int)) * ((W * H + 1 : Nat) : Int) + ((W * H : Nat) : Int))
        (by push_cast; rfl)
        ((∑ k in Finset.range (Wk * Hk), h.getD (k / Hk + (k % Hk) * Wk) 0 *
          g.getD (deconv_target W H a b x y (k / Hk) (k % Hk)) 0) / div)
      dsimp only
      rw [hrow, Option.some_bind]
      have hent : ∀ r c, r < W * H → c < W * H + 1 → entry B2 (W * H + 1) r c =
          if r = x + y * W ∧ c = W * H then
            (∑ k in Finset.range (Wk * Hk), h.getD (k / Hk + (k % Hk) * Wk) 0 *
              g.getD (deconv_target W H a b x y (k / Hk) (k % Hk)) 0) / div
          else if r = x + y * W ∧ c < W * H then
            ∑ k in Finset.range (Wk * Hk),
              (if deconv_target W H a b x y (k / Hk) (k % Hk) = c then
                h.getD ((k % Hk) * Wk + k / Hk) 0 else 0)
          else entry B (W * H + 1) r c := fun r c hr hc => hB2m.2 r c hr hc
      refine ⟨B2, hs, hB2m.1, ?_, ?_⟩
      · intro k' hk'
        have hk'lt : k' < W * H := by omega
        have hr' := row_index_lt W H k' hk'lt
        by_cases hkk : k' = x * H + y
        · subst hkk
          rw [hk1, hk2]
          rw [hent _ (W * H) hp (by omega)]
          rw [if_pos ⟨rfl, rfl⟩]
          have hrowc : ∀ c, c ∈ Finset.range (W * H) →
              entry B2 (W * H + 1) (x + y * W) c * g.getD c 0 =
              (∑ k in Finset.range (Wk * Hk),
                (if deconv_target W H a b x y (k / Hk) (k % Hk) = c then
                  h.getD ((k % Hk) * Wk + k / Hk) 0 else 0)) * g.getD c 0 := by
            intro c hc
            have hc' := Finset.mem_range.mp hc
            rw [hent _ c hp (by omega)]
            rw [if_neg (fun hh' => by omega), if_pos ⟨rfl, hc'⟩]
          rw [Finset.sum_congr rfl hrowc]
          rw [sum_placed (W * H) (Wk * Hk)
            (fun k => deconv_target W H a b x y (k / Hk) (k % Hk))
            (fun k => h.getD ((k % Hk) * Wk + k / Hk) 0) (fun c => g.getD c 0)
            (fun k _ => deconv_target_lt W H a b x y _ _ hW hH)]
          rw [mul_div_cancel₀ _ hd]
          apply Finset.sum_congr rfl
          intro k _
          rw [Nat.add_comm]
        · have hne : k' / H + (k' % H) * W ≠ x + y * W := by
            intro heq
            apply hkk
            apply row_index_inj W H k' (x * H + y) hk'lt hklt
            rw [heq, hk1, hk2]
          have hsame : ∀ c, c < W * H + 1 → entry B2 (W * H + 1) (k' / H + (k' % H) * W) c =
              entry B (W * H + 1) (k' / H + (k' % H) * W) c := by
            intro c hc
            rw [hent _ c hr' hc, if_neg (fun hh' => hne hh'.1), if_neg (fun hh' => hne hh'.1)]
          rw [hsame _ (by omega), ← hB2 k' (by omega)]
          apply Finset.sum_congr rfl
          intro c hc
          rw [hsame c (by have := Finset.mem_range.mp hc; omega)]
      · intro k' hk' hk'lt c hc
        have hr' := row_index_lt W H k' hk'lt
        have hne : k' / H + (k' % H) * W ≠ x + y * W := by
          intro heq
          have := row_index_inj W H k' (x * H + y) hk'lt hklt (by rw [heq, hk1, hk2])
          omega
        rw [hent _ c hr' (by omega), if_neg (fun hh' => hne hh'.1),
          if_neg (fun hh' => hne hh'.1)]
        exact hB3 k' (by omega) hk'lt c hc)
  obtain ⟨A', h1, h2, h3, -⟩ := key
  refine ⟨A', ?_, h2, ?_⟩
  · unfold deconv_build
    simp only [Int.toNat_ofNat]
    exact h1
  · intro r hr
    obtain ⟨k, hk, rfl⟩ := row_index_surj W H r hW hr
    exact h3 k hk

/-- The channel pass of `deconv` for a single-channel image whose built system `A` has a
trivial kernel: `deconv` returns the solution of the system. -/
theorem deconv_single_channel_solves (image psf : IMAGE R) (n : Nat) (A : List R)
    (hi : image.WF) (hc : image.channels = 1) (hp : psf.isPSF) (hd : psf.weights.sum ≠ 0)
    (hn : image.width * image.height = (n : Int)) (hbound : n * (n + 1) ≤ 2147483647)
    (hA : deconv_build (image.map.getD 0 []) psf.weights image.width image.height psf.width
      psf.height (Int.tdiv psf.width 2) (Int.tdiv psf.height 2) (n : Int) ((n : Int) + 1)
      psf.weights.sum (List.replicate (n * (n + 1)) 0) = some A)
    (hker : ∀ y : Nat → R, (∀ p, p < n → ∑ q in Finset.range n, entry A (n + 1) p q * y q = 0) →
      ∀ q, q < n → y q = 0) :
    ∃ x : List R, deconv image psf =
        some (some (IMAGE.mk [x] image.channels image.width image.height)) ∧
      x.length = n ∧
      ∀ p, p < n → ∑ q in Finset.range n, entry A (n + 1) p q * x.getD q 0 =
        entry A (n + 1) p n := by
  obtain ⟨c1, c2, c3, -, -⟩ := psf_checks psf hp
  obtain ⟨W, H, C, hW, hH, hC, hw', hh', hc', hl, hmm⟩ := wf_dims hi
  have hC1 : C = 1 := by
    have : (C : Int) = 1 := by rw [← hc', hc]
    exact_mod_cast this
  subst hC1
  obtain ⟨g, hg⟩ : ∃ g, image.map = [g] := by
    match hm : image.map, hl with
    | [g], _ => exact ⟨g, rfl⟩
  have hWH : W * H = n := by
    have : ((W * H : Nat) : Int) = n := by rw [← hn, hw', hh']; push_cast; rfl
    exact_mod_cast this
  have hgl : g.length = n := by
    rw [← hWH]
    exact hmm g (by rw [hg]; exact List.mem_singleton.mpr rfl)
  rw [hg] at hA
  have hAlen : A.length = n * (n + 1) := by
    rw [deconv_build_length _ _ _ _ _ _ _ _ _ _ _ _ _ hA, List.length_replicate]
  obtain ⟨A1, A2, hf, hb, hA2, hsol⟩ := gauss_solves A n hAlen hker
  obtain ⟨x, hx, hxl, hxv⟩ := copy_solution_eq A2 g n hA2 hgl
  have hM : ((n + 1 : Nat) : Int) = (n : Int) + 1 := by push_cast; rfl
  rw [hM] at hf hb
  refine ⟨x, ?_, hxl, ?_⟩
  · have hwrap : wrap_int (image.width * image.height * (image.width * image.height + 1)) =
        (n : Int) * ((n : Int) + 1) := by
      have h0 : (0 : Int) ≤ (n : Int) * ((n : Int) + 1) := by positivity
      have h1 : (n : Int) * ((n : Int) + 1) ≤ 2147483647 := by exact_mod_cast hbound
      rw [hn]
      exact wrap_int_eq _ (by omega) h1
    unfold deconv
    simp only [hwrap]
    simp only [if_neg c1, if_neg c2, copyImage_eq image hi, c3, getPSFDivisor_eq psf hp,
      Option.bind_eq_bind, Option.some_bind, if_neg hd, hn, hc]
    have hnn : ¬ ((n : Int) * ((n : Int) + 1) < 0) := by
      have : (0 : Int) ≤ (n : Int) * ((n : Int) + 1) := by positivity
      omega
    have hnm : ((n : Int) * ((n : Int) + 1)).toNat = n * (n + 1) := by
      rw [← Int.toNat_ofNat (n * (n + 1))]; push_cast; rfl
    rw [if_neg hnn, hnm]
    have h1 : (1 : Int).toNat = 1 := rfl
    rw [h1, forLoop_succ, forLoop_zero, Option.some_bind]
    unfold deconv_channel
    simp only [Option.bind_eq_bind, hg, Int.toNat_ofNat]
    have hl0 : load [g] ((0 : Nat) : Int) = some g := by simp [load]
    have hs0 : store [g] ((0 : Nat) : Int) x = some [x] := by simp [store]
    simp only [List.getD_cons_zero] at hA
    rw [hl0, Option.some_bind, hA, Option.some_bind, hf, Option.some_bind, hb, Option.some_bind,
      Option.some_bind, hg, hl0, Option.some_bind, hx, Option.some_bind, hs0, Option.some_bind]
    simp only [Option.pure_def, Option.some_bind, hc]
  · intro p hp'
    rw [← hsol p hp']
    apply Finset.sum_congr rfl
    intro q hq
    rw [hxv q (Finset.mem_range.mp hq)]

/-- Claim C17: for a single-channel image of `n` pixels with `n*(n+1)` in the range of an
`int` (the size of the array `A`) and a valid PSF with nonzero divisor, when the
system `[A|b]` that `deconv` builds has a nonsingular coefficient matrix, `deconv` returns an
image whose pixel values `x` solve that system exactly: `sum over q of A[p][q] * x[q] = b[p]`
for every row `p`, with `[A|b]` as it stood before the elimination. -/
theorem deconv_solves_built_system (image psf : IMAGE R) (n : Nat) (A : List R)
    (hi : image.WF) (hc : image.channels = 1) (hp : psf.isPSF) (hd : psf.weights.sum ≠ 0)
    (hn : image.width * image.height = (n : Int)) (hbound : n * (n + 1) ≤ 2147483647)
    (hA : deconv_build (image.map.getD 0 []) psf.weights image.width image.height psf.width
      psf.height (Int.tdiv psf.width 2) (Int.tdiv psf.height 2) (n : Int) ((n : Int) + 1)
      psf.weights.sum (List.replicate (n * (n + 1)) 0) = some A)
    (hdet : (Matrix.of fun (p q : Fin n) => A.getD (p.val * (n + 1) + q.val) 0).det ≠ 0) :
    ∃ x : List R, deconv image psf =
        some (some (IMAGE.mk [x] image.channels image.width image.height)) ∧
      x.length = n ∧
      ∀ p, p < n → ∑ q in Finset.range n, A.getD (p * (n + 1) + q) 0 * x.getD q 0 =
        A.getD (p * (n + 1) + n) 0 := by
  obtain ⟨c1, c2, c3, -, -⟩ := psf_checks psf hp
  obtain ⟨W, H, C, hW, hH, hC, hw', hh', hc', hl, hmm⟩ := wf_dims hi
  have hC1 : C = 1 := by
    have : (C : Int) = 1 := by rw [← hc', hc]
    exact_mod_cast this
  subst hC1
  obtain ⟨g, hg⟩ : ∃ g, image.map = [g] := by
    match hm : image.map, hl with
    | [g], _ => exact ⟨g, rfl⟩
  have hWH : W * H = n := by
    have : ((W * H : Nat) : Int) = n := by rw [← hn, hw', hh']; push_cast; rfl
    exact_mod_cast this
  have hgl : g.length = n := by
    rw [← hWH]
    exact hmm g (by rw [hg]; exact List.mem_singleton.mpr rfl)
  rw [hg] at hA
  have hAlen : A.length = n * (n + 1) := by
    rw [deconv_build_length _ _ _ _ _ _ _ _ _ _ _ _ _ hA, List.length_replicate]
  have hker := kernel_trivial_of_det A n hdet
  obtain ⟨A1, A2, hf, hb, hA2, hsol⟩ := gauss_solves A n hAlen hker
  obtain ⟨x, hx, hxl, hxv⟩ := copy_solution_eq A2 g n hA2 hgl
  have hM : ((n + 1 : Nat) : Int) = (n : Int) + 1 := by push_cast; rfl
  rw [hM] at hf hb
  refine ⟨x, ?_, hxl, ?_⟩
  · have hwrap : wrap_int (image.width * image.height * (image.width * image.height + 1)) =
        (n : Int) * ((n : Int) + 1) := by
      have h0 : (0 : Int) ≤ (n : Int) * ((n : Int) + 1) := by positivity
      have h1 : (n : Int) * ((n : Int) + 1) ≤ 2147483647 := by exact_mod_cast hbound
      rw [hn]
      exact wrap_int_eq _ (by omega) h1
    unfold deconv
    simp only [hwrap]
    simp only [if_neg c1, if_neg c2, copyImage_eq image hi, c3, getPSFDivisor_eq psf hp,
      Option.bind_eq_bind, Option.some_bind, if_neg hd, hn, hc]
    have hnn : ¬ ((n : Int) * ((n : Int) + 1) < 0) := by
      have : (0 : Int) ≤ (n : Int) * ((n : Int) + 1) := by positivity
      omega
    have hnm : ((n : Int) * ((n : Int) + 1)).toNat = n * (n + 1) := by
      rw [← Int.toNat_ofNat (n * (n + 1))]; push_cast; rfl
    rw [if_neg hnn, hnm]
    have h1 : (1 : Int).toNat = 1 := rfl
    rw [h1, forLoop_succ, forLoop_zero, Option.some_bind]
    unfold deconv_channel
    simp only [Option.bind_eq_bind, hg, Int.toNat_ofNat]
    have hl0 : load [g] ((0 : Nat) : Int) = some g := by simp [load]
    have hs0 : store [g] ((0 : Nat) : Int) x = some [x] := by simp [store]
    simp only [List.getD_cons_zero] at hA
    rw [hl0, Option.some_bind, hA, Option.some_bind, hf, Option.some_bind, hb, Option.some_bind,
      Option.some_bind, hg, hl0, Option.some_bind, hx, Option.some_bind, hs0, Option.some_bind]
    simp only [Option.pure_def, Option.some_bind, hc]
  · intro p hp'
    have := hsol p hp'
    unfold entry at this
    rw [← this]
    apply Finset.sum_congr rfl
    intro q hq
    rw [hxv q (Finset.mem_range.mp hq)]
    rfl

theorem deconv_solves_built_system_witness :
    ∃ x : List ℚ, deconv ({ map := [[1, 2, 3]], channels := 1, width := 3, height := 1 } : IMAGE ℚ)
        ({ map := [[1, 2, 4]], channels := 1, width := 3, height := 1 } : IMAGE ℚ) =
        some (some (IMAGE.mk [x] ({ map := [[1, 2, 3]], channels := 1, width := 3, height := 1 } : IMAGE ℚ).channels
          ({ map := [[1, 2, 3]], channels := 1, width := 3, height := 1 } : IMAGE ℚ).width
          ({ map := [[1, 2, 3]], channels := 1, width := 3, height := 1 } : IMAGE ℚ).height)) ∧
      x.length = 3 ∧
      ∀ p, p < 3 → ∑ q in Finset.range 3,
          ([2, 4, 1, 13 / 7, 1, 2, 4, 17 / 7, 4, 1, 2, 12 / 7] : List ℚ).getD (p * (3 + 1) + q) 0 * x.getD q 0 =
        ([2, 4, 1, 13 / 7, 1, 2, 4, 17 / 7, 4, 1, 2, 12 / 7] : List ℚ).getD (p * (3 + 1) + 3) 0 :=
  deconv_solves_built_system ({ map := [[1, 2, 3]], channels := 1, width := 3, height := 1 } : IMAGE ℚ)
    ({ map := [[1, 2, 4]], channels := 1, width := 3, height := 1 } : IMAGE ℚ) 3
    ([2, 4, 1, 13 / 7, 1, 2, 4, 17 / 7, 4, 1, 2, 12 / 7] : List ℚ)
    (by simp [IMAGE.WF]) rfl (by simp [IMAGE.isPSF, IMAGE.WF]) (by norm_num [IMAGE.weights])
    (by decide) (by decide) (by decide!)
    (by
      rw [Matrix.det_fin_three]
      simp [Matrix.of_apply]
      norm_num)

/-- Claim C24: for a single-channel observed image `g` of size `W x H` with `n = W*H` pixels,
`n*(n+1)` in the range of an `int` (the size of the array `A`), and a valid PSF with odd
dimensions `Wk ≤ W`, `Hk ≤ H` and nonzero divisor `d`, the system construction of `deconv`
returns a system `[A|b]`, and when its coefficient matrix is nonsingular `deconv` returns `g`
scaled by `1/d`: every restored pixel equals `g[p] / d`. -/
theorem deconv_returns_scaled_image (image psf : IMAGE R) (n : Nat)
    (hi : image.WF) (hc : image.channels = 1) (hp : psf.isPSF)
    (hw : psf.width ≤ image.width) (hh : psf.height ≤ image.height)
    (hd : psf.weights.sum ≠ 0) (hn : image.width * image.height = (n : Int))
    (hbound : n * (n + 1) ≤ 2147483647) :
    ∃ A : List R,
      deconv_build (image.map.getD 0 []) psf.weights image.width image.height psf.width
        psf.height (Int.tdiv psf.width 2) (Int.tdiv psf.height 2) (n : Int) ((n : Int) + 1)
        psf.weights.sum (List.replicate (n * (n + 1)) 0) = some A ∧
      ((Matrix.of fun (p q : Fin n) => A.getD (p.val * (n + 1) + q.val) 0).det ≠ 0 →
        deconv image psf = some (some (IMAGE.mk
          [(image.map.getD 0 []).map (fun v => v / psf.weights.sum)]
          image.channels image.width image.height))) := by
  obtain ⟨W, H, C, hW, hH, hC, hw', hh', hc', hl, hmm⟩ := wf_dims hi
  obtain ⟨Wk, Hk, hWk, hHk, hwk, hhk, hck, hmap, hlen⟩ := psf_dims hp
  have hC1 : C = 1 := by
    have : (C : Int) = 1 := by rw [← hc', hc]
    exact_mod_cast this
  subst hC1
  obtain ⟨g, hg⟩ : ∃ g, image.map = [g] := by
    match hm : image.map, hl with
    | [g], _ => exact ⟨g, rfl⟩
  have hWH : n = W * H := by
    have : ((W * H : Nat) : Int) = n := by rw [← hn, hw', hh']; push_cast; rfl
    exact_mod_cast this.symm
  subst hWH
  have hgl : g.length = W * H := hmm g (by rw [hg]; exact List.mem_singleton.mpr rfl)
  have hWkW : Wk ≤ W := by rw [hwk, hw'] at hw; exact_mod_cast hw
  have hHkH : Hk ≤ H := by rw [hhk, hh'] at hh; exact_mod_cast hh
  have ha : Int.tdiv (Wk : Int) 2 ≤ (W : Int) := by
    rw [Int.tdiv_eq_ediv (by omega) (by omega)]
    omega
  have hb : Int.tdiv (Hk : Int) 2 ≤ (H : Int) := by
    rw [Int.tdiv_eq_ediv (by omega) (by omega)]
    omega
  obtain ⟨A, hA, hAl, hrows⟩ := deconv_build_eq g psf.weights W H Wk Hk
    (Int.tdiv (Wk : Int) 2) (Int.tdiv (Hk : Int) 2) psf.weights.sum
    (List.replicate (W * H * (W * H + 1)) 0) hW hH ha hb hWkW hHkH hlen hgl hd
    (List.length_replicate _ _)
    (by
      intro r c _ _
      unfold entry
      rw [List.getD_eq_getElem?_getD]
      by_cases hlt : r * (W * H + 1) + c < W * H * (W * H + 1)
      · rw [List.getElem?_replicate_of_lt hlt]
        rfl
      · rw [List.getElem?_eq_none (by rw [List.length_replicate]; omega)]
        rfl)
  have hM : ((W * H + 1 : Nat) : Int) = ((W * H : Nat) : Int) + 1 := by push_cast; rfl
  rw [hM] at hA
  have hA' : deconv_build (image.map.getD 0 []) psf.weights image.width image.height psf.width
      psf.height (Int.tdiv psf.width 2) (Int.tdiv psf.height 2) ((W * H : Nat) : Int)
      (((W * H : Nat) : Int) + 1) psf.weights.sum
      (List.replicate (W * H * (W * H + 1)) 0) = some A := by
    rw [hg, hw', hh', hwk, hhk]
    exact hA
  refine ⟨A, hA', ?_⟩
  intro hdet
  have hker := kernel_trivial_of_det A (W * H) hdet
  obtain ⟨x, hx, hxl, hxs⟩ := deconv_single_channel_solves image psf (W * H) A hi hc hp hd hn
    hbound hA' hker
  have hzero := hker (fun q => x.getD q 0 - g.getD q 0 / psf.weights.sum) (by
    intro p hp'
    have e1 := hxs p hp'
    have e2 := hrows p hp'
    have e3 : ∑ q in Finset.range (W * H), entry A (W * H + 1) p q *
        (g.getD q 0 / psf.weights.sum) = entry A (W * H + 1) p (W * H) := by
      have : ∀ q ∈ Finset.range (W * H), entry A (W * H + 1) p q *
          (g.getD q 0 / psf.weights.sum) =
          (entry A (W * H + 1) p q * g.getD q 0) / psf.weights.sum := by
        intro q _
        rw [mul_div_assoc]
      rw [Finset.sum_congr rfl this, ← Finset.sum_div, e2, mul_div_cancel_left₀ _ hd]
    simp only [mul_sub, Finset.sum_sub_distrib]
    rw [e1, e3, sub_self])
  have hxg : x = g.map (fun v => v / psf.weights.sum) := by
    apply List.ext_getElem
    · rw [hxl, List.length_map, hgl]
    · intro q h1 h2
      have hq : q < W * H := by omega
      have := hzero q hq
      simp only at this
      rw [List.getD_eq_getElem x 0 h1, List.getD_eq_getElem g 0 (by omega)] at this
      rw [List.getElem_map]
      exact sub_eq_zero.mp this
  rw [hx, hxg, hg]
  rfl

theorem deconv_returns_scaled_image_witness :
    deconv ({ map := [[1, 2, 3]], channels := 1, width := 3, height := 1 } : IMAGE ℚ)
        ({ map := [[1, 2, 4]], channels := 1, width := 3, height := 1 } : IMAGE ℚ) =
      some (some (IMAGE.mk [[1 / 7, 2 / 7, 3 / 7]] 1 3 1)) := by
  obtain ⟨A, hA, himp⟩ := deconv_returns_scaled_image
    ({ map := [[1, 2, 3]], channels := 1, width := 3, height := 1 } : IMAGE ℚ)
    ({ map := [[1, 2, 4]], channels := 1, width := 3, height := 1 } : IMAGE ℚ) 3
    (by simp [IMAGE.WF]) rfl (by simp [IMAGE.isPSF, IMAGE.WF]) (by decide) (by decide)
    (by norm_num [IMAGE.weights]) (by decide) (by decide)
  have hA' : deconv_build
      (({ map := [[1, 2, 3]], channels := 1, width := 3, height := 1 } : IMAGE ℚ).map.getD 0 [])
      ({ map := [[1, 2, 4]], channels := 1, width := 3, height := 1 } : IMAGE ℚ).weights
      ({ map := [[1, 2, 3]], channels := 1, width := 3, height := 1 } : IMAGE ℚ).width
      ({ map := [[1, 2, 3]], channels := 1, width := 3, height := 1 } : IMAGE ℚ).height
      ({ map := [[1, 2, 4]], channels := 1, width := 3, height := 1 } : IMAGE ℚ).width
      ({ map := [[1, 2, 4]], channels := 1, width := 3, height := 1 } : IMAGE ℚ).height
      (Int.tdiv ({ map := [[1, 2, 4]], channels := 1, width := 3, height := 1 } : IMAGE ℚ).width 2)
      (Int.tdiv ({ map := [[1, 2, 4]], channels := 1, width := 3, height := 1 } : IMAGE ℚ).height 2)
      ((3 : Nat) : Int) (((3 : Nat) : Int) + 1)
      ({ map := [[1, 2, 4]], channels := 1, width := 3, height := 1 } : IMAGE ℚ).weights.sum
      (List.replicate (3 * (3 + 1)) 0) =
      some [2, 4, 1, 13 / 7, 1, 2, 4, 17 / 7, 4, 1, 2, 12 / 7] := by decide!
  rw [hA'] at hA
  cases hA
  have hres := himp (by
    rw [Matrix.det_fin_three]
    simp [Matrix.of_apply]
    norm_num)
  rw [hres]
  decide!

/-- A loop whose body appends to a ghost list runs as the loop without the list. -/
theorem forLoop_logged {σ α : Type} (n : Nat) (body : Nat → σ → Option σ) (w : Nat → List α)
    (B : Nat → σ × List α → Option (σ × List α))
    (hB : ∀ i, i < n → ∀ s log, B i (s, log) = (body i s).map (fun s' => (s', log ++ w i)))
    (s : σ) (log : List α) :
    forLoop n B (s, log) =
      (forLoop n body s).map (fun s' => (s', log ++ (List.range n).flatMap w)) := by
  induction n with
  | zero => simp [forLoop_zero]
  | succ n ih =>
    rw [forLoop_succ, forLoop_succ, ih (fun i hi => hB i (Nat.lt_succ_of_lt hi))]
    cases h1 : forLoop n body s with
    | none => rfl
    | some s1 =>
      simp only [Option.map_some', Option.some_bind]
      rw [hB n (Nat.lt_succ_self n)]
      cases h2 : body n s1 with
      | none => rfl
      | some s2 =>
        simp only [Option.map_some']
        rw [List.range_succ, List.flatMap_append, List.flatMap_singleton, List.append_assoc]

theorem conv_channel_logged_eq (f h : List R) (w1 h1 w2 h2 a b : Int) (div : R) (map : List R)
    (log : List Int) :
    conv_channel_logged f h w1 h1 w2 h2 a b div (map, log) =
      (conv_channel f h w1 h1 w2 h2 a b div map).map (fun m => (m, log ++
        (List.range w1.toNat).flatMap (fun x =>
          (List.range h1.toNat).flatMap (fun y => [(x : Int) + (y : Int) * w1])))) := by
  unfold conv_channel_logged conv_channel
  refine forLoop_logged w1.toNat
    (fun x map => forLoop h1.toNat (fun y map =>
      (conv_sum f h w1 h1 w2 h2 a b x y).bind fun sum =>
        store map ((x : Int) + y * w1) (sum / div)) map)
    (fun x => (List.range h1.toNat).flatMap (fun y => [(x : Int) + (y : Int) * w1])) _ ?_ map log
  intro x _ s lg
  refine forLoop_logged h1.toNat (fun y map =>
      (conv_sum f h w1 h1 w2 h2 a b x y).bind fun sum =>
        store map ((x : Int) + y * w1) (sum / div))
    (fun y => [(x : Int) + (y : Int) * w1]) _ ?_ s lg
  intro y _ s' lg'
  simp only [Option.bind_eq_bind, Option.pure_def]
  cases conv_sum f h w1 h1 w2 h2 a b x y with
  | none => rfl
  | some sum =>
    simp only [Option.some_bind]
    cases store s' ((x : Int) + y * w1) (sum / div) with
    | none => rfl
    | some m => rfl

theorem conv_logged_eq (in_maps out_maps : List (List R)) (h : List R)
    (channels w1 h1 w2 h2 a b : Int) (div : R) (log : List (Int × Int)) :
    _conv_logged in_maps h channels w1 h1 w2 h2 a b div (out_maps, log) =
      (_conv in_maps h channels w1 h1 w2 h2 a b div out_maps).map (fun res => (res, log ++
        (List.range channels.toNat).flatMap (fun k =>
          ((List.range w1.toNat).flatMap (fun x =>
            (List.range h1.toNat).flatMap (fun y => [(x : Int) + (y : Int) * w1]))).map
              (fun p => ((k : Int), p))))) := by
  unfold _conv_logged _conv
  refine forLoop_logged channels.toNat
    (fun k out_maps =>
      (load in_maps k).bind fun f => (load out_maps k).bind fun map =>
        (conv_channel f h w1 h1 w2 h2 a b div map).bind fun map => store out_maps k map)
    (fun k => ((List.range w1.toNat).flatMap (fun x =>
      (List.range h1.toNat).flatMap (fun y => [(x : Int) + (y : Int) * w1]))).map
        (fun p => ((k : Int), p))) _ ?_ out_maps log
  intro k _ s lg
  simp only [Option.bind_eq_bind, Option.pure_def]
  cases load in_maps (k : Int) with
  | none => rfl
  | some f =>
    simp only [Option.some_bind]
    cases load s (k : Int) with
    | none => rfl
    | some map =>
      simp only [Option.some_bind]
      rw [conv_channel_logged_eq]
      cases conv_channel f h w1 h1 w2 h2 a b div map with
      | none => rfl
      | some m =>
        simp only [Option.map_some', Option.some_bind, List.nil_append]
        cases store s (k : Int) m with
        | none => rfl
        | some o => rfl

theorem length_flatMap_singleton {α : Type} (n : Nat) (g : Nat → α) :
    ((List.range n).flatMap (fun y => [g y])).length = n := by
  induction n with
  | zero => rfl
  | succ n ih =>
    rw [List.range_succ, List.flatMap_append, List.length_append, ih]
    rfl

theorem length_flatMap_rows {α : Type} (n H : Nat) (g : Nat → Nat → α) :
    ((List.range n).flatMap (fun x => (List.range H).flatMap (fun y => [g x y]))).length =
      n * H := by
  induction n with
  | zero => simp
  | succ n ih =>
    rw [List.range_succ, List.flatMap_append, List.length_append, ih, List.flatMap_singleton,
      length_flatMap_singleton, Nat.succ_mul]

/-- The assignments of one channel, in the order `x` outer, `y` inner, take every index below
`W*H` exactly once. -/
theorem write_order_perm (W H : Nat) (hW : 1 ≤ W) :
    ((List.range W).flatMap (fun x =>
      (List.range H).flatMap (fun y => [(x : Int) + (y : Int) * (W : Int)]))).Perm
      (List.map (fun p : Nat => (p : Int)) (List.range (W * H))) := by
  have hnodup : (List.map (fun p : Nat => (p : Int)) (List.range (W * H))).Nodup :=
    List.Nodup.map (fun p q hpq => by exact_mod_cast hpq) (List.nodup_range _)
  have hsub : List.map (fun p : Nat => (p : Int)) (List.range (W * H)) ⊆
      (List.range W).flatMap (fun x =>
        (List.range H).flatMap (fun y => [(x : Int) + (y : Int) * (W : Int)])) := by
    intro z hz
    obtain ⟨p, hp, rfl⟩ := List.mem_map.mp hz
    have hp' : p < W * H := List.mem_range.mp hp
    refine List.mem_flatMap.mpr ⟨p % W, List.mem_range.mpr (Nat.mod_lt p (by omega)), ?_⟩
    refine List.mem_flatMap.mpr ⟨p / W, List.mem_range.mpr (Nat.div_lt_of_lt_mul hp'), ?_⟩
    rw [List.mem_singleton]
    have := Nat.mod_add_div' p W
    exact_mod_cast this.symm
  refine ((List.subperm_of_subset hnodup hsub).perm_of_length_le ?_).symm
  rw [length_flatMap_rows, List.length_map, List.length_range]

/-- Claim C25: when `a = floor(Wk/2) ≤ W` and `b = floor(Hk/2) ≤ H` (all four dimensions at
least 1), every index of `_conv` is in range.  Each pass `conv_term` of the innermost loop
body returns: `border_x + i` and `border_y + j` are non-negative, the C++ remainders are the
mathematical ones, and the image read index and the kernel read index lie in `[0, W*H)` and
`[0, Wk*Hk)`.  The run with the ghost list of assignments returns the maps of `_conv`, which
hold the toroidal sums whatever the output maps held, and its list of assigned (channel, index)
pairs is a rearrangement of all pairs `(k, p)` with `k < channels`, `p < W*H`: every output
pixel is written exactly once per channel. -/
theorem conv_indices_in_range (in_maps out_maps : List (List R)) (h : List R)
    (W H Wk Hk : Nat) (div : R) (hW : 1 ≤ W) (hH : 1 ≤ H) (_hWk : 1 ≤ Wk) (_hHk : 1 ≤ Hk)
    (ha : Wk / 2 ≤ W) (hb : Hk / 2 ≤ H) (hh : h.length = Wk * Hk)
    (hin : ∀ m ∈ in_maps, m.length = W * H) (hout : ∀ m ∈ out_maps, m.length = W * H)
    (hlen : out_maps.length = in_maps.length) :
    (∀ x y i j : Nat, x < W → y < H → i < Wk → j < Hk →
      0 ≤ (x : Int) - (Wk / 2 : Nat) + W + i ∧ 0 ≤ (y : Int) - (Hk / 2 : Nat) + H + j ∧
      Int.tmod ((x : Int) - (Wk / 2 : Nat) + W + i) W =
        ((x : Int) - (Wk / 2 : Nat) + W + i) % W ∧
      Int.tmod ((y : Int) - (Hk / 2 : Nat) + H + j) H =
        ((y : Int) - (Hk / 2 : Nat) + H + j) % H ∧
      0 ≤ Int.tmod ((y : Int) - (Hk / 2 : Nat) + H + j) H * W +
        Int.tmod ((x : Int) - (Wk / 2 : Nat) + W + i) W ∧
      Int.tmod ((y : Int) - (Hk / 2 : Nat) + H + j) H * W +
        Int.tmod ((x : Int) - (Wk / 2 : Nat) + W + i) W < ((W * H : Nat) : Int) ∧
      0 ≤ ((Hk : Int) - j) * Wk - i - 1 ∧
      ((Hk : Int) - j) * Wk - i - 1 < ((Wk * Hk : Nat) : Int) ∧
      x + y * W < W * H ∧
      ∀ f ∈ in_maps, ∀ sum : R,
        conv_term f h W H Wk Hk ((x : Int) - (Wk / 2 : Nat) + W) ((y : Int) - (Hk / 2 : Nat) + H)
            i j sum =
          some (sum + h.getD ((Hk - j - 1) * Wk + (Wk - i - 1)) 0 *
            f.getD ((((y : Int) - (Hk / 2 : Nat) + j) % H) * W +
              (((x : Int) - (Wk / 2 : Nat) + i) % W)).toNat 0)) ∧
    (∀ p, p < W * H → ∃! xy : Nat × Nat, xy.1 < W ∧ xy.2 < H ∧ xy.1 + xy.2 * W = p) ∧
    _conv in_maps h (in_maps.length : Int) W H Wk Hk ((Wk / 2 : Nat) : Int)
        ((Hk / 2 : Nat) : Int) div out_maps =
      some (in_maps.map (fun f => toroidal_map f h W H Wk Hk ((Wk / 2 : Nat) : Int)
        ((Hk / 2 : Nat) : Int) div)) ∧
    ∃ log, _conv_logged in_maps h (in_maps.length : Int) W H Wk Hk ((Wk / 2 : Nat) : Int)
        ((Hk / 2 : Nat) : Int) div (out_maps, []) =
      some (in_maps.map (fun f => toroidal_map f h W H Wk Hk ((Wk / 2 : Nat) : Int)
        ((Hk / 2 : Nat) : Int) div), log) ∧
      log.Perm ((List.range in_maps.length).flatMap (fun k : Nat =>
        List.map (fun p : Nat => ((k : Int), (p : Int))) (List.range (W * H)))) := by
  have hconv := conv_eq in_maps out_maps h W H Wk Hk ((Wk / 2 : Nat) : Int)
    ((Hk / 2 : Nat) : Int) div hW hH (by exact_mod_cast ha) (by exact_mod_cast hb) hh hin hout
    hlen
  refine ⟨?_, ?_, hconv, ?_⟩
  · intro x y i j hx hy hi hj
    have hx0 : 0 ≤ (x : Int) - (Wk / 2 : Nat) + W + i := by omega
    have hy0 : 0 ≤ (y : Int) - (Hk / 2 : Nat) + H + j := by omega
    have ex : Int.tmod ((x : Int) - (Wk / 2 : Nat) + W + i) W =
        ((x : Int) - (Wk / 2 : Nat) + W + i) % W := Int.tmod_eq_emod hx0 (by omega)
    have ey : Int.tmod ((y : Int) - (Hk / 2 : Nat) + H + j) H =
        ((y : Int) - (Hk / 2 : Nat) + H + j) % H := Int.tmod_eq_emod hy0 (by omega)
    have hpix := pixel_index_lt W H ((x : Int) - (Wk / 2 : Nat) + W + i)
      ((y : Int) - (Hk / 2 : Nat) + H + j) hW hH
    have hker := kernel_index Wk Hk i j hi hj
    refine ⟨hx0, hy0, ex, ey, ?_, ?_, ?_, ?_, pix_lt W H x y hx hy, ?_⟩
    · rw [ex, ey]; exact hpix.1
    · rw [ex, ey]
      have := hpix.2
      omega
    · rw [hker.1]; omega
    · rw [hker.1]
      exact_mod_cast hker.2
    · intro f hf sum
      exact conv_term_eq f h W H Wk Hk ((Wk / 2 : Nat) : Int) ((Hk / 2 : Nat) : Int) x y i j
        hW hH (by exact_mod_cast ha) (by exact_mod_cast hb) hi hj (hin f hf) hh sum
  · intro p hp
    refine ⟨(p % W, p / W), ⟨Nat.mod_lt p (by omega), ?_, Nat.mod_add_div' p W⟩, ?_⟩
    · exact Nat.div_lt_of_lt_mul hp
    · rintro ⟨x, y⟩ ⟨hx, _, hxy⟩
      dsimp only at hx hxy ⊢
      subst hxy
      rw [Nat.add_mul_mod_self_right, Nat.mod_eq_of_lt hx, Nat.add_mul_div_right _ _ (by omega),
        Nat.div_eq_of_lt hx, Nat.zero_add]
  · rw [conv_logged_eq, hconv]
    simp only [Option.map_some', List.nil_append, Int.toNat_ofNat]
    refine ⟨_, rfl, ?_⟩
    apply List.Perm.flatMap_left
    intro k _
    have e : List.map (fun p : Nat => ((k : Int), (p : Int))) (List.range (W * H)) =
        List.map (fun p : Int => ((k : Int), p))
          (List.map (fun p : Nat => (p : Int)) (List.range (W * H))) := by
      rw [List.map_map]
      rfl
    rw [e]
    exact (write_order_perm W H hW).map _

theorem conv_indices_in_range_witness :
    ∃ log, _conv_logged ([[1, 2, 3, 4, 5, 6]] : List (List ℚ)) [1, 2, 3]
        (([[1, 2, 3, 4, 5, 6]] : List (List ℚ)).length : Int) (3 : Nat) (2 : Nat) (3 : Nat)
        (1 : Nat) ((3 / 2 : Nat) : Int) ((1 / 2 : Nat) : Int) 6 ([[0, 0, 0, 0, 0, 0]], []) =
      some (([[1, 2, 3, 4, 5, 6]] : List (List ℚ)).map (fun f => toroidal_map f [1, 2, 3] 3 2 3 1
        ((3 / 2 : Nat) : Int) ((1 / 2 : Nat) : Int) 6), log) ∧
      log.Perm ((List.range ([[1, 2, 3, 4, 5, 6]] : List (List ℚ)).length).flatMap (fun k : Nat =>
        List.map (fun p : Nat => ((k : Int), (p : Int))) (List.range (3 * 2)))) :=
  (conv_indices_in_range ([[1, 2, 3, 4, 5, 6]] : List (List ℚ)) [[0, 0, 0, 0, 0, 0]] [1, 2, 3]
    3 2 3 1 6 (by decide) (by decide) (by decide) (by decide) (by decide) (by decide) rfl
    (by simp) (by simp) rfl).2.2.2

end Deconvolution
